import Mathlib

/-!
# LABA4: node-linked binary search tree and binary max-heap

A shallow embedding of `src/binary_search_tree.h` and `src/binary_heap.h`.

* A `Node*` of the source (possibly `nullptr`) is a value of `Node α`; the owning links
  `left` / `right` are the two sub-terms.  The non-owning `parent` back-reference is not a
  field: a node is designated by its path from the root, and "the parent" is the enclosing
  frame of that path (a zipper context, see `Frame`).
* The value type `T` of the templates is any `α` with a linear order (`<`, `>`, `==` of the
  value contract).  The heap comparator is the default `std::less<T>`.
* The counters (`size_t size`, `int path`, `int mask`, `int depth`) are natural numbers, and
  `size--` is truncated subtraction.  The two agree with the machine integers as long as a
  container holds fewer than `2 ^ 31` nodes and `size` is at least one at every decrement.
* A heap member that would dereference a null or dangling pointer has the outcome
  `Outcome.undefined`; the tree members have no such path.
-/

namespace LABA4

/-! ## Nodes and traversals (shared by both containers) -/

/-- The pointer type `Node*`: `nil` is `nullptr`, `node data left right` an allocated node. -/
inductive Node (α : Type) where
  | nil : Node α
  | node (data : α) (left right : Node α) : Node α
deriving DecidableEq, Repr

/-- The enumeration `TraversalType` of the six fixed traversal orders. -/
inductive TraversalType where
  | PreOrder
  | InOrder
  | PostOrder
  | ReversePreOrder
  | ReverseInOrder
  | ReversePostOrder
deriving DecidableEq, Repr

namespace Node

variable {α : Type}

/-- The test `node == nullptr`. -/
def isNull : Node α → Bool
  | nil => true
  | node _ _ _ => false

/-- Number of nodes reachable from a node pointer. -/
def count : Node α → Nat
  | nil => 0
  | node _ l r => 1 + count l + count r

/-- The values met by `traverseByType(node, type, callback)`, in calling order of the callback. -/
def traverseByType : Node α → TraversalType → List α
  | nil, _ => []
  | node d l r, .PreOrder =>
      [d] ++ traverseByType l .PreOrder ++ traverseByType r .PreOrder
  | node d l r, .InOrder =>
      traverseByType l .InOrder ++ [d] ++ traverseByType r .InOrder
  | node d l r, .PostOrder =>
      traverseByType l .PostOrder ++ traverseByType r .PostOrder ++ [d]
  | node d l r, .ReversePreOrder =>
      [d] ++ traverseByType r .ReversePreOrder ++ traverseByType l .ReversePreOrder
  | node d l r, .ReverseInOrder =>
      traverseByType r .ReverseInOrder ++ [d] ++ traverseByType l .ReverseInOrder
  | node d l r, .ReversePostOrder =>
      traverseByType r .ReversePostOrder ++ traverseByType l .ReversePostOrder ++ [d]

/-- The in-order sequence of the values below a node: the stored values, left to right. -/
def inorder (t : Node α) : List α := traverseByType t .InOrder

/-- Number of nodes on the longest path from a node down to a leaf, 0 for `nullptr`. -/
def height : Node α → Nat
  | nil => 0
  | node _ l r => 1 + max (height l) (height r)

end Node

/-! ## Binary search tree (`src/binary_search_tree.h`) -/

/-- The class `BinarySearchTree<T>`: the root link and the running element count. -/
structure BinarySearchTree (α : Type) where
  root : Node α
  size : Nat
deriving DecidableEq, Repr

namespace BinarySearchTree

variable {α : Type}

/-- The default constructor: `root(nullptr), size(0)`. -/
def empty : BinarySearchTree α := ⟨.nil, 0⟩

/-- Member `isEmpty()`. -/
def isEmpty (t : BinarySearchTree α) : Bool := t.root.isNull

/-- Member `getSize()`. -/
def getSize (t : BinarySearchTree α) : Nat := t.size

/-- Member `clear()`. -/
def clear (_t : BinarySearchTree α) : BinarySearchTree α := ⟨.nil, 0⟩

/-- Member `traverse(type, callback)` with the callback collecting the values. -/
def traverse (t : BinarySearchTree α) (type : TraversalType) : List α :=
  t.root.traverseByType type

/-- Member `getValuesByTraversal(type)`. -/
def getValuesByTraversal (t : BinarySearchTree α) (type : TraversalType) : List α :=
  traverse t type

/-- The inner loop of `getValuesInOrder`: push `current` and its left spine on the stack. -/
def pushLeft : Node α → List (Node α) → List (Node α)
  | .nil, stack => stack
  | .node d l r, stack => pushLeft l (.node d l r :: stack)

/-- The outer loop of `getValuesInOrder` on the state `(current, stack, values)`.
`fuel` bounds the number of iterations. -/
def inOrderLoop : Nat → Node α → List (Node α) → List α → List α
  | 0, _, _, values => values
  | fuel + 1, current, stack, values =>
      if !current.isNull || !stack.isEmpty then
        match pushLeft current stack with
        | .node d _ r :: rest => inOrderLoop fuel r rest (values ++ [d])
        | _ => values -- not reached: the stack is not empty and holds no null pointer
      else values

/-- Member `getValuesInOrder()`: the iterative, stack-based in-order listing.  The loop body
runs once per node, so `count + 1` iterations reach the exit test. -/
def getValuesInOrder (t : BinarySearchTree α) : List α :=
  if t.root.isNull then [] else inOrderLoop (t.root.count + 1) t.root [] []

/-- Recursive `cloneTree(node, parent)`: a fresh copy of every node below `node`. -/
def cloneTree : Node α → Node α
  | .nil => .nil
  | .node d l r => .node d (cloneTree l) (cloneTree r)

/-- The values still to be emitted for a stack of pending nodes. -/
def pending : List (Node α) → List α
  | [] => []
  | .nil :: rest => pending rest
  | .node d _ r :: rest => d :: r.inorder ++ pending rest

/-- Number of loop iterations a stack of pending nodes still needs. -/
def pendingCount : List (Node α) → Nat
  | [] => 0
  | .nil :: rest => pendingCount rest
  | .node _ _ r :: rest => 1 + r.count + pendingCount rest

variable [LinearOrder α]

/-- Recursive `insertNode(node, value, parent)`; the member `size` is threaded through. -/
def insertNode : Node α → α → Nat → Node α × Nat
  | .nil, value, size => (.node value .nil .nil, size + 1)
  | .node data left right, value, size =>
      if value < data then
        ((.node data (insertNode left value size).1 right), (insertNode left value size).2)
      else if value > data then
        ((.node data left (insertNode right value size).1), (insertNode right value size).2)
      else
        (.node data left right, size)

/-- Recursive `findNode(node, value)`: the node holding `value`, or `nullptr`. -/
def findNode : Node α → α → Node α
  | .nil, _ => .nil
  | .node data left right, value =>
      if data = value then .node data left right
      else if value < data then findNode left value
      else findNode right value

/-- Leftmost node below `node` (`findMin`), `nullptr` for `nullptr`. -/
def findMin : Node α → Node α
  | .nil => .nil
  | .node data .nil right => .node data .nil right
  | .node _ (.node ld ll lr) _ => findMin (.node ld ll lr)

/-- Rightmost node below `node` (`findMax`), `nullptr` for `nullptr`. -/
def findMax : Node α → Node α
  | .nil => .nil
  | .node data left .nil => .node data left .nil
  | .node _ _ (.node rd rl rr) => findMax (.node rd rl rr)

/-- Recursive `removeNode(node, value)`; the member `size` is threaded through.
The two-children case copies the successor's value and removes it from the right subtree. -/
def removeNode : Node α → α → Nat → Node α × Nat
  | .nil, _, size => (.nil, size)
  | .node data left right, value, size =>
      if value < data then
        ((.node data (removeNode left value size).1 right), (removeNode left value size).2)
      else if value > data then
        ((.node data left (removeNode right value size).1), (removeNode right value size).2)
      else if left.isNull && right.isNull then
        (.nil, size - 1)
      else if left.isNull then
        (right, size - 1)
      else if right.isNull then
        (left, size - 1)
      else
        match findMin right with
        | .node sdata _ _ =>
            ((.node sdata left (removeNode right sdata size).1), (removeNode right sdata size).2)
        | .nil => (.node data left right, size) -- not reached: `right` is not null here

/-- Member `insert(value)`. -/
def insert (t : BinarySearchTree α) (value : α) : BinarySearchTree α :=
  ⟨(insertNode t.root value t.size).1, (insertNode t.root value t.size).2⟩

/-- Member `search(value)`. -/
def search (t : BinarySearchTree α) (value : α) : Bool :=
  !(findNode t.root value).isNull

/-- Member `remove(value)`: the returned flag `size < oldSize` and the tree afterwards. -/
def remove (t : BinarySearchTree α) (value : α) : Bool × BinarySearchTree α :=
  let oldSize := t.size
  let p := removeNode t.root value t.size
  (decide (p.2 < oldSize), ⟨p.1, p.2⟩)

/-- The local closure `buildBalanced(start, end)` of `balance()`, acting on the tree being
rebuilt.  `fuel` bounds the recursion depth; `balance` supplies the number of elements. -/
def buildBalanced (elements : List α) : Nat → Int → Int → BinarySearchTree α → BinarySearchTree α
  | 0, _, _, t => t
  | fuel + 1, start, endIdx, t =>
      if start > endIdx then t
      else
        let mid := Int.tdiv (start + endIdx) 2
        match elements.get? mid.toNat with
        | some x =>
            buildBalanced elements fuel (mid + 1) endIdx
              (buildBalanced elements fuel start (mid - 1) (insert t x))
        | none => t -- not reached: `mid` is a valid index

/-- Member `balance()`. -/
def balance (t : BinarySearchTree α) : BinarySearchTree α :=
  let elements := traverse t .InOrder
  let cleared := clear t
  if elements.isEmpty then cleared
  else buildBalanced elements elements.length 0 ((elements.length : Int) - 1) cleared

/-- Member `map(func)`: `func(value)` of every value, in in-order, inserted into a new tree. -/
def map (t : BinarySearchTree α) (func : α → α) : BinarySearchTree α :=
  (traverse t .InOrder).foldl (fun result value => insert result (func value)) empty

/-- Member `extractSubtree(value)`: the returned tree and the tree itself afterwards.  The size
of the result is counted by one pre-order traversal of the copy. -/
def extractSubtree (t : BinarySearchTree α) (value : α) :
    BinarySearchTree α × BinarySearchTree α :=
  let subtreeRoot := findNode t.root value
  if subtreeRoot.isNull then (empty, t)
  else
    let root := cloneTree subtreeRoot
    (⟨root, (traverse ⟨root, 0⟩ .PreOrder).foldl (fun size _ => size + 1) 0⟩, t)

/-- Recursive `areIdentical(node1, node2)`: same shape and equal values at every position. -/
def areIdentical : Node α → Node α → Bool
  | .nil, .nil => true
  | .nil, .node _ _ _ => false
  | .node _ _ _, .nil => false
  | .node d1 l1 r1, .node d2 l2 r2 =>
      decide (d1 = d2) && areIdentical l1 l2 && areIdentical r1 r2

/-- Recursive `isSubtree(tree, subtree)`. -/
def isSubtree : Node α → Node α → Bool
  | _, .nil => true
  | .nil, .node _ _ _ => false
  | .node d l r, .node sd sl sr =>
      areIdentical (.node d l r) (.node sd sl sr) || isSubtree l (.node sd sl sr) ||
        isSubtree r (.node sd sl sr)

/-- Member `containsSubtree(subtree)`: the root value of `subtree` is looked up by `findNode`
and the match is tried from the node found. -/
def containsSubtree (t subtree : BinarySearchTree α) : Bool :=
  match subtree.root with
  | .nil => true
  | .node sd sl sr =>
      if t.root.isNull then false
      else
        let node := findNode t.root sd
        if node.isNull then false else isSubtree node (.node sd sl sr)

/-- The values `buildBalanced(start, end)` inserts, in the order of the calls of `insert`. -/
def balancedOrder (elements : List α) : Nat → Int → Int → List α
  | 0, _, _ => []
  | fuel + 1, start, endIdx =>
      if start > endIdx then []
      else
        match elements.get? (Int.tdiv (start + endIdx) 2).toNat with
        | some x =>
            x :: (balancedOrder elements fuel start (Int.tdiv (start + endIdx) 2 - 1) ++
              balancedOrder elements fuel (Int.tdiv (start + endIdx) 2 + 1) endIdx)
        | none => []

/-- The nodes after a sequence of `insertNode` calls. -/
def insertList (t : Node α) (xs : List α) : Node α :=
  xs.foldl (fun t x => (insertNode t x 0).1) t

/-- One mutating call of the public interface. -/
inductive Op (α : Type) where
  | insert (value : α)
  | remove (value : α)
  | balance
  | clear
deriving DecidableEq, Repr

/-- The tree after one call. -/
def applyOp (t : BinarySearchTree α) : Op α → BinarySearchTree α
  | .insert v => insert t v
  | .remove v => (remove t v).2
  | .balance => balance t
  | .clear => clear t

/-- The tree reached from the empty tree by a sequence of calls. -/
def run (ops : List (Op α)) : BinarySearchTree α := ops.foldl applyOp empty

/-- The BST invariant: at every node, the values of the left subtree are strictly smaller
and the values of the right subtree strictly larger than the node's value. -/
def IsBST : Node α → Prop
  | .nil => True
  | .node d l r =>
      (∀ x ∈ l.inorder, x < d) ∧ (∀ x ∈ r.inorder, d < x) ∧ IsBST l ∧ IsBST r

/-- The BST invariant is decidable. -/
instance decIsBST : (t : Node α) → Decidable (IsBST t)
  | .nil => isTrue trivial
  | .node d l r =>
      have := decIsBST l
      have := decIsBST r
      decidable_of_iff
        ((∀ x ∈ l.inorder, x < d) ∧ (∀ x ∈ r.inorder, d < x) ∧ IsBST l ∧ IsBST r) Iff.rfl

/-- The tree with root 10, left child 5 and `size` 4: the tree `fromNodeParentPairs` returns
for the pair list `(5, 10), (20, 30)`, whose `size` counts the four values of the list while
only two nodes hang below the root. -/
def miscountedTree : BinarySearchTree Int :=
  ⟨.node 10 (.node 5 .nil .nil) .nil, 4⟩

/-- The tree built by inserting 10, 20, 5, 15, 25, 30. -/
def scenarioTree : BinarySearchTree Int :=
  ⟨.node 10 (.node 5 .nil .nil)
      (.node 20 (.node 15 .nil .nil) (.node 25 .nil (.node 30 .nil .nil))), 6⟩

/-- The tree built by inserting 10, 5, 15, 3, 7, 12, 17 (the tree of `testBasicOperations`). -/
def sampleTree : BinarySearchTree Int :=
  ⟨.node 10 (.node 5 (.node 3 .nil .nil) (.node 7 .nil .nil))
      (.node 15 (.node 12 .nil .nil) (.node 17 .nil .nil)), 7⟩

end BinarySearchTree

/-! ## Binary max-heap (`src/binary_heap.h`) -/

/-- The class `BinaryHeap<T>` (default comparator `std::less<T>`): root link and counter. -/
structure BinaryHeap (α : Type) where
  root : Node α
  size : Nat
deriving DecidableEq, Repr

/-- What a call of a heap member does: it returns `value` and leaves `heap`; or it throws
`std::runtime_error("Куча пуста")` with the heap as it is at the throw; or it dereferences a
null or dangling pointer, for which the source defines no behaviour. -/
inductive Outcome (ρ α : Type) where
  | ok (value : ρ) (heap : BinaryHeap α)
  | emptyError (heap : BinaryHeap α)
  | undefined
deriving DecidableEq, Repr

/-- The parent side of a node pointer: the parent's `data`, whether the node is the parent's
`left` child, and the parent's other child.  A list of frames, nearest parent first, is the
chain of `parent` links up to the root. -/
structure Frame (α : Type) where
  isLeft : Bool
  data : α
  sibling : Node α
deriving DecidableEq, Repr

namespace Node

variable {α : Type}

/-- The values stored below a node, in pre-order. -/
def preorder (t : Node α) : List α := traverseByType t .PreOrder

/-- The heap indices of the nodes below a node that sits at index `i`: the left child of
position `i` is `2 * i`, the right child `2 * i + 1`. -/
def positions : Nat → Node α → List Nat
  | _, nil => []
  | i, node _ l r => i :: (positions (2 * i) l ++ positions (2 * i + 1) r)

/-- The node a path leads to (`true` = `left`, `false` = `right`), `nil` if it leaves the tree. -/
def subtreeAt : Node α → List Bool → Node α
  | t, [] => t
  | nil, _ :: _ => nil
  | node _ l _, true :: p => subtreeAt l p
  | node _ _ r, false :: p => subtreeAt r p

/-- The assignment `node->data = value` for the node at a path (nothing if there is none). -/
def setData : Node α → List Bool → α → Node α
  | nil, _, _ => nil
  | node _ l r, [], x => node x l r
  | node d l r, true :: p, x => node d (setData l p x) r
  | node d l r, false :: p, x => node d l (setData r p x)

/-- Clearing the link that leads to the node at a path (`parent->left = nullptr`,
`parent->right = nullptr`, or `root = nullptr` for the empty path). -/
def detach : Node α → List Bool → Node α
  | _, [] => nil
  | nil, _ :: _ => nil
  | node d l r, true :: p => node d (detach l p) r
  | node d l r, false :: p => node d l (detach r p)

/-- Rebuild the node of a frame around its child. -/
def plugFrame (f : Frame α) (child : Node α) : Node α :=
  if f.isLeft then node f.data child f.sibling else node f.data f.sibling child

/-- Rebuild the whole tree around a node from its chain of parents. -/
def plug : List (Frame α) → Node α → Node α
  | [], t => t
  | f :: ctx, t => plug ctx (plugFrame f t)

/-- Follow a path from a node, recording the chain of parents; `none` if a link on the way is
null. -/
def descend : Node α → List Bool → List (Frame α) → Option (Node α × List (Frame α))
  | t, [], ctx => some (t, ctx)
  | nil, _ :: _, _ => none
  | node d l r, true :: p, ctx => descend l p (⟨true, d, r⟩ :: ctx)
  | node d l r, false :: p, ctx => descend r p (⟨false, d, l⟩ :: ctx)

/-- The shape of a tree: the same nodes with the values forgotten. -/
def shape : Node α → Node Unit
  | nil => nil
  | node _ l r => node () (shape l) (shape r)

/-- The heap index a path leads to when it starts at index `i` (`true` = left child `2 * i`,
`false` = right child `2 * i + 1`). -/
def pathIndex : Nat → List Bool → Nat
  | i, [] => i
  | i, true :: p => pathIndex (2 * i) p
  | i, false :: p => pathIndex (2 * i + 1) p

end Node

namespace BinaryHeap

variable {α : Type}

/-- The default constructor: `root(nullptr), size(0)`. -/
def empty : BinaryHeap α := ⟨.nil, 0⟩

/-- Member `isEmpty()`. -/
def isEmpty (h : BinaryHeap α) : Bool := h.root.isNull

/-- Member `getSize()`. -/
def getSize (h : BinaryHeap α) : Nat := h.size

/-- The stored values (pre-order listing of the nodes). -/
def values (h : BinaryHeap α) : List α := h.root.preorder

/-- Recursive `getDepth(node)`; the call `getDepth()` of the source starts at the root. -/
def getDepth : Node α → Nat
  | .nil => 0
  | .node _ l r => 1 + max (getDepth l) (getDepth r)

/-- The loop of `findLastNode`: walk down by the bits of `size` selected by `mask`, as a path
from `current`; `none` when `current` becomes null. -/
def findLastWalk (size : Nat) : Node α → Nat → Option (List Bool)
  | .nil, _ => none
  | .node _ l r, mask =>
      if mask > 0 then
        if size &&& mask ≠ 0 then (findLastWalk size r (mask >>> 1)).map (false :: ·)
        else (findLastWalk size l (mask >>> 1)).map (true :: ·)
      else some []

/-- Member `findLastNode()`: the path to the returned node, `none` for `nullptr`. -/
def findLastNode (h : BinaryHeap α) : Option (List Bool) :=
  if h.root.isNull then none
  else findLastWalk h.size h.root ((1 <<< (getDepth h.root - 1)) >>> 1)

/-- The first loop of `addLast`: the stack of directions for `path` (`true` = left), top of the
stack first.  `fuel` bounds the number of halvings. -/
def pushDirections : Nat → Nat → List Bool → List Bool
  | 0, _, directions => directions
  | fuel + 1, path, directions =>
      if path > 1 then pushDirections fuel (path / 2) ((path % 2 == 0) :: directions)
      else directions

/-- The second loop of `addLast`: follow the directions from `current` and create the node at
the first missing link; nothing is created when the directions run out first. -/
def addLastWalk (value : α) : Node α → List Bool → Node α
  | .nil, _ => .nil -- not reached: `current` is never null
  | .node d l r, [] => .node d l r
  | .node d l r, true :: directions =>
      if l.isNull then .node d (.node value .nil .nil) r
      else .node d (addLastWalk value l directions) r
  | .node d l r, false :: directions =>
      if r.isNull then .node d l (.node value .nil .nil)
      else .node d l (addLastWalk value r directions)

/-- Member `addLast(value)`. -/
def addLast (h : BinaryHeap α) (value : α) : BinaryHeap α :=
  if h.root.isNull then ⟨.node value .nil .nil, 1⟩
  else
    let size := h.size + 1
    ⟨addLastWalk value h.root (pushDirections size size []), size⟩

/-- Shape-completeness with a correct count, for a subtree at heap index `i` of a heap of size
`n`: a position is occupied exactly when its index is at most `n`. -/
def Complete : Nat → Nat → Node α → Prop
  | i, n, .nil => n < i
  | i, n, .node _ l r => i ≤ n ∧ Complete (2 * i) n l ∧ Complete (2 * i + 1) n r

/-- Shape-completeness is decidable. -/
instance decComplete : (i n : Nat) → (t : Node α) → Decidable (Complete i n t)
  | i, n, .nil => decidable_of_iff (n < i) Iff.rfl
  | i, n, .node _ l r =>
      have := decComplete (2 * i) n l
      have := decComplete (2 * i + 1) n r
      decidable_of_iff (i ≤ n ∧ Complete (2 * i) n l ∧ Complete (2 * i + 1) n r) Iff.rfl

/-- Shape-completeness: every level is full except possibly the last, which is filled from the
left; that is, with `c` nodes the occupied positions are exactly `1, ..., c`. -/
def ShapeComplete (t : Node α) : Prop := Complete 1 t.count t

/-- Shape-completeness is decidable. -/
instance decShapeComplete (t : Node α) : Decidable (ShapeComplete t) :=
  decidable_of_iff (Complete 1 t.count t) Iff.rfl

variable [LinearOrder α]

/-- The loop of `heapifyUp(node)` on a node and its chain of parents: while there is a parent
with `parent->data < node->data`, swap the two values and continue at the parent.  Returns the
whole tree. -/
def heapifyUpLoop : Node α → List (Frame α) → Node α
  | .node d l r, f :: ctx =>
      if f.data < d then
        heapifyUpLoop (Node.plugFrame ⟨f.isLeft, d, f.sibling⟩ (.node f.data l r)) ctx
      else Node.plug (f :: ctx) (.node d l r)
  | t, ctx => Node.plug ctx t

/-- Member `heapifyUp(node)` for the node at `path`; `none` if that pointer is null. -/
def heapifyUp (root : Node α) (path : List Bool) : Option (Node α) :=
  match Node.descend root path [] with
  | some (.node d l r, ctx) => some (heapifyUpLoop (.node d l r) ctx)
  | _ => none

/-- The loop of `heapifyDown(node)` on the subtree of a node whose value is `v`: pick the
largest of the node and its children, stop if it is the node, otherwise swap the two values and
continue at that child.  Returns the subtree. -/
def heapifyDownLoop : Node α → α → Node α
  | .nil, _ => .nil
  | .node _ l r, v =>
      match l, r with
      | .nil, .nil => .node v l r
      | .node ld _ _, .nil =>
          if v < ld then .node ld (heapifyDownLoop l v) r else .node v l r
      | .nil, .node rd _ _ =>
          if v < rd then .node rd l (heapifyDownLoop r v) else .node v l r
      | .node ld _ _, .node rd _ _ =>
          if v < ld then
            if ld < rd then .node rd l (heapifyDownLoop r v)
            else .node ld (heapifyDownLoop l v) r
          else if v < rd then .node rd l (heapifyDownLoop r v)
          else .node v l r

/-- Member `heapifyDown(node)` for the node at `path`; `none` if that pointer is null. -/
def heapifyDown (root : Node α) (path : List Bool) : Option (Node α) :=
  match Node.descend root path [] with
  | some (.node d l r, ctx) => some (Node.plug ctx (heapifyDownLoop (.node d l r) d))
  | _ => none

/-- Recursive `findNode(node, value)`: the path to the first node in pre-order that holds
`value`, `none` for `nullptr`. -/
def findNode : Node α → α → Option (List Bool)
  | .nil, _ => none
  | .node d l r, value =>
      if d = value then some []
      else
        match findNode l value with
        | some p => some (true :: p)
        | none => (findNode r value).map (false :: ·)

/-- Member `search(value)`. -/
def search (h : BinaryHeap α) (value : α) : Bool := (findNode h.root value).isSome

/-- Member `insert(value)`. -/
def insert (h : BinaryHeap α) (value : α) : Outcome Unit α :=
  let h1 := addLast h value
  if h1.size > 1 then
    match findLastNode h1 with
    | some lastNode =>
        match heapifyUp h1.root lastNode with
        | some root => .ok () ⟨root, h1.size⟩
        | none => .undefined
    | none => .undefined -- `heapifyUp(nullptr)`
  else .ok () h1

/-- Number of swaps the loop of `heapifyUp` performs from a node with the given chain of
parents. -/
def heapifyUpSteps : Node α → List (Frame α) → Nat
  | .node d _ _, f :: ctx =>
      if f.data < d then 1 + heapifyUpSteps (.node d .nil .nil) ctx else 0
  | _, _ => 0

/-- The tail of `remove` when `nodeToRemove` lies strictly below `lastNode`, in the subtree
`child` of the deleted node, at the path `rel` from `child`.  The two sift calls then run on
nodes that are no longer linked to the heap, so they do not change it; `heapifyUp` reads the
deleted node as soon as it arrives at the root of `child`. -/
def removeDetached (child : Node α) (rel : List Bool) (after : BinaryHeap α) : Outcome Bool α :=
  match heapifyDown child rel with
  | none => .undefined
  | some child1 =>
      match Node.descend child1 rel [] with
      | some (.node d l r, ctx) =>
          if heapifyUpSteps (.node d l r) ctx < ctx.length then .ok true after else .undefined
      | _ => .undefined

/-- Member `remove(value)`. -/
def remove (h : BinaryHeap α) (value : α) : Outcome Bool α :=
  match findNode h.root value with
  | none => .ok false h
  | some nodeToRemove =>
      match findLastNode h with
      | none => .undefined -- `lastNode->data` with `lastNode == nullptr`
      | some lastNode =>
          match Node.subtreeAt h.root lastNode with
          | .nil => .undefined -- not reached: `findLastNode` returns an existing node
          | .node lastData _ _ =>
              let root1 := Node.setData h.root nodeToRemove lastData
              let root2 := Node.detach root1 lastNode
              let size := h.size - 1
              if nodeToRemove ≠ lastNode ∧ size > 0 then
                if lastNode.isPrefixOf nodeToRemove then
                  removeDetached (Node.subtreeAt root1 (nodeToRemove.take (lastNode.length + 1)))
                    (nodeToRemove.drop (lastNode.length + 1)) ⟨root2, size⟩
                else
                  match heapifyDown root2 nodeToRemove with
                  | none => .undefined
                  | some root3 =>
                      match heapifyUp root3 nodeToRemove with
                      | none => .undefined
                      | some root4 => .ok true ⟨root4, size⟩
              else .ok true ⟨root2, size⟩

/-- Member `extractMax()`. -/
def extractMax (h : BinaryHeap α) : Outcome α α :=
  if h.isEmpty then .emptyError h
  else
    match h.root with
    | .nil => .emptyError h
    | .node result _ _ =>
        match remove h result with
        | .ok _ h1 => .ok result h1
        | .emptyError h1 => .emptyError h1
        | .undefined => .undefined

/-- Member `top()`. -/
def top (h : BinaryHeap α) : Outcome α α :=
  if h.isEmpty then .emptyError h
  else
    match h.root with
    | .nil => .emptyError h
    | .node d _ _ => .ok d h

/-- Recursive `areIdentical(node1, node2)`: same shape and equal values at every position. -/
def areIdentical : Node α → Node α → Bool
  | .nil, .nil => true
  | .nil, .node _ _ _ => false
  | .node _ _ _, .nil => false
  | .node d1 l1 r1, .node d2 l2 r2 =>
      decide (d1 = d2) && areIdentical l1 l2 && areIdentical r1 r2

/-- Recursive `isSubHeap(heap, subheap)`. -/
def isSubHeap : Node α → Node α → Bool
  | _, .nil => true
  | .nil, .node _ _ _ => false
  | .node d l r, .node sd sl sr =>
      areIdentical (.node d l r) (.node sd sl sr) || isSubHeap l (.node sd sl sr) ||
        isSubHeap r (.node sd sl sr)

/-- Member `containsSubHeap(subheap)`. -/
def containsSubHeap (h subheap : BinaryHeap α) : Bool :=
  if subheap.isEmpty then true
  else if h.isEmpty then false
  else isSubHeap h.root subheap.root

/-- One mutating call of the public interface. -/
inductive Op (α : Type) where
  | insert (value : α)
  | remove (value : α)
  | extractMax
deriving DecidableEq, Repr

/-- The heap after a call, `none` if the call has no defined behaviour. -/
def stateAfter {ρ : Type} : Outcome ρ α → Option (BinaryHeap α)
  | .ok _ h => some h
  | .emptyError h => some h
  | .undefined => none

/-- The heap after one call of the interface. -/
def applyOp (h : BinaryHeap α) : Op α → Option (BinaryHeap α)
  | .insert v => stateAfter (insert h v)
  | .remove v => stateAfter (remove h v)
  | .extractMax => stateAfter (extractMax h)

/-- The heap after a sequence of calls, starting from `h`. -/
def runFrom : List (Op α) → BinaryHeap α → Option (BinaryHeap α)
  | [], h => some h
  | op :: ops, h => (applyOp h op).bind (runFrom ops)

/-- The heap reached from the empty heap by a sequence of calls. -/
def run (ops : List (Op α)) : Option (BinaryHeap α) := runFrom ops empty

/-- A node's value bounds the value at the root of a child (`true` for a null child). -/
def rootLE (b : α) : Node α → Prop
  | .nil => True
  | .node d _ _ => d ≤ b

/-- Max-heap order: every node's value is at least the values of both its children. -/
def HeapOrdered : Node α → Prop
  | .nil => True
  | .node d l r => rootLE d l ∧ rootLE d r ∧ HeapOrdered l ∧ HeapOrdered r

/-- The value of the nearest parent bounds the root of a node (`true` without a parent). -/
def ctxRootLE : List (Frame α) → Node α → Prop
  | [], _ => True
  | f :: _, t => rootLE f.data t

/-- The value of the nearest parent is at least `b` (`true` without a parent). -/
def ctxBound : List (Frame α) → α → Prop
  | [], _ => True
  | f :: _, b => b ≤ f.data

/-- Max-heap order along a chain of parents: every parent bounds its other child, the other
child is ordered, and every parent is bounded by its own parent. -/
def CtxOrdered : List (Frame α) → Prop
  | [] => True
  | f :: ctx => rootLE f.data f.sibling ∧ HeapOrdered f.sibling ∧ ctxBound ctx f.data ∧
      CtxOrdered ctx

/-- Max-heap order together with completeness for `n = size`, which says at once that the
shape is complete and that `size` is the node count. -/
def WellFormed (h : BinaryHeap α) : Prop := HeapOrdered h.root ∧ Complete 1 h.size h.root

/-- The heap invariant in its three parts: max-heap order, shape-completeness, and
`size` = node count. -/
def HeapInvariant (h : BinaryHeap α) : Prop :=
  HeapOrdered h.root ∧ ShapeComplete h.root ∧ h.size = h.root.count

/-- `rootLE` is decidable. -/
instance decRootLE (b : α) : (t : Node α) → Decidable (rootLE b t)
  | .nil => isTrue trivial
  | .node d _ _ => decidable_of_iff (d ≤ b) Iff.rfl

/-- Max-heap order is decidable. -/
instance decHeapOrdered : (t : Node α) → Decidable (HeapOrdered t)
  | .nil => isTrue trivial
  | .node d l r =>
      have := decHeapOrdered l
      have := decHeapOrdered r
      decidable_of_iff (rootLE d l ∧ rootLE d r ∧ HeapOrdered l ∧ HeapOrdered r) Iff.rfl

/-- The two-part form of the invariant is decidable. -/
instance decWellFormed (h : BinaryHeap α) : Decidable (WellFormed h) :=
  decidable_of_iff (HeapOrdered h.root ∧ Complete 1 h.size h.root) Iff.rfl

/-- The heap invariant is decidable. -/
instance decHeapInvariant (h : BinaryHeap α) : Decidable (HeapInvariant h) :=
  decidable_of_iff (HeapOrdered h.root ∧ ShapeComplete h.root ∧ h.size = h.root.count) Iff.rfl

/-- A heap of seven nodes in which the last value, 7, is larger than the parent, 5, of the
node holding 1. -/
def crossHeap : BinaryHeap Int :=
  ⟨.node 10 (.node 5 (.node 1 .nil .nil) (.node 2 .nil .nil))
      (.node 9 (.node 8 .nil .nil) (.node 7 .nil .nil)), 7⟩

/-- The heap built by inserting 10, 20, 5, 15 (the heap of `testBinaryHeapBasic`). -/
def sampleHeap : BinaryHeap Int :=
  ⟨.node 20 (.node 15 (.node 10 .nil .nil) .nil) (.node 5 .nil .nil), 4⟩

end BinaryHeap

/-! ## Strings and the value contract (`src/data_types.h`)

A `std::string` is a list of characters.  The value contract of a type `T` is the pair
`valueToString` / `valueFromString<T>`; the members below take the two as parameters, a throwing
`valueFromString` being `none`. -/

/-- The call `data.find(pattern)`: the first position at which `pattern` occurs in `data`,
`none` for `std::string::npos`. -/
def find : List Char → List Char → Option Nat
  | [], pattern => if pattern.isEmpty then some 0 else none
  | c :: data, pattern =>
      if pattern.isPrefixOf (c :: data) then some 0 else (find data pattern).map (· + 1)

/-- The test `isspace` of the C locale: the blank and the controls `\t \n \v \f \r`. -/
def isspace (c : Char) : Bool := c.toNat == 32 || (9 ≤ c.toNat && c.toNat ≤ 13)

/-- The digits read by `std::stoi` from the front of a string, accumulated in base ten. -/
def parseDigits : List Char → Nat → Nat
  | [], acc => acc
  | c :: rest, acc =>
      if c.isDigit then parseDigits rest (acc * 10 + (c.toNat - 48)) else acc

/-- The specialisation `valueToString<int>`: `ss << value` writes the decimal digits of the
value, with a leading `-` for a negative one. -/
def intToString (value : Int) : List Char :=
  if value < 0 then '-' :: Nat.toDigits 10 value.natAbs else Nat.toDigits 10 value.natAbs

/-- The specialisation `valueFromString<int>`, that is `std::stoi(str)`: leading white space is
skipped, a sign may follow, then the digits up to the first other character are read.  It
throws (`none`) when no digit is found and when the number does not fit an `int`. -/
def stoi (str : List Char) : Option Int :=
  let body := str.dropWhile isspace
  let negative := body.head? == some '-'
  let digits := if body.head? == some '-' || body.head? == some '+' then body.drop 1 else body
  match digits with
  | [] => none
  | c :: _ =>
      if c.isDigit then
        let magnitude : Int := parseDigits digits 0
        let value := if negative then -magnitude else magnitude
        if -2147483648 ≤ value ∧ value ≤ 2147483647 then some value else none
      else none

namespace BinarySearchTree

variable {α : Type} [LinearOrder α]

/-- Member `reduce(func, initialValue)`: `result = func(value, result)` for every value, in
in-order. -/
def reduce (t : BinarySearchTree α) (func : α → α → α) (initialValue : α) : α :=
  (traverse t .InOrder).foldl (fun result value => func value result) initialValue

/-- Member `where(predicate)` (`where` is reserved in Lean): the values that satisfy the
predicate, in in-order, inserted into a new tree. -/
def where_ (t : BinarySearchTree α) (predicate : α → Bool) : BinarySearchTree α :=
  (traverse t .InOrder).foldl
    (fun result value => if predicate value then insert result value else result) empty

/-- Member `toString()`: the callback appends `", "` unless `first` is set, then the encoding
of the value, and clears `first`. -/
def toString (valueToString : α → List Char) (t : BinarySearchTree α) : List Char :=
  if t.root.isNull then "[]".toList
  else
    ((traverse t .InOrder).foldl
      (fun (state : List Char × Bool) value =>
        ((if !state.2 then state.1 ++ ", ".toList else state.1) ++ valueToString value, false))
      ("[".toList, true)).1 ++ "]".toList

/-- The `while` loop of `fromString` on the state `(data, result)`: cut the token in front of
the first `", "`, insert its value unless `valueFromString` throws, and erase token and
separator.  `fuel` bounds the number of iterations. -/
def fromStringLoop (valueFromString : List Char → Option α) :
    Nat → List Char → BinarySearchTree α → List Char × BinarySearchTree α
  | 0, data, result => (data, result)
  | fuel + 1, data, result =>
      match find data ", ".toList with
      | some pos =>
          fromStringLoop valueFromString fuel (data.drop (pos + 2))
            (match valueFromString (data.take pos) with
              | some value => insert result value
              | none => result)
      | none => (data, result)

/-- Static member `fromString(str)`.  Every iteration of the loop erases at least two
characters, so `data.length + 1` iterations reach the exit test. -/
def fromString (valueFromString : List Char → Option α) (str : List Char) :
    BinarySearchTree α :=
  let data := if str.length ≥ 2 then (str.drop 1).take (str.length - 2) else str
  let state := fromStringLoop valueFromString (data.length + 1) data empty
  if !state.1.isEmpty then
    match valueFromString state.1 with
    | some value => insert state.2 value
    | none => state.2
  else state.2

end BinarySearchTree

/-- A value contract with an empty encoding, as `valueToString` has for the empty
`std::string`: `false` is written as the empty string and `true` as `1`. -/
def flagToString : Bool → List Char
  | false => []
  | true => ['1']

/-- Decoding for `flagToString`; any other string throws. -/
def flagFromString (str : List Char) : Option Bool :=
  if str = [] then some false else if str = ['1'] then some true else none

/-! ## Trees from child-parent pairs (`BinarySearchTree::fromNodeParentPairs`) -/

namespace Node

variable {α : Type}

/-- The value at a node pointer (`node ? node->data`), `none` for `nullptr`. -/
def value? : Node α → Option α
  | nil => none
  | node d _ _ => some d

/-- The (child value, parent value) pairs of the non-root nodes below a node: for every node
the pairs of its children, then those of its subtrees. -/
def childParentPairs : Node α → List (α × α)
  | nil => []
  | node d l r =>
      (l.value?.toList.map (·, d) ++ r.value?.toList.map (·, d)) ++
        (childParentPairs l ++ childParentPairs r)

end Node

/-- What the static member `BinarySearchTree::fromNodeParentPairs` returns: a tree, or a root
whose links run in a cycle, which is no tree; the counter is set in both cases. -/
inductive Rebuilt (α : Type) where
  | tree (t : BinarySearchTree α)
  | cyclic (size : Nat)
deriving DecidableEq, Repr

namespace BinarySearchTree

variable {α : Type} [LinearOrder α]

/-- The closure `getNode(value)` of `fromNodeParentPairs` on `nodeList`.  A node is designated
by its value: the value that has a node is found, any other gets a new node at the end. -/
def getNode (nodeList : List α) (value : α) : List α :=
  if value ∈ nodeList then nodeList else nodeList ++ [value]

/-- The search for the root value: the first of `parents` that is not among `children`, and
`parents[0]` if there is none. -/
def findRootValue (parents children : List α) (first : α) : α :=
  match parents.find? (fun pv => !children.contains pv) with
  | some pv => pv
  | none => first

/-- The linking loop: `parent->left = child` if `pr.first < pr.second`, else
`parent->right = child`.  The links set are kept as (parent, child), the latest first, so that
the link a node has in the end is the first one listed for it. -/
def linkPairs (pairs : List (α × α)) : List (α × α) × List (α × α) :=
  pairs.foldl
    (fun links pr =>
      if pr.1 < pr.2 then ((pr.2, pr.1) :: links.1, links.2)
      else (links.1, (pr.2, pr.1) :: links.2))
    ([], [])

/-- The node of `value` with everything its links lead to, as a tree; a node reached along two
paths appears on both, as in every traversal.  `none` when the links lead further than `fuel`
nodes down. -/
def nodeBelow (left right : List (α × α)) : Nat → α → Option (Node α)
  | 0, _ => none
  | fuel + 1, value =>
      match
        (match left.lookup value with
          | some child => nodeBelow left right fuel child
          | none => some .nil),
        (match right.lookup value with
          | some child => nodeBelow left right fuel child
          | none => some .nil) with
      | some l, some r => some (.node value l r)
      | _, _ => none

/-- Static member `fromNodeParentPairs(pairs)`.  A path without a cycle passes every node at
most once, so links that lead further than `nodeList.size()` nodes down run in a cycle. -/
def fromNodeParentPairs (pairs : List (α × α)) : Rebuilt α :=
  match pairs with
  | [] => .tree empty
  | first :: _ =>
      let nodeList := pairs.foldl (fun nodeList pr => getNode (getNode nodeList pr.1) pr.2) []
      let children := pairs.map (·.1)
      let parents := pairs.map (·.2)
      let rootValue := findRootValue parents children first.2
      let links := linkPairs pairs
      match nodeBelow links.1 links.2 nodeList.length rootValue with
      | some root => .tree ⟨root, nodeList.length⟩
      | none => .cyclic nodeList.length

/-- The links agree with a tree: every node's left and right link lead to the values of its
children. -/
def Linked (left right : List (α × α)) : Node α → Prop
  | .nil => True
  | .node v l r =>
      left.lookup v = l.value? ∧ right.lookup v = r.value? ∧
        Linked left right l ∧ Linked left right r

/-- The tree of `testFromNodeParentPairs`, with root 10, children 5 and 15, and 3 and 7 below
5. -/
def pairsTree : BinarySearchTree Int :=
  ⟨.node 10 (.node 5 (.node 3 .nil .nil) (.node 7 .nil .nil)) (.node 15 .nil .nil), 5⟩

end BinarySearchTree

/-! ## Listings and pair lists of the heap (`src/binary_heap.h`) -/

/-- The exceptions of the static decoding members of the heap: the one `valueFromString`
throws, and the three `std::runtime_error` of `fromNodeParentPairs` (no self-paired root, a
third child for a node, fewer nodes built than pairs given). -/
inductive DecodeError where
  | invalidValue
  | rootNotFound
  | tooManyChildren
  | countMismatch
deriving DecidableEq, Repr

/-- What a static decoding member of the heap does: it returns a heap, throws, or calls
`insert` where `insert` has no defined behaviour. -/
inductive Decoded (α : Type) where
  | ok (heap : BinaryHeap α)
  | error (e : DecodeError)
  | undefined
deriving DecidableEq, Repr

namespace Node

variable {α : Type}

/-- The assignment to the link that leads to a path (`parent->left = child`,
`parent->right = child`, or `root = child` for the empty path); nothing if the parent is
missing. -/
def attach : Node α → List Bool → Node α → Node α
  | _, [], child => child
  | nil, _ :: _, _ => nil
  | node d l r, true :: p, child => node d (attach l p child) r
  | node d l r, false :: p, child => node d l (attach r p child)

end Node

namespace BinaryHeap

variable {α : Type}

/-- The loop of `toString()` on the queue of nodes, the text written so far and `isFirst`.
`fuel` bounds the number of iterations. -/
def toStringLoop (valueToString : α → List Char) :
    Nat → List (Node α) → List Char → Bool → List Char
  | _, [], ss, _ => ss
  | 0, _ :: _, ss, _ => ss
  | _ + 1, .nil :: _, ss, _ => ss -- not reached: no null pointer is pushed
  | fuel + 1, .node d l r :: queue, ss, isFirst =>
      toStringLoop valueToString fuel
        ((queue ++ if l.isNull then [] else [l]) ++ if r.isNull then [] else [r])
        ((if !isFirst then ss ++ ",".toList else ss) ++ valueToString d) false

/-- Member `toString()`: the values in level order, separated by `,`, in brackets.  The loop
body runs once per node. -/
def toString (valueToString : α → List Char) (h : BinaryHeap α) : List Char :=
  if h.isEmpty then "[]".toList
  else toStringLoop valueToString h.root.count [h.root] "[".toList true ++ "]".toList

/-- The closure `collectPairs(node)` of `toNodeParentPairs`: the pair of a node with its
parent's value (with its own value for the root), then the pairs of the left and of the right
subtree.  `parent` is the value of `node->parent`, `none` for a null parent. -/
def collectPairs : Node α → Option α → List (α × α)
  | .nil, _ => []
  | .node d l r, parent =>
      (d, parent.getD d) :: (collectPairs l (some d) ++ collectPairs r (some d))

/-- Member `toNodeParentPairs()`: the collected pairs written as `(node:parent)`, separated by
`,`, in brackets. -/
def toNodeParentPairs (valueToString : α → List Char) (h : BinaryHeap α) : List Char :=
  if h.isEmpty then "[]".toList
  else
    "[".toList ++
      ",".toList.intercalate
        ((collectPairs h.root none).map fun pr =>
          "(".toList ++ valueToString pr.1 ++ ":".toList ++ valueToString pr.2 ++ ")".toList) ++
      "]".toList

variable [LinearOrder α]

/-- The `while` loop of `fromString` on the state `(content, values)`: cut the token in front
of the first `,`, decode it and erase token and separator; `none` when `valueFromString`
throws.  `fuel` bounds the number of iterations. -/
def fromStringLoop (valueFromString : List Char → Option α) :
    Nat → List Char → List α → Option (List Char × List α)
  | 0, content, values => some (content, values)
  | fuel + 1, content, values =>
      match find content ",".toList with
      | some pos =>
          match valueFromString (content.take pos) with
          | some value =>
              fromStringLoop valueFromString fuel (content.drop (pos + 1)) (values ++ [value])
          | none => none
      | none => some (content, values)

/-- The loop `for (value : values) result.insert(value)`; `none` when a call of `insert` has
no defined behaviour. -/
def insertAll : List α → BinaryHeap α → Option (BinaryHeap α)
  | [], result => some result
  | value :: values, result =>
      match insert result value with
      | .ok _ result1 => insertAll values result1
      | _ => none

/-- Static member `fromString(str)`.  Every iteration of the loop erases at least one
character, so `content.length + 1` iterations reach the exit test. -/
def fromString (valueFromString : List Char → Option α) (str : List Char) : Decoded α :=
  if str.length ≥ 2 then
    let content := (str.drop 1).take (str.length - 2)
    match fromStringLoop valueFromString (content.length + 1) content [] with
    | none => .error .invalidValue
    | some (content, values) =>
        match
          (if !content.isEmpty then (valueFromString content).map (fun value => values ++ [value])
            else some values) with
        | none => .error .invalidValue
        | some values =>
            match insertAll values empty with
            | some result => .ok result
            | none => .undefined
  else .ok empty

/-- The entry `childrenMap[parentValue]` of `fromNodeParentPairs`: the first components of the
pairs with that parent, the self-paired ones left out, in the order of the list (empty when
the map has no such key). -/
def childrenOf (pairs : List (α × α)) (parentValue : α) : List α :=
  (pairs.filter fun pr => decide (pr.1 ≠ pr.2) && decide (pr.2 = parentValue)).map (·.1)

/-- The loop over `childrenMap[parentValue]` for the node `parentNode`, on the state
`(root, size, nodeQueue)`: a child goes to the left link if that is null, else to the right
link if that is null; `none` when both are taken (the `throw`). -/
def attachChildren (parentNode : List Bool) :
    List α → Node α × Nat × List (List Bool × α) → Option (Node α × Nat × List (List Bool × α))
  | [], state => some state
  | childValue :: rest, (root, size, nodeQueue) =>
      match root.subtreeAt parentNode with
      | .node _ l r =>
          if l.isNull then
            attachChildren parentNode rest
              (root.attach (parentNode ++ [true]) (.node childValue .nil .nil), size + 1,
                nodeQueue ++ [(parentNode ++ [true], childValue)])
          else if r.isNull then
            attachChildren parentNode rest
              (root.attach (parentNode ++ [false]) (.node childValue .nil .nil), size + 1,
                nodeQueue ++ [(parentNode ++ [false], childValue)])
          else none
      | .nil => none -- not reached: the queue holds nodes of the tree

/-- The breadth-first loop of `fromNodeParentPairs` on the state `(root, size, nodeQueue)`:
the result is `some none` when the loop throws and `none` when `fuel` iterations do not
empty the queue. -/
def buildLoop (pairs : List (α × α)) :
    Nat → Node α × Nat × List (List Bool × α) → Option (Option (Node α × Nat))
  | _, (root, size, []) => some (some (root, size))
  | 0, (_, _, _ :: _) => none
  | fuel + 1, (root, size, (parentNode, parentValue) :: nodeQueue) =>
      match attachChildren parentNode (childrenOf pairs parentValue) (root, size, nodeQueue) with
      | some state => buildLoop pairs fuel state
      | none => some none

/-- Static member `fromNodeParentPairs(pairs)`, with `fuel` iterations for the breadth-first
loop; `none` when they do not suffice. -/
def fromNodeParentPairs (fuel : Nat) (pairs : List (α × α)) : Option (Decoded α) :=
  if pairs.isEmpty then some (.ok empty)
  else
    match pairs.find? (fun pr => pr.1 == pr.2) with
    | none => some (.error .rootNotFound)
    | some pr =>
        match buildLoop pairs fuel (.node pr.1 .nil .nil, 1, [([], pr.1)]) with
        | none => none
        | some none => some (.error .tooManyChildren)
        | some (some (root, size)) =>
            if size ≠ pairs.length then some (.error .countMismatch)
            else some (.ok ⟨root, size⟩)

/-- A value is reachable from the root value of a pair list: the root value is, and so is
the child of every pair whose parent is. -/
inductive Reachable (pairs : List (α × α)) (rootValue : α) : α → Prop where
  | root : Reachable pairs rootValue rootValue
  | child (c p : α) : Reachable pairs rootValue p → (c, p) ∈ pairs → Reachable pairs rootValue c

end BinaryHeap

namespace Node

variable {α : Type}

/-- A leaf for a value, `nil` for none. -/
def leaf? : Option α → Node α
  | none => nil
  | some c => node c nil nil

end Node

namespace BinaryHeap

variable {α : Type} [LinearOrder α]

/-- The value `fromNodeParentPairs` places at a path below a node that holds `value`: the
first child listed for a value goes to the left and the second to the right. -/
def valueAt (pairs : List (α × α)) : α → List Bool → Option α
  | value, [] => some value
  | value, b :: path =>
      match (childrenOf pairs value)[if b then 0 else 1]? with
      | some child => valueAt pairs child path
      | none => none

/-- The queue entries for the children attached to the node at a path. -/
def newEntries (parentNode : List Bool) : List α → List (List Bool × α)
  | [] => []
  | [a] => [(parentNode ++ [true], a)]
  | a :: b :: _ => [(parentNode ++ [true], a), (parentNode ++ [false], b)]

end BinaryHeap

namespace BinaryHeap

variable {α : Type} [LinearOrder α]

/-- The invariant of the breadth-first loop of `fromNodeParentPairs` after `k` iterations:
`size` counts the nodes, of which `k` are done and the others queued; nothing hangs below a
queued node; every other position holds the value that `valueAt` places there; the queue holds
nodes of the tree with their values, each once. -/
def BuildInv (pairs : List (α × α)) (rootValue : α) (k : Nat)
    (state : Node α × Nat × List (List Bool × α)) : Prop :=
  state.2.1 = state.1.count ∧
  state.1.count = k + state.2.2.length ∧
  (∀ p, (∃ e ∈ state.2.2, e.1 <+: p ∧ e.1 ≠ p) → (state.1.subtreeAt p).value? = none) ∧
  (∀ p, (¬ ∃ e ∈ state.2.2, e.1 <+: p ∧ e.1 ≠ p) →
    (state.1.subtreeAt p).value? = valueAt pairs rootValue p) ∧
  (∀ e ∈ state.2.2, (state.1.subtreeAt e.1).value? = some e.2) ∧
  (state.2.2.map (·.1)).Nodup

end BinaryHeap

namespace BinaryHeap

variable {α : Type}

/-- The values in the order in which the loop of `toString` takes their nodes from the queue;
`fuel` bounds the number of iterations. -/
def levelOrderLoop : Nat → List (Node α) → List α
  | _, [] => []
  | 0, _ :: _ => []
  | _ + 1, .nil :: _ => []
  | fuel + 1, .node d l r :: queue =>
      d :: levelOrderLoop fuel
        ((queue ++ if l.isNull then [] else [l]) ++ if r.isNull then [] else [r])

/-- The values below a node in level order (breadth first, every level from the left). -/
def levelOrder (t : Node α) : List α := levelOrderLoop t.count [t]

/-- The node at a heap index, the root having index 1. -/
def nodeAtIndex (t : Node α) (i : Nat) : Node α := t.subtreeAt (pushDirections i i [])

end BinaryHeap

namespace BinaryHeap

variable {α : Type}

/-- The values at the heap indices `1, ..., j`, in this order. -/
def indexValues (t : Node α) (j : Nat) : List α :=
  (List.range' 1 j).filterMap fun i => (nodeAtIndex t i).value?

end BinaryHeap

/-! ## Format tokens of the tree (`toStringFormatted`, `fromStringFormatted`)

The six tokens are compared as whole strings, and the scan of `fromStringFormatted` looks for
the six bracket characters only, which are single bytes that occur in no multi-byte character;
so the strings are lists of characters here as well. -/

namespace BinarySearchTree

variable {α : Type}

/-- The chain of comparisons on `format` in `toStringFormatted` and in `fromStringFormatted`:
the traversal selected by one of the six tokens, and the default `InOrder` for any other
string. -/
def formatType (format : List Char) : TraversalType :=
  if format = "\x7bК\x7d(Л)[П]".toList then .PreOrder
  else if format = "(Л)\x7bК\x7d[П]".toList then .InOrder
  else if format = "(Л)[П]\x7bК\x7d".toList then .PostOrder
  else if format = "\x7bК\x7d[П](Л)".toList then .ReversePreOrder
  else if format = "[П]\x7bК\x7d(Л)".toList then .ReverseInOrder
  else if format = "[П](Л)\x7bК\x7d".toList then .ReversePostOrder
  else .InOrder

/-- The six format tokens, in the order of the comparisons. -/
def formatTokens : List (List Char) :=
  ["\x7bК\x7d(Л)[П]".toList, "(Л)\x7bК\x7d[П]".toList, "(Л)[П]\x7bК\x7d".toList,
    "\x7bК\x7d[П](Л)".toList, "[П]\x7bК\x7d(Л)".toList, "[П](Л)\x7bК\x7d".toList]

/-- Member `toStringFormatted(format)`: the listing of `toString()`, with the values in the
traversal order selected by `format`. -/
def toStringFormatted (valueToString : α → List Char) (t : BinarySearchTree α)
    (format : List Char) : List Char :=
  if t.root.isNull then "[]".toList
  else
    ((traverse t (formatType format)).foldl
      (fun (state : List Char × Bool) value =>
        ((if !state.2 then state.1 ++ ", ".toList else state.1) ++ valueToString value, false))
      ("[".toList, true)).1 ++ "]".toList

/-- The choice of `close` for the character `open` in `fromStringFormatted`; `none` stands for
the branch `else continue`. -/
def closingOf (opening : Char) : Option Char :=
  if opening = '\x7b' then some '\x7d'
  else if opening = '(' then some ')'
  else if opening = '[' then some ']'
  else none

/-- The loop of `fromStringFormatted` that collects `segments`, on the part of `str` from
index `i` on: a character that opens no bracket is passed over; for an opening bracket the
text up to the first matching closing character is a segment and the scan goes on behind that
character; the loop is left when the closing character is missing.  `fuel` bounds the number
of iterations. -/
def extractSegments : Nat → List Char → List (List Char)
  | 0, _ => []
  | _ + 1, [] => []
  | fuel + 1, opening :: rest =>
      match closingOf opening with
      | none => extractSegments fuel rest
      | some closing =>
          match find rest [closing] with
          | none => []
          | some pos => rest.take pos :: extractSegments fuel (rest.drop (pos + 1))

variable [LinearOrder α]

/-- Static member `fromStringFormatted(str, format)`.  The traversal type is computed from
`format` and never read; every segment that `valueFromString` decodes is inserted, the others
are passed over.  Every iteration of the scan moves on by at least one character, so
`str.size()` iterations reach its end. -/
def fromStringFormatted (valueFromString : List Char → Option α) (str format : List Char) :
    BinarySearchTree α :=
  if str.isEmpty || format.isEmpty then empty
  else
    let _type := formatType format
    (extractSegments str.length str).foldl
      (fun result token =>
        match valueFromString token with
        | some value => insert result value
        | none => result)
      empty

/-- The three bracket pairs that delimit a segment. -/
inductive Bracket where
  | curly
  | round
  | square
deriving DecidableEq, Repr

/-- The opening character of a bracket pair. -/
def Bracket.opening : Bracket → Char
  | .curly => '\x7b'
  | .round => '('
  | .square => '['

/-- The closing character of a bracket pair. -/
def Bracket.closing : Bracket → Char
  | .curly => '\x7d'
  | .round => ')'
  | .square => ']'

/-- The text of a bracketed segment: the opening character, the content, the closing
character. -/
def segmentText (segment : Bracket × List Char) : List Char :=
  segment.1.opening :: (segment.2 ++ [segment.1.closing])

end BinarySearchTree

/-! ## Sub-heaps and repeated extraction (`src/binary_heap.h`) -/

namespace Node

variable {α : Type}

/-- The values that a pre-order traversal from a node visits before it arrives at the node at
a path. -/
def visitedBefore : Node α → List Bool → List α
  | _, [] => []
  | nil, _ :: _ => []
  | node d l _, true :: p => d :: visitedBefore l p
  | node d l r, false :: p => d :: (l.preorder ++ visitedBefore r p)

end Node

namespace BinaryHeap

variable {α : Type}

/-- Recursive `cloneHeap(node, parent)`: a fresh copy of every node below `node`. -/
def cloneHeap : Node α → Node α
  | .nil => .nil
  | .node d l r => .node d (cloneHeap l) (cloneHeap r)

/-- The closure `countNodes(n)` of `extractSubHeap`, acting on `result.size`. -/
def countNodes : Node α → Nat → Nat
  | .nil, size => size
  | .node _ l r, size => countNodes r (countNodes l (size + 1))

variable [LinearOrder α]

/-- Member `extractSubHeap(value)`: the returned heap and the heap itself afterwards. -/
def extractSubHeap (h : BinaryHeap α) (value : α) : BinaryHeap α × BinaryHeap α :=
  match findNode h.root value with
  | none => (empty, h)
  | some node =>
      let root := cloneHeap (Node.subtreeAt h.root node)
      (⟨root, countNodes root 0⟩, h)

/-- The caller's loop `while (!heap.isEmpty()) out.push_back(heap.extractMax());` with at most
`calls` calls of `extractMax`: the values returned and the heap left; `none` when the heap is
not empty after that many calls, or a call has no defined behaviour. -/
def extractAll : Nat → BinaryHeap α → Option (List α × BinaryHeap α)
  | 0, h => if h.isEmpty then some ([], h) else none
  | calls + 1, h =>
      if h.isEmpty then some ([], h)
      else
        match extractMax h with
        | .ok result h1 => (extractAll calls h1).map fun out => (result :: out.1, out.2)
        | .emptyError _ => none
        | .undefined => none

/-- The pair list of `testFromNodeParentPairs1`: the root 20, its child 10, and 15 below 10. -/
def testPairs : List (Int × Int) := [(20, 20), (10, 20), (15, 10)]

/-- A pair list in which the value 2 is a child of the root value 1, and 1 a child of 2. -/
def cyclePairs : List (Int × Int) := [(1, 1), (2, 1), (1, 2)]

end BinaryHeap

/-! ## Theorems: binary search tree -/

namespace Node

variable {α : Type}

@[simp] theorem inorder_nil : (nil : Node α).inorder = [] := rfl

@[simp] theorem inorder_node (d : α) (l r : Node α) :
    (node d l r).inorder = l.inorder ++ d :: r.inorder := by
  simp [inorder, traverseByType]

@[simp] theorem isNull_nil : (nil : Node α).isNull = true := rfl

@[simp] theorem isNull_node (d : α) (l r : Node α) : (node d l r).isNull = false := rfl

theorem isNull_iff (t : Node α) : t.isNull = true ↔ t = nil := by
  cases t <;> simp

theorem length_inorder (t : Node α) : t.inorder.length = t.count := by
  induction t with
  | nil => rfl
  | node d l r ihl ihr => simp [count, ihl, ihr]; omega

end Node

namespace BinarySearchTree

variable {α : Type}

/-! ### The iterative in-order listing agrees with the recursive one -/

theorem pushLeft_noNull (c : Node α) (stack : List (Node α))
    (h : ∀ n ∈ stack, n.isNull = false) : ∀ n ∈ pushLeft c stack, n.isNull = false := by
  induction c generalizing stack with
  | nil => simpa [pushLeft] using h
  | node d l r ihl _ =>
    simp only [pushLeft]
    apply ihl
    intro n hn
    rcases List.mem_cons.mp hn with rfl | hn
    · rfl
    · exact h n hn

theorem pending_pushLeft (c : Node α) (stack : List (Node α)) :
    pending (pushLeft c stack) = c.inorder ++ pending stack := by
  induction c generalizing stack with
  | nil => simp [pushLeft]
  | node d l r ihl _ => simp [pushLeft, ihl, pending]

theorem pendingCount_pushLeft (c : Node α) (stack : List (Node α)) :
    pendingCount (pushLeft c stack) = c.count + pendingCount stack := by
  induction c generalizing stack with
  | nil => simp [pushLeft, Node.count]
  | node d l r ihl _ => simp [pushLeft, ihl, pendingCount, Node.count]; omega

theorem pushLeft_ne_nil (c : Node α) (stack : List (Node α))
    (h : (!c.isNull || !stack.isEmpty) = true) : pushLeft c stack ≠ [] := by
  induction c generalizing stack with
  | nil =>
    cases stack with
    | nil => simp at h
    | cons a s => simp [pushLeft]
  | node d l r ihl _ =>
    simp only [pushLeft]
    exact ihl _ (by simp)

theorem inOrderLoop_eq (fuel : Nat) (c : Node α) (stack : List (Node α)) (values : List α)
    (hs : ∀ n ∈ stack, n.isNull = false) (hf : c.count + pendingCount stack < fuel) :
    inOrderLoop fuel c stack values = values ++ c.inorder ++ pending stack := by
  induction fuel generalizing c stack values with
  | zero => omega
  | succ fuel ih =>
    unfold inOrderLoop
    by_cases hc : (!c.isNull || !stack.isEmpty) = true
    · rw [if_pos hc]
      have hne := pushLeft_ne_nil c stack hc
      have hnn := pushLeft_noNull c stack hs
      have hp := pending_pushLeft c stack
      have hpc := pendingCount_pushLeft c stack
      cases hpl : pushLeft c stack with
      | nil => exact absurd hpl hne
      | cons top rest =>
        rw [hpl] at hnn hp hpc
        cases top with
        | nil => simpa using hnn .nil (by simp)
        | node d l r =>
          simp only
          rw [ih r rest (values ++ [d]) (fun n hn => hnn n (List.mem_cons_of_mem _ hn))
            (by simp only [pendingCount] at hpc; omega)]
          simp only [pending] at hp
          simp only [List.append_assoc, ← hp]
          simp
    · rw [if_neg hc]
      simp only [Bool.or_eq_true, Bool.not_eq_true', not_or, Bool.not_eq_false,
        Bool.not_eq_true] at hc
      obtain ⟨h1, h2⟩ := hc
      have h1 : c = .nil := (Node.isNull_iff c).mp (by simpa using h1)
      have h2 : stack = [] := by simpa using h2
      subst h1 h2
      simp [pending]

theorem findMin_spec (d : α) (l r : Node α) :
    ∃ sd sl sr rest, findMin (.node d l r) = .node sd sl sr ∧
      (Node.node d l r).inorder = sd :: rest := by
  induction l generalizing d r with
  | nil => exact ⟨d, .nil, r, r.inorder, rfl, by simp⟩
  | node ld ll lr ihl _ =>
    obtain ⟨sd, sl, sr, rest, h1, h2⟩ := ihl ld lr
    refine ⟨sd, sl, sr, rest ++ d :: r.inorder, ?_, ?_⟩
    · simpa [findMin] using h1
    · rw [Node.inorder_node, h2]; simp

/-- The stack-based `getValuesInOrder()` returns the recursive in-order sequence. -/
theorem getValuesInOrder_eq (t : BinarySearchTree α) : getValuesInOrder t = t.root.inorder := by
  unfold getValuesInOrder
  split
  · rename_i h
    rw [(Node.isNull_iff _).mp h]; rfl
  · rw [inOrderLoop_eq _ _ _ _ (by simp) (by simp [pendingCount])]
    simp [pending]

end BinarySearchTree

namespace BinarySearchTree

variable {α : Type} [LinearOrder α]

/-! ### Insertion -/

theorem insertNode_nil (v : α) (s : Nat) :
    insertNode (.nil : Node α) v s = (.node v .nil .nil, s + 1) := rfl

theorem mem_insertNode (t : Node α) (v : α) (s : Nat) (x : α) :
    x ∈ (insertNode t v s).1.inorder ↔ x = v ∨ x ∈ t.inorder := by
  induction t with
  | nil => simp [insertNode]
  | node d l r ihl ihr =>
    unfold insertNode
    split
    · simp [ihl]; tauto
    · split
      · simp [ihr]; tauto
      · rename_i h1 h2
        have : v = d := le_antisymm (not_lt.mp h2) (not_lt.mp h1)
        subst this
        simp; tauto

theorem isBST_insertNode (t : Node α) (v : α) (s : Nat) (h : IsBST t) :
    IsBST (insertNode t v s).1 := by
  induction t with
  | nil => simp [insertNode, IsBST]
  | node d l r ihl ihr =>
    obtain ⟨hl, hr, bl, br⟩ := h
    unfold insertNode
    split
    · rename_i hlt
      refine ⟨?_, hr, ihl bl, br⟩
      intro x hx
      rcases (mem_insertNode l v s x).mp hx with rfl | hx
      · exact hlt
      · exact hl x hx
    · split
      · rename_i _ hgt
        refine ⟨hl, ?_, bl, ihr br⟩
        intro x hx
        rcases (mem_insertNode r v s x).mp hx with rfl | hx
        · exact hgt
        · exact hr x hx
      · exact ⟨hl, hr, bl, br⟩

/-- Inserting a value that is not stored splices it into the in-order sequence between the
smaller and the larger values, and counts one more node. -/
theorem insertNode_of_not_mem (t : Node α) (v : α) (s : Nat) (h : IsBST t)
    (hv : v ∉ t.inorder) :
    (∃ pre post, t.inorder = pre ++ post ∧ (insertNode t v s).1.inorder = pre ++ v :: post ∧
      (∀ x ∈ pre, x < v) ∧ (∀ x ∈ post, v < x)) ∧ (insertNode t v s).2 = s + 1 := by
  induction t with
  | nil => exact ⟨⟨[], [], by simp [insertNode]⟩, rfl⟩
  | node d l r ihl ihr =>
    obtain ⟨hl, hr, bl, br⟩ := h
    simp only [Node.inorder_node, List.mem_append, List.mem_cons, not_or] at hv
    obtain ⟨hvl, hvd, hvr⟩ := hv
    unfold insertNode
    split
    · rename_i hlt
      obtain ⟨⟨pre, post, e1, e2, h1, h2⟩, hs⟩ := ihl bl hvl
      refine ⟨⟨pre, post ++ d :: r.inorder, by simp [e1], by simp [e2], h1, ?_⟩, hs⟩
      intro x hx
      rcases List.mem_append.mp hx with hx | hx
      · exact h2 x hx
      · rcases List.mem_cons.mp hx with rfl | hx
        · exact hlt
        · exact lt_trans hlt (hr x hx)
    · rename_i hnlt
      have hgt : v > d := lt_of_le_of_ne (not_lt.mp hnlt) (Ne.symm hvd)
      rw [if_pos hgt]
      obtain ⟨⟨pre, post, e1, e2, h1, h2⟩, hs⟩ := ihr br hvr
      refine ⟨⟨l.inorder ++ d :: pre, post, by simp [e1], by simp [e2], ?_, h2⟩, hs⟩
      intro x hx
      rcases List.mem_append.mp hx with hx | hx
      · exact lt_trans (hl x hx) hgt
      · rcases List.mem_cons.mp hx with rfl | hx
        · exact hgt
        · exact h1 x hx

/-- Inserting a stored value changes neither the nodes nor the counter. -/
theorem insertNode_of_mem (t : Node α) (v : α) (s : Nat) (h : IsBST t) (hv : v ∈ t.inorder) :
    insertNode t v s = (t, s) := by
  induction t with
  | nil => simp at hv
  | node d l r ihl ihr =>
    obtain ⟨hl, hr, bl, br⟩ := h
    simp only [Node.inorder_node, List.mem_append, List.mem_cons] at hv
    unfold insertNode
    split
    · rename_i hlt
      have hvl : v ∈ l.inorder := by
        rcases hv with hv | rfl | hv
        · exact hv
        · exact absurd hlt (lt_irrefl _)
        · exact absurd (lt_trans hlt (hr v hv)) (lt_irrefl _)
      rw [ihl bl hvl]
    · split
      · rename_i _ hgt
        have hvr : v ∈ r.inorder := by
          rcases hv with hv | rfl | hv
          · exact absurd (lt_trans (hl v hv) hgt) (lt_irrefl _)
          · exact absurd hgt (lt_irrefl _)
          · exact hv
        rw [ihr br hvr]
      · rfl

/-! ### Search -/

theorem findNode_isNull (t : Node α) (v : α) (h : IsBST t) :
    (findNode t v).isNull = false ↔ v ∈ t.inorder := by
  induction t with
  | nil => simp [findNode]
  | node d l r ihl ihr =>
    obtain ⟨hl, hr, bl, br⟩ := h
    unfold findNode
    split
    · rename_i heq
      subst heq
      simp
    · rename_i hne
      split
      · rename_i hlt
        rw [ihl bl]
        simp only [Node.inorder_node, List.mem_append, List.mem_cons]
        constructor
        · exact Or.inl
        · rintro (hv | rfl | hv)
          · exact hv
          · exact absurd rfl hne
          · exact absurd (lt_trans hlt (hr v hv)) (lt_irrefl _)
      · rename_i hnlt
        rw [ihr br]
        simp only [Node.inorder_node, List.mem_append, List.mem_cons]
        constructor
        · exact fun hv => Or.inr (Or.inr hv)
        · rintro (hv | rfl | hv)
          · exact absurd (hl v hv) hnlt
          · exact absurd rfl hne
          · exact hv

theorem search_eq_true_iff (t : BinarySearchTree α) (v : α) (h : IsBST t.root) :
    search t v = true ↔ v ∈ t.root.inorder := by
  unfold search
  rw [← findNode_isNull t.root v h]
  simp

end BinarySearchTree

namespace BinarySearchTree

variable {α : Type} [LinearOrder α]

/-! ### Removal -/

theorem isBST_sorted (t : Node α) (h : IsBST t) : t.inorder.Pairwise (· < ·) := by
  induction t with
  | nil => simp
  | node d l r ihl ihr =>
    obtain ⟨hl, hr, bl, br⟩ := h
    rw [Node.inorder_node, List.pairwise_append]
    refine ⟨ihl bl, List.pairwise_cons.mpr ⟨hr, ihr br⟩, ?_⟩
    intro x hx y hy
    rcases List.mem_cons.mp hy with rfl | hy
    · exact hl x hx
    · exact lt_trans (hl x hx) (hr y hy)

theorem erase_append_of_not_mem {v : α} {l₁ l₂ : List α} (h : v ∉ l₂) :
    (l₁ ++ l₂).erase v = l₁.erase v ++ l₂ := by
  by_cases h1 : v ∈ l₁
  · exact List.erase_append_left _ h1
  · rw [List.erase_append_right _ h1, List.erase_of_not_mem h, List.erase_of_not_mem h1]

/-- On a search tree `removeNode` deletes the value from the in-order sequence and keeps the
invariant. -/
theorem removeNode_spec (t : Node α) (v : α) (s : Nat) (h : IsBST t) :
    IsBST (removeNode t v s).1 ∧ (removeNode t v s).1.inorder = t.inorder.erase v := by
  induction t generalizing v s with
  | nil => simp [removeNode, IsBST]
  | node d l r ihl ihr =>
    obtain ⟨hl, hr, bl, br⟩ := h
    unfold removeNode
    split
    · rename_i hlt
      obtain ⟨b', e'⟩ := ihl v s bl
      have hvr : v ∉ d :: r.inorder := by
        intro hm
        rcases List.mem_cons.mp hm with rfl | hm
        · exact lt_irrefl _ hlt
        · exact lt_irrefl _ (lt_trans hlt (hr v hm))
      refine ⟨⟨?_, hr, b', br⟩, ?_⟩
      · intro x hx
        rw [e'] at hx
        exact hl x (List.mem_of_mem_erase hx)
      · rw [Node.inorder_node, Node.inorder_node, e', erase_append_of_not_mem hvr]
    · rename_i hnlt
      split
      · rename_i hgt
        obtain ⟨b', e'⟩ := ihr v s br
        have hvl : v ∉ l.inorder := fun hm => lt_irrefl _ (lt_trans (hl v hm) hgt)
        refine ⟨⟨hl, ?_, bl, b'⟩, ?_⟩
        · intro x hx
          rw [e'] at hx
          exact hr x (List.mem_of_mem_erase hx)
        · rw [Node.inorder_node, Node.inorder_node, e', List.erase_append_right _ hvl,
            List.erase_cons_tail (by simpa using (ne_of_gt hgt).symm)]
      · rename_i hngt
        have hvd : v = d := le_antisymm (not_lt.mp hngt) (not_lt.mp hnlt)
        subst hvd
        have hvl : v ∉ l.inorder := fun hm => lt_irrefl _ (hl v hm)
        have herase : (Node.node v l r).inorder.erase v = l.inorder ++ r.inorder := by
          rw [Node.inorder_node, List.erase_append_right _ hvl, List.erase_cons_head]
        rw [herase]
        cases l with
        | nil =>
          cases r with
          | nil => simp [IsBST]
          | node rd rl rr => simpa using br
        | node ld ll lr =>
          cases r with
          | nil => simpa using bl
          | node rd rl rr =>
            simp only [Node.isNull_node, Bool.and_self, Bool.false_eq_true, ↓reduceIte]
            obtain ⟨sd, sl, sr, rest, h1, h2⟩ := findMin_spec rd rl rr
            rw [h1]
            simp only
            obtain ⟨b', e'⟩ := ihr sd s br
            rw [h2, List.erase_cons_head] at e'
            have hsorted := isBST_sorted _ br
            rw [h2, List.pairwise_cons] at hsorted
            have hsd : v < sd := hr sd (by rw [h2]; exact List.mem_cons_self _ _)
            refine ⟨⟨fun x hx => lt_trans (hl x hx) hsd, ?_, bl, b'⟩, ?_⟩
            · intro x hx
              rw [e'] at hx
              exact hsorted.1 x hx
            · rw [Node.inorder_node, e', h2]

/-- Removing a stored value decrements the counter exactly once. -/
theorem removeNode_size_of_mem (t : Node α) (v : α) (s : Nat) (h : IsBST t)
    (hv : v ∈ t.inorder) : (removeNode t v s).2 = s - 1 := by
  induction t generalizing v s with
  | nil => simp at hv
  | node d l r ihl ihr =>
    obtain ⟨hl, hr, bl, br⟩ := h
    simp only [Node.inorder_node, List.mem_append, List.mem_cons] at hv
    unfold removeNode
    split
    · rename_i hlt
      apply ihl v s bl
      rcases hv with hv | rfl | hv
      · exact hv
      · exact absurd hlt (lt_irrefl _)
      · exact absurd (lt_trans hlt (hr v hv)) (lt_irrefl _)
    · rename_i hnlt
      split
      · rename_i hgt
        apply ihr v s br
        rcases hv with hv | rfl | hv
        · exact absurd (lt_trans (hl v hv) hgt) (lt_irrefl _)
        · exact absurd hgt (lt_irrefl _)
        · exact hv
      · cases l with
        | nil =>
          cases r with
          | nil => simp
          | node rd rl rr => simp
        | node ld ll lr =>
          cases r with
          | nil => simp
          | node rd rl rr =>
            simp only [Node.isNull_node, Bool.and_self, Bool.false_eq_true, ↓reduceIte]
            obtain ⟨sd, sl, sr, rest, h1, h2⟩ := findMin_spec rd rl rr
            rw [h1]
            exact ihr sd s br (by rw [h2]; exact List.mem_cons_self _ _)

/-- Removing a value that is not stored changes neither the nodes nor the counter. -/
theorem removeNode_of_not_mem (t : Node α) (v : α) (s : Nat) (hv : v ∉ t.inorder) :
    removeNode t v s = (t, s) := by
  induction t with
  | nil => rfl
  | node d l r ihl ihr =>
    simp only [Node.inorder_node, List.mem_append, List.mem_cons, not_or] at hv
    obtain ⟨hvl, hvd, hvr⟩ := hv
    unfold removeNode
    split
    · rw [ihl hvl]
    · rename_i hnlt
      have hgt : v > d := lt_of_le_of_ne (not_lt.mp hnlt) (Ne.symm hvd)
      rw [if_pos hgt, ihr hvr]

/-! ### Rebalancing and reachable trees -/

theorem isBST_buildBalanced (elements : List α) (fuel : Nat) (start stop : Int)
    (t : BinarySearchTree α) (h : IsBST t.root) :
    IsBST (buildBalanced elements fuel start stop t).root := by
  induction fuel generalizing start stop t with
  | zero => exact h
  | succ fuel ih =>
    unfold buildBalanced
    split
    · exact h
    · simp only
      split
      · exact ih _ _ _ (ih _ _ _ (isBST_insertNode _ _ _ h))
      · exact h

theorem isBST_applyOp (t : BinarySearchTree α) (op : Op α) (h : IsBST t.root) :
    IsBST (applyOp t op).root := by
  cases op with
  | insert v => exact isBST_insertNode _ _ _ h
  | remove v => exact (removeNode_spec _ _ _ h).1
  | balance =>
    unfold applyOp balance
    simp only
    split
    · trivial
    · exact isBST_buildBalanced _ _ _ _ _ trivial
  | clear => trivial

theorem isBST_foldl (ops : List (Op α)) (t : BinarySearchTree α) (h : IsBST t.root) :
    IsBST (ops.foldl applyOp t).root := by
  induction ops generalizing t with
  | nil => exact h
  | cons op ops ih => exact ih _ (isBST_applyOp t op h)

end BinarySearchTree

namespace BinarySearchTree

variable {α : Type} [LinearOrder α]

/-! ### The claims on the binary search tree -/

/-- C1: every tree reached from the empty tree by a finite sequence of `insert`, `remove`,
`balance` (and `clear`) calls satisfies the BST invariant, and its `getValuesInOrder()` is
non-decreasing. -/
theorem bst_reachable_sorted (ops : List (Op α)) :
    IsBST (run ops).root ∧ (getValuesInOrder (run ops)).Pairwise (· ≤ ·) := by
  have h : IsBST (run ops).root := isBST_foldl ops empty trivial
  refine ⟨h, ?_⟩
  rw [getValuesInOrder_eq]
  exact (isBST_sorted _ h).imp le_of_lt

/-- C4: on a tree with the BST invariant, `insert(v)` of a value that is not stored yields the
previous in-order sequence with `v` spliced in at its sorted position (after all smaller and
before all larger values, every previous value kept); `insert(v)` of a stored value returns the
tree unchanged (same nodes, same `getSize()`). -/
theorem bst_insert_spec (t : BinarySearchTree α) (v : α) (h : IsBST t.root) :
    (v ∉ getValuesInOrder t →
      ∃ pre post, getValuesInOrder t = pre ++ post ∧
        getValuesInOrder (insert t v) = pre ++ v :: post ∧
        (∀ x ∈ pre, x < v) ∧ (∀ x ∈ post, v < x)) ∧
    (v ∈ getValuesInOrder t → insert t v = t ∧ getSize (insert t v) = getSize t) := by
  simp only [getValuesInOrder_eq]
  constructor
  · intro hv
    exact (insertNode_of_not_mem t.root v t.size h hv).1
  · intro hv
    have e : insert t v = t := by
      unfold insert
      rw [insertNode_of_mem t.root v t.size h hv]
    exact ⟨e, by rw [e]⟩

/-- Witness of C4 on the sample tree, for the stored value 7. -/
theorem bst_insert_spec_witness :
    IsBST sampleTree.root ∧
    ((7 ∉ getValuesInOrder sampleTree →
      ∃ pre post, getValuesInOrder sampleTree = pre ++ post ∧
        getValuesInOrder (insert sampleTree 7) = pre ++ 7 :: post ∧
        (∀ x ∈ pre, x < 7) ∧ (∀ x ∈ post, 7 < x)) ∧
    (7 ∈ getValuesInOrder sampleTree →
      insert sampleTree 7 = sampleTree ∧ getSize (insert sampleTree 7) = getSize sampleTree)) :=
  ⟨by decide, bst_insert_spec sampleTree 7 (by decide)⟩

/-- C5: on a tree with the BST invariant, `search(v)` is true exactly when `v` occurs in the
in-order sequence of the tree. -/
theorem bst_search_iff_mem (t : BinarySearchTree α) (v : α) (h : IsBST t.root) :
    search t v = true ↔ v ∈ getValuesInOrder t := by
  rw [getValuesInOrder_eq]
  exact search_eq_true_iff t v h

/-- Witness of C5 on the sample tree. -/
theorem bst_search_iff_mem_witness :
    IsBST sampleTree.root ∧ (search sampleTree 12 = true ↔ 12 ∈ getValuesInOrder sampleTree) :=
  ⟨by decide, bst_search_iff_mem sampleTree 12 (by decide)⟩

/-- C6: on a tree with the BST invariant, `remove(v)` of a stored value (leaf, one child or two
children) yields the previous in-order sequence with `v` deleted and nothing else changed
(one value fewer); afterwards `search(v)` is false and every other stored value is still found. -/
theorem bst_remove_spec (t : BinarySearchTree α) (v : α) (h : IsBST t.root)
    (hv : v ∈ getValuesInOrder t) :
    getValuesInOrder (remove t v).2 = (getValuesInOrder t).erase v ∧
    (getValuesInOrder (remove t v).2).length + 1 = (getValuesInOrder t).length ∧
    search (remove t v).2 v = false ∧
    ∀ w, w ≠ v → w ∈ getValuesInOrder t → search (remove t v).2 w = true := by
  simp only [getValuesInOrder_eq] at hv ⊢
  obtain ⟨b', e'⟩ := removeNode_spec t.root v t.size h
  have hb : IsBST (remove t v).2.root := b'
  have he : (remove t v).2.root.inorder = t.root.inorder.erase v := e'
  have hnd : t.root.inorder.Nodup := (isBST_sorted _ h).imp ne_of_lt
  refine ⟨he, ?_, ?_, ?_⟩
  · rw [he, List.length_erase_of_mem hv]
    have := List.length_pos_of_mem hv
    omega
  · have hns : ¬ (search (remove t v).2 v = true) := by
      rw [search_eq_true_iff _ _ hb, he]
      exact hnd.not_mem_erase
    simpa using hns
  · intro w hw hm
    rw [search_eq_true_iff _ _ hb, he]
    exact (List.mem_erase_of_ne hw).mpr hm

/-- Witness of C6 on the sample tree: removing the root 10, which has two children. -/
theorem bst_remove_spec_witness :
    IsBST sampleTree.root ∧ 10 ∈ getValuesInOrder sampleTree ∧
    (getValuesInOrder (remove sampleTree 10).2 = (getValuesInOrder sampleTree).erase 10 ∧
      (getValuesInOrder (remove sampleTree 10).2).length + 1 =
        (getValuesInOrder sampleTree).length ∧
      search (remove sampleTree 10).2 10 = false ∧
      ∀ w, w ≠ 10 → w ∈ getValuesInOrder sampleTree →
        search (remove sampleTree 10).2 w = true) :=
  ⟨by decide, by decide, bst_remove_spec sampleTree 10 (by decide) (by decide)⟩

/-- C7: on a tree with the BST invariant whose `size` equals its node count, `remove(v)` returns
true exactly when `v` was stored, and when it returns false the tree (nodes and `getSize()`) is
unchanged.  `remove` is a total function: it has no error outcome. -/
theorem bst_remove_flag (t : BinarySearchTree α) (v : α) (hsize : t.size = t.root.count)
    (h : IsBST t.root) :
    ((remove t v).1 = true ↔ v ∈ getValuesInOrder t) ∧
    ((remove t v).1 = false → (remove t v).2 = t ∧ getSize (remove t v).2 = getSize t) := by
  rw [getValuesInOrder_eq]
  by_cases hv : v ∈ t.root.inorder
  · have hpos : 0 < t.size := by
      rw [hsize, ← Node.length_inorder]
      exact List.length_pos_of_mem hv
    have hs := removeNode_size_of_mem t.root v t.size h hv
    have hflag : (remove t v).1 = true := by
      simp only [remove, hs, decide_eq_true_eq]
      omega
    exact ⟨⟨fun _ => hv, fun _ => hflag⟩, fun hf => by rw [hflag] at hf; cases hf⟩
  · have hr := removeNode_of_not_mem t.root v t.size hv
    have hflag : (remove t v).1 = false := by
      simp [remove, hr]
    have e : (remove t v).2 = t := by
      simp [remove, hr]
    exact ⟨⟨fun hf => absurd (hflag ▸ hf) Bool.false_ne_true, fun hm => absurd hm hv⟩,
      fun _ => ⟨e, by rw [e]⟩⟩

/-- Witness of C7 on the sample tree, for the absent value 20. -/
theorem bst_remove_flag_witness :
    sampleTree.size = sampleTree.root.count ∧ IsBST sampleTree.root ∧
    (((remove sampleTree 20).1 = true ↔ 20 ∈ getValuesInOrder sampleTree) ∧
    ((remove sampleTree 20).1 = false →
      (remove sampleTree 20).2 = sampleTree ∧
        getSize (remove sampleTree 20).2 = getSize sampleTree)) :=
  ⟨by decide, by decide, bst_remove_flag sampleTree 20 (by decide) (by decide)⟩

end BinarySearchTree

namespace BinarySearchTree

variable {α : Type} [LinearOrder α]

/-! ### The element counter -/

theorem insertNode_count (t : Node α) (v : α) (s : Nat) :
    (insertNode t v s).2 + t.count = s + (insertNode t v s).1.count := by
  induction t with
  | nil => simp only [insertNode, Node.count]
  | node d l r ihl ihr =>
    by_cases h1 : v < d
    · simp only [insertNode, if_pos h1, Node.count]; omega
    · by_cases h2 : v > d
      · simp only [insertNode, if_neg h1, if_pos h2, Node.count]; omega
      · simp only [insertNode, if_neg h1, if_neg h2]

/-- While the counter is at least the node count, `removeNode` keeps their difference. -/
theorem removeNode_count (t : Node α) (v : α) (s : Nat) (hs : t.count ≤ s) :
    (removeNode t v s).2 + t.count = s + (removeNode t v s).1.count := by
  induction t generalizing v with
  | nil => simp [removeNode]
  | node d l r ihl ihr =>
    simp only [Node.count] at hs
    unfold removeNode
    split
    · have := ihl v (by omega)
      simp only [Node.count]; omega
    · split
      · have := ihr v (by omega)
        simp only [Node.count]; omega
      · cases l with
        | nil =>
          cases r with
          | nil => simp [Node.count]; omega
          | node rd rl rr => simp [Node.count]; omega
        | node ld ll lr =>
          cases r with
          | nil => simp [Node.count]; omega
          | node rd rl rr =>
            simp only [Node.isNull_node, Bool.and_self, Bool.false_eq_true, ↓reduceIte]
            obtain ⟨sd, sl, sr, rest, h1, _⟩ := findMin_spec rd rl rr
            rw [h1]
            have := ihr sd (by omega)
            simp only [Node.count] at this ⊢
            omega

theorem count_buildBalanced (elements : List α) (fuel : Nat) (start stop : Int)
    (t : BinarySearchTree α) (h : t.size = t.root.count) :
    (buildBalanced elements fuel start stop t).size =
      (buildBalanced elements fuel start stop t).root.count := by
  induction fuel generalizing start stop t with
  | zero => exact h
  | succ fuel ih =>
    unfold buildBalanced
    split
    · exact h
    · simp only
      split
      · apply ih
        apply ih
        rename_i x _
        have := insertNode_count t.root x t.size
        simp only [insert]
        omega
      · exact h

theorem count_insert (t : BinarySearchTree α) (v : α) (h : t.size = t.root.count) :
    (insert t v).size = (insert t v).root.count := by
  have := insertNode_count t.root v t.size
  simp only [insert]
  omega

theorem count_balance (t : BinarySearchTree α) :
    (balance t).size = (balance t).root.count := by
  unfold balance
  simp only
  split
  · rfl
  · exact count_buildBalanced _ _ _ _ _ rfl

theorem count_applyOp (t : BinarySearchTree α) (op : Op α) (h : t.size = t.root.count) :
    (applyOp t op).size = (applyOp t op).root.count := by
  cases op with
  | insert v => exact count_insert t v h
  | remove v =>
    have := removeNode_count t.root v t.size (le_of_eq h.symm)
    simp only [applyOp, remove]
    omega
  | balance => exact count_balance t
  | clear => rfl

theorem count_foldl (ops : List (Op α)) (t : BinarySearchTree α) (h : t.size = t.root.count) :
    (ops.foldl applyOp t).size = (ops.foldl applyOp t).root.count := by
  induction ops generalizing t with
  | nil => exact h
  | cons op ops ih => exact ih _ (count_applyOp t op h)

/-- A successful `remove` on a search tree with a positive counter decrements it by one. -/
theorem remove_size_of_flag (t : BinarySearchTree α) (v : α) (h : IsBST t.root)
    (hf : (remove t v).1 = true) : (remove t v).2.size + 1 = t.size := by
  by_cases hv : v ∈ t.root.inorder
  · have hs := removeNode_size_of_mem t.root v t.size h hv
    simp only [remove, decide_eq_true_eq] at hf ⊢
    omega
  · have hr := removeNode_of_not_mem t.root v t.size hv
    simp [remove, hr] at hf

end BinarySearchTree

namespace BinarySearchTree

variable {α : Type}

theorem traverse_inOrder (t : BinarySearchTree α) : traverse t .InOrder = t.root.inorder := rfl

theorem slice_split (elements : List α) (a m b : Nat) (ham : a ≤ m) (hmb : m < b)
    (hm : m < elements.length) :
    (elements.drop a).take (b - a) =
      (elements.drop a).take (m - a) ++ elements[m] :: (elements.drop (m + 1)).take (b - (m + 1)) := by
  have e1 : b - a = (m - a) + ((b - (m + 1)) + 1) := by omega
  rw [e1, List.take_add, List.drop_drop]
  have e2 : a + (m - a) = m := by omega
  rw [e2, List.drop_eq_getElem_cons hm, List.take_succ_cons]

end BinarySearchTree

namespace BinarySearchTree

variable {α : Type} [LinearOrder α]

/-! ### The tree built by `balance` -/

theorem insertNode_fst (t : Node α) (v : α) (s : Nat) :
    (insertNode t v s).1 = (insertNode t v 0).1 := by
  induction t with
  | nil => rfl
  | node d l r ihl ihr =>
    by_cases h1 : v < d
    · simp only [insertNode, if_pos h1]; rw [ihl]
    · by_cases h2 : v > d
      · simp only [insertNode, if_neg h1, if_pos h2]; rw [ihr]
      · simp only [insertNode, if_neg h1, if_neg h2]

theorem insertList_append (t : Node α) (xs ys : List α) :
    insertList t (xs ++ ys) = insertList (insertList t xs) ys := by
  simp [insertList, List.foldl_append]

theorem insertList_cons (t : Node α) (x : α) (xs : List α) :
    insertList t (x :: xs) = insertList (insertNode t x 0).1 xs := rfl

theorem mem_insertList (t : Node α) (xs : List α) (y : α) :
    y ∈ (insertList t xs).inorder ↔ y ∈ t.inorder ∨ y ∈ xs := by
  induction xs generalizing t with
  | nil => simp [insertList]
  | cons x xs ih =>
    rw [insertList_cons, ih, mem_insertNode]
    simp only [List.mem_cons]
    tauto

theorem isBST_insertList (t : Node α) (xs : List α) (h : IsBST t) : IsBST (insertList t xs) := by
  induction xs generalizing t with
  | nil => exact h
  | cons x xs ih => exact ih _ (isBST_insertNode t x 0 h)

/-- Values smaller than the value of a node are all inserted into its left subtree. -/
theorem insertList_left (d : α) (l r : Node α) (xs : List α) (h : ∀ x ∈ xs, x < d) :
    insertList (.node d l r) xs = .node d (insertList l xs) r := by
  induction xs generalizing l with
  | nil => rfl
  | cons x xs ih =>
    have hx : x < d := h x (List.mem_cons_self _ _)
    rw [insertList_cons, insertList_cons]
    simp only [insertNode, if_pos hx]
    exact ih _ (fun y hy => h y (List.mem_cons_of_mem _ hy))

/-- Values larger than the value of a node are all inserted into its right subtree. -/
theorem insertList_right (d : α) (l r : Node α) (xs : List α) (h : ∀ x ∈ xs, d < x) :
    insertList (.node d l r) xs = .node d l (insertList r xs) := by
  induction xs generalizing r with
  | nil => rfl
  | cons x xs ih =>
    have hx : d < x := h x (List.mem_cons_self _ _)
    rw [insertList_cons, insertList_cons]
    simp only [insertNode, if_neg (not_lt.mpr (le_of_lt hx)), if_pos (show x > d from hx)]
    exact ih _ (fun y hy => h y (List.mem_cons_of_mem _ hy))

/-- The nodes built by `buildBalanced` are those of inserting its values in call order. -/
theorem buildBalanced_root (elements : List α) (fuel : Nat) (start stop : Int)
    (t : BinarySearchTree α) :
    (buildBalanced elements fuel start stop t).root =
      insertList t.root (balancedOrder elements fuel start stop) := by
  induction fuel generalizing start stop t with
  | zero => rfl
  | succ fuel ih =>
    unfold buildBalanced balancedOrder
    split
    · rfl
    · simp only
      split
      · rename_i x hx
        rw [ih, ih, insertList_cons, insertList_append]
        simp only [insert]
        rw [insertNode_fst]
      · rfl

theorem slice_lt (elements : List α) (hs : elements.Pairwise (· < ·)) (a m : Nat)
    (hm : m < elements.length) : ∀ y ∈ (elements.drop a).take (m - a), y < elements[m] := by
  intro y hy
  by_cases ham : a ≤ m
  · have e : (elements.drop a).take (m - a) = (elements.take m).drop a := by
      rw [List.take_drop]
      have : a + (m - a) = m := by omega
      rw [this]
    rw [e] at hy
    have hy' : y ∈ elements.take m := List.mem_of_mem_drop hy
    have hsplit : elements = elements.take m ++ elements.drop m := (List.take_append_drop m _).symm
    rw [hsplit, List.pairwise_append] at hs
    apply hs.2.2 y hy'
    rw [List.drop_eq_getElem_cons hm]
    exact List.mem_cons_self _ _
  · have : m - a = 0 := by omega
    rw [this] at hy
    simp at hy

theorem slice_gt (elements : List α) (hs : elements.Pairwise (· < ·)) (m k : Nat)
    (hm : m < elements.length) : ∀ y ∈ (elements.drop (m + 1)).take k, elements[m] < y := by
  intro y hy
  have hy' : y ∈ elements.drop (m + 1) := List.mem_of_mem_take hy
  have hsub : (elements.drop m).Pairwise (· < ·) := hs.sublist (List.drop_sublist _ _)
  rw [List.drop_eq_getElem_cons hm, List.pairwise_cons] at hsub
  exact hsub.1 y hy'

end BinarySearchTree

namespace BinarySearchTree

variable {α : Type} [LinearOrder α]

/-- Inserting the values of `buildBalanced` for the index range `a, ..., b - 1` of a strictly
increasing list into the empty tree gives a search tree that lists exactly that range and
whose height `h` satisfies `2 ^ (h - 1) ≤ b - a`. -/
theorem insertList_balancedOrder (elements : List α) (hs : elements.Pairwise (· < ·))
    (fuel a b : Nat) (hab : a ≤ b) (hb : b ≤ elements.length) (hf : b - a ≤ fuel) :
    (insertList .nil (balancedOrder elements fuel (a : Int) ((b : Int) - 1))).inorder =
        (elements.drop a).take (b - a) ∧
      (1 ≤ (insertList .nil (balancedOrder elements fuel (a : Int) ((b : Int) - 1))).height →
        2 ^ ((insertList .nil (balancedOrder elements fuel (a : Int) ((b : Int) - 1))).height - 1)
          ≤ b - a) := by
  induction fuel generalizing a b with
  | zero =>
    have : b - a = 0 := by omega
    simp [balancedOrder, insertList, this, Node.height]
  | succ fuel ih =>
    unfold balancedOrder
    by_cases hlt : a < b
    · have hng : ¬ ((a : Int) > (b : Int) - 1) := by omega
      rw [if_neg hng]
      have hmid : Int.tdiv ((a : Int) + ((b : Int) - 1)) 2 = (((a + b - 1) / 2 : Nat) : Int) := by
        rw [Int.tdiv_eq_ediv (by omega) (by omega)]
        omega
      rw [hmid]
      have ham : a ≤ (a + b - 1) / 2 := by omega
      have hmb : (a + b - 1) / 2 < b := by omega
      have hml : (a + b - 1) / 2 < elements.length := by omega
      have hnl : 2 * ((a + b - 1) / 2 - a) ≤ b - a := by omega
      have hnr : 2 * (b - ((a + b - 1) / 2 + 1)) ≤ b - a := by omega
      generalize (a + b - 1) / 2 = m at ham hmb hml hnl hnr
      have hget : elements.get? (m : Int).toNat = some elements[m] := by
        simp [List.getElem?_eq_getElem hml]
      rw [hget]
      simp only
      have hsucc : ((m : Int) + 1) = ((m + 1 : Nat) : Int) := by push_cast; rfl
      rw [hsucc]
      obtain ⟨hLin, hLh⟩ := ih a m ham (by omega) (by omega)
      obtain ⟨hRin, hRh⟩ := ih (m + 1) b (by omega) hb (by omega)
      have hL : ∀ y ∈ balancedOrder elements fuel (a : Int) ((m : Int) - 1), y < elements[m] := by
        intro y hy
        have : y ∈ (insertList .nil (balancedOrder elements fuel (a : Int) ((m : Int) - 1))).inorder :=
          (mem_insertList _ _ _).mpr (Or.inr hy)
        rw [hLin] at this
        exact slice_lt elements hs a m hml y this
      have hR : ∀ y ∈ balancedOrder elements fuel ((m + 1 : Nat) : Int) ((b : Int) - 1),
          elements[m] < y := by
        intro y hy
        have : y ∈ (insertList .nil
            (balancedOrder elements fuel ((m + 1 : Nat) : Int) ((b : Int) - 1))).inorder :=
          (mem_insertList _ _ _).mpr (Or.inr hy)
        rw [hRin] at this
        exact slice_gt elements hs m _ hml y this
      have hT : insertList .nil (elements[m] ::
          (balancedOrder elements fuel (a : Int) ((m : Int) - 1) ++
            balancedOrder elements fuel ((m + 1 : Nat) : Int) ((b : Int) - 1))) =
          .node elements[m]
            (insertList .nil (balancedOrder elements fuel (a : Int) ((m : Int) - 1)))
            (insertList .nil (balancedOrder elements fuel ((m + 1 : Nat) : Int) ((b : Int) - 1))) := by
        rw [insertList_cons, insertList_append]
        simp only [insertNode]
        rw [insertList_left _ _ _ _ hL, insertList_right _ _ _ _ hR]
      rw [hT]
      refine ⟨?_, fun _ => ?_⟩
      · rw [Node.inorder_node, hLin, hRin]
        exact (slice_split elements a m b ham hmb hml).symm
      · simp only [Node.height, Nat.add_sub_cancel_left]
        rcases Nat.eq_zero_or_pos (max
            (insertList .nil (balancedOrder elements fuel (a : Int) ((m : Int) - 1))).height
            (insertList .nil
              (balancedOrder elements fuel ((m + 1 : Nat) : Int) ((b : Int) - 1))).height)
          with hz | hpos
        · rw [hz]; simp; omega
        · rcases le_total
              (insertList .nil
                (balancedOrder elements fuel ((m + 1 : Nat) : Int) ((b : Int) - 1))).height
              (insertList .nil (balancedOrder elements fuel (a : Int) ((m : Int) - 1))).height
            with hle | hle
          · rw [max_eq_left hle] at hpos ⊢
            have h1 := hLh hpos
            obtain ⟨k, hk⟩ : ∃ k, (insertList .nil
                (balancedOrder elements fuel (a : Int) ((m : Int) - 1))).height = k + 1 :=
              ⟨_, (Nat.sub_add_cancel hpos).symm⟩
            rw [hk] at h1 ⊢
            simp only [Nat.add_sub_cancel] at h1
            rw [pow_succ]
            omega
          · rw [max_eq_right hle] at hpos ⊢
            have h1 := hRh hpos
            obtain ⟨k, hk⟩ : ∃ k, (insertList .nil
                (balancedOrder elements fuel ((m + 1 : Nat) : Int) ((b : Int) - 1))).height =
                k + 1 := ⟨_, (Nat.sub_add_cancel hpos).symm⟩
            rw [hk] at h1 ⊢
            simp only [Nat.add_sub_cancel] at h1
            rw [pow_succ]
            omega
    · have hgt : (a : Int) > (b : Int) - 1 := by omega
      have : b - a = 0 := by omega
      rw [if_pos hgt]
      simp [insertList, this, Node.height]

end BinarySearchTree

namespace BinarySearchTree

variable {α : Type} [LinearOrder α]

/-- On a search tree `balance` rebuilds a tree with the same in-order sequence whose height `h`
satisfies `2 ^ (h - 1) ≤ n` for the number `n` of values. -/
theorem balance_root (t : BinarySearchTree α) (h : IsBST t.root) :
    (balance t).root.inorder = t.root.inorder ∧
      (1 ≤ (balance t).root.height →
        2 ^ ((balance t).root.height - 1) ≤ t.root.inorder.length) := by
  unfold balance
  simp only [traverse_inOrder]
  split
  · rename_i he
    have : t.root.inorder = [] := by simpa using he
    simp [clear, this, Node.height]
  · have hs := isBST_sorted _ h
    have := insertList_balancedOrder t.root.inorder hs t.root.inorder.length 0
      t.root.inorder.length (Nat.zero_le _) (le_refl _) (by omega)
    rw [buildBalanced_root]
    simp only [clear, Nat.cast_zero, List.drop_zero, Nat.sub_zero, List.take_length] at this ⊢
    exact this

theorem size_balance (t : BinarySearchTree α) (h : IsBST t.root) :
    (balance t).size = t.root.inorder.length := by
  rw [count_balance, ← Node.length_inorder, (balance_root t h).1]

theorem foldl_insert_root (f : α → α) (xs : List α) (t : BinarySearchTree α) :
    (xs.foldl (fun result value => insert result (f value)) t).root =
      insertList t.root (xs.map f) := by
  induction xs generalizing t with
  | nil => rfl
  | cons x xs ih =>
    simp only [List.foldl_cons, List.map_cons, insertList_cons]
    rw [ih]
    simp only [insert]
    rw [insertNode_fst]

theorem foldl_insert_count (f : α → α) (xs : List α) (t : BinarySearchTree α)
    (h : t.size = t.root.count) :
    (xs.foldl (fun result value => insert result (f value)) t).size =
      (xs.foldl (fun result value => insert result (f value)) t).root.count := by
  induction xs generalizing t with
  | nil => exact h
  | cons x xs ih => exact ih _ (count_insert t (f x) h)

/-- The tree `map` builds is a search tree that stores exactly the images, once each. -/
theorem map_root (t : BinarySearchTree α) (f : α → α) :
    IsBST (map t f).root ∧ (∀ y, y ∈ (map t f).root.inorder ↔ y ∈ t.root.inorder.map f) ∧
      (map t f).size = (t.root.inorder.map f).dedup.length := by
  have hroot : (map t f).root = insertList .nil (t.root.inorder.map f) := by
    unfold map
    rw [foldl_insert_root, traverse_inOrder]; rfl
  have hb : IsBST (map t f).root := by
    rw [hroot]; exact isBST_insertList _ _ trivial
  have hmem : ∀ y, y ∈ (map t f).root.inorder ↔ y ∈ t.root.inorder.map f := by
    intro y
    rw [hroot, mem_insertList]
    simp
  refine ⟨hb, hmem, ?_⟩
  have hcount : (map t f).size = (map t f).root.count := by
    unfold map
    exact foldl_insert_count f _ empty rfl
  rw [hcount, ← Node.length_inorder]
  apply List.Perm.length_eq
  rw [List.perm_ext_iff_of_nodup ((isBST_sorted _ hb).imp ne_of_lt) (List.nodup_dedup _)]
  intro y
  rw [hmem, List.mem_dedup]

/-! ### Further claims on the binary search tree -/

/-- C12: on a tree with the BST invariant, the height `h` of the tree after `balance()`
(nodes on the longest root-to-leaf path, 0 for the empty tree) is at most
`⌈log₂ (getSize() + 1)⌉`; in exact integers, `2 ^ (h - 1) ≤ getSize()` when the tree is not
empty. -/
theorem bst_balance_height (t : BinarySearchTree α) (h : IsBST t.root) :
    (balance t).root.height ≤ Nat.clog 2 (getSize (balance t) + 1) ∧
      (1 ≤ (balance t).root.height →
        2 ^ ((balance t).root.height - 1) ≤ getSize (balance t)) := by
  have hsize : getSize (balance t) = t.root.inorder.length := size_balance t h
  have hb := (balance_root t h).2
  rw [hsize]
  refine ⟨?_, hb⟩
  rcases Nat.eq_zero_or_pos (balance t).root.height with hz | hpos
  · rw [hz]; exact Nat.zero_le _
  · have h1 := hb hpos
    have h2 : (balance t).root.height - 1 < Nat.clog 2 (t.root.inorder.length + 1) :=
      (Nat.pow_lt_iff_lt_clog (by omega)).mp (by omega)
    omega

/-- Witness of C12: the tree built by inserting 10, 20, 5, 15, 25, 30 is balanced to a tree
with root 15 and height 3. -/
theorem bst_balance_height_witness :
    run [.insert 10, .insert 20, .insert 5, .insert 15, .insert 25, .insert 30] = scenarioTree ∧
    IsBST scenarioTree.root ∧
    ((balance scenarioTree).root.height ≤ Nat.clog 2 (getSize (balance scenarioTree) + 1) ∧
      (1 ≤ (balance scenarioTree).root.height →
        2 ^ ((balance scenarioTree).root.height - 1) ≤ getSize (balance scenarioTree))) ∧
    (balance scenarioTree).root =
      .node 15 (.node 5 .nil (.node 10 .nil .nil))
        (.node 25 (.node 20 .nil .nil) (.node 30 .nil .nil)) ∧
    (balance scenarioTree).root.height = 3 :=
  ⟨by decide, by decide, bst_balance_height scenarioTree (by decide), by decide, by decide⟩

/-- Counterexample to C13 as stated: the tree with root 10, left child 5 and `size` 4 satisfies
the BST invariant, and `balance()` changes its `getSize()` from 4 to 2. -/
theorem bst_balance_size_counterexample :
    IsBST miscountedTree.root ∧
    ¬ (getValuesInOrder (balance miscountedTree) = getValuesInOrder miscountedTree ∧
      getSize (balance miscountedTree) = getSize miscountedTree) := by
  decide

/-- C13 (amended): on a tree with the BST invariant, `balance()` preserves the in-order
sequence exactly; `getSize()` afterwards is the number of stored values, so it is preserved
whenever `size` was equal to the node count. -/
theorem bst_balance_inorder (t : BinarySearchTree α) (h : IsBST t.root) :
    getValuesInOrder (balance t) = getValuesInOrder t ∧
    getSize (balance t) = (getValuesInOrder t).length ∧
    (t.size = t.root.count → getSize (balance t) = getSize t) := by
  simp only [getValuesInOrder_eq]
  refine ⟨(balance_root t h).1, size_balance t h, fun hc => ?_⟩
  rw [getSize, size_balance t h, Node.length_inorder, getSize, hc]

/-- Witness of C13 (amended) on the sample tree. -/
theorem bst_balance_inorder_witness :
    IsBST sampleTree.root ∧
    (getValuesInOrder (balance sampleTree) = getValuesInOrder sampleTree ∧
    getSize (balance sampleTree) = (getValuesInOrder sampleTree).length ∧
    (sampleTree.size = sampleTree.root.count →
      getSize (balance sampleTree) = getSize sampleTree)) :=
  ⟨by decide, bst_balance_inorder sampleTree (by decide)⟩

/-- C14: in every tree reached from the empty tree by a finite sequence of `insert`, `remove`,
`balance` and `clear` calls, `getSize()` is the number of nodes below the root, and a `remove`
that returns true decrements it by exactly one (also when the node has two children). -/
theorem bst_reachable_count (ops : List (Op α)) :
    getSize (run ops) = (run ops).root.count ∧
    ∀ v, (remove (run ops) v).1 = true →
      getSize (remove (run ops) v).2 + 1 = getSize (run ops) ∧
      getSize (remove (run ops) v).2 = (remove (run ops) v).2.root.count := by
  have hc : (run ops).size = (run ops).root.count := count_foldl ops empty rfl
  have hb : IsBST (run ops).root := isBST_foldl ops empty trivial
  refine ⟨hc, fun v hf => ⟨remove_size_of_flag _ v hb hf, ?_⟩⟩
  exact count_applyOp (run ops) (.remove v) hc

/-- Counterexample to C20 as stated: on the tree with root 10, left child 5 and `size` 4, the
identity is injective, yet `map` returns a tree of size 2 while `getSize()` of the tree is 4. -/
theorem bst_map_size_counterexample :
    IsBST miscountedTree.root ∧ Function.Injective (fun x : Int => x) ∧
    getSize (map miscountedTree (fun x => x)) ≠ getSize miscountedTree :=
  ⟨by decide, fun _ _ hxy => hxy, by decide⟩

/-- C20 (amended): on a tree with the BST invariant, `map(f)` returns a tree that satisfies the
BST invariant and stores exactly the values `f x` for `x` stored in the tree; its `getSize()`
is the number of distinct images, so it is the number of stored values whenever `f` is
injective on them, and then equals `getSize()` of the tree if `size` was its node count. -/
theorem bst_map_spec (t : BinarySearchTree α) (f : α → α) (h : IsBST t.root) :
    IsBST (map t f).root ∧
    (∀ y, y ∈ getValuesInOrder (map t f) ↔ ∃ x ∈ getValuesInOrder t, f x = y) ∧
    getSize (map t f) = ((getValuesInOrder t).map f).dedup.length ∧
    ((∀ x ∈ getValuesInOrder t, ∀ y ∈ getValuesInOrder t, f x = f y → x = y) →
      getSize (map t f) = (getValuesInOrder t).length ∧
      (t.size = t.root.count → getSize (map t f) = getSize t)) := by
  simp only [getValuesInOrder_eq]
  obtain ⟨hb, hmem, hsize⟩ := map_root t f
  refine ⟨hb, fun y => by rw [hmem]; simp, hsize, fun hinj => ?_⟩
  have hnd : t.root.inorder.Nodup := (isBST_sorted _ h).imp ne_of_lt
  have hlen : getSize (map t f) = t.root.inorder.length := by
    rw [getSize, hsize, (List.Nodup.map_on hinj hnd).dedup, List.length_map]
  exact ⟨hlen, fun hc => by rw [hlen, Node.length_inorder, getSize, hc]⟩

/-- Witness of C20 (amended) on the sample tree with `f x = 2 * x`. -/
theorem bst_map_spec_witness :
    IsBST sampleTree.root ∧
    (IsBST (map sampleTree (fun x => 2 * x)).root ∧
    (∀ y, y ∈ getValuesInOrder (map sampleTree (fun x => 2 * x)) ↔
      ∃ x ∈ getValuesInOrder sampleTree, (fun x => 2 * x) x = y) ∧
    getSize (map sampleTree (fun x => 2 * x)) =
      ((getValuesInOrder sampleTree).map (fun x => 2 * x)).dedup.length ∧
    ((∀ x ∈ getValuesInOrder sampleTree, ∀ y ∈ getValuesInOrder sampleTree,
        (fun x => 2 * x) x = (fun x => 2 * x) y → x = y) →
      getSize (map sampleTree (fun x => 2 * x)) = (getValuesInOrder sampleTree).length ∧
      (sampleTree.size = sampleTree.root.count →
        getSize (map sampleTree (fun x => 2 * x)) = getSize sampleTree))) :=
  ⟨by decide, bst_map_spec sampleTree (fun x => 2 * x) (by decide)⟩

end BinarySearchTree

/-! ## Theorems: binary heap -/

namespace Node

variable {α : Type}

@[simp] theorem preorder_nil : (nil : Node α).preorder = [] := rfl

@[simp] theorem preorder_node (d : α) (l r : Node α) :
    (node d l r).preorder = d :: (l.preorder ++ r.preorder) := by
  simp [preorder, traverseByType]

@[simp] theorem subtreeAt_empty (t : Node α) : subtreeAt t [] = t := by
  cases t <;> rfl

@[simp] theorem descend_empty (t : Node α) (acc : List (Frame α)) :
    descend t [] acc = some (t, acc) := by
  cases t <;> rfl

@[simp] theorem detach_empty (t : Node α) : detach t [] = nil := by
  cases t <;> rfl

theorem plug_append (a b : List (Frame α)) (t : Node α) :
    plug (a ++ b) t = plug b (plug a t) := by
  induction a generalizing t with
  | nil => rfl
  | cons f a ih => simp [plug, ih]

/-- Following a path splits the tree into the node reached and its chain of parents; putting
any node in that place and following the path again leads to it. -/
theorem descend_spec (t : Node α) (p : List Bool) (acc : List (Frame α)) (f : Node α)
    (ctx : List (Frame α)) (h : descend t p acc = some (f, ctx)) :
    ∃ c, ctx = c ++ acc ∧ plug c f = t ∧ subtreeAt t p = f ∧
      ∀ g, descend (plug c g) p acc = some (g, c ++ acc) := by
  induction p generalizing t acc with
  | nil =>
    simp only [descend_empty, Option.some.injEq, Prod.mk.injEq] at h
    obtain ⟨rfl, rfl⟩ := h
    exact ⟨[], rfl, rfl, by simp, fun g => by simp [plug]⟩
  | cons b p ih =>
    cases t with
    | nil => simp [descend] at h
    | node d l r =>
      cases b with
      | true =>
        simp only [descend] at h
        obtain ⟨c, hc, hp, hs, hg⟩ := ih l _ h
        refine ⟨c ++ [⟨true, d, r⟩], by simp [hc], ?_, by simpa [subtreeAt] using hs, ?_⟩
        · simp [plug_append, plug, plugFrame, hp]
        · intro g
          simp only [plug_append, plug, plugFrame, descend, if_true, List.append_assoc,
            List.singleton_append]
          exact hg g
      | false =>
        simp only [descend] at h
        obtain ⟨c, hc, hp, hs, hg⟩ := ih r _ h
        refine ⟨c ++ [⟨false, d, l⟩], by simp [hc], ?_, by simpa [subtreeAt] using hs, ?_⟩
        · simp [plug_append, plug, plugFrame, hp]
        · intro g
          simp only [plug_append, plug, plugFrame, descend, List.append_assoc,
            List.singleton_append]
          exact hg g

theorem descend_plug (t : Node α) (p : List Bool) (f : Node α) (ctx : List (Frame α))
    (h : descend t p [] = some (f, ctx)) :
    plug ctx f = t ∧ subtreeAt t p = f ∧ ∀ g, descend (plug ctx g) p [] = some (g, ctx) := by
  obtain ⟨c, hc, hp, hs, hg⟩ := descend_spec t p [] f ctx h
  simp only [List.append_nil] at hc hg
  subst hc
  exact ⟨hp, hs, hg⟩

theorem descend_of_subtreeAt (t : Node α) (p : List Bool) (acc : List (Frame α)) (d : α)
    (l r : Node α) (h : subtreeAt t p = node d l r) :
    ∃ ctx, descend t p acc = some (node d l r, ctx) := by
  induction p generalizing t acc with
  | nil => exact ⟨acc, by simpa using h⟩
  | cons b p ih =>
    cases t with
    | nil => simp [subtreeAt] at h
    | node d' l' r' =>
      cases b with
      | true => exact ih l' _ (by simpa [subtreeAt] using h)
      | false => exact ih r' _ (by simpa [subtreeAt] using h)

theorem subtreeAt_append (t : Node α) (p q : List Bool) :
    subtreeAt t (p ++ q) = subtreeAt (subtreeAt t p) q := by
  induction p generalizing t with
  | nil => simp
  | cons b p ih =>
    cases t with
    | nil => cases q <;> simp [subtreeAt]
    | node d l r => cases b <;> simp [subtreeAt, ih]

theorem subtreeAt_detach_self (t : Node α) (p : List Bool) : subtreeAt (detach t p) p = nil := by
  induction p generalizing t with
  | nil => simp
  | cons b p ih =>
    cases t with
    | nil => simp [detach, subtreeAt]
    | node d l r => cases b <;> simp [detach, subtreeAt, ih]

theorem setData_of_subtreeAt_nil (t : Node α) (p : List Bool) (x : α)
    (h : subtreeAt t p = nil) : setData t p x = t := by
  induction p generalizing t with
  | nil =>
    rw [subtreeAt_empty] at h
    subst h; rfl
  | cons b p ih =>
    cases t with
    | nil => rfl
    | node d l r =>
      cases b with
      | true => simp only [setData]; rw [ih l (by simpa [subtreeAt] using h)]
      | false => simp only [setData]; rw [ih r (by simpa [subtreeAt] using h)]

/-- Writing the value of a leaf into some node leaves that leaf as it is. -/
theorem subtreeAt_setData_leaf (t : Node α) (p q : List Bool) (x : α)
    (h : subtreeAt t q = node x nil nil) : subtreeAt (setData t p x) q = node x nil nil := by
  induction t generalizing p q with
  | nil => cases q <;> simp [subtreeAt] at h
  | node d l r ihl ihr =>
    cases p with
    | nil =>
      cases q with
      | nil =>
        simp only [subtreeAt_empty, node.injEq] at h
        obtain ⟨_, rfl, rfl⟩ := h
        simp [setData]
      | cons c q => cases c <;> simpa [setData, subtreeAt] using h
    | cons b p =>
      cases q with
      | nil =>
        simp only [subtreeAt_empty, node.injEq] at h
        obtain ⟨rfl, rfl, rfl⟩ := h
        cases b <;> simp [setData]
      | cons c q =>
        cases b <;> cases c <;> simp only [setData, subtreeAt] at h ⊢
        · exact ihr _ _ h
        · exact h
        · exact h
        · exact ihl _ _ h

theorem setData_eq_plug (t : Node α) (p : List Bool) (acc : List (Frame α)) (d : α)
    (l r : Node α) (ctx : List (Frame α)) (x : α)
    (h : descend t p acc = some (node d l r, ctx)) :
    plug acc (setData t p x) = plug ctx (node x l r) := by
  induction p generalizing t acc with
  | nil =>
    simp only [descend_empty, Option.some.injEq, Prod.mk.injEq] at h
    obtain ⟨rfl, rfl⟩ := h
    simp [setData]
  | cons b p ih =>
    cases t with
    | nil => simp [descend] at h
    | node d' l' r' =>
      cases b with
      | true =>
        simp only [descend] at h
        rw [← ih l' _ h]
        simp [setData, plug, plugFrame]
      | false =>
        simp only [descend] at h
        rw [← ih r' _ h]
        simp [setData, plug, plugFrame]

theorem detach_eq_plug (t : Node α) (p : List Bool) (acc : List (Frame α)) (f : Node α)
    (ctx : List (Frame α)) (h : descend t p acc = some (f, ctx)) :
    plug acc (detach t p) = plug ctx nil := by
  induction p generalizing t acc with
  | nil =>
    simp only [descend_empty, Option.some.injEq, Prod.mk.injEq] at h
    obtain ⟨rfl, rfl⟩ := h
    simp
  | cons b p ih =>
    cases t with
    | nil => simp [descend] at h
    | node d' l' r' =>
      cases b with
      | true =>
        simp only [descend] at h
        rw [← ih l' _ h]
        simp [detach, plug, plugFrame]
      | false =>
        simp only [descend] at h
        rw [← ih r' _ h]
        simp [detach, plug, plugFrame]

theorem detach_setData (t : Node α) (p q : List Bool) (x : α) :
    detach (setData t p x) q = setData (detach t q) p x := by
  induction t generalizing p q with
  | nil => cases p <;> cases q <;> simp [setData, detach]
  | node d l r ihl ihr =>
    cases q with
    | nil => cases p with
      | nil => simp [setData, detach]
      | cons b p => cases b <;> simp [setData, detach]
    | cons c q =>
      cases p with
      | nil => cases c <;> simp [setData, detach]
      | cons b p =>
        cases b <;> cases c <;> simp [setData, detach, ihl, ihr]

/-! ### Shapes and stored values around a node -/

theorem shape_plug_congr (ctx : List (Frame α)) (f g : Node α) (h : f.shape = g.shape) :
    (plug ctx f).shape = (plug ctx g).shape := by
  induction ctx generalizing f g with
  | nil => exact h
  | cons fr ctx ih =>
    apply ih
    simp only [plugFrame]
    split <;> simp [shape, h]

theorem perm_plug_congr (ctx : List (Frame α)) (f g : Node α)
    (h : f.preorder.Perm g.preorder) : (plug ctx f).preorder.Perm (plug ctx g).preorder := by
  induction ctx generalizing f g with
  | nil => exact h
  | cons fr ctx ih =>
    apply ih
    simp only [plugFrame]
    split
    · simp only [preorder_node, List.perm_cons]
      exact h.append_right _
    · simp only [preorder_node, List.perm_cons]
      exact h.append_left _

theorem perm_plug_cons (ctx : List (Frame α)) (f g : Node α) (v : α)
    (h : f.preorder.Perm (v :: g.preorder)) :
    (plug ctx f).preorder.Perm (v :: (plug ctx g).preorder) := by
  induction ctx generalizing f g with
  | nil => exact h
  | cons fr ctx ih =>
    apply ih
    simp only [plugFrame]
    split
    · simp only [preorder_node]
      refine (List.Perm.cons _ (h.append_right _)).trans ?_
      simp only [List.cons_append]
      exact List.Perm.swap _ _ _
    · simp only [preorder_node]
      refine (List.Perm.cons _ (List.Perm.append_left _ h)).trans ?_
      refine (List.Perm.cons _ List.perm_middle).trans ?_
      exact List.Perm.swap _ _ _

end Node

namespace BinaryHeap

variable {α : Type} [LinearOrder α]

/-! ### Heap order around a node -/

theorem rootLE_mono {a b : α} (hab : a ≤ b) (t : Node α) (h : rootLE a t) : rootLE b t := by
  cases t with
  | nil => trivial
  | node d l r => exact le_trans h hab

theorem ctxRootLE_of_bound (ctx : List (Frame α)) (b : α) (t : Node α)
    (hb : ctxBound ctx b) (h : rootLE b t) : ctxRootLE ctx t := by
  cases ctx with
  | nil => trivial
  | cons f ctx => exact rootLE_mono hb t h

theorem plug_ordered (ctx : List (Frame α)) (t : Node α) (ht : HeapOrdered t)
    (hc : CtxOrdered ctx) (hr : ctxRootLE ctx t) : HeapOrdered (Node.plug ctx t) := by
  induction ctx generalizing t with
  | nil => exact ht
  | cons f ctx ih =>
    obtain ⟨hs, hso, hb, hc'⟩ := hc
    simp only [Node.plug]
    apply ih _ _ hc'
    · cases ctx with
      | nil => trivial
      | cons g ctx =>
        simp only [Node.plugFrame]
        split <;> exact hb
    · simp only [Node.plugFrame]
      split
      · exact ⟨hr, hs, ht, hso⟩
      · exact ⟨hs, hr, hso, ht⟩

/-- Focusing on a node of an ordered heap gives an ordered node in an ordered chain of
parents. -/
theorem descend_ordered (t : Node α) (p : List Bool) (acc : List (Frame α)) (f : Node α)
    (ctx : List (Frame α)) (h : Node.descend t p acc = some (f, ctx)) (ht : HeapOrdered t)
    (hc : CtxOrdered acc) (hr : ctxRootLE acc t) :
    HeapOrdered f ∧ CtxOrdered ctx ∧ ctxRootLE ctx f := by
  induction p generalizing t acc with
  | nil =>
    simp only [Node.descend_empty, Option.some.injEq, Prod.mk.injEq] at h
    obtain ⟨rfl, rfl⟩ := h
    exact ⟨ht, hc, hr⟩
  | cons b p ih =>
    cases t with
    | nil => simp [Node.descend] at h
    | node d l r =>
      obtain ⟨hl, hr', hlo, hro⟩ := ht
      have hbound : ctxBound acc d := by
        cases acc with
        | nil => trivial
        | cons g acc => exact hr
      cases b with
      | true =>
        simp only [Node.descend] at h
        exact ih l _ h hlo ⟨hr', hro, hbound, hc⟩ hl
      | false =>
        simp only [Node.descend] at h
        exact ih r _ h hro ⟨hl, hlo, hbound, hc⟩ hr'

theorem heapifyUpLoop_ordered (ctx : List (Frame α)) (d : α) (l r : Node α)
    (hl : HeapOrdered l) (hr : HeapOrdered r) (hdl : rootLE d l) (hdr : rootLE d r)
    (hc : CtxOrdered ctx) (hcl : ctxRootLE ctx l) (hcr : ctxRootLE ctx r) :
    HeapOrdered (heapifyUpLoop (.node d l r) ctx) := by
  induction ctx generalizing d l r with
  | nil => exact ⟨hdl, hdr, hl, hr⟩
  | cons f ctx ih =>
    obtain ⟨b, fd, s⟩ := f
    obtain ⟨hs, hso, hb, hc'⟩ := hc
    simp only [ctxRootLE] at hcl hcr
    simp only [heapifyUpLoop]
    split
    · rename_i hlt
      have hsd : rootLE d s := rootLE_mono (le_of_lt hlt) s hs
      have hinner : HeapOrdered (.node fd l r) := ⟨hcl, hcr, hl, hr⟩
      have hbi : ctxRootLE ctx (.node fd l r) := by
        cases ctx with
        | nil => trivial
        | cons g ctx => exact hb
      have hbs : ctxRootLE ctx s := ctxRootLE_of_bound ctx fd s hb hs
      cases b with
      | true =>
        simp only [Node.plugFrame, if_true]
        exact ih d (.node fd l r) s hinner hso (le_of_lt hlt) hsd hc' hbi hbs
      | false =>
        simp only [Node.plugFrame, Bool.false_eq_true, if_false]
        exact ih d s (.node fd l r) hso hinner hsd (le_of_lt hlt) hc' hbs hbi
    · rename_i hnlt
      exact plug_ordered _ _ ⟨hdl, hdr, hl, hr⟩ ⟨hs, hso, hb, hc'⟩ (not_lt.mp hnlt)

theorem heapifyUpLoop_shape (ctx : List (Frame α)) (t : Node α) :
    (heapifyUpLoop t ctx).shape = (Node.plug ctx t).shape := by
  induction ctx generalizing t with
  | nil => cases t <;> rfl
  | cons f ctx ih =>
    cases t with
    | nil => rfl
    | node d l r =>
      simp only [heapifyUpLoop]
      split
      · rw [ih]
        simp only [Node.plug]
        apply Node.shape_plug_congr
        simp only [Node.plugFrame]
        split <;> simp [Node.shape]
      · rfl

theorem heapifyUpLoop_perm (ctx : List (Frame α)) (t : Node α) :
    (heapifyUpLoop t ctx).preorder.Perm (Node.plug ctx t).preorder := by
  induction ctx generalizing t with
  | nil => cases t <;> exact List.Perm.refl _
  | cons f ctx ih =>
    cases t with
    | nil => exact List.Perm.refl _
    | node d l r =>
      simp only [heapifyUpLoop]
      split
      · refine (ih _).trans ?_
        simp only [Node.plug]
        apply Node.perm_plug_congr
        simp only [Node.plugFrame]
        split
        · simp only [Node.preorder_node, List.cons_append]
          exact List.Perm.swap _ _ _
        · simp only [Node.preorder_node]
          refine (List.Perm.cons _ List.perm_middle).trans ?_
          refine (List.Perm.swap _ _ _).trans ?_
          exact List.Perm.cons _ List.perm_middle.symm
      · exact List.Perm.refl _

/-! ### Sifting down -/

/-- One round of the loop of `heapifyDown`: the node keeps `v` when no child is greater;
otherwise the greater child's value moves up and the loop goes on in that child. -/
theorem heapifyDownLoop_cases (d : α) (l r : Node α) (v : α) :
    (heapifyDownLoop (.node d l r) v = .node v l r ∧ rootLE v l ∧ rootLE v r) ∨
    (∃ ld ll lr, l = .node ld ll lr ∧ v < ld ∧ rootLE ld r ∧
      heapifyDownLoop (.node d l r) v = .node ld (heapifyDownLoop (.node ld ll lr) v) r) ∨
    (∃ rd rl rr, r = .node rd rl rr ∧ v < rd ∧ rootLE rd l ∧
      heapifyDownLoop (.node d l r) v = .node rd l (heapifyDownLoop (.node rd rl rr) v)) := by
  cases l with
  | nil =>
    cases r with
    | nil => exact Or.inl ⟨rfl, trivial, trivial⟩
    | node rd rl rr =>
      by_cases h : v < rd
      · refine Or.inr (Or.inr ⟨rd, rl, rr, rfl, h, trivial, ?_⟩)
        rw [heapifyDownLoop]; simp only [if_pos h]
      · refine Or.inl ⟨?_, trivial, not_lt.mp h⟩
        rw [heapifyDownLoop]; simp only [if_neg h]
  | node ld ll lr =>
    cases r with
    | nil =>
      by_cases h : v < ld
      · refine Or.inr (Or.inl ⟨ld, ll, lr, rfl, h, trivial, ?_⟩)
        rw [heapifyDownLoop]; simp only [if_pos h]
      · refine Or.inl ⟨?_, not_lt.mp h, trivial⟩
        rw [heapifyDownLoop]; simp only [if_neg h]
    | node rd rl rr =>
      by_cases h : v < ld
      · by_cases h2 : ld < rd
        · refine Or.inr (Or.inr ⟨rd, rl, rr, rfl, lt_trans h h2, le_of_lt h2, ?_⟩)
          rw [heapifyDownLoop]; simp only [if_pos h, if_pos h2]
        · refine Or.inr (Or.inl ⟨ld, ll, lr, rfl, h, not_lt.mp h2, ?_⟩)
          rw [heapifyDownLoop]; simp only [if_pos h, if_neg h2]
      · by_cases h2 : v < rd
        · refine Or.inr (Or.inr ⟨rd, rl, rr, rfl, h2, le_trans (not_lt.mp h) (le_of_lt h2), ?_⟩)
          rw [heapifyDownLoop]; simp only [if_neg h, if_pos h2]
        · refine Or.inl ⟨?_, not_lt.mp h, not_lt.mp h2⟩
          rw [heapifyDownLoop]; simp only [if_neg h, if_neg h2]

theorem heapifyDownLoop_shape (t : Node α) (v : α) : (heapifyDownLoop t v).shape = t.shape := by
  induction t generalizing v with
  | nil => rfl
  | node d l r ihl ihr =>
    rcases heapifyDownLoop_cases d l r v with ⟨e, _, _⟩ | ⟨ld, ll, lr, rfl, _, _, e⟩ |
      ⟨rd, rl, rr, rfl, _, _, e⟩
    · rw [e]; rfl
    · rw [e]; simp only [Node.shape, ihl v]
    · rw [e]; simp only [Node.shape, ihr v]

theorem heapifyDownLoop_perm (t : Node α) (d : α) (l r : Node α) (v : α)
    (ht : t = .node d l r) :
    (heapifyDownLoop t v).preorder.Perm (v :: (l.preorder ++ r.preorder)) := by
  induction t generalizing d l r v with
  | nil => cases ht
  | node d' l' r' ihl ihr =>
    obtain ⟨rfl, rfl, rfl⟩ : d' = d ∧ l' = l ∧ r' = r := by
      cases ht; exact ⟨rfl, rfl, rfl⟩
    rcases heapifyDownLoop_cases d' l' r' v with ⟨e, _, _⟩ | ⟨ld, ll, lr, rfl, _, _, e⟩ |
      ⟨rd, rl, rr, rfl, _, _, e⟩
    · rw [e]; simp
    · rw [e]
      simp only [Node.preorder_node, List.cons_append]
      refine (List.Perm.cons _ ((ihl ld ll lr v rfl).append_right _)).trans ?_
      exact List.Perm.swap _ _ _
    · rw [e]
      simp only [Node.preorder_node]
      refine (List.Perm.cons _ ((ihr rd rl rr v rfl).append_left _)).trans ?_
      refine (List.Perm.cons _ List.perm_middle).trans ?_
      refine (List.Perm.swap _ _ _).trans ?_
      exact List.Perm.cons _ List.perm_middle.symm

/-- Sifting `v` down through ordered subtrees gives an ordered subtree whose root is bounded
by every bound of `v` and of the two children. -/
theorem heapifyDownLoop_ordered (t : Node α) (d : α) (l r : Node α) (v : α)
    (ht : t = .node d l r) (hl : HeapOrdered l) (hr : HeapOrdered r) :
    HeapOrdered (heapifyDownLoop t v) ∧
      ∀ b, v ≤ b → rootLE b l → rootLE b r → rootLE b (heapifyDownLoop t v) := by
  induction t generalizing d l r v with
  | nil => cases ht
  | node d' l' r' ihl ihr =>
    obtain ⟨rfl, rfl, rfl⟩ : d' = d ∧ l' = l ∧ r' = r := by
      cases ht; exact ⟨rfl, rfl, rfl⟩
    rcases heapifyDownLoop_cases d' l' r' v with ⟨e, h1, h2⟩ | ⟨ld, ll, lr, rfl, h1, h2, e⟩ |
      ⟨rd, rl, rr, rfl, h1, h2, e⟩
    · rw [e]
      exact ⟨⟨h1, h2, hl, hr⟩, fun b hb _ _ => hb⟩
    · rw [e]
      obtain ⟨hll, hlr, hllo, hlro⟩ := hl
      obtain ⟨ho, hb⟩ := ihl ld ll lr v rfl hllo hlro
      exact ⟨⟨hb ld (le_of_lt h1) hll hlr, h2, ho, hr⟩, fun b _ hbl _ => hbl⟩
    · rw [e]
      obtain ⟨hrl, hrr, hrlo, hrro⟩ := hr
      obtain ⟨ho, hb⟩ := ihr rd rl rr v rfl hrlo hrro
      exact ⟨⟨h2, hb rd (le_of_lt h1) hrl hrr, hl, ho⟩, fun b _ _ hbr => hbr⟩

/-- After sifting `v` down, the children of the resulting node are bounded by every bound of
the children before. -/
theorem heapifyDownLoop_children (d : α) (l r : Node α) (v : α)
    (hl : HeapOrdered l) (hr : HeapOrdered r) :
    ∃ d' l' r', heapifyDownLoop (.node d l r) v = .node d' l' r' ∧
      ∀ b, rootLE b l → rootLE b r → rootLE b l' ∧ rootLE b r' := by
  rcases heapifyDownLoop_cases d l r v with ⟨e, _, _⟩ | ⟨ld, ll, lr, rfl, h1, _, e⟩ |
    ⟨rd, rl, rr, rfl, h1, _, e⟩
  · exact ⟨v, l, r, e, fun b hbl hbr => ⟨hbl, hbr⟩⟩
  · refine ⟨ld, _, r, e, fun b hbl hbr => ⟨?_, hbr⟩⟩
    obtain ⟨hll, hlr, hllo, hlro⟩ := hl
    have hb : ld ≤ b := hbl
    exact (heapifyDownLoop_ordered _ ld ll lr v rfl hllo hlro).2 b (le_trans (le_of_lt h1) hb)
      (rootLE_mono hb ll hll) (rootLE_mono hb lr hlr)
  · refine ⟨rd, l, _, e, fun b hbl hbr => ⟨hbl, ?_⟩⟩
    obtain ⟨hrl, hrr, hrlo, hrro⟩ := hr
    have hb : rd ≤ b := hbr
    exact (heapifyDownLoop_ordered _ rd rl rr v rfl hrlo hrro).2 b (le_trans (le_of_lt h1) hb)
      (rootLE_mono hb rl hrl) (rootLE_mono hb rr hrr)

end BinaryHeap

namespace Node

variable {α : Type}

/-- The values of a tree rebuilt around a node are those of the node and of the chain. -/
theorem perm_plug (ctx : List (Frame α)) :
    ∃ rest, ∀ f : Node α, (plug ctx f).preorder.Perm (f.preorder ++ rest) := by
  induction ctx with
  | nil => exact ⟨[], fun f => by simp [plug]⟩
  | cons fr ctx ih =>
    obtain ⟨rest, hrest⟩ := ih
    refine ⟨fr.data :: fr.sibling.preorder ++ rest, fun f => ?_⟩
    refine (hrest _).trans ?_
    simp only [plugFrame]
    split
    · simp only [preorder_node, List.cons_append, List.append_assoc]
      exact List.perm_middle.symm
    · simp only [preorder_node, List.cons_append, List.append_assoc]
      refine List.Perm.trans ?_ List.perm_middle.symm
      refine List.Perm.cons _ ?_
      rw [← List.append_assoc, ← List.append_assoc]
      exact List.Perm.append_right _ List.perm_append_comm

/-! ### Heap indices and paths -/

theorem pathIndex_append (i : Nat) (p q : List Bool) :
    pathIndex i (p ++ q) = pathIndex (pathIndex i p) q := by
  induction p generalizing i with
  | nil => rfl
  | cons b p ih => cases b <;> simp [pathIndex, ih]

theorem le_pathIndex (i : Nat) (p : List Bool) : i ≤ pathIndex i p := by
  induction p generalizing i with
  | nil => exact le_refl _
  | cons b p ih =>
    cases b
    · exact le_trans (by omega) (ih (2 * i + 1))
    · exact le_trans (by omega) (ih (2 * i))

theorem lt_pathIndex_cons (i : Nat) (hi : 1 ≤ i) (b : Bool) (p : List Bool) :
    i < pathIndex i (b :: p) := by
  cases b
  · exact lt_of_lt_of_le (by omega) (le_pathIndex (2 * i + 1) p)
  · exact lt_of_lt_of_le (by omega) (le_pathIndex (2 * i) p)

theorem add_length_le_pathIndex (i : Nat) (hi : 1 ≤ i) (p : List Bool) :
    i + p.length ≤ pathIndex i p := by
  induction p generalizing i with
  | nil => exact le_refl _
  | cons b p ih =>
    cases b
    · have := ih (2 * i + 1) (by omega)
      simp only [pathIndex, List.length_cons]
      omega
    · have := ih (2 * i) (by omega)
      simp only [pathIndex, List.length_cons]
      omega

theorem subtreeAt_nil (p : List Bool) : subtreeAt (nil : Node α) p = nil := by
  cases p <;> rfl

end Node

namespace BinaryHeap

variable {α : Type}

open Node

/-- The directions pushed by `addLast` for `path = m` lead to heap index `m`. -/
theorem pathIndex_pushDirections (fuel m : Nat) (acc : List Bool) (hm : 1 ≤ m)
    (hf : m ≤ fuel) : pathIndex 1 (pushDirections fuel m acc) = pathIndex m acc := by
  induction fuel generalizing m acc with
  | zero => omega
  | succ fuel ih =>
    simp only [pushDirections]
    split
    · rename_i h1
      rw [ih (m / 2) _ (by omega) (by omega)]
      rcases Nat.mod_two_eq_zero_or_one m with h0 | h0
      · have : 2 * (m / 2) = m := by omega
        simp [h0, pathIndex, this]
      · have : 2 * (m / 2) + 1 = m := by omega
        simp [h0, pathIndex, this]
    · have : m = 1 := by omega
      rw [this]

/-- The directions pushed for the index of a path are that path. -/
theorem pushDirections_pathIndex (fuel : Nat) (p acc : List Bool) (hf : p.length ≤ fuel) :
    pushDirections fuel (pathIndex 1 p) acc = p ++ acc := by
  induction p using List.reverseRecOn generalizing fuel acc with
  | nil => cases fuel <;> simp [pushDirections, pathIndex]
  | append_singleton p b ih =>
    cases fuel with
    | zero => simp at hf
    | succ fuel =>
      have hp := le_pathIndex 1 p
      rw [pathIndex_append]
      simp only [pushDirections]
      cases b
      · simp only [pathIndex]
        rw [if_pos (by omega)]
        have h1 : (2 * pathIndex 1 p + 1) / 2 = pathIndex 1 p := by omega
        have h2 : ((2 * pathIndex 1 p + 1) % 2 == 0) = false := by
          have : (2 * pathIndex 1 p + 1) % 2 = 1 := by omega
          simp [this]
        rw [h1, h2, ih fuel _ (by simpa using hf)]
        simp
      · simp only [pathIndex]
        rw [if_pos (by omega)]
        have h1 : (2 * pathIndex 1 p) / 2 = pathIndex 1 p := by omega
        have h2 : ((2 * pathIndex 1 p) % 2 == 0) = true := by
          have : (2 * pathIndex 1 p) % 2 = 0 := by omega
          simp [this]
        rw [h1, h2, ih fuel _ (by simpa using hf)]
        simp

theorem pathIndex_injective (p q : List Bool) (h : pathIndex 1 p = pathIndex 1 q) : p = q := by
  have hp := pushDirections_pathIndex (p.length + q.length) p [] (by omega)
  have hq := pushDirections_pathIndex (p.length + q.length) q [] (by omega)
  rw [h, hq] at hp
  simpa using hp.symm

/-- The positions below the two children of a position are different. -/
theorem pathIndex_left_ne_right (i : Nat) (hi : 1 ≤ i) (p q : List Bool) :
    pathIndex (2 * i) p ≠ pathIndex (2 * i + 1) q := by
  intro h
  have hi' : pathIndex 1 (pushDirections i i []) = i := by
    rw [pathIndex_pushDirections i i [] hi (le_refl _)]; rfl
  have e1 : pathIndex (2 * i) p = pathIndex 1 (pushDirections i i [] ++ true :: p) := by
    rw [pathIndex_append, hi']; rfl
  have e2 : pathIndex (2 * i + 1) q = pathIndex 1 (pushDirections i i [] ++ false :: q) := by
    rw [pathIndex_append, hi']; rfl
  rw [e1, e2] at h
  have := pathIndex_injective _ _ h
  simp at this

/-! ### Shape-completeness -/

theorem complete_shape (i n : Nat) (t : Node α) : Complete i n t.shape ↔ Complete i n t := by
  induction t generalizing i with
  | nil => rfl
  | node d l r ihl ihr => simp only [Node.shape, Complete, ihl, ihr]

theorem complete_of_shape_eq (i n : Nat) (t u : Node α) (h : t.shape = u.shape)
    (hc : Complete i n t) : Complete i n u := by
  rw [← complete_shape] at hc ⊢
  rw [← h]; exact hc

/-- In a complete subtree a position is occupied exactly when its index is at most `n`. -/
theorem complete_occupied (i n : Nat) (t : Node α) (hc : Complete i n t) (p : List Bool) :
    subtreeAt t p ≠ nil ↔ pathIndex i p ≤ n := by
  induction p generalizing i t with
  | nil =>
    cases t with
    | nil => simp only [subtreeAt_empty, ne_eq, not_true_eq_false, pathIndex, false_iff]
             exact not_le.mpr hc
    | node d l r => simpa [pathIndex] using hc.1
  | cons b p ih =>
    cases t with
    | nil =>
      simp only [subtreeAt, ne_eq, not_true_eq_false, false_iff, not_le]
      exact lt_of_lt_of_le hc (le_pathIndex i _)
    | node d l r =>
      cases b
      · simpa [subtreeAt, pathIndex] using ih _ r hc.2.2
      · simpa [subtreeAt, pathIndex] using ih _ l hc.2.1

theorem complete_succ (i n : Nat) (t : Node α) (hc : Complete i n t)
    (h : ∀ p, pathIndex i p ≠ n + 1) : Complete i (n + 1) t := by
  induction t generalizing i with
  | nil =>
    have := h []
    simp only [pathIndex] at this
    simp only [Complete] at hc ⊢
    omega
  | node d l r ihl ihr =>
    obtain ⟨h1, h2, h3⟩ := hc
    exact ⟨by omega, ihl _ h2 (fun p => h (true :: p)), ihr _ h3 (fun p => h (false :: p))⟩

theorem complete_pred (i n : Nat) (t : Node α) (hc : Complete i n t)
    (h : ∀ p, pathIndex i p ≠ n) : Complete i (n - 1) t := by
  induction t generalizing i with
  | nil =>
    simp only [Complete] at hc ⊢
    omega
  | node d l r ihl ihr =>
    obtain ⟨h1, h2, h3⟩ := hc
    have := h []
    simp only [pathIndex] at this
    exact ⟨by omega, ihl _ h2 (fun p => h (true :: p)), ihr _ h3 (fun p => h (false :: p))⟩

end BinaryHeap

namespace BinaryHeap

variable {α : Type}

open Node

/-! ### The last node -/

theorem and_two_pow_ne_zero (n k : Nat) : n &&& 2 ^ k ≠ 0 ↔ n / 2 ^ k % 2 = 1 := by
  have ht : n.testBit k = decide (n / 2 ^ k % 2 = 1) := Nat.testBit_to_div_mod
  constructor
  · intro h
    by_contra hc
    apply h
    apply Nat.eq_of_testBit_eq
    intro j
    simp only [Nat.testBit_and, Nat.testBit_two_pow, Nat.zero_testBit]
    by_cases hj : k = j
    · subst hj
      simp [ht, hc]
    · simp [hj]
  · intro h hz
    have h1 : (n &&& 2 ^ k).testBit k = true := by
      simp [Nat.testBit_and, Nat.testBit_two_pow, ht, h]
    rw [hz] at h1
    simp at h1

theorem complete_depth_upper (i n : Nat) (t : Node α) (hc : Complete i n t) :
    n < i * 2 ^ getDepth t := by
  induction t generalizing i with
  | nil => simpa [getDepth] using hc
  | node d l r ihl _ =>
    obtain ⟨_, h2, _⟩ := hc
    have hl := ihl (2 * i) h2
    have hp : 2 ^ getDepth l ≤ 2 ^ max (getDepth l) (getDepth r) :=
      Nat.pow_le_pow_right (by omega) (le_max_left _ _)
    have e : i * 2 ^ getDepth (.node d l r) = 2 * i * 2 ^ max (getDepth l) (getDepth r) := by
      simp only [getDepth]; ring
    rw [e]
    exact lt_of_lt_of_le hl (Nat.mul_le_mul_left _ hp)

theorem complete_depth_lower (i n : Nat) (t : Node α) (hc : Complete i n t)
    (hd : 1 ≤ getDepth t) : i * 2 ^ (getDepth t - 1) ≤ n := by
  induction t generalizing i with
  | nil => simp [getDepth] at hd
  | node d l r ihl ihr =>
    obtain ⟨h1, h2, h3⟩ := hc
    simp only [getDepth, Nat.add_sub_cancel_left]
    rcases Nat.eq_zero_or_pos (max (getDepth l) (getDepth r)) with hz | hpos
    · rw [hz]; simpa using h1
    · rcases le_total (getDepth r) (getDepth l) with hle | hle
      · rw [max_eq_left hle] at hpos ⊢
        have hl := ihl (2 * i) h2 hpos
        have e : i * 2 ^ getDepth l = 2 * i * 2 ^ (getDepth l - 1) := by
          obtain ⟨k, hk⟩ : ∃ k, getDepth l = k + 1 := ⟨getDepth l - 1, by omega⟩
          rw [hk]; simp only [Nat.add_sub_cancel]; ring
        rw [e]; exact hl
      · rw [max_eq_right hle] at hpos ⊢
        have hr := ihr (2 * i + 1) h3 hpos
        have e : i * 2 ^ getDepth r = 2 * i * 2 ^ (getDepth r - 1) := by
          obtain ⟨k, hk⟩ : ∃ k, getDepth r = k + 1 := ⟨getDepth r - 1, by omega⟩
          rw [hk]; simp only [Nat.add_sub_cancel]; ring
        rw [e]
        exact le_trans (Nat.mul_le_mul_right _ (by omega)) hr

/-- The loop of `findLastNode`, started `k` levels above position `n` at the ancestor `i` of
`n`, arrives at position `n`. -/
theorem findLastWalk_spec (n k i : Nat) (t : Node α) (hi : 1 ≤ i) (hc : Complete i n t)
    (hk : n / 2 ^ k = i) :
    ∃ q, findLastWalk n t (2 ^ k >>> 1) = some q ∧ pathIndex i q = n := by
  induction k generalizing i t with
  | zero =>
    cases t with
    | nil =>
      simp only [Complete] at hc
      simp at hk
      omega
    | node d l r =>
      refine ⟨[], ?_, by simpa [pathIndex] using hk.symm⟩
      simp [findLastWalk]
  | succ k ih =>
    have hdiv : n / 2 ^ k / 2 = i := by
      rw [Nat.div_div_eq_div_mul, ← pow_succ]; exact hk
    have hmask : 2 ^ (k + 1) >>> 1 = 2 ^ k := by
      rw [Nat.shiftRight_eq_div_pow, pow_succ]; simp
    have hpos : 0 < 2 ^ k := Nat.two_pow_pos k
    cases t with
    | nil =>
      simp only [Complete] at hc
      have := Nat.div_le_self n (2 ^ (k + 1))
      omega
    | node d l r =>
      obtain ⟨h1, h2, h3⟩ := hc
      rw [hmask]
      simp only [findLastWalk, if_pos hpos]
      by_cases hb : n / 2 ^ k % 2 = 1
      · rw [if_pos ((and_two_pow_ne_zero n k).mpr hb)]
        obtain ⟨q, hq, hqi⟩ := ih (2 * i + 1) r (by omega) h3 (by omega)
        exact ⟨false :: q, by simp [hq], by simpa [pathIndex] using hqi⟩
      · rw [if_neg (fun h => hb ((and_two_pow_ne_zero n k).mp h))]
        obtain ⟨q, hq, hqi⟩ := ih (2 * i) l (by omega) h2 (by omega)
        exact ⟨true :: q, by simp [hq], by simpa [pathIndex] using hqi⟩

/-- On a complete heap `findLastNode` returns the node at position `size`. -/
theorem findLastNode_spec (h : BinaryHeap α) (hc : Complete 1 h.size h.root)
    (hne : h.root.isNull = false) :
    ∃ q, findLastNode h = some q ∧ pathIndex 1 q = h.size := by
  unfold findLastNode
  rw [hne]
  simp only [Bool.false_eq_true, if_false, Nat.one_shiftLeft]
  have hd : 1 ≤ getDepth h.root := by
    cases hr : h.root with
    | nil => rw [hr] at hne; simp at hne
    | node d l r => simp [getDepth]
  apply findLastWalk_spec h.size (getDepth h.root - 1) 1 h.root (le_refl _) hc
  have hlo := complete_depth_lower 1 h.size h.root hc hd
  have hhi := complete_depth_upper 1 h.size h.root hc
  apply Nat.div_eq_of_lt_le
  · simpa using hlo
  · have e : 2 ^ getDepth h.root = (1 + 1) * 2 ^ (getDepth h.root - 1) := by
      obtain ⟨k, hk⟩ : ∃ k, getDepth h.root = k + 1 := ⟨getDepth h.root - 1, by omega⟩
      rw [hk]; simp only [Nat.add_sub_cancel]; ring
    rw [← e]; simpa using hhi

end BinaryHeap

namespace BinaryHeap

variable {α : Type}

open Node

/-! ### Appending at the next position -/

theorem addLastWalk_complete (v : α) (i n : Nat) (t : Node α) (ds : List Bool) (hi : 1 ≤ i)
    (hc : Complete i n t) (hidx : pathIndex i ds = n + 1) (hne : t.isNull = false) :
    Complete i (n + 1) (addLastWalk v t ds) := by
  induction ds generalizing i t with
  | nil =>
    cases t with
    | nil => simp at hne
    | node d l r =>
      simp only [pathIndex] at hidx
      have := hc.1
      omega
  | cons b ds ih =>
    cases t with
    | nil => simp at hne
    | node d l r =>
      obtain ⟨h1, h2, h3⟩ := hc
      cases b with
      | true =>
        simp only [pathIndex] at hidx
        simp only [addLastWalk]
        cases l with
        | nil =>
          simp only [Complete] at h2
          have hle := le_pathIndex (2 * i) ds
          simp only [Node.isNull_nil, if_true]
          refine ⟨by omega, ⟨by omega, by simp only [Complete]; omega,
            by simp only [Complete]; omega⟩, ?_⟩
          apply complete_succ _ _ _ h3
          intro p hp
          exact pathIndex_left_ne_right i hi ds p (by rw [hidx, hp])
        | node ld ll lr =>
          simp only [Node.isNull_node, Bool.false_eq_true, if_false]
          refine ⟨by omega, ih (2 * i) _ (by omega) h2 hidx rfl, ?_⟩
          apply complete_succ _ _ _ h3
          intro p hp
          exact pathIndex_left_ne_right i hi ds p (by rw [hidx, hp])
      | false =>
        simp only [pathIndex] at hidx
        simp only [addLastWalk]
        cases r with
        | nil =>
          simp only [Complete] at h3
          have hle := le_pathIndex (2 * i + 1) ds
          simp only [Node.isNull_nil, if_true]
          refine ⟨by omega, ?_, ⟨by omega, by simp only [Complete]; omega,
            by simp only [Complete]; omega⟩⟩
          apply complete_succ _ _ _ h2
          intro p hp
          exact pathIndex_left_ne_right i hi p ds (by rw [hidx, hp])
        | node rd rl rr =>
          simp only [Node.isNull_node, Bool.false_eq_true, if_false]
          refine ⟨by omega, ?_, ih (2 * i + 1) _ (by omega) h3 hidx rfl⟩
          apply complete_succ _ _ _ h2
          intro p hp
          exact pathIndex_left_ne_right i hi p ds (by rw [hidx, hp])

/-- On a complete heap the directions of `addLast` end at a null link, where the new node is
created. -/
theorem addLastWalk_descend (v : α) (i n : Nat) (t : Node α) (ds : List Bool)
    (acc : List (Frame α)) (hi : 1 ≤ i) (hc : Complete i n t) (hidx : pathIndex i ds = n + 1)
    (hne : t.isNull = false) :
    ∃ ctx, descend t ds acc = some (.nil, ctx) ∧
      descend (addLastWalk v t ds) ds acc = some (.node v .nil .nil, ctx) := by
  induction ds generalizing i t acc with
  | nil =>
    cases t with
    | nil => simp at hne
    | node d l r =>
      simp only [pathIndex] at hidx
      have := hc.1
      omega
  | cons b ds ih =>
    cases t with
    | nil => simp at hne
    | node d l r =>
      obtain ⟨h1, h2, h3⟩ := hc
      cases b with
      | true =>
        simp only [pathIndex] at hidx
        simp only [addLastWalk]
        cases l with
        | nil =>
          simp only [Complete] at h2
          have hds : ds = [] := by
            cases ds with
            | nil => rfl
            | cons c ds =>
              have := lt_pathIndex_cons (2 * i) (by omega) c ds
              omega
          subst hds
          exact ⟨⟨true, d, r⟩ :: acc, by simp [descend], by simp [descend]⟩
        | node ld ll lr =>
          simp only [Node.isNull_node, Bool.false_eq_true, if_false, descend]
          exact ih (2 * i) _ _ (by omega) h2 hidx rfl
      | false =>
        simp only [pathIndex] at hidx
        simp only [addLastWalk]
        cases r with
        | nil =>
          simp only [Complete] at h3
          have hds : ds = [] := by
            cases ds with
            | nil => rfl
            | cons c ds =>
              have := lt_pathIndex_cons (2 * i + 1) (by omega) c ds
              omega
          subst hds
          exact ⟨⟨false, d, l⟩ :: acc, by simp [descend], by simp [descend]⟩
        | node rd rl rr =>
          simp only [Node.isNull_node, Bool.false_eq_true, if_false, descend]
          exact ih (2 * i + 1) _ _ (by omega) h3 hidx rfl

variable [LinearOrder α]

theorem findNode_isSome_iff (t : Node α) (v : α) :
    (findNode t v).isSome = true ↔ v ∈ t.preorder := by
  induction t with
  | nil => simp [findNode]
  | node d l r ihl ihr =>
    simp only [findNode, Node.preorder_node, List.mem_cons, List.mem_append]
    split
    · rename_i h; subst h; simp
    · rename_i hne
      cases hl : findNode l v with
      | some p =>
        have : v ∈ l.preorder := ihl.mp (by simp [hl])
        simp [this]
      | none =>
        have hnl : v ∉ l.preorder := fun hm => by
          have := ihl.mpr hm
          simp [hl] at this
        simp only [Option.isSome_map']
        rw [ihr]
        constructor
        · exact fun hm => Or.inr (Or.inr hm)
        · rintro (rfl | hm | hm)
          · exact absurd rfl hne
          · exact absurd hm hnl
          · exact hm

/-- On a heap with the invariant, `insert(v)` returns normally with a heap that has the
invariant, one more node, and the previous values plus `v`. -/
theorem insert_wellFormed (h : BinaryHeap α) (v : α) (hv : WellFormed h) :
    ∃ h', insert h v = .ok () h' ∧ WellFormed h' ∧ h'.size = h.size + 1 ∧
      h'.values.Perm (v :: h.values) := by
  obtain ⟨ho, hc⟩ := hv
  obtain ⟨root, size⟩ := h
  simp only at ho hc
  cases root with
  | nil =>
    simp only [Complete] at hc
    have hs : size = 0 := by omega
    subst hs
    refine ⟨⟨.node v .nil .nil, 1⟩, by simp [insert, addLast], ⟨?_, ?_⟩, rfl, ?_⟩
    · exact ⟨trivial, trivial, trivial, trivial⟩
    · simp [Complete]
    · simp [values]
  | node d l r =>
    have hpos : 1 ≤ size := hc.1
    have hidx : pathIndex 1 (pushDirections (size + 1) (size + 1) []) = size + 1 := by
      rw [pathIndex_pushDirections _ _ _ (by omega) (le_refl _)]; rfl
    have hc1 := addLastWalk_complete v 1 size (.node d l r) _ (le_refl _) hc hidx rfl
    obtain ⟨ctx, hd0, hd1⟩ := addLastWalk_descend v 1 size (.node d l r) _ [] (le_refl _) hc
      hidx rfl
    have hlast := findLastNode_spec
      ⟨addLastWalk v (.node d l r) (pushDirections (size + 1) (size + 1) []), size + 1⟩ hc1
      (by
        cases hw : addLastWalk v (.node d l r) (pushDirections (size + 1) (size + 1) []) with
        | nil => rw [hw] at hd1; cases hds : pushDirections (size + 1) (size + 1) [] with
          | nil => rw [hds] at hd1; simp at hd1
          | cons b ds => rw [hds] at hd1; simp [descend] at hd1
        | node _ _ _ => rfl)
    obtain ⟨q, hq, hqi⟩ := hlast
    simp only at hqi
    have hqe : q = pushDirections (size + 1) (size + 1) [] :=
      pathIndex_injective _ _ (by rw [hqi, hidx])
    subst hqe
    obtain ⟨hp0, _, _⟩ := descend_plug _ _ _ _ hd0
    obtain ⟨hp1, _, _⟩ := descend_plug _ _ _ _ hd1
    obtain ⟨_, hco, hcn⟩ := descend_ordered _ _ [] _ _ hd0 ho trivial trivial
    refine ⟨⟨heapifyUpLoop (.node v .nil .nil) ctx, size + 1⟩, ?_, ⟨?_, ?_⟩, rfl, ?_⟩
    · simp only [insert, addLast, Node.isNull_node, Bool.false_eq_true, if_false]
      rw [if_pos (by omega), hq]
      simp only [heapifyUp, hd1]
    · exact heapifyUpLoop_ordered ctx v .nil .nil trivial trivial trivial trivial hco hcn hcn
    · apply complete_of_shape_eq _ _ _ _ _ hc1
      rw [heapifyUpLoop_shape, hp1]
    · simp only [values]
      refine (heapifyUpLoop_perm ctx _).trans ?_
      have := perm_plug_cons ctx (.node v .nil .nil) .nil v (by simp)
      rw [hp0] at this
      exact this

end BinaryHeap

namespace BinaryHeap

variable {α : Type}

open Node

/-! ### Removing the last node -/

theorem descend_of_complete (i n : Nat) (t : Node α) (p : List Bool) (acc : List (Frame α))
    (hc : Complete i n t) (hp : pathIndex i p ≤ n) :
    ∃ d l r ctx, descend t p acc = some (.node d l r, ctx) := by
  have hne := (complete_occupied i n t hc p).mpr hp
  cases hs : subtreeAt t p with
  | nil => exact absurd hs hne
  | node d l r =>
    obtain ⟨ctx, hctx⟩ := descend_of_subtreeAt t p acc d l r hs
    exact ⟨d, l, r, ctx, hctx⟩

/-- In a complete heap the node at position `n` is a leaf. -/
theorem last_is_leaf (n : Nat) (t : Node α) (q : List Bool) (hc : Complete 1 n t)
    (hq : pathIndex 1 q = n) (hn : 1 ≤ n) : ∃ d, subtreeAt t q = .node d .nil .nil := by
  have hne := (complete_occupied 1 n t hc q).mpr (le_of_eq hq)
  cases hs : subtreeAt t q with
  | nil => exact absurd hs hne
  | node d l r =>
    have hl : subtreeAt t (q ++ [true]) = .nil := by
      by_contra hcon
      have := (complete_occupied 1 n t hc (q ++ [true])).mp hcon
      rw [pathIndex_append, hq] at this
      simp only [pathIndex] at this
      omega
    have hr : subtreeAt t (q ++ [false]) = .nil := by
      by_contra hcon
      have := (complete_occupied 1 n t hc (q ++ [false])).mp hcon
      rw [pathIndex_append, hq] at this
      simp only [pathIndex] at this
      omega
    rw [subtreeAt_append, hs] at hl hr
    simp only [subtreeAt, subtreeAt_empty] at hl hr
    exact ⟨d, by rw [hl, hr]⟩

theorem detach_complete (i n : Nat) (t : Node α) (q : List Bool) (hi : 1 ≤ i)
    (hc : Complete i n t) (hq : pathIndex i q = n) : Complete i (n - 1) (detach t q) := by
  induction q generalizing i t with
  | nil =>
    simp only [pathIndex] at hq
    simp only [detach_empty, Complete]
    omega
  | cons b q ih =>
    have hlt := lt_pathIndex_cons i hi b q
    cases t with
    | nil =>
      simp only [Complete] at hc
      omega
    | node d l r =>
      obtain ⟨h1, h2, h3⟩ := hc
      cases b with
      | true =>
        simp only [pathIndex] at hq hlt
        simp only [detach]
        refine ⟨by omega, ih (2 * i) l (by omega) h2 hq, ?_⟩
        apply complete_pred _ _ _ h3
        intro p hp
        exact pathIndex_left_ne_right i hi q p (by rw [hq, hp])
      | false =>
        simp only [pathIndex] at hq hlt
        simp only [detach]
        refine ⟨by omega, ?_, ih (2 * i + 1) r (by omega) h3 hq⟩
        apply complete_pred _ _ _ h2
        intro p hp
        exact pathIndex_left_ne_right i hi p q (by rw [hq, hp])

/-- Detaching a leaf removes exactly the value of that leaf. -/
theorem detach_leaf_perm (t : Node α) (q : List Bool) (d : α)
    (hs : subtreeAt t q = .node d .nil .nil) :
    t.preorder.Perm (d :: (detach t q).preorder) := by
  obtain ⟨ctx, hctx⟩ := descend_of_subtreeAt t q [] d .nil .nil hs
  have hdet : detach t q = plug ctx .nil := by
    simpa [plug] using detach_eq_plug t q [] _ ctx hctx
  obtain ⟨hp, _, _⟩ := descend_plug _ _ _ _ hctx
  rw [hdet]
  have := perm_plug_cons ctx (.node d .nil .nil) .nil d (by simp)
  rw [hp] at this
  exact this

theorem length_preorder (t : Node α) : t.preorder.length = t.count := by
  induction t with
  | nil => rfl
  | node d l r ihl ihr => simp [count, ihl, ihr]; omega

/-- A complete tree for `n` has `n` nodes. -/
theorem complete_count (n : Nat) (t : Node α) (hc : Complete 1 n t) : t.count = n := by
  induction n generalizing t with
  | zero =>
    cases t with
    | nil => rfl
    | node d l r => exact absurd hc.1 (by omega)
  | succ n ih =>
    have hidx : pathIndex 1 (pushDirections (n + 1) (n + 1) []) = n + 1 := by
      rw [pathIndex_pushDirections _ _ _ (by omega) (le_refl _)]; rfl
    obtain ⟨d, hs⟩ := last_is_leaf (n + 1) t _ hc hidx (by omega)
    have hc' := detach_complete 1 (n + 1) t _ (le_refl _) hc hidx
    have hcount := ih _ hc'
    have hlen := (detach_leaf_perm t _ d hs).length_eq
    rw [List.length_cons, length_preorder, length_preorder, hcount] at hlen
    exact hlen

variable [LinearOrder α]

theorem ctxRootLE_nil (ctx : List (Frame α)) : ctxRootLE ctx (.nil : Node α) := by
  cases ctx <;> trivial

theorem findNode_spec (t : Node α) (v : α) (p : List Bool) (h : findNode t v = some p) :
    ∃ l r, subtreeAt t p = .node v l r := by
  induction t generalizing p with
  | nil => simp [findNode] at h
  | node d l r ihl ihr =>
    simp only [findNode] at h
    split at h
    · rename_i hd
      subst hd
      simp only [Option.some.injEq] at h
      subst h
      exact ⟨l, r, by simp⟩
    · cases hl : findNode l v with
      | some pl =>
        rw [hl] at h
        simp only [Option.some.injEq] at h
        subst h
        simpa [subtreeAt] using ihl pl hl
      | none =>
        rw [hl] at h
        simp only [Option.map_eq_some'] at h
        obtain ⟨pr, hpr, rfl⟩ := h
        simpa [subtreeAt] using ihr pr hpr

/-- Detaching the leaf at the last position keeps order and completeness and removes exactly
the value of that leaf. -/
theorem detach_last (n : Nat) (t : Node α) (q : List Bool) (d : α) (ho : HeapOrdered t)
    (hc : Complete 1 n t) (hq : pathIndex 1 q = n) (hs : subtreeAt t q = .node d .nil .nil) :
    HeapOrdered (detach t q) ∧ Complete 1 (n - 1) (detach t q) ∧
      t.preorder.Perm (d :: (detach t q).preorder) := by
  obtain ⟨ctx, hctx⟩ := descend_of_subtreeAt t q [] d .nil .nil hs
  have hdet : detach t q = plug ctx .nil := by
    simpa [plug] using detach_eq_plug t q [] _ ctx hctx
  obtain ⟨hp, _, _⟩ := descend_plug _ _ _ _ hctx
  obtain ⟨_, hco, _⟩ := descend_ordered _ _ [] _ _ hctx ho trivial trivial
  refine ⟨?_, detach_complete 1 n t q (le_refl _) hc hq, ?_⟩
  · rw [hdet]
    exact plug_ordered ctx .nil trivial hco (ctxRootLE_nil ctx)
  · rw [hdet]
    have := perm_plug_cons ctx (.node d .nil .nil) .nil d (by simp)
    rw [hp] at this
    exact this

end BinaryHeap

namespace BinaryHeap

variable {α : Type} [LinearOrder α]

open Node

/-! ### Removal -/

theorem remove_of_not_mem (h : BinaryHeap α) (v : α) (hv : v ∉ h.values) :
    remove h v = .ok false h := by
  have hnone : findNode h.root v = none := by
    cases hf : findNode h.root v with
    | none => rfl
    | some p => exact absurd ((findNode_isSome_iff _ _).mp (by simp [hf])) hv
  simp [remove, hnone]

/-- On a heap with the invariant, `remove(v)` of a stored value returns true with a heap that
has the invariant, one node fewer, and the previous values minus one occurrence of `v`. -/
theorem remove_wellFormed (h : BinaryHeap α) (v : α) (hv : WellFormed h) (hm : v ∈ h.values) :
    ∃ h', remove h v = .ok true h' ∧ WellFormed h' ∧ h'.size + 1 = h.size ∧
      h.values.Perm (v :: h'.values) := by
  obtain ⟨ho, hc⟩ := hv
  obtain ⟨root, n⟩ := h
  simp only [values] at hm ⊢
  simp only at ho hc
  obtain ⟨pr, hpr⟩ : ∃ pr, findNode root v = some pr :=
    Option.isSome_iff_exists.mp ((findNode_isSome_iff _ _).mpr hm)
  obtain ⟨l, r, hsr⟩ := findNode_spec root v pr hpr
  have hne : root.isNull = false := by
    cases root with
    | nil => simp at hm
    | node _ _ _ => rfl
  have hn : 1 ≤ n := by
    cases root with
    | nil => simp at hne
    | node _ _ _ => exact hc.1
  obtain ⟨pl, hpl, hpli⟩ := findLastNode_spec ⟨root, n⟩ hc hne
  simp only at hpli
  obtain ⟨ld, hsl⟩ := last_is_leaf n root pl hc hpli hn
  obtain ⟨ho0, hc0, _⟩ := detach_last n root pl ld ho hc hpli hsl
  -- the stored values, following the order of the assignments in `remove`
  obtain ⟨ctx, hctx⟩ := descend_of_subtreeAt root pr [] v l r hsr
  obtain ⟨hplug, _, _⟩ := descend_plug _ _ _ _ hctx
  have hroot1 : setData root pr ld = plug ctx (.node ld l r) := by
    simpa [plug] using setData_eq_plug root pr [] v l r ctx ld hctx
  obtain ⟨rest, hrest⟩ := perm_plug ctx
  have hsl1 : subtreeAt (setData root pr ld) pl = .node ld .nil .nil :=
    subtreeAt_setData_leaf root pr pl ld hsl
  obtain ⟨ctx1, hctx1⟩ := descend_of_subtreeAt _ pl [] ld .nil .nil hsl1
  have hdet1 : detach (setData root pr ld) pl = plug ctx1 .nil := by
    simpa [plug] using detach_eq_plug _ pl [] _ ctx1 hctx1
  obtain ⟨hplug1, _, _⟩ := descend_plug _ _ _ _ hctx1
  have hperm1 : (setData root pr ld).preorder.Perm
      (ld :: (detach (setData root pr ld) pl).preorder) := by
    rw [hdet1]
    have := perm_plug_cons ctx1 (.node ld .nil .nil) .nil ld (by simp)
    rwa [hplug1] at this
  have hperm : root.preorder.Perm (v :: (detach (setData root pr ld) pl).preorder) := by
    have h1 : root.preorder.Perm (v :: ((l.preorder ++ r.preorder) ++ rest)) := by
      rw [← hplug]; simpa using hrest (.node v l r)
    have h2 : (ld :: (detach (setData root pr ld) pl).preorder).Perm
        (ld :: ((l.preorder ++ r.preorder) ++ rest)) := by
      refine hperm1.symm.trans ?_
      rw [hroot1]; simpa using hrest (.node ld l r)
    exact h1.trans (List.Perm.cons _ (List.Perm.cons_inv h2).symm)
  have hcomm := detach_setData root pr pl ld
  by_cases heq : pr = pl
  · subst heq
    have hroot2 : detach (setData root pr ld) pr = detach root pr := by
      rw [hcomm, setData_of_subtreeAt_nil _ _ _ (subtreeAt_detach_self root pr)]
    refine ⟨⟨detach root pr, n - 1⟩, ?_, ⟨ho0, hc0⟩, by simp only; omega, ?_⟩
    · simp [remove, hpr, hpl, hsl, hroot2]
    · rw [← hroot2]; exact hperm
  · have hpri : pathIndex 1 pr ≤ n :=
      (complete_occupied 1 n root hc pr).mp (by rw [hsr]; simp)
    have hprn : pathIndex 1 pr ≠ n := fun e => heq (pathIndex_injective _ _ (by rw [e, hpli]))
    have hpr1 : 1 ≤ pathIndex 1 pr := le_pathIndex 1 pr
    have hnp : ¬ pl <+: pr := by
      rintro ⟨s, rfl⟩
      cases s with
      | nil => simp at heq
      | cons b s =>
        rw [pathIndex_append, hpli] at hpri
        have := lt_pathIndex_cons n hn b s
        omega
    obtain ⟨x, l0, r0, ctx0, hctx0⟩ :=
      descend_of_complete 1 (n - 1) (detach root pl) pr [] hc0 (by omega)
    obtain ⟨hplug0, _, hre0⟩ := descend_plug _ _ _ _ hctx0
    have hroot2 : detach (setData root pr ld) pl = plug ctx0 (.node ld l0 r0) := by
      rw [hcomm]; simpa [plug] using setData_eq_plug _ pr [] x l0 r0 ctx0 ld hctx0
    obtain ⟨hox, hco0, hcr0⟩ := descend_ordered _ _ [] _ _ hctx0 ho0 trivial trivial
    obtain ⟨hxl, hxr, hl0, hr0⟩ := hox
    obtain ⟨d', l', r', hF, hFb⟩ := heapifyDownLoop_children ld l0 r0 ld hl0 hr0
    have hFo := (heapifyDownLoop_ordered _ ld l0 r0 ld rfl hl0 hr0).1
    rw [hF] at hFo
    obtain ⟨hdl', hdr', hl', hr'⟩ := hFo
    have hcl : ctxRootLE ctx0 l' ∧ ctxRootLE ctx0 r' := by
      cases ctx0 with
      | nil => exact ⟨trivial, trivial⟩
      | cons f c =>
        have hx : x ≤ f.data := hcr0
        exact hFb f.data (rootLE_mono hx _ hxl) (rootLE_mono hx _ hxr)
    refine ⟨⟨heapifyUpLoop (.node d' l' r') ctx0, n - 1⟩, ?_, ⟨?_, ?_⟩, by simp only; omega, ?_⟩
    · simp only [remove, hpr, hpl, hsl]
      rw [if_pos ⟨heq, by omega⟩]
      rw [if_neg (by simpa [List.isPrefixOf_iff_prefix] using hnp)]
      simp only [hroot2, heapifyDown, hre0, hF, heapifyUp]
    · exact heapifyUpLoop_ordered ctx0 d' l' r' hl' hr' hdl' hdr' hco0 hcl.1 hcl.2
    · apply complete_of_shape_eq _ _ _ _ _ hc0
      rw [heapifyUpLoop_shape, ← hplug0]
      apply shape_plug_congr
      rw [← hF, heapifyDownLoop_shape]; rfl
    · refine hperm.trans (List.Perm.cons _ ?_)
      rw [hroot2]
      refine List.Perm.trans ?_ (heapifyUpLoop_perm ctx0 _).symm
      apply perm_plug_congr
      rw [← hF]
      exact (heapifyDownLoop_perm _ ld l0 r0 ld rfl).symm.trans (by simp)

end BinaryHeap

namespace BinaryHeap

variable {α : Type}

open Node

/-! ### Occupied positions -/

theorem mem_positions (i j : Nat) (t : Node α) :
    j ∈ positions i t ↔ ∃ p, pathIndex i p = j ∧ subtreeAt t p ≠ .nil := by
  induction t generalizing i with
  | nil => simp [positions, subtreeAt_nil]
  | node d l r ihl ihr =>
    simp only [positions, List.mem_cons, List.mem_append, ihl, ihr]
    constructor
    · rintro (rfl | ⟨p, hp, hs⟩ | ⟨p, hp, hs⟩)
      · exact ⟨[], rfl, by simp⟩
      · exact ⟨true :: p, hp, hs⟩
      · exact ⟨false :: p, hp, hs⟩
    · rintro ⟨p, hp, hs⟩
      cases p with
      | nil => exact Or.inl hp.symm
      | cons b p =>
        cases b with
        | true => exact Or.inr (Or.inl ⟨p, hp, hs⟩)
        | false => exact Or.inr (Or.inr ⟨p, hp, hs⟩)

/-- In a complete heap of size `n` the occupied positions are exactly `1, ..., n`. -/
theorem complete_positions (n j : Nat) (t : Node α) (hc : Complete 1 n t) :
    j ∈ positions 1 t ↔ 1 ≤ j ∧ j ≤ n := by
  rw [mem_positions]
  constructor
  · rintro ⟨p, hp, hs⟩
    have := (complete_occupied 1 n t hc p).mp hs
    have := le_pathIndex 1 p
    omega
  · rintro ⟨h1, h2⟩
    have hidx : pathIndex 1 (pushDirections j j []) = j := by
      rw [pathIndex_pushDirections j j [] h1 (le_refl _)]; rfl
    exact ⟨_, hidx, (complete_occupied 1 n t hc _).mpr (by omega)⟩

variable [LinearOrder α]

/-! ### Reachable heaps -/

theorem wellFormed_empty : WellFormed (empty : BinaryHeap α) :=
  ⟨trivial, by simp [empty, Complete]⟩

theorem le_of_rootLE (t : Node α) (b : α) (ho : HeapOrdered t) (hb : rootLE b t) :
    ∀ x ∈ t.preorder, x ≤ b := by
  induction t generalizing b with
  | nil => simp
  | node d l r ihl ihr =>
    obtain ⟨hl, hr, hlo, hro⟩ := ho
    have hdb : d ≤ b := hb
    intro x hx
    simp only [preorder_node, List.mem_cons, List.mem_append] at hx
    rcases hx with rfl | hx | hx
    · exact hdb
    · exact ihl b hlo (rootLE_mono hdb l hl) x hx
    · exact ihr b hro (rootLE_mono hdb r hr) x hx

theorem remove_ne_emptyError (h : BinaryHeap α) (v : α) (h' : BinaryHeap α) :
    remove h v ≠ .emptyError h' := by
  unfold remove
  split
  · simp
  · split
    · simp
    · split
      · simp
      · simp only
        split
        · split
          · unfold removeDetached
            split
            · simp
            · split
              · split <;> simp
              · simp
          · split
            · simp
            · split <;> simp
        · simp

theorem extractMax_wellFormed (h : BinaryHeap α) (hv : WellFormed h) (d : α) (l r : Node α)
    (hr : h.root = .node d l r) :
    ∃ h', extractMax h = .ok d h' ∧ WellFormed h' ∧ h'.size + 1 = h.size ∧
      h.values.Perm (d :: h'.values) := by
  have hm : d ∈ h.values := by simp [values, hr]
  obtain ⟨h', he, hv', hs, hp⟩ := remove_wellFormed h d hv hm
  refine ⟨h', ?_, hv', hs, hp⟩
  simp [extractMax, isEmpty, hr, he]

theorem applyOp_wellFormed (h : BinaryHeap α) (op : Op α) (hv : WellFormed h) :
    ∃ h', applyOp h op = some h' ∧ WellFormed h' := by
  cases op with
  | insert v =>
    obtain ⟨h', he, hv', _, _⟩ := insert_wellFormed h v hv
    exact ⟨h', by simp [applyOp, he, stateAfter], hv'⟩
  | remove v =>
    by_cases hm : v ∈ h.values
    · obtain ⟨h', he, hv', _, _⟩ := remove_wellFormed h v hv hm
      exact ⟨h', by simp [applyOp, he, stateAfter], hv'⟩
    · exact ⟨h, by simp [applyOp, remove_of_not_mem h v hm, stateAfter], hv⟩
  | extractMax =>
    cases hr : h.root with
    | nil => exact ⟨h, by simp [applyOp, extractMax, isEmpty, hr, stateAfter], hv⟩
    | node d l r =>
      obtain ⟨h', he, hv', _, _⟩ := extractMax_wellFormed h hv d l r hr
      exact ⟨h', by simp [applyOp, he, stateAfter], hv'⟩

theorem runFrom_wellFormed (ops : List (Op α)) (h : BinaryHeap α) (hv : WellFormed h) :
    ∃ h', runFrom ops h = some h' ∧ WellFormed h' := by
  induction ops generalizing h with
  | nil => exact ⟨h, rfl, hv⟩
  | cons op ops ih =>
    obtain ⟨h1, he, hv1⟩ := applyOp_wellFormed h op hv
    obtain ⟨h', he', hv'⟩ := ih h1 hv1
    exact ⟨h', by simp [runFrom, he, he'], hv'⟩

/-- The three-part heap invariant is the two-part form used in the proofs. -/
theorem heapInvariant_iff (h : BinaryHeap α) : HeapInvariant h ↔ WellFormed h := by
  constructor
  · rintro ⟨ho, hs, he⟩
    exact ⟨ho, by rw [he]; exact hs⟩
  · rintro ⟨ho, hc⟩
    have he := complete_count h.size h.root hc
    exact ⟨ho, by unfold ShapeComplete; rw [he]; exact hc, he.symm⟩

/-! ### The claims on the binary heap -/

/-- C2: every heap reached from the empty heap by a finite sequence of `insert`, `remove` and
`extractMax` calls (each of which returns or throws, never meeting a null pointer) is in
max-heap order: every node's value is at least the values of its children; hence `top()` of a
non-empty heap is at least every stored value. -/
theorem heap_reachable_ordered (ops : List (Op α)) :
    ∃ h, run ops = some h ∧ HeapOrdered h.root ∧
      (h.isEmpty = false → ∃ v, top h = .ok v h ∧ ∀ x ∈ h.values, x ≤ v) := by
  obtain ⟨h, he, ho, _⟩ := runFrom_wellFormed ops empty wellFormed_empty
  refine ⟨h, he, ho, fun hne => ?_⟩
  cases hr : h.root with
  | nil => simp [isEmpty, hr] at hne
  | node d l r =>
    refine ⟨d, by simp [top, isEmpty, hr], ?_⟩
    rw [hr] at ho
    simpa [values, hr] using le_of_rootLE (.node d l r) d ho (le_refl d)

/-- C3: every heap reached from the empty heap by a finite sequence of `insert`, `remove` and
`extractMax` calls is shape-complete with a correct count: with the root at index 1 and the
children of index `i` at `2 * i` and `2 * i + 1`, the occupied positions are exactly
`1, ..., getSize()`. -/
theorem heap_reachable_positions (ops : List (Op α)) :
    ∃ h, run ops = some h ∧ ∀ j, j ∈ positions 1 h.root ↔ 1 ≤ j ∧ j ≤ getSize h := by
  obtain ⟨h, he, _, hc⟩ := runFrom_wellFormed ops empty wellFormed_empty
  exact ⟨h, he, fun j => complete_positions h.size j h.root hc⟩

/-- C8: on a heap with the invariant, `insert(v)` returns normally; afterwards the multiset of
stored values is the previous one plus one occurrence of `v`, `getSize()` is one larger, and
`search(v)` is true. -/
theorem heap_insert_spec (h : BinaryHeap α) (v : α) (hv : HeapInvariant h) :
    ∃ h', insert h v = .ok () h' ∧
      (h'.values : Multiset α) = v ::ₘ (h.values : Multiset α) ∧
      getSize h' = getSize h + 1 ∧ search h' v = true := by
  obtain ⟨h', he, _, hs, hp⟩ := insert_wellFormed h v ((heapInvariant_iff h).mp hv)
  refine ⟨h', he, ?_, hs, ?_⟩
  · rw [Multiset.cons_coe]
    exact Multiset.coe_eq_coe.mpr hp
  · unfold search
    rw [findNode_isSome_iff]
    exact hp.symm.subset (List.mem_cons_self _ _)

/-- Witness of C8 on the sample heap, inserting 17. -/
theorem heap_insert_spec_witness :
    HeapInvariant sampleHeap ∧
    ∃ h', insert sampleHeap 17 = .ok () h' ∧
      (h'.values : Multiset Int) = 17 ::ₘ (sampleHeap.values : Multiset Int) ∧
      getSize h' = getSize sampleHeap + 1 ∧ search h' 17 = true :=
  ⟨by decide, heap_insert_spec sampleHeap 17 (by decide)⟩

/-- C9: on a non-empty heap with the invariant, `extractMax()` returns the value `top()`
returned just before, which is a maximum of the stored values; afterwards the multiset of
stored values is the previous one minus one occurrence of that value, `getSize()` is one
smaller, and the heap invariant still holds. -/
theorem heap_extractMax_spec (h : BinaryHeap α) (hv : HeapInvariant h)
    (hne : h.isEmpty = false) :
    ∃ m h', extractMax h = .ok m h' ∧ top h = .ok m h ∧
      m ∈ h.values ∧ (∀ x ∈ h.values, x ≤ m) ∧
      (h.values : Multiset α) = m ::ₘ (h'.values : Multiset α) ∧
      getSize h' + 1 = getSize h ∧ HeapInvariant h' := by
  cases hr : h.root with
  | nil => simp [isEmpty, hr] at hne
  | node d l r =>
    obtain ⟨h', he, hv', hs, hp⟩ :=
      extractMax_wellFormed h ((heapInvariant_iff h).mp hv) d l r hr
    refine ⟨d, h', he, by simp [top, isEmpty, hr], by simp [values, hr], ?_, ?_, hs,
      (heapInvariant_iff h').mpr hv'⟩
    · have ho := hv.1
      rw [hr] at ho
      simpa [values, hr] using le_of_rootLE (.node d l r) d ho (le_refl d)
    · rw [Multiset.cons_coe]
      exact Multiset.coe_eq_coe.mpr hp

/-- Witness of C9 on the heap built by inserting 10, 20, 5, 15: `extractMax()` returns 20 and
leaves size 3 with `top()` = 15. -/
theorem heap_extractMax_spec_witness :
    run [.insert 10, .insert 20, .insert 5, .insert 15] = some sampleHeap ∧
    HeapInvariant sampleHeap ∧ sampleHeap.isEmpty = false ∧
    (∃ m h', extractMax sampleHeap = .ok m h' ∧ top sampleHeap = .ok m sampleHeap ∧
      m ∈ sampleHeap.values ∧ (∀ x ∈ sampleHeap.values, x ≤ m) ∧
      (sampleHeap.values : Multiset Int) = m ::ₘ (h'.values : Multiset Int) ∧
      getSize h' + 1 = getSize sampleHeap ∧ HeapInvariant h') ∧
    extractMax sampleHeap = .ok 20 ⟨.node 15 (.node 10 .nil .nil) (.node 5 .nil .nil), 3⟩ ∧
    top (⟨.node 15 (.node 10 .nil .nil) (.node 5 .nil .nil), 3⟩ : BinaryHeap Int) =
      .ok 15 ⟨.node 15 (.node 10 .nil .nil) (.node 5 .nil .nil), 3⟩ :=
  ⟨by decide, by decide, by decide, heap_extractMax_spec sampleHeap (by decide) (by decide),
    by decide, by decide⟩

/-- C10: `top()` and `extractMax()` throw the empty-container error exactly when the heap is
empty (`isEmpty()`); `top()` leaves the heap as it is whether it returns or throws, and an
`extractMax()` that throws leaves the heap unchanged. -/
theorem heap_top_extractMax_error (h : BinaryHeap α) :
    ((∃ h', top h = .emptyError h') ↔ h.isEmpty = true) ∧
    ((∃ h', extractMax h = .emptyError h') ↔ h.isEmpty = true) ∧
    (∀ v h', top h = .ok v h' → h' = h) ∧
    (∀ h', top h = .emptyError h' → h' = h) ∧
    (∀ h', extractMax h = .emptyError h' → h' = h) := by
  cases hr : h.root with
  | nil =>
    have he : h.isEmpty = true := by simp [isEmpty, hr]
    simp [top, extractMax, he]
  | node d l r =>
    have he : h.isEmpty = false := by simp [isEmpty, hr]
    have hx : ∀ h', extractMax h ≠ .emptyError h' := by
      intro h' hcon
      simp only [extractMax, he, Bool.false_eq_true, if_false, hr] at hcon
      split at hcon
      · cases hcon
      · rename_i h1 heq
        exact remove_ne_emptyError h d h1 heq
      · cases hcon
    refine ⟨?_, ?_, ?_, ?_, ?_⟩
    · simp [top, he, hr]
    · simp only [he, Bool.false_eq_true, iff_false, not_exists]
      exact hx
    · intro v h' ht
      simp only [top, he, Bool.false_eq_true, if_false, hr, Outcome.ok.injEq] at ht
      exact ht.2.symm
    · intro h' ht
      simp [top, he, hr] at ht
    · intro h' ht
      exact absurd ht (hx h')

end BinaryHeap

/-! ## Theorems: subtrees of both containers -/

namespace BinarySearchTree

variable {α : Type}

theorem cloneTree_eq (t : Node α) : cloneTree t = t := by
  induction t with
  | nil => rfl
  | node d l r ihl ihr => simp [cloneTree, ihl, ihr]

theorem foldl_count (xs : List α) (n : Nat) :
    xs.foldl (fun size _ => size + 1) n = n + xs.length := by
  induction xs generalizing n with
  | nil => rfl
  | cons x xs ih => simp [ih]; omega

theorem length_traverse_preOrder (t : Node α) : (t.traverseByType .PreOrder).length = t.count := by
  induction t with
  | nil => rfl
  | node d l r ihl ihr => simp [Node.traverseByType, Node.count, ihl, ihr]; omega

theorem mem_inorder_of_subtreeAt (t : Node α) (p : List Bool) (d : α) (l r : Node α)
    (h : Node.subtreeAt t p = .node d l r) : d ∈ t.inorder := by
  induction p generalizing t with
  | nil =>
    rw [Node.subtreeAt_empty] at h
    subst h; simp
  | cons b p ih =>
    cases t with
    | nil => simp [Node.subtreeAt] at h
    | node d' l' r' =>
      cases b with
      | true =>
        have := ih l' (by simpa [Node.subtreeAt] using h)
        simp [this]
      | false =>
        have := ih r' (by simpa [Node.subtreeAt] using h)
        simp [this]

variable [LinearOrder α]

theorem areIdentical_iff (a b : Node α) : areIdentical a b = true ↔ a = b := by
  induction a generalizing b with
  | nil => cases b <;> simp [areIdentical]
  | node d l r ihl ihr =>
    cases b with
    | nil => simp [areIdentical]
    | node d' l' r' => simp [areIdentical, ihl, ihr, and_assoc]

/-- A non-null pattern is found by `isSubtree` exactly when it is the subtree at some node. -/
theorem isSubtree_iff (t : Node α) (sd : α) (sl sr : Node α) :
    isSubtree t (.node sd sl sr) = true ↔ ∃ p, Node.subtreeAt t p = .node sd sl sr := by
  induction t with
  | nil => simp [isSubtree, Node.subtreeAt_nil]
  | node d l r ihl ihr =>
    simp only [isSubtree, Bool.or_eq_true, areIdentical_iff, ihl, ihr]
    constructor
    · rintro ((h | ⟨p, hp⟩) | ⟨p, hp⟩)
      · exact ⟨[], by simpa using h⟩
      · exact ⟨true :: p, by simpa [Node.subtreeAt] using hp⟩
      · exact ⟨false :: p, by simpa [Node.subtreeAt] using hp⟩
    · rintro ⟨p, hp⟩
      cases p with
      | nil => exact Or.inl (Or.inl (by simpa using hp))
      | cons b p =>
        cases b with
        | true => exact Or.inl (Or.inr ⟨p, by simpa [Node.subtreeAt] using hp⟩)
        | false => exact Or.inr ⟨p, by simpa [Node.subtreeAt] using hp⟩

/-- What `findNode` returns is a node of the tree that holds the value. -/
theorem findNode_subtree (t : Node α) (v d : α) (l r : Node α)
    (h : findNode t v = .node d l r) : d = v ∧ ∃ p, Node.subtreeAt t p = .node d l r := by
  induction t with
  | nil => simp [findNode] at h
  | node d' l' r' ihl ihr =>
    unfold findNode at h
    split at h
    · rename_i he
      simp only [Node.node.injEq] at h
      obtain ⟨rfl, rfl, rfl⟩ := h
      exact ⟨he, [], by simp⟩
    · split at h
      · obtain ⟨hd, p, hp⟩ := ihl h
        exact ⟨hd, true :: p, by simpa [Node.subtreeAt] using hp⟩
      · obtain ⟨hd, p, hp⟩ := ihr h
        exact ⟨hd, false :: p, by simpa [Node.subtreeAt] using hp⟩

/-- In a search tree `findNode` returns the one node that holds the value. -/
theorem findNode_of_subtreeAt (t : Node α) (p : List Bool) (d : α) (l r : Node α)
    (hb : IsBST t) (h : Node.subtreeAt t p = .node d l r) : findNode t d = .node d l r := by
  induction p generalizing t with
  | nil =>
    rw [Node.subtreeAt_empty] at h
    subst h
    simp [findNode]
  | cons b p ih =>
    cases t with
    | nil => simp [Node.subtreeAt] at h
    | node d' l' r' =>
      obtain ⟨hl, hr, bl, br⟩ := hb
      cases b with
      | true =>
        have hs : Node.subtreeAt l' p = .node d l r := by simpa [Node.subtreeAt] using h
        have hlt : d < d' := hl d (mem_inorder_of_subtreeAt l' p d l r hs)
        unfold findNode
        rw [if_neg (ne_of_gt hlt), if_pos hlt]
        exact ih l' bl hs
      | false =>
        have hs : Node.subtreeAt r' p = .node d l r := by simpa [Node.subtreeAt] using h
        have hgt : d' < d := hr d (mem_inorder_of_subtreeAt r' p d l r hs)
        unfold findNode
        rw [if_neg (ne_of_lt hgt), if_neg (not_lt.mpr (le_of_lt hgt))]
        exact ih r' br hs

theorem isSubtree_self (d : α) (l r : Node α) : isSubtree (.node d l r) (.node d l r) = true :=
  (isSubtree_iff _ _ _ _).mpr ⟨[], by simp⟩

/-! ### Claims on subtrees of the binary search tree -/

/-- C16: on a tree with the BST invariant, `containsSubtree(other)` is true exactly when
`other` is empty or some node of the tree roots a subtree identical to `other` (the same
nodes with equal values at every position). -/
theorem bst_containsSubtree_iff (t other : BinarySearchTree α) (h : IsBST t.root) :
    containsSubtree t other = true ↔
      other.root = .nil ∨
        ∃ p d l r, Node.subtreeAt t.root p = .node d l r ∧ other.root = .node d l r := by
  unfold containsSubtree
  cases ho : other.root with
  | nil => simp
  | node sd sl sr =>
    simp only [false_or, Node.node.injEq, reduceCtorEq]
    constructor
    · intro hc
      split at hc
      · cases hc
      · cases hf : findNode t.root sd with
        | nil => simp [hf] at hc
        | node d l r =>
          simp only [hf, Node.isNull_node, Bool.false_eq_true, if_false] at hc
          obtain ⟨_, p0, hp0⟩ := findNode_subtree t.root sd d l r hf
          obtain ⟨q, hq⟩ := (isSubtree_iff _ _ _ _).mp hc
          refine ⟨p0 ++ q, sd, sl, sr, ?_, rfl, rfl, rfl⟩
          rw [Node.subtreeAt_append, hp0, hq]
    · rintro ⟨p, d, l, r, hp, rfl, rfl, rfl⟩
      have hne : t.root.isNull = false := by
        cases hr : t.root with
        | nil => rw [hr, Node.subtreeAt_nil] at hp; cases hp
        | node _ _ _ => rfl
      rw [hne, findNode_of_subtreeAt t.root p _ _ _ h hp]
      simp [isSubtree_self]

/-- Witness of C16 on the sample tree and the tree built by inserting 5, 3, 7. -/
theorem bst_containsSubtree_iff_witness :
    IsBST sampleTree.root ∧
    (containsSubtree sampleTree ⟨.node 5 (.node 3 .nil .nil) (.node 7 .nil .nil), 3⟩ = true ↔
      (⟨.node 5 (.node 3 .nil .nil) (.node 7 .nil .nil), 3⟩ : BinarySearchTree Int).root = .nil ∨
        ∃ p d l r, Node.subtreeAt sampleTree.root p = .node d l r ∧
          (⟨.node 5 (.node 3 .nil .nil) (.node 7 .nil .nil), 3⟩ : BinarySearchTree Int).root =
            .node d l r) :=
  ⟨by decide, bst_containsSubtree_iff sampleTree _ (by decide)⟩

/-- C17: `containsSubtree(extractSubtree(v))` is true for every tree and every value `v`, and
in each of the three cases the extracted tree is the one the claim names.  If `v` is absent it
is the empty tree, which every tree contains.  If the root holds `v` it is the tree itself,
and `containsSubtree(self)` is true.  On a tree with the BST invariant, for a stored `v` it is
the subtree of the node that holds `v`, and every detached clone of the subtree of any node is
recognised as contained, whatever its `size`. -/
theorem bst_contains_extracted (t : BinarySearchTree α) (v : α) :
    containsSubtree t (extractSubtree t v).1 = true ∧
    (v ∉ getValuesInOrder t →
      (extractSubtree t v).1 = empty ∧ containsSubtree t empty = true) ∧
    (∀ l r, t.root = .node v l r →
      (extractSubtree t v).1.root = t.root ∧
        getSize (extractSubtree t v).1 = t.root.count) ∧
    containsSubtree t t = true ∧
    (IsBST t.root → v ∈ getValuesInOrder t →
      ∃ p l r, Node.subtreeAt t.root p = .node v l r ∧
        (extractSubtree t v).1.root = .node v l r) ∧
    (IsBST t.root → ∀ p d l r n, Node.subtreeAt t.root p = .node d l r →
      containsSubtree t ⟨cloneTree (.node d l r), n⟩ = true) := by
  refine ⟨?_, fun hv => ?_, fun l r hr => ?_, ?_, fun h hv => ?_, fun h p d l r n hp => ?_⟩
  · unfold extractSubtree
    cases hf : findNode t.root v with
    | nil => simp [containsSubtree, empty]
    | node d l r =>
      obtain ⟨hd, p, hp⟩ := findNode_subtree t.root v d l r hf
      subst hd
      have hne : t.root.isNull = false := by
        cases hr : t.root with
        | nil => rw [hr, Node.subtreeAt_nil] at hp; cases hp
        | node _ _ _ => rfl
      simp only [Node.isNull_node, Bool.false_eq_true, if_false, cloneTree_eq, containsSubtree,
        hne, hf, isSubtree_self]
  · rw [getValuesInOrder_eq] at hv
    have hf : findNode t.root v = .nil := by
      cases hf : findNode t.root v with
      | nil => rfl
      | node d l r =>
        obtain ⟨hd, p, hp⟩ := findNode_subtree t.root v d l r hf
        subst hd
        exact absurd (mem_inorder_of_subtreeAt t.root p d l r hp) hv
    constructor
    · simp [extractSubtree, hf]
    · simp [containsSubtree, empty]
  · have hf : findNode (Node.node v l r) v = .node v l r := by simp [findNode]
    constructor
    · simp [extractSubtree, hr, hf, cloneTree_eq]
    · simp [extractSubtree, hr, hf, getSize, cloneTree_eq, traverse, foldl_count,
        length_traverse_preOrder]
  · unfold containsSubtree
    cases hr : t.root with
    | nil => rfl
    | node d l r =>
      have hf : findNode (Node.node d l r) d = .node d l r := by simp [findNode]
      simp only [Node.isNull_node, Bool.false_eq_true, if_false, hf, isSubtree_self]
  · rw [getValuesInOrder_eq] at hv
    have hnn := (findNode_isNull t.root v h).mpr hv
    cases hf : findNode t.root v with
    | nil => rw [hf] at hnn; simp at hnn
    | node d l r =>
      obtain ⟨hd, p, hp⟩ := findNode_subtree t.root v d l r hf
      subst hd
      exact ⟨p, l, r, hp, by simp [extractSubtree, hf, cloneTree_eq]⟩
  · have hne : t.root.isNull = false := by
      cases hr : t.root with
      | nil => rw [hr, Node.subtreeAt_nil] at hp; cases hp
      | node _ _ _ => rfl
    have hf := findNode_of_subtreeAt t.root p d l r h hp
    simp only [containsSubtree, cloneTree_eq, hne, hf, Node.isNull_node, Bool.false_eq_true,
      if_false, isSubtree_self]

/-- Witness of C17 on the sample tree: the value 5 of an inner node, whose subtree holds 3, 5
and 7, the root value 10, and the absent value 8. -/
theorem bst_contains_extracted_witness :
    IsBST sampleTree.root ∧
    (containsSubtree sampleTree (extractSubtree sampleTree 5).1 = true ∧
    (5 ∉ getValuesInOrder sampleTree →
      (extractSubtree sampleTree 5).1 = empty ∧ containsSubtree sampleTree empty = true) ∧
    (∀ l r, sampleTree.root = .node 5 l r →
      (extractSubtree sampleTree 5).1.root = sampleTree.root ∧
        getSize (extractSubtree sampleTree 5).1 = sampleTree.root.count) ∧
    containsSubtree sampleTree sampleTree = true ∧
    (IsBST sampleTree.root → 5 ∈ getValuesInOrder sampleTree →
      ∃ p l r, Node.subtreeAt sampleTree.root p = .node 5 l r ∧
        (extractSubtree sampleTree 5).1.root = .node 5 l r) ∧
    (IsBST sampleTree.root → ∀ p d l r n, Node.subtreeAt sampleTree.root p = .node d l r →
      containsSubtree sampleTree ⟨cloneTree (.node d l r), n⟩ = true)) ∧
    extractSubtree sampleTree 5 =
      (⟨.node 5 (.node 3 .nil .nil) (.node 7 .nil .nil), 3⟩, sampleTree) ∧
    (extractSubtree sampleTree 10).1 = sampleTree ∧
    (extractSubtree sampleTree 8).1 = empty :=
  ⟨by decide, bst_contains_extracted sampleTree 5, by decide, by decide, by decide⟩

/-- C18: on a tree with the BST invariant, `extractSubtree(v)` of a stored value returns the
subtree rooted at the node that holds `v`, with `getSize()` equal to its node count; for a
value that is not stored it returns the empty tree with size 0; the tree itself is unchanged. -/
theorem bst_extractSubtree_spec (t : BinarySearchTree α) (v : α) (h : IsBST t.root) :
    (v ∈ getValuesInOrder t →
      ∃ p l r, Node.subtreeAt t.root p = .node v l r ∧
        (extractSubtree t v).1.root = .node v l r ∧
        getSize (extractSubtree t v).1 = (Node.node v l r).count) ∧
    (v ∉ getValuesInOrder t →
      (extractSubtree t v).1.root = .nil ∧ getSize (extractSubtree t v).1 = 0) ∧
    (extractSubtree t v).2 = t := by
  simp only [getValuesInOrder_eq]
  refine ⟨fun hv => ?_, fun hv => ?_, ?_⟩
  · have hnn := (findNode_isNull t.root v h).mpr hv
    cases hf : findNode t.root v with
    | nil => rw [hf] at hnn; simp at hnn
    | node d l r =>
      obtain ⟨hd, p, hp⟩ := findNode_subtree t.root v d l r hf
      subst hd
      refine ⟨p, l, r, hp, ?_, ?_⟩
      · simp [extractSubtree, hf, cloneTree_eq]
      · simp only [extractSubtree, hf, Node.isNull_node, Bool.false_eq_true, if_false, getSize,
          cloneTree_eq, traverse, foldl_count, length_traverse_preOrder, Nat.zero_add]
  · have hnn : ¬ ((findNode t.root v).isNull = false) := fun hc =>
      hv ((findNode_isNull t.root v h).mp hc)
    have hnull : (findNode t.root v).isNull = true := by simpa using hnn
    simp [extractSubtree, hnull, empty, getSize]
  · unfold extractSubtree
    simp only
    split <;> rfl

/-- Witness of C18 on the sample tree, for the stored value 5 (an inner node). -/
theorem bst_extractSubtree_spec_witness :
    IsBST sampleTree.root ∧
    ((5 ∈ getValuesInOrder sampleTree →
      ∃ p l r, Node.subtreeAt sampleTree.root p = .node 5 l r ∧
        (extractSubtree sampleTree 5).1.root = .node 5 l r ∧
        getSize (extractSubtree sampleTree 5).1 = (Node.node 5 l r).count) ∧
    (5 ∉ getValuesInOrder sampleTree →
      (extractSubtree sampleTree 5).1.root = .nil ∧
        getSize (extractSubtree sampleTree 5).1 = 0) ∧
    (extractSubtree sampleTree 5).2 = sampleTree) :=
  ⟨by decide, bst_extractSubtree_spec sampleTree 5 (by decide)⟩

end BinarySearchTree

namespace BinaryHeap

variable {α : Type} [LinearOrder α]

open Node

theorem heap_areIdentical_iff (a b : Node α) : areIdentical a b = true ↔ a = b := by
  induction a generalizing b with
  | nil => cases b <;> simp [areIdentical]
  | node d l r ihl ihr =>
    cases b with
    | nil => simp [areIdentical]
    | node d' l' r' => simp [areIdentical, ihl, ihr, and_assoc]

/-- A non-null pattern is found by `isSubHeap` exactly when it is the subtree at some node. -/
theorem isSubHeap_iff (t : Node α) (sd : α) (sl sr : Node α) :
    isSubHeap t (.node sd sl sr) = true ↔ ∃ p, subtreeAt t p = .node sd sl sr := by
  induction t with
  | nil => simp [isSubHeap, subtreeAt_nil]
  | node d l r ihl ihr =>
    simp only [isSubHeap, Bool.or_eq_true, heap_areIdentical_iff, ihl, ihr]
    constructor
    · rintro ((h | ⟨p, hp⟩) | ⟨p, hp⟩)
      · exact ⟨[], by simpa using h⟩
      · exact ⟨true :: p, by simpa [subtreeAt] using hp⟩
      · exact ⟨false :: p, by simpa [subtreeAt] using hp⟩
    · rintro ⟨p, hp⟩
      cases p with
      | nil => exact Or.inl (Or.inl (by simpa using hp))
      | cons b p =>
        cases b with
        | true => exact Or.inl (Or.inr ⟨p, by simpa [subtreeAt] using hp⟩)
        | false => exact Or.inr ⟨p, by simpa [subtreeAt] using hp⟩

theorem search_iff_mem (h : BinaryHeap α) (v : α) : search h v = true ↔ v ∈ h.values := by
  unfold search values
  exact findNode_isSome_iff h.root v

/-! ### Further claims on the binary heap -/

/-- C11: on a heap with the invariant, `remove(v)` of a value that is not stored returns false
and leaves the heap unchanged; `remove(v)` of a stored value returns true, the multiset of
stored values loses exactly one occurrence of `v`, `getSize()` decreases by one, and the heap
invariant (order and shape) still holds. -/
theorem heap_remove_spec (h : BinaryHeap α) (v : α) (hv : HeapInvariant h) :
    (search h v = false → remove h v = .ok false h) ∧
    (search h v = true →
      ∃ h', remove h v = .ok true h' ∧
        (h.values : Multiset α) = v ::ₘ (h'.values : Multiset α) ∧
        getSize h' + 1 = getSize h ∧ HeapInvariant h') := by
  constructor
  · intro hs
    apply remove_of_not_mem
    intro hm
    rw [(search_iff_mem h v).mpr hm] at hs
    cases hs
  · intro hs
    obtain ⟨h', he, hv', hsz, hp⟩ :=
      remove_wellFormed h v ((heapInvariant_iff h).mp hv) ((search_iff_mem h v).mp hs)
    refine ⟨h', he, ?_, hsz, (heapInvariant_iff h').mpr hv'⟩
    rw [Multiset.cons_coe]
    exact Multiset.coe_eq_coe.mpr hp

/-- Witness of C11: removing 1 from a heap whose last value 7 is larger than the parent 5 of
the removed node; 7 is moved in and sifted up above 5. -/
theorem heap_remove_spec_witness :
    HeapInvariant crossHeap ∧
    ((search crossHeap 1 = false → remove crossHeap 1 = .ok false crossHeap) ∧
    (search crossHeap 1 = true →
      ∃ h', remove crossHeap 1 = .ok true h' ∧
        (crossHeap.values : Multiset Int) = 1 ::ₘ (h'.values : Multiset Int) ∧
        getSize h' + 1 = getSize crossHeap ∧ HeapInvariant h')) ∧
    remove crossHeap 1 = .ok true
      ⟨.node 10 (.node 7 (.node 5 .nil .nil) (.node 2 .nil .nil))
        (.node 9 (.node 8 .nil .nil) .nil), 6⟩ :=
  ⟨by decide, heap_remove_spec crossHeap 1 (by decide), by decide⟩

/-- Counterexample to C15 as stated: 20 is stored in the heap built by inserting 10, 20, 5,
15, and `insert(20)` stores it a second time: `getSize()` goes from 4 to 5. -/
theorem heap_insert_stored_counterexample :
    search sampleHeap 20 = true ∧
    ∃ h', insert sampleHeap 20 = .ok () h' ∧ getSize h' ≠ getSize sampleHeap ∧
      h'.values ≠ sampleHeap.values :=
  ⟨by decide,
    ⟨.node 20 (.node 20 (.node 10 .nil .nil) (.node 15 .nil .nil)) (.node 5 .nil .nil), 5⟩,
    by decide, by decide, by decide⟩

/-- C15 (amended): for a value `v` that is already stored, `insert(v)` does not drop the
insertion: whenever it returns, `getSize()` has grown by one, and on a heap with the invariant
it returns with one more occurrence of `v` among the stored values. -/
theorem heap_insert_stored (h : BinaryHeap α) (v : α) (hs : search h v = true) :
    (∀ h', insert h v = .ok () h' → getSize h' = getSize h + 1) ∧
    (HeapInvariant h →
      ∃ h', insert h v = .ok () h' ∧
        (h'.values : Multiset α) = v ::ₘ (h.values : Multiset α) ∧
        getSize h' = getSize h + 1) := by
  constructor
  · intro h' he
    have hne : h.root.isNull = false := by
      cases hr : h.root with
      | nil => simp [search, hr, findNode] at hs
      | node _ _ _ => rfl
    simp only [insert, addLast, hne, Bool.false_eq_true, if_false] at he
    split at he
    · split at he
      · split at he
        · simp only [Outcome.ok.injEq, true_and] at he
          rw [← he]; rfl
        · cases he
      · cases he
    · simp only [Outcome.ok.injEq, true_and] at he
      rw [← he]; rfl
  · intro hv
    obtain ⟨h', he, _, hsz, hp⟩ := insert_wellFormed h v ((heapInvariant_iff h).mp hv)
    refine ⟨h', he, ?_, hsz⟩
    rw [Multiset.cons_coe]
    exact Multiset.coe_eq_coe.mpr hp

/-- Witness of C15 (amended) on the sample heap and the stored value 20. -/
theorem heap_insert_stored_witness :
    search sampleHeap 20 = true ∧
    ((∀ h', insert sampleHeap 20 = .ok () h' → getSize h' = getSize sampleHeap + 1) ∧
    (HeapInvariant sampleHeap →
      ∃ h', insert sampleHeap 20 = .ok () h' ∧
        (h'.values : Multiset Int) = 20 ::ₘ (sampleHeap.values : Multiset Int) ∧
        getSize h' = getSize sampleHeap + 1)) :=
  ⟨by decide, heap_insert_stored sampleHeap 20 (by decide)⟩

/-- C19: `containsSubHeap(other)` is true exactly when `other` is empty or some node of the
heap roots a subtree identical to `other` (the same nodes with equal values at every
position); in particular a heap of the single value `v` is contained exactly when some leaf
of the heap holds `v`. -/
theorem heap_containsSubHeap_iff (h other : BinaryHeap α) :
    (containsSubHeap h other = true ↔
      other.root = .nil ∨
        ∃ p d l r, subtreeAt h.root p = .node d l r ∧ other.root = .node d l r) ∧
    (∀ v n, containsSubHeap h ⟨.node v .nil .nil, n⟩ = true ↔
      ∃ p, subtreeAt h.root p = .node v .nil .nil) := by
  have key : ∀ (sd : α) (sl sr : Node α) (n : Nat),
      containsSubHeap h ⟨.node sd sl sr, n⟩ = true ↔
        ∃ p, subtreeAt h.root p = .node sd sl sr := by
    intro sd sl sr n
    unfold containsSubHeap
    simp only [isEmpty, Node.isNull_node, Bool.false_eq_true, if_false]
    cases hr : h.root with
    | nil => simp [subtreeAt_nil]
    | node d l r =>
      simp only [Node.isNull_node, Bool.false_eq_true, if_false]
      exact isSubHeap_iff _ sd sl sr
  refine ⟨?_, fun v n => key v .nil .nil n⟩
  obtain ⟨oroot, osize⟩ := other
  cases oroot with
  | nil => simp [containsSubHeap, isEmpty]
  | node sd sl sr =>
    rw [key]
    simp only [reduceCtorEq, false_or, Node.node.injEq]
    constructor
    · rintro ⟨p, hp⟩
      exact ⟨p, sd, sl, sr, hp, rfl, rfl, rfl⟩
    · rintro ⟨p, d, l, r, hp, rfl, rfl, rfl⟩
      exact ⟨p, hp⟩

end BinaryHeap

/-! ## Theorems: strings and the value contract of `int` -/

theorem find_le (pattern : List Char) (data : List Char) (pos : Nat)
    (h : find data pattern = some pos) : pos + pattern.length ≤ data.length := by
  induction data generalizing pos with
  | nil =>
    simp only [find] at h
    split at h
    · rename_i hp
      simp only [List.isEmpty_iff] at hp
      simp only [Option.some.injEq] at h
      subst hp; subst h; simp
    · cases h
  | cons c data ih =>
    simp only [find] at h
    split at h
    · rename_i hp
      simp only [Option.some.injEq] at h
      subst h
      have := (List.isPrefixOf_iff_prefix.mp hp).length_le
      simpa using this
    · cases hf : find data pattern with
      | none => rw [hf] at h; cases h
      | some q =>
        rw [hf] at h
        simp only [Option.map_some', Option.some.injEq] at h
        have := ih q hf
        simp only [List.length_cons]
        omega

theorem sep_eq : ", ".toList = [',', ' '] := rfl

theorem find_cons (c : Char) (data pattern : List Char) :
    find (c :: data) pattern =
      if pattern.isPrefixOf (c :: data) then some 0 else (find data pattern).map (· + 1) := rfl

/-- A token without `", "` is found to end where the next separator starts. -/
theorem find_token (a rest : List Char) (h : find a [',', ' '] = none) :
    find (a ++ ',' :: ' ' :: rest) [',', ' '] = some a.length := by
  induction a with
  | nil => simp [find_cons, List.isPrefixOf]
  | cons c a ih =>
    rw [find_cons] at h
    split at h
    · cases h
    · rename_i hp
      have ha : find a [',', ' '] = none := by
        cases hf : find a [',', ' '] with
        | none => rfl
        | some q => rw [hf] at h; cases h
      have hnp : List.isPrefixOf [',', ' '] (c :: (a ++ ',' :: ' ' :: rest)) = false := by
        cases a with
        | nil =>
          by_cases hc : c = ','
          · subst hc; simp [List.isPrefixOf]
          · simp [List.isPrefixOf, hc]
        | cons c2 a2 =>
          simp only [List.cons_append, List.isPrefixOf, Bool.and_true] at hp ⊢
          simpa using hp
      rw [List.cons_append, find_cons, hnp, ih ha]
      rfl

/-- A string without a comma holds no separator that starts with a comma. -/
theorem find_comma_none (a pattern : List Char) (h : ∀ c ∈ a, c ≠ ',') :
    find a (',' :: pattern) = none := by
  induction a with
  | nil => rfl
  | cons c a ih =>
    rw [find_cons, ih (fun x hx => h x (List.mem_cons_of_mem _ hx))]
    have hc : c ≠ ',' := h c (List.mem_cons_self _ _)
    simp [List.isPrefixOf, Ne.symm hc]

theorem intercalate_cons_cons (sep a b : List Char) (l : List (List Char)) :
    sep.intercalate (a :: b :: l) = a ++ sep ++ sep.intercalate (b :: l) := by
  simp [List.intercalate, List.intersperse]

theorem intercalate_singleton (sep a : List Char) : sep.intercalate [a] = a := by
  simp [List.intercalate, List.intersperse]

theorem digitChar_spec (d : Nat) (h : d < 10) :
    (Nat.digitChar d).isDigit = true ∧ (Nat.digitChar d).toNat - 48 = d ∧
      Nat.digitChar d ≠ ',' ∧ Nat.digitChar d ≠ '-' ∧ Nat.digitChar d ≠ '+' ∧
      isspace (Nat.digitChar d) = false := by
  interval_cases d <;> decide

theorem toDigitsCore_succ (fuel n : Nat) (ds : List Char) :
    Nat.toDigitsCore 10 (fuel + 1) n ds =
      if n / 10 = 0 then Nat.digitChar (n % 10) :: ds
      else Nat.toDigitsCore 10 fuel (n / 10) (Nat.digitChar (n % 10) :: ds) := rfl

/-- The digits written for a number start with a digit, are digits throughout, and are read
back by `parseDigits` as that number. -/
theorem toDigitsCore_spec (fuel n : Nat) (ds : List Char) (h : n < fuel) :
    (∃ c rest, Nat.toDigitsCore 10 fuel n ds = c :: rest ∧ c.isDigit = true) ∧
    (∀ c ∈ Nat.toDigitsCore 10 fuel n ds, c.isDigit = true ∨ c ∈ ds) ∧
    ∃ k, ∀ acc, parseDigits (Nat.toDigitsCore 10 fuel n ds) acc =
      parseDigits ds (acc * 10 ^ k + n) := by
  induction fuel generalizing n ds with
  | zero => omega
  | succ fuel ih =>
    have hd := digitChar_spec (n % 10) (Nat.mod_lt _ (by omega))
    rw [toDigitsCore_succ]
    by_cases h0 : n / 10 = 0
    · rw [if_pos h0]
      refine ⟨⟨_, _, rfl, hd.1⟩, ?_, 1, fun acc => ?_⟩
      · intro c hc
        rcases List.mem_cons.mp hc with rfl | hc
        · exact Or.inl hd.1
        · exact Or.inr hc
      · rw [parseDigits, if_pos hd.1, hd.2.1]
        congr 1
        omega
    · rw [if_neg h0]
      obtain ⟨h1, h2, k, h3⟩ := ih (n / 10) (Nat.digitChar (n % 10) :: ds) (by omega)
      refine ⟨h1, ?_, k + 1, fun acc => ?_⟩
      · intro c hc
        rcases h2 c hc with hc | hc
        · exact Or.inl hc
        · rcases List.mem_cons.mp hc with rfl | hc
          · exact Or.inl hd.1
          · exact Or.inr hc
      · rw [h3, parseDigits, if_pos hd.1, hd.2.1]
        congr 1
        rw [pow_succ]
        have := Nat.div_add_mod n 10
        nlinarith [Nat.div_add_mod n 10]

theorem isDigit_ne {c : Char} (h : c.isDigit = true) :
    c ≠ ',' ∧ c ≠ '-' ∧ c ≠ '+' ∧ isspace c = false := by
  have h1 : 48 ≤ c.toNat ∧ c.toNat ≤ 57 := by
    simpa [Char.isDigit, Char.toNat, UInt32.le_def, Nat.le_antisymm_iff] using h
  refine ⟨?_, ?_, ?_, ?_⟩
  · rintro rfl; revert h1; decide
  · rintro rfl; revert h1; decide
  · rintro rfl; revert h1; decide
  · simp only [isspace, Bool.or_eq_false_iff, beq_eq_false_iff_ne, Bool.and_eq_false_iff,
      decide_eq_false_iff_not]
    omega

theorem toDigits_spec (n : Nat) :
    (∃ c rest, Nat.toDigits 10 n = c :: rest ∧ c.isDigit = true) ∧
    (∀ c ∈ Nat.toDigits 10 n, c.isDigit = true) ∧ parseDigits (Nat.toDigits 10 n) 0 = n := by
  obtain ⟨h1, h2, k, h3⟩ := toDigitsCore_spec (n + 1) n [] (by omega)
  refine ⟨h1, fun c hc => ?_, ?_⟩
  · rcases h2 c hc with h | h
    · exact h
    · cases h
  · show parseDigits (Nat.toDigitsCore 10 (n + 1) n []) 0 = n
    rw [h3]
    simp [parseDigits]

/-- No encoding of an `int` is empty. -/
theorem intToString_ne_nil (v : Int) : intToString v ≠ [] := by
  unfold intToString
  obtain ⟨⟨c, rest, h, _⟩, _⟩ := toDigits_spec v.natAbs
  split
  · simp
  · rw [h]; simp

/-- No encoding of an `int` holds a comma. -/
theorem intToString_no_comma (v : Int) : ∀ c ∈ intToString v, c ≠ ',' := by
  unfold intToString
  obtain ⟨_, h, _⟩ := toDigits_spec v.natAbs
  intro c hc
  split at hc
  · rcases List.mem_cons.mp hc with rfl | hc
    · decide
    · exact (isDigit_ne (h c hc)).1
  · exact (isDigit_ne (h c hc)).1

/-- On an `int`, `std::stoi` reads back what `valueToString` wrote. -/
theorem stoi_intToString (v : Int) (hlo : -2147483648 ≤ v) (hhi : v ≤ 2147483647) :
    stoi (intToString v) = some v := by
  obtain ⟨⟨c, rest, hc, hd⟩, _, hp⟩ := toDigits_spec v.natAbs
  obtain ⟨h1, h2, h3, h4⟩ := isDigit_ne hd
  unfold intToString stoi
  by_cases hv : v < 0
  · rw [if_pos hv]
    have hs : isspace '-' = false := by decide
    simp only [List.dropWhile_cons, hs, Bool.false_eq_true, if_false, List.head?_cons, beq_self_eq_true,
      Bool.true_or, if_true, List.drop_succ_cons, List.drop_zero]
    rw [hp, hc]
    simp only [hd, if_true]
    have : (-(v.natAbs : Int)) = v := by omega
    rw [this, if_pos ⟨hlo, hhi⟩]
  · rw [if_neg hv, hc]
    have e1 : (some c == some '-') = false := by simp [h2]
    have e2 : (some c == some '+') = false := by simp [h3]
    simp only [List.dropWhile_cons, h4, Bool.false_eq_true, if_false, List.head?_cons, e1, e2,
      Bool.or_self]
    rw [← hc, hp]
    simp only [hd, if_true]
    have : ((v.natAbs : Nat) : Int) = v := by omega
    rw [this, if_pos ⟨hlo, hhi⟩]


/-! ## Theorems: folds, filters and the listing format of the tree -/

namespace BinarySearchTree

variable {α : Type} [LinearOrder α]

/-- Inserting a strictly increasing list into the empty tree stores the list, in order. -/
theorem inorder_insertList_sorted (xs : List α) (hs : xs.Pairwise (· < ·)) :
    (insertList .nil xs).inorder = xs := by
  have hb : IsBST (insertList (.nil : Node α) xs) := isBST_insertList _ _ trivial
  have hp : List.Perm (insertList (.nil : Node α) xs).inorder xs := by
    rw [List.perm_ext_iff_of_nodup ((isBST_sorted _ hb).imp ne_of_lt) (hs.imp ne_of_lt)]
    intro y
    rw [mem_insertList]
    simp
  exact List.eq_of_perm_of_sorted hp (isBST_sorted _ hb) hs

/-- The conditional insertion of `where` is the insertion of the filtered list. -/
theorem foldl_where (p : α → Bool) (xs : List α) (t : BinarySearchTree α) :
    xs.foldl (fun result value => if p value then insert result value else result) t =
      (xs.filter p).foldl (fun result value => insert result value) t := by
  induction xs generalizing t with
  | nil => rfl
  | cons x xs ih =>
    by_cases hx : p x = true
    · simp only [List.foldl_cons, List.filter_cons, hx, if_true]
      exact ih _
    · simp only [List.foldl_cons, List.filter_cons, hx, if_false]
      exact ih _

/-- The tree `where` builds: the filtered in-order sequence, inserted in order. -/
theorem where_root (t : BinarySearchTree α) (p : α → Bool) :
    (where_ t p).root = insertList .nil (t.root.inorder.filter p) ∧
      (where_ t p).size = (where_ t p).root.count := by
  unfold where_
  rw [foldl_where, traverse_inOrder]
  refine ⟨?_, foldl_insert_count (fun x => x) _ empty rfl⟩
  rw [foldl_insert_root (fun x => x)]
  simp [empty]

end BinarySearchTree

namespace BinarySearchTree

variable {α : Type}

/-- The state of the callback of `toString` after a list of values. -/
theorem toString_foldl (enc : α → List Char) (xs : List α) (x : α) (acc : List Char) :
    (xs.foldl
      (fun (state : List Char × Bool) value =>
        ((if !state.2 then state.1 ++ ", ".toList else state.1) ++ enc value, false))
      (acc ++ enc x, false)) =
      (acc ++ ", ".toList.intercalate ((x :: xs).map enc), false) := by
  induction xs generalizing x acc with
  | nil => simp [List.intercalate]
  | cons y ys ih =>
    simp only [List.foldl_cons, Bool.not_false, if_true]
    rw [ih y (acc ++ enc x ++ ", ".toList)]
    simp [List.intercalate, List.intersperse, List.append_assoc]

/-- The listing `toString` writes: the encodings in in-order, separated by `", "`, in brackets. -/
theorem toString_eq (enc : α → List Char) (t : BinarySearchTree α) :
    toString enc t = "[".toList ++ ", ".toList.intercalate (t.root.inorder.map enc) ++ "]".toList := by
  unfold toString
  split
  · rename_i h
    rw [(Node.isNull_iff _).mp h]
    rfl
  · rw [traverse_inOrder]
    cases hx : t.root.inorder with
    | nil => rfl
    | cons x xs =>
      simp only [List.foldl_cons, Bool.not_true, Bool.false_eq_true, if_false]
      rw [toString_foldl]

end BinarySearchTree

namespace BinarySearchTree

variable {α : Type} [LinearOrder α]

/-- The loop of `fromString` has left before its fuel runs out: more fuel changes nothing. -/
theorem fromStringLoop_succ (dec : List Char → Option α) (fuel : Nat) (data : List Char)
    (result : BinarySearchTree α) (h : data.length < fuel) :
    fromStringLoop dec (fuel + 1) data result = fromStringLoop dec fuel data result := by
  induction fuel generalizing data result with
  | zero => omega
  | succ fuel ih =>
    rw [fromStringLoop, fromStringLoop]
    cases hf : find data ", ".toList with
    | none => rfl
    | some pos =>
      simp only
      have := find_le _ _ _ hf
      simp only [sep_eq, List.length_cons, List.length_nil] at this
      cases fuel with
      | zero => omega
      | succ fuel =>
        rw [ih]
        simp only [List.length_drop]
        omega

/-- The loop of `fromString` on a listing: every value but the last is inserted, and the
encoding of the last is left in `data`. -/
theorem fromStringLoop_listing (enc : α → List Char) (dec : List Char → Option α)
    (xs : List α) (x : α) (fuel : Nat) (result : BinarySearchTree α)
    (hfuel : (", ".toList.intercalate ((xs ++ [x]).map enc)).length < fuel)
    (hdec : ∀ v ∈ xs, dec (enc v) = some v)
    (hsep : ∀ v ∈ xs ++ [x], find (enc v) ", ".toList = none) :
    fromStringLoop dec fuel (", ".toList.intercalate ((xs ++ [x]).map enc)) result =
      (enc x, xs.foldl (fun result value => insert result value) result) := by
  induction xs generalizing fuel result with
  | nil =>
    cases fuel with
    | zero => omega
    | succ fuel =>
      simp only [List.nil_append, List.map_cons, List.map_nil, intercalate_singleton,
        fromStringLoop, List.foldl_nil]
      rw [hsep x (by simp)]
  | cons y ys ih =>
    cases fuel with
    | zero => omega
    | succ fuel =>
      obtain ⟨z, zs, hz⟩ : ∃ z zs, ys ++ [x] = z :: zs := by
        cases ys with
        | nil => exact ⟨x, [], rfl⟩
        | cons a as => exact ⟨a, as ++ [x], rfl⟩
      have hdata : ", ".toList.intercalate (((y :: ys) ++ [x]).map enc) =
          enc y ++ ',' :: ' ' :: ", ".toList.intercalate ((ys ++ [x]).map enc) := by
        rw [List.cons_append, hz, List.map_cons, List.map_cons, intercalate_cons_cons, sep_eq]
        simp
      rw [hdata] at hfuel ⊢
      have hy := hsep y (by simp)
      rw [sep_eq] at hy
      rw [fromStringLoop]
      simp only [sep_eq]
      rw [find_token _ _ hy]
      simp only [List.take_left', List.foldl_cons]
      rw [hdec y (by simp)]
      have hdrop : List.drop ((enc y).length + 2)
          (enc y ++ ',' :: ' ' :: [',', ' '].intercalate ((ys ++ [x]).map enc)) =
          [',', ' '].intercalate ((ys ++ [x]).map enc) := by
        rw [List.drop_append]
        rfl
      rw [hdrop]
      have := ih fuel (insert result y) ?_ (fun v hv => hdec v (by simp [hv]))
        (fun v hv => hsep v (by simp at hv ⊢; tauto))
      · simpa only [sep_eq] using this
      · simp only [List.length_append, List.length_cons, sep_eq] at hfuel ⊢
        omega

/-- Decoding the listing of a tree re-inserts its values in in-order, provided every stored
value is decoded from its encoding and no encoding is empty or holds `", "`. -/
theorem fromString_toString (enc : α → List Char) (dec : List Char → Option α)
    (t : BinarySearchTree α)
    (hdec : ∀ v ∈ t.root.inorder, dec (enc v) = some v)
    (hne : ∀ v ∈ t.root.inorder, enc v ≠ [])
    (hsep : ∀ v ∈ t.root.inorder, find (enc v) ", ".toList = none) :
    fromString dec (toString enc t) =
      t.root.inorder.foldl (fun result value => insert result value) empty := by
  rw [toString_eq]
  generalize hbody : ", ".toList.intercalate (t.root.inorder.map enc) = body
  have hdata : (if ("[".toList ++ body ++ "]".toList).length ≥ 2 then
      (("[".toList ++ body ++ "]".toList).drop 1).take
        (("[".toList ++ body ++ "]".toList).length - 2)
      else "[".toList ++ body ++ "]".toList) = body := by
    have hl : ("[".toList ++ body ++ "]".toList).length = body.length + 2 := by
      simp [String.toList]
    rw [if_pos (by omega), hl]
    simp [String.toList]
  unfold fromString
  simp only [hdata]
  rcases List.eq_nil_or_concat t.root.inorder with hx | ⟨ys, x, hx⟩
  · rw [hx] at hbody
    rw [hx, ← hbody]
    rfl
  · rw [hx] at hbody hdec hsep hne
    rw [hx, ← hbody, List.concat_eq_append] at *
    rw [fromStringLoop_listing enc dec ys x _ empty (by omega)
      (fun v hv => hdec v (by simp [hv])) hsep]
    have h1 : (enc x).isEmpty = false := by
      cases h : enc x with
      | nil => exact absurd h (hne x (by simp))
      | cons _ _ => rfl
    simp only [h1, Bool.not_false, if_true, hdec x (by simp), List.foldl_append, List.foldl_cons,
      List.foldl_nil]

end BinarySearchTree

/-! ### The claims on folds, filters and the listing format -/

namespace BinarySearchTree

variable {α : Type}

/-- C21: `reduce(f, a)` is the left fold over the in-order sequence `x1, ..., xn` with `f`
applied as `f(value, accumulator)`, that is `f(xn, ... f(x2, f(x1, a)) ...)`: folding one more
value `x` at the end applies `f x` last, and the result is `a` for the empty tree. -/
theorem bst_reduce_spec (t : BinarySearchTree α) (f : α → α → α) (a : α) :
    reduce t f a = (getValuesInOrder t).reverse.foldr f a ∧
    (t.root = .nil → reduce t f a = a) ∧
    (∀ d l r, t.root = .node d l r →
      reduce t f a = reduce ⟨r, 0⟩ f (f d (reduce ⟨l, 0⟩ f a))) := by
  refine ⟨?_, ?_, ?_⟩
  · rw [getValuesInOrder_eq, List.foldr_reverse]
    rfl
  · intro h
    simp [reduce, traverse, h, Node.traverseByType]
  · intro d l r h
    simp [reduce, traverse, h, Node.traverseByType, List.foldl_append]

/-- C25: `toString()` is `[]` for the empty tree and otherwise `[`, the encodings of the values
in in-order separated by a comma and one blank, and `]`; inserting 10, 5, 15 into a tree of
`int` gives `[5, 10, 15]`. -/
theorem bst_toString_format (valueToString : α → List Char) (t : BinarySearchTree α) :
    (isEmpty t = true → toString valueToString t = "[]".toList) ∧
    toString valueToString t =
      "[".toList ++ ", ".toList.intercalate ((getValuesInOrder t).map valueToString) ++
        "]".toList ∧
    toString intToString (insert (insert (insert empty 10) 5) 15) = "[5, 10, 15]".toList := by
  refine ⟨fun h => ?_, ?_, by decide⟩
  · unfold isEmpty at h
    simp [toString, h]
  · rw [getValuesInOrder_eq]
    exact toString_eq _ _

end BinarySearchTree

namespace BinarySearchTree

variable {α : Type} [LinearOrder α]

/-- C22: on a tree with the BST invariant, `where(p)` returns a tree whose in-order sequence
is the in-order sequence of the tree filtered by `p`; so it stores exactly the values that
satisfy `p`, its `getSize()` is their number, and it satisfies the BST invariant. -/
theorem bst_where_spec (t : BinarySearchTree α) (p : α → Bool) (h : IsBST t.root) :
    getValuesInOrder (where_ t p) = (getValuesInOrder t).filter p ∧
    (∀ x, x ∈ getValuesInOrder (where_ t p) ↔ x ∈ getValuesInOrder t ∧ p x = true) ∧
    getSize (where_ t p) = ((getValuesInOrder t).filter p).length ∧
    IsBST (where_ t p).root := by
  simp only [getValuesInOrder_eq]
  obtain ⟨hroot, hsize⟩ := where_root t p
  have hin : (where_ t p).root.inorder = t.root.inorder.filter p := by
    rw [hroot]
    exact inorder_insertList_sorted _ ((isBST_sorted _ h).filter _)
  refine ⟨hin, fun x => by rw [hin, List.mem_filter], ?_, ?_⟩
  · rw [getSize, hsize, ← Node.length_inorder, hin]
  · rw [hroot]
    exact isBST_insertList _ _ trivial

/-- Witness of C22 on the sample tree with the predicate `x > 7`. -/
theorem bst_where_spec_witness :
    IsBST sampleTree.root ∧
    (getValuesInOrder (where_ sampleTree (fun x => decide (x > 7))) =
      (getValuesInOrder sampleTree).filter (fun x => decide (x > 7)) ∧
    (∀ x, x ∈ getValuesInOrder (where_ sampleTree (fun x => decide (x > 7))) ↔
      x ∈ getValuesInOrder sampleTree ∧ (fun x => decide (x > 7)) x = true) ∧
    getSize (where_ sampleTree (fun x => decide (x > 7))) =
      ((getValuesInOrder sampleTree).filter (fun x => decide (x > 7))).length ∧
    IsBST (where_ sampleTree (fun x => decide (x > 7))).root) :=
  ⟨by decide, bst_where_spec sampleTree (fun x => decide (x > 7)) (by decide)⟩

/-- Counterexample to C23 as stated.  On the tree of `int` with root 10, left child 5 and
`size` 4 the BST invariant holds, yet the decoded listing has `getSize()` 2.  And under the
value contract `flagToString`, which decodes what it encodes and never writes `", "`, the tree
that stores `false` alone is listed as `[]` and decoded to the empty tree. -/
theorem bst_fromString_toString_counterexample :
    (IsBST miscountedTree.root ∧
      getSize (fromString stoi (toString intToString miscountedTree)) ≠ getSize miscountedTree) ∧
    ((∀ b, flagFromString (flagToString b) = some b) ∧
      (∀ b, find (flagToString b) ", ".toList = none) ∧
      IsBST (⟨.node false .nil .nil, 1⟩ : BinarySearchTree Bool).root ∧
      getValuesInOrder (⟨.node false .nil .nil, 1⟩ : BinarySearchTree Bool) = [false] ∧
      getValuesInOrder
        (fromString flagFromString (toString flagToString ⟨.node false .nil .nil, 1⟩)) = []) := by
  decide

/-- C23 (amended): on a tree with the BST invariant whose stored values are decoded from their
encodings, with no encoding empty or holding `", "`, `fromString(toString(t))` satisfies the
BST invariant and has the in-order sequence of the tree, hence the same set of values; its
`getSize()` is the number of stored values, which is `getSize()` of the tree if `size` was its
node count. -/
theorem bst_fromString_toString (valueToString : α → List Char)
    (valueFromString : List Char → Option α) (t : BinarySearchTree α) (h : IsBST t.root)
    (hdec : ∀ v ∈ getValuesInOrder t, valueFromString (valueToString v) = some v)
    (hne : ∀ v ∈ getValuesInOrder t, valueToString v ≠ [])
    (hsep : ∀ v ∈ getValuesInOrder t, find (valueToString v) ", ".toList = none) :
    IsBST (fromString valueFromString (toString valueToString t)).root ∧
    getValuesInOrder (fromString valueFromString (toString valueToString t)) =
      getValuesInOrder t ∧
    (∀ x, x ∈ getValuesInOrder (fromString valueFromString (toString valueToString t)) ↔
      x ∈ getValuesInOrder t) ∧
    getSize (fromString valueFromString (toString valueToString t)) =
      (getValuesInOrder t).length ∧
    (t.size = t.root.count →
      getSize (fromString valueFromString (toString valueToString t)) = getSize t) := by
  simp only [getValuesInOrder_eq] at *
  have hrt := fromString_toString valueToString valueFromString t hdec hne hsep
  have hroot : (fromString valueFromString (toString valueToString t)).root =
      insertList .nil t.root.inorder := by
    rw [hrt, foldl_insert_root (fun x => x)]
    simp [empty]
  have hcount : (fromString valueFromString (toString valueToString t)).size =
      (fromString valueFromString (toString valueToString t)).root.count := by
    rw [hrt]
    exact foldl_insert_count (fun x => x) _ empty rfl
  have hin : (fromString valueFromString (toString valueToString t)).root.inorder =
      t.root.inorder := by
    rw [hroot]
    exact inorder_insertList_sorted _ (isBST_sorted _ h)
  have hsize : getSize (fromString valueFromString (toString valueToString t)) =
      t.root.inorder.length := by
    rw [getSize, hcount, ← Node.length_inorder, hin]
  refine ⟨?_, hin, fun x => by rw [hin], hsize, fun hc => ?_⟩
  · rw [hroot]
    exact isBST_insertList _ _ trivial
  · rw [hsize, Node.length_inorder, getSize, hc]

/-- Witness of C23 (amended) on the sample tree of `int`, with `valueToString<int>` and
`std::stoi`. -/
theorem bst_fromString_toString_witness :
    (IsBST sampleTree.root ∧
      (∀ v ∈ getValuesInOrder sampleTree, stoi (intToString v) = some v) ∧
      (∀ v ∈ getValuesInOrder sampleTree, intToString v ≠ []) ∧
      (∀ v ∈ getValuesInOrder sampleTree, find (intToString v) ", ".toList = none)) ∧
    (IsBST (fromString stoi (toString intToString sampleTree)).root ∧
    getValuesInOrder (fromString stoi (toString intToString sampleTree)) =
      getValuesInOrder sampleTree ∧
    (∀ x, x ∈ getValuesInOrder (fromString stoi (toString intToString sampleTree)) ↔
      x ∈ getValuesInOrder sampleTree) ∧
    getSize (fromString stoi (toString intToString sampleTree)) =
      (getValuesInOrder sampleTree).length ∧
    (sampleTree.size = sampleTree.root.count →
      getSize (fromString stoi (toString intToString sampleTree)) = getSize sampleTree)) :=
  have hdec : ∀ v ∈ getValuesInOrder sampleTree, stoi (intToString v) = some v :=
    fun v hv => stoi_intToString v
      ((by decide : ∀ x ∈ getValuesInOrder sampleTree, -2147483648 ≤ x ∧ x ≤ 2147483647) v hv).1
      ((by decide : ∀ x ∈ getValuesInOrder sampleTree, -2147483648 ≤ x ∧ x ≤ 2147483647) v hv).2
  have hne : ∀ v ∈ getValuesInOrder sampleTree, intToString v ≠ [] :=
    fun v _ => intToString_ne_nil v
  have hsep : ∀ v ∈ getValuesInOrder sampleTree, find (intToString v) ", ".toList = none :=
    fun v _ => find_comma_none _ _ (intToString_no_comma v)
  ⟨⟨by decide, hdec, hne, hsep⟩,
    bst_fromString_toString intToString stoi sampleTree (by decide) hdec hne hsep⟩

end BinarySearchTree

/-! ## Theorems: trees from child-parent pairs -/

namespace Node

variable {α : Type}

theorem value?_node (d : α) (l r : Node α) : (node d l r).value? = some d := rfl

theorem childParentPairs_node (d : α) (l r : Node α) :
    (node d l r).childParentPairs =
      (l.value?.toList.map (·, d) ++ r.value?.toList.map (·, d)) ++
        (childParentPairs l ++ childParentPairs r) := rfl

theorem value?_toList_inorder (s : Node α) :
    List.Perm (s.value?.toList ++ s.childParentPairs.map (·.1)) s.inorder := by
  induction s with
  | nil => simp [value?, childParentPairs, inorder, traverseByType]
  | node d l r ihl ihr =>
    simp only [value?_node, Option.toList_some, childParentPairs_node, List.map_append,
      List.map_map, inorder_node, List.singleton_append]
    have e1 : (l.value?.toList.map ((fun x : α × α => x.1) ∘ fun x => (x, d))) = l.value?.toList := by
      simp [Function.comp_def]
    have e2 : (r.value?.toList.map ((fun x : α × α => x.1) ∘ fun x => (x, d))) = r.value?.toList := by
      simp [Function.comp_def]
    rw [e1, e2]
    refine List.Perm.trans ?_ (List.perm_middle.symm)
    refine List.Perm.cons _ ?_
    refine List.Perm.trans ?_ (List.Perm.append ihl ihr)
    simp only [List.append_assoc]
    refine List.Perm.append_left _ ?_
    rw [← List.append_assoc, ← List.append_assoc]
    exact List.Perm.append_right _ List.perm_append_comm

/-- Both values of a child-parent pair are stored in the tree; the parent is the value of a
node whose child holds the other value. -/
theorem mem_childParentPairs (s : Node α) (c p : α) (h : (c, p) ∈ s.childParentPairs) :
    c ∈ s.inorder ∧ p ∈ s.inorder := by
  induction s with
  | nil => simp [childParentPairs] at h
  | node d l r ihl ihr =>
    simp only [childParentPairs_node, List.mem_append, List.mem_map, Prod.mk.injEq] at h
    simp only [inorder_node, List.mem_append, List.mem_singleton]
    rcases h with (⟨x, hx, rfl, rfl⟩ | ⟨x, hx, rfl, rfl⟩) | h | h
    · cases l with
      | nil => simp [value?] at hx
      | node ld ll lr =>
        simp only [value?, Option.toList, List.mem_singleton] at hx
        subst hx
        simp [inorder_node]
    · cases r with
      | nil => simp [value?] at hx
      | node rd rl rr =>
        simp only [value?, Option.toList, List.mem_singleton] at hx
        subst hx
        simp [inorder_node]
    · have := ihl h; tauto
    · have := ihr h; tauto

theorem value?_mem_inorder (s : Node α) (c : α) (h : s.value? = some c) : c ∈ s.inorder := by
  cases s with
  | nil => cases h
  | node d l r =>
    simp only [value?_node, Option.some.injEq] at h
    subst h
    simp [inorder_node]

end Node

theorem find?_eq_some_of_unique {α : Type} (p : α → Bool) (xs : List α) (d : α)
    (hex : ∃ x ∈ xs, p x = true) (h : ∀ y ∈ xs, p y = true → y = d) :
    xs.find? p = some d := by
  induction xs with
  | nil => obtain ⟨x, hx, _⟩ := hex; cases hx
  | cons x xs ih =>
    rw [List.find?_cons]
    by_cases hx : p x = true
    · rw [hx, h x (List.mem_cons_self _ _) hx]
    · obtain ⟨y, hy, hpy⟩ := hex
      rcases List.mem_cons.mp hy with rfl | hy
      · exact absurd hpy hx
      · simp only [hx]
        exact ih ⟨y, hy, hpy⟩ (fun z hz => h z (List.mem_cons_of_mem _ hz))

namespace BinarySearchTree

variable {α : Type} [LinearOrder α]

theorem mem_linkPairs_foldl (pairs : List (α × α)) (acc : List (α × α) × List (α × α))
    (p c : α) :
    ((p, c) ∈ (pairs.foldl
        (fun links pr =>
          if pr.1 < pr.2 then ((pr.2, pr.1) :: links.1, links.2)
          else (links.1, (pr.2, pr.1) :: links.2)) acc).1 ↔
      (p, c) ∈ acc.1 ∨ ((c, p) ∈ pairs ∧ c < p)) ∧
    ((p, c) ∈ (pairs.foldl
        (fun links pr =>
          if pr.1 < pr.2 then ((pr.2, pr.1) :: links.1, links.2)
          else (links.1, (pr.2, pr.1) :: links.2)) acc).2 ↔
      (p, c) ∈ acc.2 ∨ ((c, p) ∈ pairs ∧ ¬ c < p)) := by
  induction pairs generalizing acc with
  | nil => simp
  | cons pr pairs ih =>
    obtain ⟨a, b⟩ := pr
    simp only [List.foldl_cons, List.mem_cons, Prod.mk.injEq]
    by_cases hab : a < b
    · rw [if_pos hab]
      obtain ⟨h1, h2⟩ := ih ((b, a) :: acc.1, acc.2)
      rw [h1, h2]
      simp only [List.mem_cons, Prod.mk.injEq]
      constructor
      · constructor
        · rintro ((⟨rfl, rfl⟩ | h) | h)
          · exact Or.inr ⟨Or.inl ⟨rfl, rfl⟩, hab⟩
          · exact Or.inl h
          · exact Or.inr ⟨Or.inr h.1, h.2⟩
        · rintro (h | ⟨⟨rfl, rfl⟩ | h, h'⟩)
          · exact Or.inl (Or.inr h)
          · exact Or.inl (Or.inl ⟨rfl, rfl⟩)
          · exact Or.inr ⟨h, h'⟩
      · constructor
        · rintro (h | h)
          · exact Or.inl h
          · exact Or.inr ⟨Or.inr h.1, h.2⟩
        · rintro (h | ⟨⟨rfl, rfl⟩ | h, h'⟩)
          · exact Or.inl h
          · exact absurd hab h'
          · exact Or.inr ⟨h, h'⟩
    · rw [if_neg hab]
      obtain ⟨h1, h2⟩ := ih (acc.1, (b, a) :: acc.2)
      rw [h1, h2]
      simp only [List.mem_cons, Prod.mk.injEq]
      constructor
      · constructor
        · rintro (h | h)
          · exact Or.inl h
          · exact Or.inr ⟨Or.inr h.1, h.2⟩
        · rintro (h | ⟨⟨rfl, rfl⟩ | h, h'⟩)
          · exact Or.inl h
          · exact absurd h' hab
          · exact Or.inr ⟨h, h'⟩
      · constructor
        · rintro ((⟨rfl, rfl⟩ | h) | h)
          · exact Or.inr ⟨Or.inl ⟨rfl, rfl⟩, hab⟩
          · exact Or.inl h
          · exact Or.inr ⟨Or.inr h.1, h.2⟩
        · rintro (h | ⟨⟨rfl, rfl⟩ | h, h'⟩)
          · exact Or.inl (Or.inr h)
          · exact Or.inl (Or.inl ⟨rfl, rfl⟩)
          · exact Or.inr ⟨h, h'⟩

/-- The links set by the linking loop: a left link for every pair whose child is smaller than
its parent, a right link for every other pair. -/
theorem mem_linkPairs (pairs : List (α × α)) (p c : α) :
    ((p, c) ∈ (linkPairs pairs).1 ↔ (c, p) ∈ pairs ∧ c < p) ∧
    ((p, c) ∈ (linkPairs pairs).2 ↔ (c, p) ∈ pairs ∧ ¬ c < p) := by
  have := mem_linkPairs_foldl pairs ([], []) p c
  simpa [linkPairs] using this

theorem lookup_eq_none_of_forall (links : List (α × α)) (v : α)
    (h : ∀ c, (v, c) ∉ links) : links.lookup v = none := by
  induction links with
  | nil => rfl
  | cons e links ih =>
    obtain ⟨a, b⟩ := e
    have hne : v ≠ a := fun hva => h b (by rw [hva]; exact List.mem_cons_self _ _)
    rw [List.lookup_cons, beq_false_of_ne hne]
    exact ih (fun c hc => h c (List.mem_cons_of_mem _ hc))

theorem lookup_eq_some_of_forall (links : List (α × α)) (v c : α)
    (hex : (v, c) ∈ links) (h : ∀ c', (v, c') ∈ links → c' = c) : links.lookup v = some c := by
  induction links with
  | nil => cases hex
  | cons e links ih =>
    obtain ⟨a, b⟩ := e
    rw [List.lookup_cons]
    by_cases hva : v = a
    · subst hva
      rw [beq_self_eq_true]
      exact congrArg some (h b (List.mem_cons_self _ _))
    · rw [beq_false_of_ne hva]
      rcases List.mem_cons.mp hex with he | he
      · exact absurd (Prod.mk.inj he).1 hva
      · exact ih he (fun c' hc' => h c' (List.mem_cons_of_mem _ hc'))

/-- Links that agree with a tree lead from the value of its root to the tree. -/
theorem nodeBelow_of_linked (left right : List (α × α)) (v : α) (l r : Node α) (fuel : Nat)
    (h : Linked left right (.node v l r)) (hf : (Node.node v l r).height ≤ fuel) :
    nodeBelow left right fuel v = some (.node v l r) := by
  induction fuel generalizing v l r with
  | zero => simp [Node.height] at hf
  | succ fuel ih =>
    obtain ⟨hl, hr, bl, br⟩ := h
    simp only [Node.height] at hf
    have hl' : ∀ ld ll lr, l = .node ld ll lr →
        nodeBelow left right fuel ld = some (.node ld ll lr) := by
      intro ld ll lr e
      subst e
      exact ih ld ll lr bl (by omega)
    have hr' : ∀ rd rl rr, r = .node rd rl rr →
        nodeBelow left right fuel rd = some (.node rd rl rr) := by
      intro rd rl rr e
      subst e
      exact ih rd rl rr br (by omega)
    rw [nodeBelow, hl, hr]
    cases l with
    | nil =>
      cases r with
      | nil => rfl
      | node rd rl rr => simp only [Node.value?, hr' rd rl rr rfl]
    | node ld ll lr =>
      cases r with
      | nil => simp only [Node.value?, hl' ld ll lr rfl]
      | node rd rl rr => simp only [Node.value?, hl' ld ll lr rfl, hr' rd rl rr rfl]


/-- The pairs with a given parent value, in a search tree whose root holds that value, are
the pairs of the two children of the root. -/
theorem mem_childParentPairs_root (d : α) (l r : Node α) (hb : IsBST (.node d l r)) (c : α) :
    (c, d) ∈ (Node.node d l r).childParentPairs ↔ l.value? = some c ∨ r.value? = some c := by
  obtain ⟨hl, hr, _, _⟩ := hb
  simp only [Node.childParentPairs_node, List.mem_append, List.mem_map, Prod.mk.injEq,
    Option.mem_toList, Option.mem_def]
  constructor
  · rintro ((⟨x, hx, rfl, _⟩ | ⟨x, hx, rfl, _⟩) | h | h)
    · exact Or.inl hx
    · exact Or.inr hx
    · exact absurd (hl d (Node.mem_childParentPairs l c d h).2) (lt_irrefl d)
    · exact absurd (hr d (Node.mem_childParentPairs r c d h).2) (lt_irrefl d)
  · rintro (h | h)
    · exact Or.inl (Or.inl ⟨c, h, rfl, trivial⟩)
    · exact Or.inl (Or.inr ⟨c, h, rfl, trivial⟩)

/-- The links made from the child-parent pairs of a search tree, in any order and among any
further pairs whose parents lie outside the tree, agree with the tree. -/
theorem linked_of_pairs (pairs : List (α × α)) (s : Node α) (hb : IsBST s)
    (hin : ∀ c p, (c, p) ∈ pairs → p ∈ s.inorder → (c, p) ∈ s.childParentPairs)
    (hsub : ∀ e ∈ s.childParentPairs, e ∈ pairs) :
    Linked (linkPairs pairs).1 (linkPairs pairs).2 s := by
  induction s with
  | nil => trivial
  | node d l r ihl ihr =>
    have hb' := hb
    obtain ⟨hl, hr, bl, br⟩ := hb
    have hroot : ∀ c, (c, d) ∈ pairs ↔ l.value? = some c ∨ r.value? = some c := by
      intro c
      rw [← mem_childParentPairs_root d l r hb' c]
      exact ⟨fun h => hin c d h (by simp [Node.inorder_node]), fun h => hsub _ h⟩
    refine ⟨?_, ?_, ?_, ?_⟩
    · cases hlv : l.value? with
      | none =>
        apply lookup_eq_none_of_forall
        intro c hc
        rw [(mem_linkPairs pairs d c).1, hroot, hlv] at hc
        rcases hc with ⟨h | h, hlt⟩
        · cases h
        · exact absurd (hr c (Node.value?_mem_inorder r c h)) (not_lt_of_gt hlt)
      | some ld =>
        apply lookup_eq_some_of_forall
        · rw [(mem_linkPairs pairs d ld).1, hroot]
          exact ⟨Or.inl hlv, hl ld (Node.value?_mem_inorder l ld hlv)⟩
        · intro c hc
          rw [(mem_linkPairs pairs d c).1, hroot, hlv] at hc
          rcases hc with ⟨h | h, hlt⟩
          · exact (Option.some.inj h).symm
          · exact absurd (hr c (Node.value?_mem_inorder r c h)) (not_lt_of_gt hlt)
    · cases hrv : r.value? with
      | none =>
        apply lookup_eq_none_of_forall
        intro c hc
        rw [(mem_linkPairs pairs d c).2, hroot, hrv] at hc
        rcases hc with ⟨h | h, hlt⟩
        · exact absurd (hl c (Node.value?_mem_inorder l c h)) hlt
        · cases h
      | some rd =>
        apply lookup_eq_some_of_forall
        · rw [(mem_linkPairs pairs d rd).2, hroot]
          exact ⟨Or.inr hrv, not_lt_of_gt (hr rd (Node.value?_mem_inorder r rd hrv))⟩
        · intro c hc
          rw [(mem_linkPairs pairs d c).2, hroot, hrv] at hc
          rcases hc with ⟨h | h, hlt⟩
          · exact absurd (hl c (Node.value?_mem_inorder l c h)) hlt
          · exact (Option.some.inj h).symm
    · apply ihl bl
      · intro c p hcp hp
        have h := hin c p hcp (by simp [Node.inorder_node, hp])
        simp only [Node.childParentPairs_node, List.mem_append, List.mem_map, Prod.mk.injEq] at h
        rcases h with (⟨x, _, _, rfl⟩ | ⟨x, _, _, rfl⟩) | h | h
        · exact absurd (hl _ hp) (lt_irrefl _)
        · exact absurd (hl _ hp) (lt_irrefl _)
        · exact h
        · exact absurd (lt_trans (hl p hp) (hr p (Node.mem_childParentPairs r c p h).2))
            (lt_irrefl _)
      · intro e he
        exact hsub e (by simp [Node.childParentPairs_node, he])
    · apply ihr br
      · intro c p hcp hp
        have h := hin c p hcp (by simp [Node.inorder_node, hp])
        simp only [Node.childParentPairs_node, List.mem_append, List.mem_map, Prod.mk.injEq] at h
        rcases h with (⟨x, _, _, rfl⟩ | ⟨x, _, _, rfl⟩) | h | h
        · exact absurd (hr _ hp) (lt_irrefl _)
        · exact absurd (hr _ hp) (lt_irrefl _)
        · exact absurd (lt_trans (hl p (Node.mem_childParentPairs l c p h).2) (hr p hp))
            (lt_irrefl _)
        · exact h
      · intro e he
        exact hsub e (by simp [Node.childParentPairs_node, he])


/-- The nodes created by the first loop: one per value of the pair list. -/
theorem getNode_foldl (pairs : List (α × α)) (acc : List α) (hacc : acc.Nodup) :
    (pairs.foldl (fun nodeList pr => getNode (getNode nodeList pr.1) pr.2) acc).Nodup ∧
    ∀ x, x ∈ pairs.foldl (fun nodeList pr => getNode (getNode nodeList pr.1) pr.2) acc ↔
      x ∈ acc ∨ ∃ pr ∈ pairs, x = pr.1 ∨ x = pr.2 := by
  have hg : ∀ (l : List α) (v : α), l.Nodup →
      (getNode l v).Nodup ∧ ∀ x, x ∈ getNode l v ↔ x ∈ l ∨ x = v := by
    intro l v hl
    unfold getNode
    by_cases hv : v ∈ l
    · rw [if_pos hv]
      exact ⟨hl, fun x => ⟨Or.inl, fun h => h.elim id (fun e => e ▸ hv)⟩⟩
    · rw [if_neg hv]
      refine ⟨?_, fun x => by simp⟩
      rw [List.nodup_append]
      refine ⟨hl, List.nodup_singleton _, ?_⟩
      intro a ha hb
      rw [List.mem_singleton] at hb
      exact hv (hb ▸ ha)
  induction pairs generalizing acc with
  | nil => simp [hacc]
  | cons pr pairs ih =>
    obtain ⟨h1, m1⟩ := hg acc pr.1 hacc
    obtain ⟨h2, m2⟩ := hg _ pr.2 h1
    obtain ⟨h3, m3⟩ := ih _ h2
    refine ⟨h3, fun x => ?_⟩
    rw [List.foldl_cons, m3, m2, m1]
    simp only [List.mem_cons, exists_eq_or_imp]
    constructor
    · rintro (((h | h) | h) | h)
      · exact Or.inl h
      · exact Or.inr (Or.inl (Or.inl h))
      · exact Or.inr (Or.inl (Or.inr h))
      · exact Or.inr (Or.inr h)
    · rintro (h | (h | h) | h)
      · exact Or.inl (Or.inl (Or.inl h))
      · exact Or.inl (Or.inl (Or.inr h))
      · exact Or.inl (Or.inr h)
      · exact Or.inr h

/-- Rebuilding a search tree with at least two nodes from its child-parent pairs, listed in
any order, gives back the tree, counted right. -/
theorem fromNodeParentPairs_pairs (d : α) (l r : Node α) (hb : IsBST (.node d l r))
    (h2 : 2 ≤ (Node.node d l r).count) (pairs : List (α × α))
    (hp : pairs.Perm (Node.node d l r).childParentPairs) :
    fromNodeParentPairs pairs = .tree ⟨.node d l r, (Node.node d l r).count⟩ := by
  have hmem : ∀ e, e ∈ pairs ↔ e ∈ (Node.node d l r).childParentPairs := fun e => hp.mem_iff
  have hnd : (Node.node d l r).inorder.Nodup := (isBST_sorted _ hb).imp ne_of_lt
  have hperm := Node.value?_toList_inorder (.node d l r)
  rw [Node.value?_node, Option.toList_some, List.singleton_append] at hperm
  have hfst : ∀ x, x ∈ pairs.map (·.1) ↔ x ∈ (Node.node d l r).childParentPairs.map (·.1) :=
    fun x => (hp.map _).mem_iff
  -- the root value is a parent and no child
  have hdc : d ∉ pairs.map (·.1) := by
    rw [hfst]
    exact (List.nodup_cons.mp (hperm.nodup_iff.mpr hnd)).1
  have hchild : ∃ c, l.value? = some c ∨ r.value? = some c := by
    cases l with
    | nil =>
      cases r with
      | nil => simp [Node.count] at h2
      | node rd rl rr => exact ⟨rd, Or.inr rfl⟩
    | node ld ll lr => exact ⟨ld, Or.inl rfl⟩
  obtain ⟨c0, hc0⟩ := hchild
  have hc0mem : (c0, d) ∈ pairs := by
    rw [hmem, mem_childParentPairs_root d l r hb]
    exact hc0
  have hroot : ∀ first, findRootValue (pairs.map (·.2)) (pairs.map (·.1)) first = d := by
    intro first
    unfold findRootValue
    rw [find?_eq_some_of_unique _ _ d]
    · refine ⟨d, List.mem_map.mpr ⟨(c0, d), hc0mem, rfl⟩, ?_⟩
      simpa using hdc
    · intro y hy hyc
      obtain ⟨⟨c, p⟩, he, rfl⟩ := List.mem_map.mp hy
      have hpin := (Node.mem_childParentPairs _ c p ((hmem _).mp he)).2
      rcases List.mem_cons.mp (hperm.mem_iff.mpr hpin) with h | h
      · exact h
      · rw [← hfst] at h
        have hyc' : p ∉ pairs.map (·.1) := by simpa using hyc
        exact absurd h hyc'
  -- one node per stored value
  obtain ⟨hnl, hnm⟩ := getNode_foldl pairs [] List.nodup_nil
  have hlen : (pairs.foldl (fun nodeList pr => getNode (getNode nodeList pr.1) pr.2) []).length =
      (Node.node d l r).count := by
    rw [← Node.length_inorder]
    apply List.Perm.length_eq
    rw [List.perm_ext_iff_of_nodup hnl hnd]
    intro x
    rw [hnm]
    simp only [List.not_mem_nil, false_or]
    constructor
    · rintro ⟨⟨c, p⟩, he, h | h⟩
      · exact h ▸ (Node.mem_childParentPairs _ c p ((hmem _).mp he)).1
      · exact h ▸ (Node.mem_childParentPairs _ c p ((hmem _).mp he)).2
    · intro hx
      rcases List.mem_cons.mp (hperm.mem_iff.mpr hx) with h | h
      · exact ⟨(c0, d), hc0mem, Or.inr h⟩
      · rw [← hfst] at h
        obtain ⟨pr, hpr, rfl⟩ := List.mem_map.mp h
        exact ⟨pr, hpr, Or.inl rfl⟩
  have hlinked := linked_of_pairs pairs (.node d l r) hb
    (fun c p hcp _ => (hmem _).mp hcp) (fun e he => (hmem _).mpr he)
  have hheight : (Node.node d l r).height ≤ (Node.node d l r).count := by
    have : ∀ s : Node α, s.height ≤ s.count := by
      intro s
      induction s with
      | nil => exact Nat.le_refl _
      | node _ a b iha ihb => simp only [Node.height, Node.count]; omega
    exact this _
  cases hpairs : pairs with
  | nil => rw [hpairs] at hc0mem; cases hc0mem
  | cons first rest =>
    rw [← hpairs]
    unfold fromNodeParentPairs
    rw [hpairs]
    simp only
    rw [← hpairs, hroot, hlen, nodeBelow_of_linked _ _ d l r _ hlinked hheight]

end BinarySearchTree

namespace BinarySearchTree

variable {α : Type} [LinearOrder α]

/-! ### The claims on trees from child-parent pairs -/

/-- C29: for a tree with the BST invariant and at least two nodes, `fromNodeParentPairs` on the
(child value, parent value) pairs of its non-root nodes, in any order, rebuilds the tree: the
same root, shape and values, `getSize()` equal to the node count, and the same in-order
sequence. -/
theorem bst_fromNodeParentPairs_rebuilds (t : BinarySearchTree α) (h : IsBST t.root)
    (h2 : 2 ≤ t.root.count) (pairs : List (α × α))
    (hp : pairs.Perm t.root.childParentPairs) :
    ∃ rebuilt, fromNodeParentPairs pairs = .tree rebuilt ∧ rebuilt.root = t.root ∧
      getSize rebuilt = t.root.count ∧ getValuesInOrder rebuilt = getValuesInOrder t := by
  obtain ⟨root, size⟩ := t
  cases root with
  | nil => simp [Node.count] at h2
  | node d l r =>
    refine ⟨⟨.node d l r, (Node.node d l r).count⟩,
      fromNodeParentPairs_pairs d l r h h2 pairs hp, rfl, rfl, ?_⟩
    rw [getValuesInOrder_eq, getValuesInOrder_eq]

/-- Witness of C29 on the tree of `testFromNodeParentPairs`, its pairs listed in another
order: the result has size 5 and the in-order sequence 3, 5, 7, 10, 15. -/
theorem bst_fromNodeParentPairs_rebuilds_witness :
    (IsBST pairsTree.root ∧ 2 ≤ pairsTree.root.count ∧
      List.Perm [((7 : Int), (5 : Int)), (5, 10), (3, 5), (15, 10)]
        pairsTree.root.childParentPairs) ∧
    ∃ rebuilt, fromNodeParentPairs [((7 : Int), (5 : Int)), (5, 10), (3, 5), (15, 10)] =
        .tree rebuilt ∧ rebuilt.root = pairsTree.root ∧
      getSize rebuilt = pairsTree.root.count ∧
      getValuesInOrder rebuilt = getValuesInOrder pairsTree :=
  ⟨by decide, bst_fromNodeParentPairs_rebuilds pairsTree (by decide) (by decide) _ (by decide)⟩

/-- C30, the code at the failing input: for the pair list `(5, 10), (20, 30)` the tree
`fromNodeParentPairs` returns has two nodes below its root (10 and its left child 5) while
its `getSize()` is 4, the number of values in the list. -/
theorem bst_fromNodeParentPairs_miscount :
    fromNodeParentPairs [((5 : Int), (10 : Int)), (20, 30)] = .tree miscountedTree ∧
    getSize miscountedTree = 4 ∧ miscountedTree.root.count = 2 ∧
    getValuesInOrder miscountedTree = [5, 10] := by
  decide

end BinarySearchTree

/-! ## Theorems: heaps from pair lists -/

namespace Node

variable {α : Type}

@[simp] theorem attach_empty (t s : Node α) : attach t [] s = s := by
  cases t <;> rfl

/-- The link that leads to an existing node is set to the new node. -/
theorem subtreeAt_attach_append (t : Node α) (p q : List Bool) (s : Node α)
    (h : subtreeAt t p ≠ nil) : subtreeAt (attach t p s) (p ++ q) = subtreeAt s q := by
  induction p generalizing t with
  | nil => simp
  | cons b p ih =>
    cases t with
    | nil => simp [subtreeAt] at h
    | node d l r =>
      cases b
      · simp only [subtreeAt] at h
        simp only [attach, List.cons_append, subtreeAt]
        exact ih r h
      · simp only [subtreeAt] at h
        simp only [attach, List.cons_append, subtreeAt]
        exact ih l h

/-- Away from the link that is set the values stay where they are. -/
theorem value?_subtreeAt_attach (t : Node α) (p q : List Bool) (s : Node α)
    (h : ¬ p <+: q) : (subtreeAt (attach t p s) q).value? = (subtreeAt t q).value? := by
  induction p generalizing t q with
  | nil => exact absurd List.nil_prefix h
  | cons b p ih =>
    cases t with
    | nil => rfl
    | node d l r =>
      cases q with
      | nil => cases b <;> rfl
      | cons b' q =>
        cases b <;> cases b' <;> simp only [attach, subtreeAt]
        · exact ih r q (fun hp => h (by simpa using hp))
        · exact ih l q (fun hp => h (by simpa using hp))

/-- Setting the left (right) link of the node at a path is setting the link to that node
to the node with the new child. -/
theorem attach_snoc (t : Node α) (p : List Bool) (d : α) (l r s : Node α)
    (h : subtreeAt t p = node d l r) :
    attach t (p ++ [true]) s = attach t p (node d s r) ∧
    attach t (p ++ [false]) s = attach t p (node d l s) := by
  induction p generalizing t with
  | nil =>
    simp only [subtreeAt_empty] at h
    subst h
    simp [attach]
  | cons b p ih =>
    cases t with
    | nil => simp [subtreeAt] at h
    | node e a c =>
      cases b
      · simp only [subtreeAt] at h
        obtain ⟨h1, h2⟩ := ih c h
        exact ⟨by rw [List.cons_append, attach, h1, attach],
          by rw [List.cons_append, attach, h2, attach]⟩
      · simp only [subtreeAt] at h
        obtain ⟨h1, h2⟩ := ih a h
        exact ⟨by rw [List.cons_append, attach, h1, attach],
          by rw [List.cons_append, attach, h2, attach]⟩

theorem attach_attach (t : Node α) (p : List Bool) (s u : Node α) (h : subtreeAt t p ≠ nil) :
    attach (attach t p s) p u = attach t p u := by
  induction p generalizing t with
  | nil => simp
  | cons b p ih =>
    cases t with
    | nil => simp [subtreeAt] at h
    | node d l r =>
      cases b
      · simp only [subtreeAt] at h
        simp only [attach, ih r h]
      · simp only [subtreeAt] at h
        simp only [attach, ih l h]

/-- Setting a link changes the node count by the difference of the two subtrees. -/
theorem count_attach (t : Node α) (p : List Bool) (s : Node α) (h : subtreeAt t p ≠ nil) :
    (attach t p s).count + (subtreeAt t p).count = t.count + s.count := by
  induction p generalizing t with
  | nil => simp; omega
  | cons b p ih =>
    cases t with
    | nil => simp [subtreeAt] at h
    | node d l r =>
      cases b
      · simp only [subtreeAt] at h ⊢
        simp only [attach, count]
        have := ih r h
        omega
      · simp only [subtreeAt] at h ⊢
        simp only [attach, count]
        have := ih l h
        omega

/-- A value found at a path is a stored value. -/
theorem mem_preorder_of_subtreeAt (t : Node α) (p : List Bool) (d : α)
    (h : (subtreeAt t p).value? = some d) : d ∈ t.preorder := by
  induction p generalizing t with
  | nil =>
    cases t with
    | nil => cases h
    | node e l r =>
      simp only [subtreeAt_empty, value?_node, Option.some.injEq] at h
      subst h
      simp [preorder, traverseByType]
  | cons b p ih =>
    cases t with
    | nil => cases h
    | node e l r =>
      cases b
      · simp only [subtreeAt] at h
        have := ih r h
        simp only [preorder_node, List.mem_cons, List.mem_append]
        exact Or.inr (Or.inr this)
      · simp only [subtreeAt] at h
        have := ih l h
        simp only [preorder_node, List.mem_cons, List.mem_append]
        exact Or.inr (Or.inl this)

/-- Every stored value is found at some path. -/
theorem subtreeAt_of_mem_preorder (t : Node α) (d : α) (h : d ∈ t.preorder) :
    ∃ p, (subtreeAt t p).value? = some d := by
  induction t with
  | nil => simp [preorder, traverseByType] at h
  | node e l r ihl ihr =>
    simp only [preorder_node, List.mem_cons, List.mem_append] at h
    rcases h with rfl | h | h
    · exact ⟨[], rfl⟩
    · obtain ⟨p, hp⟩ := ihl h
      exact ⟨true :: p, hp⟩
    · obtain ⟨p, hp⟩ := ihr h
      exact ⟨false :: p, hp⟩

/-- Values that differ from path to path differ from node to node. -/
theorem nodup_preorder_of_injective (t : Node α)
    (h : ∀ p q d, (subtreeAt t p).value? = some d → (subtreeAt t q).value? = some d → p = q) :
    t.preorder.Nodup := by
  induction t with
  | nil => simp [preorder, traverseByType]
  | node e l r ihl ihr =>
    rw [preorder_node, List.nodup_cons, List.nodup_append]
    refine ⟨?_, ihl ?_, ihr ?_, ?_⟩
    · intro he
      rcases List.mem_append.mp he with he | he
      · obtain ⟨p, hp⟩ := subtreeAt_of_mem_preorder l e he
        have := h [] (true :: p) e rfl hp
        cases this
      · obtain ⟨p, hp⟩ := subtreeAt_of_mem_preorder r e he
        have := h [] (false :: p) e rfl hp
        cases this
    · intro p q d hp hq
      have := h (true :: p) (true :: q) d hp hq
      simpa using this
    · intro p q d hp hq
      have := h (false :: p) (false :: q) d hp hq
      simpa using this
    · intro x hx hy
      obtain ⟨p, hp⟩ := subtreeAt_of_mem_preorder l x hx
      obtain ⟨q, hq⟩ := subtreeAt_of_mem_preorder r x hy
      have := h (true :: p) (false :: q) x hp hq
      simp at this

/-- Trees with the same values at the same paths are equal. -/
theorem eq_of_value?_subtreeAt (t u : Node α)
    (h : ∀ p, (subtreeAt t p).value? = (subtreeAt u p).value?) : t = u := by
  induction t generalizing u with
  | nil =>
    cases u with
    | nil => rfl
    | node e a b => have := h []; cases this
  | node d l r ihl ihr =>
    cases u with
    | nil => have := h []; cases this
    | node e a b =>
      have h0 := h []
      simp only [subtreeAt_empty, value?_node, Option.some.injEq] at h0
      subst h0
      rw [ihl a (fun p => h (true :: p)), ihr b (fun p => h (false :: p))]

end Node

namespace BinaryHeap

variable {α : Type} [LinearOrder α]

theorem valueAt_nil (pairs : List (α × α)) (v : α) : valueAt pairs v [] = some v := rfl

theorem valueAt_cons (pairs : List (α × α)) (v : α) (b : Bool) (p : List Bool) :
    valueAt pairs v (b :: p) =
      ((childrenOf pairs v)[if b then 0 else 1]?).bind (fun c => valueAt pairs c p) := by
  rw [valueAt]
  cases (childrenOf pairs v)[if b then 0 else 1]? <;> rfl

theorem valueAt_append (pairs : List (α × α)) (v : α) (p q : List Bool) :
    valueAt pairs v (p ++ q) = (valueAt pairs v p).bind (fun c => valueAt pairs c q) := by
  induction p generalizing v with
  | nil => rfl
  | cons b p ih =>
    rw [List.cons_append, valueAt_cons, valueAt_cons]
    cases (childrenOf pairs v)[if b then 0 else 1]? with
    | none => rfl
    | some c => exact ih c

theorem valueAt_snoc (pairs : List (α × α)) (v : α) (p : List Bool) (b : Bool) :
    valueAt pairs v (p ++ [b]) =
      (valueAt pairs v p).bind (fun c => (childrenOf pairs c)[if b then 0 else 1]?) := by
  rw [valueAt_append]
  congr 1
  funext c
  rw [valueAt_cons]
  cases (childrenOf pairs c)[if b then 0 else 1]? <;> rfl

/-- A child listed for a value comes from a pair with that parent and another first value. -/
theorem mem_childrenOf (pairs : List (α × α)) (p c : α) :
    c ∈ childrenOf pairs p ↔ (c, p) ∈ pairs ∧ c ≠ p := by
  unfold childrenOf
  simp only [List.mem_map, List.mem_filter, Bool.and_eq_true, decide_eq_true_eq]
  constructor
  · rintro ⟨⟨a, b⟩, ⟨hm, hne, rfl⟩, rfl⟩
    exact ⟨hm, hne⟩
  · rintro ⟨hm, hne⟩
    exact ⟨(c, p), ⟨hm, hne, rfl⟩, rfl⟩

theorem nodup_childrenOf (pairs : List (α × α)) (p : α) (h : (pairs.map (·.1)).Nodup) :
    (childrenOf pairs p).Nodup := by
  unfold childrenOf
  exact h.sublist ((List.filter_sublist _).map _)

end BinaryHeap

namespace Node

variable {α : Type}

theorem attach_subtreeAt (t : Node α) (p : List Bool) : attach t p (subtreeAt t p) = t := by
  induction p generalizing t with
  | nil => simp
  | cons b p ih =>
    cases t with
    | nil => rfl
    | node d l r => cases b <;> simp [attach, subtreeAt, ih]

/-- A node without values at its two links is a leaf. -/
theorem eq_leaf_of_value? (s : Node α) (v : α) (h : s.value? = some v)
    (hl : (subtreeAt s [true]).value? = none) (hr : (subtreeAt s [false]).value? = none) :
    s = node v nil nil := by
  cases s with
  | nil => cases h
  | node d l r =>
    simp only [value?_node, Option.some.injEq] at h
    subst h
    cases l with
    | node _ _ _ => cases hl
    | nil =>
      cases r with
      | node _ _ _ => cases hr
      | nil => rfl

end Node

namespace BinaryHeap

variable {α : Type}

theorem length_newEntries (parentNode : List Bool) (cs : List α) (h : cs.length ≤ 2) :
    (newEntries parentNode cs).length = cs.length := by
  match cs, h with
  | [], _ => rfl
  | [a], _ => rfl
  | [a, b], _ => rfl

/-- The loop over the children of a leaf attaches up to two of them and throws at a third. -/
theorem attachChildren_leaf (parentNode : List Bool) (v : α) (cs : List α) (t : Node α)
    (n : Nat) (q : List (List Bool × α)) (h : t.subtreeAt parentNode = .node v .nil .nil) :
    attachChildren parentNode cs (t, n, q) =
      if cs.length ≤ 2 then
        some (t.attach parentNode (.node v (Node.leaf? cs[0]?) (Node.leaf? cs[1]?)),
          n + cs.length, q ++ newEntries parentNode cs)
      else none := by
  have hne : t.subtreeAt parentNode ≠ .nil := by rw [h]; exact fun e => by cases e
  match cs with
  | [] =>
    simp only [attachChildren, List.length_nil, Nat.zero_le, if_true, newEntries,
      List.append_nil, Nat.add_zero, List.getElem?_nil, Node.leaf?]
    rw [← h, Node.attach_subtreeAt]
  | [a] =>
    simp only [attachChildren, h, Node.isNull, if_true, List.length_singleton,
      Nat.one_le_ofNat, newEntries, List.getElem?_cons_zero, Node.leaf?]
    rw [(Node.attach_snoc t parentNode v .nil .nil _ h).1]
    rfl
  | [a, b] =>
    have h1 : (t.attach parentNode (.node v (.node a .nil .nil) .nil)).subtreeAt parentNode =
        .node v (.node a .nil .nil) .nil := by
      have := Node.subtreeAt_attach_append t parentNode [] (.node v (.node a .nil .nil) .nil) hne
      simpa using this
    simp only [attachChildren, h, Node.isNull, if_true]
    rw [(Node.attach_snoc t parentNode v .nil .nil _ h).1]
    simp only [h1, Node.isNull, Bool.false_eq_true, if_false, if_true]
    rw [(Node.attach_snoc _ parentNode v (.node a .nil .nil) .nil _ h1).2,
      Node.attach_attach _ _ _ _ hne]
    simp [newEntries, Node.leaf?]
  | a :: b :: c :: rest =>
    have h1 : (t.attach parentNode (.node v (.node a .nil .nil) .nil)).subtreeAt parentNode =
        .node v (.node a .nil .nil) .nil := by
      have := Node.subtreeAt_attach_append t parentNode [] (.node v (.node a .nil .nil) .nil) hne
      simpa using this
    have h2 : (t.attach parentNode (.node v (.node a .nil .nil) (.node b .nil .nil))).subtreeAt
        parentNode = .node v (.node a .nil .nil) (.node b .nil .nil) := by
      have := Node.subtreeAt_attach_append t parentNode []
        (.node v (.node a .nil .nil) (.node b .nil .nil)) hne
      simpa using this
    simp only [attachChildren, h, Node.isNull, if_true]
    rw [(Node.attach_snoc t parentNode v .nil .nil _ h).1]
    simp only [h1, Node.isNull, Bool.false_eq_true, if_false, if_true]
    rw [(Node.attach_snoc _ parentNode v (.node a .nil .nil) .nil _ h1).2,
      Node.attach_attach _ _ _ _ hne]
    simp [h2, Node.isNull]

end BinaryHeap

namespace BinaryHeap

variable {α : Type} [LinearOrder α]

theorem mem_newEntries (parentNode : List Bool) (cs : List α) (h : cs.length ≤ 2)
    (e : List Bool × α) :
    e ∈ newEntries parentNode cs ↔
      ∃ b : Bool, e.1 = parentNode ++ [b] ∧ cs[if b then 0 else 1]? = some e.2 := by
  obtain ⟨p, c⟩ := e
  match cs, h with
  | [], _ => simp [newEntries]
  | [a], _ =>
    simp only [newEntries, List.mem_singleton, Prod.mk.injEq, Bool.exists_bool]
    simp
    tauto
  | [a, b], _ =>
    simp only [newEntries, List.mem_cons, Prod.mk.injEq, Bool.exists_bool]
    simp
    tauto

end BinaryHeap

namespace Node

variable {α : Type}

theorem value?_leaf? (o : Option α) : (leaf? o).value? = o := by
  cases o <;> rfl

theorem subtreeAt_leaf?_cons (o : Option α) (b : Bool) (p : List Bool) :
    subtreeAt (leaf? o) (b :: p) = nil := by
  cases o with
  | none => rfl
  | some c => cases b <;> simp [leaf?, subtreeAt, subtreeAt_nil]

theorem count_leaf? (o : Option α) : (leaf? o).count = o.toList.length := by
  cases o <;> rfl

end Node

namespace BinaryHeap

variable {α : Type} [LinearOrder α]

/-- One iteration of the breadth-first loop keeps the invariant: the node taken from the queue
is a leaf, and its children are attached as `valueAt` places them. -/
theorem buildInv_step (pairs : List (α × α)) (rootValue : α) (k : Nat) (t : Node α) (n : Nat)
    (parentNode : List Bool) (v : α) (rest : List (List Bool × α))
    (hinv : BuildInv pairs rootValue k (t, n, (parentNode, v) :: rest))
    (hcs : (childrenOf pairs v).length ≤ 2) :
    t.subtreeAt parentNode = .node v .nil .nil ∧
    BuildInv pairs rootValue (k + 1)
      (t.attach parentNode
          (.node v (Node.leaf? (childrenOf pairs v)[0]?) (Node.leaf? (childrenOf pairs v)[1]?)),
        n + (childrenOf pairs v).length, rest ++ newEntries parentNode (childrenOf pairs v)) := by
  obtain ⟨h0, hk, ha, hb, hq, hnd⟩ := hinv
  simp only at h0 hk ha hb hq hnd
  generalize hcsdef : childrenOf pairs v = cs at *
  have hv : (t.subtreeAt parentNode).value? = some v := hq _ (List.mem_cons_self _ _)
  have hchild : ∀ b : Bool, (t.subtreeAt (parentNode ++ [b])).value? = none := fun b =>
    ha _ ⟨(parentNode, v), List.mem_cons_self _ _, List.prefix_append _ _, by simp⟩
  have hleaf : t.subtreeAt parentNode = .node v .nil .nil := by
    apply Node.eq_leaf_of_value? _ _ hv
    · rw [← Node.subtreeAt_append]; exact hchild true
    · rw [← Node.subtreeAt_append]; exact hchild false
  have hne : t.subtreeAt parentNode ≠ .nil := by rw [hleaf]; exact fun e => by cases e
  have hself : ¬ ∃ e ∈ (parentNode, v) :: rest, e.1 <+: parentNode ∧ e.1 ≠ parentNode := by
    intro hex
    rw [ha _ hex] at hv
    cases hv
  have hat : valueAt pairs rootValue parentNode = some v := by rw [← hb _ hself, hv]
  rw [List.map_cons, List.nodup_cons] at hnd
  have hrest1 : ∀ e ∈ rest, ¬ e.1 <+: parentNode := by
    intro e he hp
    refine hself ⟨e, List.mem_cons_of_mem _ he, hp, fun heq => hnd.1 ?_⟩
    have := List.mem_map_of_mem (fun x : List Bool × α => x.1) he
    simp only [heq] at this
    exact this
  have hrest2 : ∀ e ∈ rest, ¬ parentNode <+: e.1 := by
    intro e he hp
    have h1 := hq e (List.mem_cons_of_mem _ he)
    rw [ha _ ⟨(parentNode, v), List.mem_cons_self _ _, hp, fun heq => hnd.1 ?_⟩] at h1
    · cases h1
    · have := List.mem_map_of_mem (fun x : List Bool × α => x.1) he
      simp only [← heq] at this
      exact this
  have hsub : ∀ (b : Bool) (p : List Bool),
      (t.attach parentNode (.node v (Node.leaf? cs[0]?) (Node.leaf? cs[1]?))).subtreeAt
        (parentNode ++ b :: p) = (Node.leaf? cs[if b then 0 else 1]?).subtreeAt p := by
    intro b p
    rw [Node.subtreeAt_attach_append _ _ _ _ hne]
    cases b <;> rfl
  refine ⟨hleaf, ?_, ?_, ?_, ?_, ?_, ?_⟩
  · -- the counter
    dsimp only
    have hc := Node.count_attach t parentNode
      (.node v (Node.leaf? cs[0]?) (Node.leaf? cs[1]?)) hne
    rw [hleaf] at hc
    have hl : (Node.node v (Node.leaf? cs[0]?) (Node.leaf? cs[1]?)).count = 1 + cs.length := by
      match cs, hcs with
      | [], _ => rfl
      | [a], _ => rfl
      | [a, b], _ => rfl
    rw [hl] at hc
    simp only [Node.count] at hc
    omega
  · dsimp only
    have hc := Node.count_attach t parentNode
      (.node v (Node.leaf? cs[0]?) (Node.leaf? cs[1]?)) hne
    rw [hleaf] at hc
    have hl : (Node.node v (Node.leaf? cs[0]?) (Node.leaf? cs[1]?)).count = 1 + cs.length := by
      match cs, hcs with
      | [], _ => rfl
      | [a], _ => rfl
      | [a, b], _ => rfl
    rw [hl] at hc
    simp only [Node.count, List.length_cons] at hc hk
    rw [List.length_append, length_newEntries _ _ hcs]
    omega
  · -- nothing below a queued node
    rintro p ⟨e, he, hp, hpne⟩
    show (Node.subtreeAt _ p).value? = none
    rcases List.mem_append.mp he with he | he
    · have hnp : ¬ parentNode <+: p := by
        intro hpp
        rcases List.prefix_or_prefix_of_prefix hp hpp with h | h
        · exact hrest1 e he h
        · exact hrest2 e he h
      rw [Node.value?_subtreeAt_attach _ _ _ _ hnp]
      exact ha p ⟨e, List.mem_cons_of_mem _ he, hp, hpne⟩
    · obtain ⟨b, hb1, hb2⟩ := (mem_newEntries parentNode cs hcs e).mp he
      rw [hb1] at hp hpne
      obtain ⟨p', rfl⟩ := hp
      cases p' with
      | nil => simp at hpne
      | cons b' p' =>
        rw [List.append_assoc, List.singleton_append, hsub, Node.subtreeAt_leaf?_cons]
        rfl
  · -- the other positions
    intro p hp
    show (Node.subtreeAt _ p).value? = _
    by_cases hpp : parentNode <+: p
    · obtain ⟨p', rfl⟩ := hpp
      cases p' with
      | nil =>
        rw [List.append_nil, hat]
        have := Node.subtreeAt_attach_append t parentNode []
          (.node v (Node.leaf? cs[0]?) (Node.leaf? cs[1]?)) hne
        rw [List.append_nil] at this
        rw [this]
        rfl
      | cons b p' =>
        rw [hsub, valueAt_append, hat, Option.some_bind, valueAt_cons, hcsdef]
        cases hc : cs[if b then 0 else 1]? with
        | none => simp [Node.leaf?, Node.subtreeAt_nil, Node.value?]
        | some c =>
          cases p' with
          | nil => simp [Node.leaf?, Node.value?, valueAt_nil]
          | cons b' p' =>
            exfalso
            apply hp
            refine ⟨(parentNode ++ [b], c), List.mem_append_right _ ?_, ?_, ?_⟩
            · exact (mem_newEntries parentNode cs hcs _).mpr ⟨b, rfl, hc⟩
            · exact ⟨b' :: p', by simp⟩
            · simp
    · rw [Node.value?_subtreeAt_attach _ _ _ _ hpp]
      apply hb
      rintro ⟨e, he, hep, hene⟩
      rcases List.mem_cons.mp he with rfl | he
      · exact hpp hep
      · exact hp ⟨e, List.mem_append_left _ he, hep, hene⟩
  · -- the queue holds nodes of the tree
    intro e he
    show (Node.subtreeAt _ e.1).value? = some e.2
    rcases List.mem_append.mp he with he | he
    · rw [Node.value?_subtreeAt_attach _ _ _ _ (hrest2 e he)]
      exact hq e (List.mem_cons_of_mem _ he)
    · obtain ⟨b, hb1, hb2⟩ := (mem_newEntries parentNode cs hcs e).mp he
      rw [hb1, hsub, hb2]
      rfl
  · -- each once
    show ((rest ++ newEntries parentNode cs).map (·.1)).Nodup
    rw [List.map_append, List.nodup_append]
    refine ⟨hnd.2, ?_, ?_⟩
    · match cs, hcs with
      | [], _ => simp [newEntries]
      | [a], _ => simp [newEntries]
      | [a, b], _ => simp [newEntries]
    · intro x hx hy
      obtain ⟨e, he, rfl⟩ := List.mem_map.mp hx
      obtain ⟨e', he', heq⟩ := List.mem_map.mp hy
      obtain ⟨b, hb1, _⟩ := (mem_newEntries parentNode cs hcs e').mp he'
      apply hrest2 e he
      rw [← heq, hb1]
      exact List.prefix_append _ _

end BinaryHeap

namespace BinaryHeap

variable {α : Type}

/-- A value listed once has one parent. -/
theorem parent_unique (pairs : List (α × α)) (hnd : (pairs.map (·.1)).Nodup) (c p p' : α)
    (h : (c, p) ∈ pairs) (h' : (c, p') ∈ pairs) : p = p' := by
  have := List.inj_on_of_nodup_map hnd h h' rfl
  exact (Prod.mk.inj this).2

/-- Among reachable values that are listed once, only the root value is paired with itself. -/
theorem self_pair_root (pairs : List (α × α)) (r : α) (hnd : (pairs.map (·.1)).Nodup)
    (c : α) (h : Reachable pairs r c) (hc : (c, c) ∈ pairs) : c = r := by
  induction h with
  | root => rfl
  | child c p _ hmem ih =>
    have := parent_unique pairs hnd c p c hmem hc
    subst this
    exact ih hc

end BinaryHeap

namespace BinaryHeap

variable {α : Type} [LinearOrder α]

/-- A value placed by `valueAt` is a listed value. -/
theorem valueAt_mem (pairs : List (α × α)) (r : α) (hroot : (r, r) ∈ pairs) (p : List Bool)
    (d : α) (h : valueAt pairs r p = some d) : d ∈ pairs.map (·.1) := by
  induction p using List.reverseRecOn with
  | nil =>
    simp only [valueAt_nil, Option.some.injEq] at h
    subst h
    exact List.mem_map.mpr ⟨(r, r), hroot, rfl⟩
  | append_singleton p b _ =>
    rw [valueAt_snoc] at h
    obtain ⟨c, _, hc⟩ := Option.bind_eq_some.mp h
    have := (mem_childrenOf pairs c d).mp (List.getElem?_mem hc)
    exact List.mem_map.mpr ⟨(d, c), this.1, rfl⟩

/-- Where every value is listed once, `valueAt` places every value once. -/
theorem valueAt_injective (pairs : List (α × α)) (r : α) (hroot : (r, r) ∈ pairs)
    (hnd : (pairs.map (·.1)).Nodup) (p q : List Bool) (d : α)
    (hp : valueAt pairs r p = some d) (hq : valueAt pairs r q = some d) : p = q := by
  have hrootchild : ∀ (p' : List Bool) (b : Bool), valueAt pairs r (p' ++ [b]) ≠ some r := by
    intro p' b h
    rw [valueAt_snoc] at h
    obtain ⟨c, _, hc⟩ := Option.bind_eq_some.mp h
    have hm := (mem_childrenOf pairs c r).mp (List.getElem?_mem hc)
    exact hm.2 (parent_unique pairs hnd r r c hroot hm.1)
  induction p using List.reverseRecOn generalizing q d with
  | nil =>
    simp only [valueAt_nil, Option.some.injEq] at hp
    subst hp
    rcases List.eq_nil_or_concat q with rfl | ⟨q', b, rfl⟩
    · rfl
    · rw [List.concat_eq_append] at hq
      exact absurd hq (hrootchild q' b)
  | append_singleton p b ih =>
    rcases List.eq_nil_or_concat q with rfl | ⟨q', b', rfl⟩
    · simp only [valueAt_nil, Option.some.injEq] at hq
      subst hq
      exact absurd hp (hrootchild p b)
    · rw [List.concat_eq_append] at hq ⊢
      rw [valueAt_snoc] at hp hq
      obtain ⟨c1, hc1, hd1⟩ := Option.bind_eq_some.mp hp
      obtain ⟨c2, hc2, hd2⟩ := Option.bind_eq_some.mp hq
      have hm1 := (mem_childrenOf pairs c1 d).mp (List.getElem?_mem hd1)
      have hm2 := (mem_childrenOf pairs c2 d).mp (List.getElem?_mem hd2)
      have hc : c1 = c2 := parent_unique pairs hnd d c1 c2 hm1.1 hm2.1
      subst hc
      have hpq := ih q' c1 hc1 hc2
      subst hpq
      have hcn := nodup_childrenOf pairs c1 hnd
      have hb : b = b' := by
        cases b <;> cases b' <;> first | rfl | skip
        · simp only [Bool.false_eq_true, if_false, if_true] at hd1 hd2
          match hcs : childrenOf pairs c1, hd1, hd2 with
          | x :: y :: _, h1, h2 =>
            rw [hcs] at hcn
            simp only [List.getElem?_cons_succ, List.getElem?_cons_zero, Option.some.injEq] at h1 h2
            rw [h1, h2] at hcn
            simp at hcn
        · simp only [Bool.false_eq_true, if_false, if_true] at hd1 hd2
          match hcs : childrenOf pairs c1, hd1, hd2 with
          | x :: y :: _, h1, h2 =>
            rw [hcs] at hcn
            simp only [List.getElem?_cons_succ, List.getElem?_cons_zero, Option.some.injEq] at h1 h2
            rw [h1, h2] at hcn
            simp at hcn
      rw [hb]

/-- Where no value has more than two children, `valueAt` places every reachable value. -/
theorem valueAt_of_reachable (pairs : List (α × α)) (r : α)
    (hch : ∀ p, (childrenOf pairs p).length ≤ 2) (c : α) (h : Reachable pairs r c) :
    ∃ p, valueAt pairs r p = some c := by
  induction h with
  | root => exact ⟨[], rfl⟩
  | child c p _ hmem ih =>
    obtain ⟨path, hpath⟩ := ih
    by_cases hcp : c = p
    · exact ⟨path, by rw [hcp]; exact hpath⟩
    · have hc : c ∈ childrenOf pairs p := (mem_childrenOf pairs p c).mpr ⟨hmem, hcp⟩
      obtain ⟨i, hi⟩ := List.mem_iff_getElem?.mp hc
      have hlt : i < (childrenOf pairs p).length := by
        by_contra hge
        rw [List.getElem?_eq_none (by omega)] at hi
        cases hi
      have := hch p
      have hi2 : i = 0 ∨ i = 1 := by omega
      rcases hi2 with rfl | rfl
      · exact ⟨path ++ [true], by rw [valueAt_snoc, hpath]; simpa using hi⟩
      · exact ⟨path ++ [false], by rw [valueAt_snoc, hpath]; simpa using hi⟩

end BinaryHeap

namespace BinaryHeap

variable {α : Type} [LinearOrder α]

/-- The breadth-first loop from a state with the invariant, where no value has more than two
children and the invariant bounds the node count by `N`: `N` iterations in all empty the
queue, and the tree built holds at every path the value that `valueAt` places there. -/
theorem buildLoop_spec (pairs : List (α × α)) (r : α) (N : Nat)
    (hch : ∀ p, (childrenOf pairs p).length ≤ 2)
    (hbound : ∀ k s, BuildInv pairs r k s → s.1.count ≤ N)
    (fuel k : Nat) (s : Node α × Nat × List (List Bool × α))
    (hinv : BuildInv pairs r k s) (hfuel : N ≤ k + fuel) :
    ∃ t, buildLoop pairs fuel s = some (some (t, t.count)) ∧
      ∀ p, (t.subtreeAt p).value? = valueAt pairs r p := by
  induction fuel generalizing k s with
  | zero =>
    obtain ⟨t, n, q⟩ := s
    cases q with
    | nil =>
      obtain ⟨h0, _, _, hb, _, _⟩ := hinv
      simp only at h0 hb
      refine ⟨t, by rw [buildLoop, h0], fun p => hb p ?_⟩
      rintro ⟨e, he, _⟩
      cases he
    | cons e q =>
      have h1 := hbound k _ hinv
      obtain ⟨_, hk, _⟩ := hinv
      simp only [List.length_cons] at h1 hk
      omega
  | succ fuel ih =>
    obtain ⟨t, n, q⟩ := s
    cases q with
    | nil =>
      obtain ⟨h0, _, _, hb, _, _⟩ := hinv
      simp only at h0 hb
      refine ⟨t, by rw [buildLoop, h0], fun p => hb p ?_⟩
      rintro ⟨e, he, _⟩
      cases he
    | cons e q =>
      obtain ⟨parentNode, v⟩ := e
      obtain ⟨hleaf, hinv'⟩ := buildInv_step pairs r k t n parentNode v q hinv (hch v)
      obtain ⟨t', ht', hfin⟩ := ih (k + 1) _ hinv' (by omega)
      refine ⟨t', ?_, hfin⟩
      rw [buildLoop, attachChildren_leaf parentNode v _ t n q hleaf, if_pos (hch v)]
      exact ht'

/-- The state in which the breadth-first loop starts has the invariant. -/
theorem buildInv_init (pairs : List (α × α)) (r : α) :
    BuildInv pairs r 0 (.node r .nil .nil, 1, [([], r)]) := by
  refine ⟨rfl, rfl, ?_, ?_, ?_, ?_⟩
  · rintro p ⟨e, he, hp, hne⟩
    simp only [List.mem_singleton] at he
    subst he
    cases p with
    | nil => exact absurd rfl hne
    | cons b p => cases b <;> simp [Node.subtreeAt, Node.subtreeAt_nil, Node.value?]
  · intro p hp
    cases p with
    | nil => rfl
    | cons b p =>
      exact absurd ⟨([], r), List.mem_singleton.mpr rfl, List.nil_prefix, by simp⟩ hp
  · intro e he
    simp only [List.mem_singleton] at he
    subst he
    rfl
  · simp

/-- Where every value is listed once, a tree with the invariant has no more nodes than there
are pairs. -/
theorem buildInv_count_le (pairs : List (α × α)) (r : α) (hroot : (r, r) ∈ pairs)
    (hnd : (pairs.map (·.1)).Nodup) (k : Nat) (s : Node α × Nat × List (List Bool × α))
    (hinv : BuildInv pairs r k s) : s.1.count ≤ pairs.length := by
  obtain ⟨_, _, ha, hb, _, _⟩ := hinv
  have hval : ∀ p d, (s.1.subtreeAt p).value? = some d → valueAt pairs r p = some d := by
    intro p d hp
    by_cases hex : ∃ e ∈ s.2.2, e.1 <+: p ∧ e.1 ≠ p
    · rw [ha p hex] at hp
      cases hp
    · rw [← hb p hex, hp]
  have hn : s.1.preorder.Nodup := by
    apply Node.nodup_preorder_of_injective
    intro p q d hp hq
    exact valueAt_injective pairs r hroot hnd p q d (hval p d hp) (hval q d hq)
  have hs : s.1.preorder ⊆ pairs.map (·.1) := by
    intro d hd
    obtain ⟨p, hp⟩ := Node.subtreeAt_of_mem_preorder _ d hd
    exact valueAt_mem pairs r hroot p d (hval p d hp)
  have := (List.subperm_of_subset hn hs).length_le
  rw [length_preorder, List.length_map] at this
  exact this

end BinaryHeap

namespace BinaryHeap

variable {α : Type} [LinearOrder α]

/-- Decoding a pair list that describes a binary tree with the root value `r`: every value is
listed once, the root value with itself, every value is reachable from the root value and
no value has more than two children.  With an iteration for every pair, `fromNodeParentPairs`
returns a heap with one node for every pair, whose values sit where `valueAt` places them. -/
theorem fromNodeParentPairs_describes (pairs : List (α × α)) (r : α) (hroot : (r, r) ∈ pairs)
    (hnd : (pairs.map (·.1)).Nodup) (hreach : ∀ pr ∈ pairs, Reachable pairs r pr.1)
    (hch : ∀ p, (childrenOf pairs p).length ≤ 2) (fuel : Nat) (hfuel : pairs.length ≤ fuel) :
    ∃ t, fromNodeParentPairs fuel pairs = some (.ok ⟨t, pairs.length⟩) ∧
      (∀ p, (t.subtreeAt p).value? = valueAt pairs r p) ∧
      t.preorder.Perm (pairs.map (·.1)) := by
  obtain ⟨t, hloop, hfin⟩ := buildLoop_spec pairs r pairs.length hch
    (buildInv_count_le pairs r hroot hnd) fuel 0 _ (buildInv_init pairs r) (by omega)
  have hn : t.preorder.Nodup := by
    apply Node.nodup_preorder_of_injective
    intro p q d hp hq
    rw [hfin] at hp hq
    exact valueAt_injective pairs r hroot hnd p q d hp hq
  have hperm : t.preorder.Perm (pairs.map (·.1)) := by
    rw [List.perm_ext_iff_of_nodup hn hnd]
    intro d
    constructor
    · intro hd
      obtain ⟨p, hp⟩ := Node.subtreeAt_of_mem_preorder _ d hd
      rw [hfin] at hp
      exact valueAt_mem pairs r hroot p d hp
    · intro hd
      obtain ⟨pr, hpr, rfl⟩ := List.mem_map.mp hd
      obtain ⟨p, hp⟩ := valueAt_of_reachable pairs r hch pr.1 (hreach pr hpr)
      rw [← hfin] at hp
      exact Node.mem_preorder_of_subtreeAt t p _ hp
  have hcount : t.count = pairs.length := by
    rw [← length_preorder, hperm.length_eq, List.length_map]
  refine ⟨t, ?_, hfin, hperm⟩
  unfold fromNodeParentPairs
  have hne : pairs.isEmpty = false := by
    cases pairs with
    | nil => cases hroot
    | cons _ _ => rfl
  rw [hne]
  simp only [Bool.false_eq_true, if_false]
  cases hf : pairs.find? (fun pr => pr.1 == pr.2) with
  | none =>
    have := List.find?_eq_none.mp hf (r, r) hroot
    simp at this
  | some pr =>
    have hpr := List.find?_some hf
    have hmem := List.mem_of_find?_eq_some hf
    simp only [beq_iff_eq] at hpr
    have hself : (pr.1, pr.1) ∈ pairs := by
      have : pr = (pr.1, pr.1) := Prod.ext rfl hpr.symm
      rw [← this]
      exact hmem
    have hr : pr.1 = r := self_pair_root pairs r hnd pr.1 (hreach pr hmem) hself
    simp only [hr, hloop, hcount, ne_eq, not_true_eq_false, if_false]

end BinaryHeap

namespace BinaryHeap

variable {α : Type} [LinearOrder α]

/-- A value has no more children than there are pairs that are not self-paired. -/
theorem length_childrenOf_le (pairs : List (α × α)) (p : α) :
    (childrenOf pairs p).length ≤ (pairs.filter fun pr => decide (pr.1 ≠ pr.2)).length := by
  unfold childrenOf
  rw [List.length_map]
  apply List.Sublist.length_le
  have h : pairs.filter (fun pr => decide (pr.1 ≠ pr.2) && decide (pr.2 = p)) =
      (pairs.filter (fun pr => decide (pr.2 = p))).filter (fun pr => decide (pr.1 ≠ pr.2)) := by
    rw [List.filter_filter]
  rw [h]
  exact (List.filter_sublist _).filter _

end BinaryHeap

namespace BinaryHeap

variable {α : Type}

theorem collectPairs_node (d : α) (l r : Node α) (parent : Option α) :
    collectPairs (.node d l r) parent =
      (d, parent.getD d) :: (collectPairs l (some d) ++ collectPairs r (some d)) := rfl

/-- The first components of the collected pairs are the values in pre-order. -/
theorem map_fst_collectPairs (t : Node α) (parent : Option α) :
    (collectPairs t parent).map (·.1) = t.preorder := by
  induction t generalizing parent with
  | nil => rfl
  | node d l r ihl ihr =>
    simp only [collectPairs_node, List.map_cons, List.map_append, ihl, ihr, Node.preorder_node]

end BinaryHeap

namespace BinaryHeap

variable {α : Type} [LinearOrder α]

theorem childrenOf_cons (pr : α × α) (pairs : List (α × α)) (p : α) :
    childrenOf (pr :: pairs) p =
      (if pr.1 ≠ pr.2 ∧ pr.2 = p then [pr.1] else []) ++ childrenOf pairs p := by
  unfold childrenOf
  by_cases h : pr.1 ≠ pr.2 ∧ pr.2 = p
  · rw [if_pos h, List.filter_cons_of_pos (by simpa using h)]
    rfl
  · rw [if_neg h, List.filter_cons_of_neg (by simpa using h)]
    rfl

theorem childrenOf_append (xs ys : List (α × α)) (p : α) :
    childrenOf (xs ++ ys) p = childrenOf xs p ++ childrenOf ys p := by
  unfold childrenOf
  rw [List.filter_append, List.map_append]

/-- Below a node that does not store `d`, only the pair of the root can have the parent `d`. -/
theorem childrenOf_collectPairs_of_not_mem (t : Node α) (parent : Option α) (d : α)
    (h : d ∉ t.preorder) :
    childrenOf (collectPairs t parent) d = if parent = some d then t.value?.toList else [] := by
  induction t generalizing parent with
  | nil => simp [collectPairs, childrenOf, Node.value?]
  | node e l r ihl ihr =>
    simp only [Node.preorder_node, List.mem_cons, List.mem_append, not_or] at h
    obtain ⟨hde, hl, hr⟩ := h
    have hne : some e ≠ some d := fun he => hde (Option.some.inj he).symm
    rw [collectPairs_node, childrenOf_cons, childrenOf_append, ihl _ hl, ihr _ hr,
      if_neg hne, if_neg hne, List.append_nil, List.append_nil, Node.value?_node,
      Option.toList_some]
    cases parent with
    | none => simp
    | some p =>
      by_cases hp : p = d
      · subst hp
        simp [Ne.symm hde]
      · simp [hp]

/-- In a tree with pairwise distinct values, the children collected for the value of a node
are the values of its left and of its right child. -/
theorem childrenOf_collectPairs (t : Node α) (parent : Option α) (hn : t.preorder.Nodup)
    (path : List Bool) (d : α) (l r : Node α) (hsub : t.subtreeAt path = .node d l r)
    (hp : parent ≠ some d) :
    childrenOf (collectPairs t parent) d = l.value?.toList ++ r.value?.toList := by
  induction path generalizing t parent with
  | nil =>
    simp only [Node.subtreeAt_empty] at hsub
    subst hsub
    rw [Node.preorder_node, List.nodup_cons, List.mem_append, not_or] at hn
    rw [collectPairs_node, childrenOf_cons, childrenOf_append,
      childrenOf_collectPairs_of_not_mem l _ d hn.1.1,
      childrenOf_collectPairs_of_not_mem r _ d hn.1.2, if_pos rfl, if_pos rfl]
    cases parent with
    | none => simp
    | some p =>
      have : p ≠ d := fun h => hp (by rw [h])
      simp [this]
  | cons b path ih =>
    cases t with
    | nil => cases b <;> simp [Node.subtreeAt] at hsub
    | node e a c =>
      rw [Node.preorder_node, List.nodup_cons, List.nodup_append] at hn
      obtain ⟨hne, hna, hnc, hdis⟩ := hn
      rw [List.mem_append, not_or] at hne
      have hroot : (if (e, parent.getD e).1 ≠ (e, parent.getD e).2 ∧ (e, parent.getD e).2 = d
          then [(e, parent.getD e).1] else []) = [] := by
        cases parent with
        | none => simp
        | some p =>
          have : p ≠ d := fun h => hp (by rw [h])
          simp [this]
      rw [collectPairs_node, childrenOf_cons, childrenOf_append, hroot, List.nil_append]
      cases b
      · simp only [Node.subtreeAt] at hsub
        have hd : d ∈ c.preorder := Node.mem_preorder_of_subtreeAt c path d (by rw [hsub]; rfl)
        have hde : e ≠ d := fun h => hne.2 (h ▸ hd)
        have hda : d ∉ a.preorder := fun h => hdis h hd
        rw [childrenOf_collectPairs_of_not_mem a _ d hda,
          if_neg (fun h => hde (Option.some.inj h)),
          ih c (some e) hnc hsub (fun h => hde (Option.some.inj h)), List.nil_append]
      · simp only [Node.subtreeAt] at hsub
        have hd : d ∈ a.preorder := Node.mem_preorder_of_subtreeAt a path d (by rw [hsub]; rfl)
        have hde : e ≠ d := fun h => hne.1 (h ▸ hd)
        have hdc : d ∉ c.preorder := fun h => hdis hd h
        rw [childrenOf_collectPairs_of_not_mem c _ d hdc,
          if_neg (fun h => hde (Option.some.inj h)),
          ih a (some e) hna hsub (fun h => hde (Option.some.inj h)), List.append_nil]

end BinaryHeap

namespace BinaryHeap

variable {α : Type} [LinearOrder α]

/-- In a complete tree no node has a right child without a left child. -/
theorem complete_left_filled (n : Nat) (t : Node α) (hc : Complete 1 n t) (path : List Bool)
    (d : α) (l r : Node α) (hsub : t.subtreeAt path = .node d l r) (hl : l = .nil) :
    r = .nil := by
  by_contra hr
  have h1 : t.subtreeAt (path ++ [false]) ≠ .nil := by
    rw [Node.subtreeAt_append, hsub]
    simpa [Node.subtreeAt] using hr
  have h2 : t.subtreeAt (path ++ [true]) = .nil := by
    rw [Node.subtreeAt_append, hsub]
    simpa [Node.subtreeAt] using hl
  have h3 := (complete_occupied 1 n t hc _).mp h1
  have h4 : ¬ Node.pathIndex 1 (path ++ [true]) ≤ n := by
    rw [← complete_occupied 1 n t hc]
    simp [h2]
  rw [Node.pathIndex_append] at h3 h4
  simp only [Node.pathIndex] at h3 h4
  omega

/-- A value placed by `valueAt` is reachable from the root value. -/
theorem reachable_of_valueAt (pairs : List (α × α)) (r : α) (path : List Bool) (c : α)
    (h : valueAt pairs r path = some c) : Reachable pairs r c := by
  induction path using List.reverseRecOn generalizing c with
  | nil =>
    simp only [valueAt_nil, Option.some.injEq] at h
    subst h
    exact .root
  | append_singleton path b ih =>
    rw [valueAt_snoc] at h
    obtain ⟨p, hp, hc⟩ := Option.bind_eq_some.mp h
    exact .child c p (ih p hp) ((mem_childrenOf pairs p c).mp (List.getElem?_mem hc)).1

/-- In a tree with pairwise distinct values and no right child without a left one, `valueAt`
on the collected pairs places the values where the tree has them. -/
theorem valueAt_collectPairs (r0 : α) (a b : Node α) (hn : (Node.node r0 a b).preorder.Nodup)
    (hlf : ∀ path d l r, (Node.node r0 a b).subtreeAt path = .node d l r → l = .nil → r = .nil)
    (path : List Bool) :
    valueAt (collectPairs (.node r0 a b) none) r0 path =
      ((Node.node r0 a b).subtreeAt path).value? := by
  induction path using List.reverseRecOn with
  | nil => rfl
  | append_singleton path c ih =>
    rw [valueAt_snoc, ih, Node.subtreeAt_append]
    cases hsub : (Node.node r0 a b).subtreeAt path with
    | nil => cases c <;> rfl
    | node d l r =>
      rw [Node.value?_node, Option.some_bind,
        childrenOf_collectPairs _ none hn path d l r hsub (fun h => by cases h)]
      have := hlf path d l r hsub
      cases l with
      | nil =>
        rw [this rfl]
        cases c <;> rfl
      | node ld ll lr =>
        cases r with
        | nil => cases c <;> rfl
        | node rd rl rr => cases c <;> rfl

/-- Decoding the collected pairs of a heap with the invariant and pairwise distinct values
gives back the heap, with an iteration for every node. -/
theorem fromNodeParentPairs_collectPairs (h : BinaryHeap α) (hw : WellFormed h)
    (hn : h.values.Nodup) (fuel : Nat) (hfuel : h.size ≤ fuel) :
    fromNodeParentPairs fuel (collectPairs h.root none) = some (.ok h) := by
  obtain ⟨root, size⟩ := h
  obtain ⟨_, hc⟩ := hw
  simp only [values] at hn
  simp only at hc hfuel
  have hcount := complete_count size root hc
  cases root with
  | nil =>
    simp only [Node.count] at hcount
    subst hcount
    rfl
  | node r0 a b =>
    have hlf := complete_left_filled size (.node r0 a b) hc
    have hval := valueAt_collectPairs r0 a b hn hlf
    have hlen : (collectPairs (.node r0 a b) none).length = size := by
      rw [← hcount, ← length_preorder, ← map_fst_collectPairs _ none, List.length_map]
    obtain ⟨t, hdec, hfin, _⟩ := fromNodeParentPairs_describes
      (collectPairs (.node r0 a b) none) r0 (List.mem_cons_self _ _)
      (by rw [map_fst_collectPairs]; exact hn)
      (fun pr hpr => by
        have hm : pr.1 ∈ (Node.node r0 a b).preorder := by
          rw [← map_fst_collectPairs _ none]
          exact List.mem_map_of_mem _ hpr
        obtain ⟨path, hpath⟩ := Node.subtreeAt_of_mem_preorder _ _ hm
        rw [← hval] at hpath
        exact reachable_of_valueAt _ _ path _ hpath)
      (fun p => by
        by_cases hp : p ∈ (Node.node r0 a b).preorder
        · obtain ⟨path, hpath⟩ := Node.subtreeAt_of_mem_preorder _ _ hp
          cases hsub : (Node.node r0 a b).subtreeAt path with
          | nil => rw [hsub] at hpath; cases hpath
          | node d l r =>
            rw [hsub, Node.value?_node, Option.some.injEq] at hpath
            subst hpath
            rw [childrenOf_collectPairs _ none hn path d l r hsub (fun h => by cases h)]
            cases l <;> cases r <;> simp [Node.value?]
        · rw [childrenOf_collectPairs_of_not_mem _ none p hp]
          simp)
      fuel (by rw [hlen]; exact hfuel)
    have ht : t = .node r0 a b := by
      apply Node.eq_of_value?_subtreeAt
      intro p
      rw [hfin, hval]
    rw [hdec, ht, hlen]

/-- A sequence of inserts into a heap with the invariant runs through and ends in a heap with
the invariant that stores the previous and the inserted values. -/
theorem runFrom_inserts (values : List α) (h : BinaryHeap α) (hw : WellFormed h) :
    ∃ h', runFrom (values.map Op.insert) h = some h' ∧ WellFormed h' ∧
      h'.values.Perm (values ++ h.values) ∧ h'.size = h.size + values.length := by
  induction values generalizing h with
  | nil => exact ⟨h, rfl, hw, List.Perm.refl _, rfl⟩
  | cons v values ih =>
    obtain ⟨h1, he, hw1, hs1, hp1⟩ := insert_wellFormed h v hw
    obtain ⟨h', he', hw', hp', hs'⟩ := ih h1 hw1
    refine ⟨h', by simp [runFrom, applyOp, he, stateAfter, he'], hw', ?_, ?_⟩
    · refine hp'.trans ?_
      refine (List.Perm.append_left _ hp1).trans ?_
      simp only [List.cons_append]
      exact List.perm_middle
    · rw [hs', hs1, List.length_cons]
      omega

end BinaryHeap

/-! ## Theorems: the listing of the heap -/

theorem intercalate_cons_flatMap (sep a : List Char) (l : List (List Char)) :
    sep.intercalate (a :: l) = a ++ (l.map (sep ++ ·)).flatten := by
  induction l generalizing a with
  | nil => simp [intercalate_singleton]
  | cons b l ih =>
    rw [intercalate_cons_cons, ih b]
    simp [List.append_assoc]

namespace BinaryHeap

variable {α : Type}

/-- The text the loop of `toString` writes: the encodings of the values in level order, each
after a comma except the very first. -/
theorem toStringLoop_eq (enc : α → List Char) (fuel : Nat) (queue : List (Node α))
    (ss : List Char) (isFirst : Bool) :
    toStringLoop enc fuel queue ss isFirst =
      ss ++ (if isFirst then ",".toList.intercalate ((levelOrderLoop fuel queue).map enc)
        else (((levelOrderLoop fuel queue).map enc).map (",".toList ++ ·)).flatten) := by
  induction fuel generalizing queue ss isFirst with
  | zero =>
    cases queue with
    | nil => cases isFirst <;> simp [toStringLoop, levelOrderLoop, List.intercalate]
    | cons t queue => cases isFirst <;> simp [toStringLoop, levelOrderLoop, List.intercalate]
  | succ fuel ih =>
    cases queue with
    | nil => cases isFirst <;> simp [toStringLoop, levelOrderLoop, List.intercalate]
    | cons t queue =>
      cases t with
      | nil => cases isFirst <;> simp [toStringLoop, levelOrderLoop, List.intercalate]
      | node d l r =>
        rw [toStringLoop, levelOrderLoop, ih]
        cases isFirst
        · simp [List.append_assoc]
        · simp only [Bool.not_true, Bool.false_eq_true, if_false, if_true, List.map_cons,
            intercalate_cons_flatMap, List.append_assoc]

/-- The listing `toString` writes: the encodings in level order, separated by `,`, in
brackets. -/
theorem heap_toString_eq (enc : α → List Char) (h : BinaryHeap α) :
    toString enc h =
      "[".toList ++ ",".toList.intercalate ((levelOrder h.root).map enc) ++ "]".toList := by
  unfold toString
  split
  · rename_i he
    unfold isEmpty at he
    rw [(Node.isNull_iff _).mp he]
    rfl
  · rw [toStringLoop_eq]
    rfl

end BinaryHeap

/-- A token without a comma is found to end where the next comma stands. -/
theorem find_token_comma (a rest : List Char) (h : find a [','] = none) :
    find (a ++ ',' :: rest) [','] = some a.length := by
  induction a with
  | nil => simp [find_cons, List.isPrefixOf]
  | cons c a ih =>
    rw [find_cons] at h
    split at h
    · cases h
    · rename_i hp
      have ha : find a [','] = none := by
        cases hf : find a [','] with
        | none => rfl
        | some q => rw [hf] at h; cases h
      have hnp : List.isPrefixOf [','] (c :: (a ++ ',' :: rest)) = false := by
        simp only [List.isPrefixOf, Bool.and_true] at hp ⊢
        simpa using hp
      rw [List.cons_append, find_cons, hnp, ih ha]
      rfl

theorem comma_eq : ",".toList = [','] := rfl

namespace BinaryHeap

variable {α : Type} [LinearOrder α]

/-- The loop of `fromString` on a listing: every value but the last is decoded, and the
encoding of the last is left in `content`. -/
theorem heap_fromStringLoop_listing (enc : α → List Char) (dec : List Char → Option α)
    (xs : List α) (x : α) (fuel : Nat) (values : List α)
    (hfuel : (",".toList.intercalate ((xs ++ [x]).map enc)).length < fuel)
    (hdec : ∀ v ∈ xs, dec (enc v) = some v)
    (hsep : ∀ v ∈ xs ++ [x], find (enc v) ",".toList = none) :
    fromStringLoop dec fuel (",".toList.intercalate ((xs ++ [x]).map enc)) values =
      some (enc x, values ++ xs) := by
  induction xs generalizing fuel values with
  | nil =>
    cases fuel with
    | zero => omega
    | succ fuel =>
      simp only [List.nil_append, List.map_cons, List.map_nil, intercalate_singleton,
        fromStringLoop, List.append_nil]
      rw [hsep x (by simp)]
  | cons y ys ih =>
    cases fuel with
    | zero => omega
    | succ fuel =>
      obtain ⟨z, zs, hz⟩ : ∃ z zs, ys ++ [x] = z :: zs := by
        cases ys with
        | nil => exact ⟨x, [], rfl⟩
        | cons a as => exact ⟨a, as ++ [x], rfl⟩
      have hdata : ",".toList.intercalate (((y :: ys) ++ [x]).map enc) =
          enc y ++ ',' :: ",".toList.intercalate ((ys ++ [x]).map enc) := by
        rw [List.cons_append, hz, List.map_cons, List.map_cons, intercalate_cons_cons, comma_eq]
        simp
      rw [hdata] at hfuel ⊢
      have hy := hsep y (by simp)
      rw [comma_eq] at hy
      rw [fromStringLoop]
      simp only [comma_eq]
      rw [find_token_comma _ _ hy]
      simp only [List.take_left']
      rw [hdec y (by simp)]
      have hdrop : List.drop ((enc y).length + 1)
          (enc y ++ ',' :: [','].intercalate ((ys ++ [x]).map enc)) =
          [','].intercalate ((ys ++ [x]).map enc) := by
        rw [List.drop_append]
        rfl
      simp only [hdrop]
      have := ih fuel (values ++ [y]) ?_ (fun v hv => hdec v (by simp [hv]))
        (fun v hv => hsep v (by simp at hv ⊢; tauto))
      · simpa only [comma_eq, List.append_assoc, List.singleton_append] using this
      · simp only [List.length_append, List.length_cons, comma_eq] at hfuel ⊢
        omega

/-- Decoding a listing whose values are decoded from their encodings, with no encoding empty
or holding a comma, inserts the listed values in their order. -/
theorem heap_fromString_listing (enc : α → List Char) (dec : List Char → Option α)
    (listed : List α)
    (hdec : ∀ v ∈ listed, dec (enc v) = some v)
    (hne : ∀ v ∈ listed, enc v ≠ [])
    (hsep : ∀ v ∈ listed, find (enc v) ",".toList = none) :
    fromString dec ("[".toList ++ ",".toList.intercalate (listed.map enc) ++ "]".toList) =
      match insertAll listed empty with
      | some result => .ok result
      | none => .undefined := by
  generalize hbody : ",".toList.intercalate (listed.map enc) = body
  have hl : ("[".toList ++ body ++ "]".toList).length = body.length + 2 := by
    simp [String.toList]
  have hcontent : (("[".toList ++ body ++ "]".toList).drop 1).take
      (("[".toList ++ body ++ "]".toList).length - 2) = body := by
    rw [hl]
    simp [String.toList]
  unfold fromString
  rw [if_pos (by omega)]
  simp only [hcontent]
  rcases List.eq_nil_or_concat listed with hx | ⟨ys, x, hx⟩
  · subst hx
    rw [← hbody]
    rfl
  · subst hx
    rw [List.concat_eq_append] at *
    rw [← hbody, heap_fromStringLoop_listing enc dec ys x _ [] (by omega)
      (fun v hv => hdec v (by simp [hv])) hsep]
    have h1 : (enc x).isEmpty = false := by
      cases h : enc x with
      | nil => exact absurd h (hne x (by simp))
      | cons _ _ => rfl
    simp only [h1, Bool.not_false, if_true, hdec x (by simp), Option.map_some', List.nil_append]

end BinaryHeap

namespace Node

variable {α : Type}

/-- Setting the link to a node that a path leads to rebuilds the tree around the new node. -/
theorem attach_eq_plug (t : Node α) (p : List Bool) (acc : List (Frame α)) (f g : Node α)
    (ctx : List (Frame α)) (h : descend t p acc = some (f, ctx)) :
    plug acc (attach t p g) = plug ctx g := by
  induction p generalizing t acc with
  | nil =>
    simp only [descend_empty, Option.some.injEq, Prod.mk.injEq] at h
    obtain ⟨_, rfl⟩ := h
    simp
  | cons b p ih =>
    cases t with
    | nil => simp [descend] at h
    | node d l r =>
      cases b
      · simp only [descend] at h
        have := ih r (⟨false, d, l⟩ :: acc) h
        simpa [attach, plug, plugFrame] using this
      · simp only [descend] at h
        have := ih l (⟨true, d, r⟩ :: acc) h
        simpa [attach, plug, plugFrame] using this

/-- The nearest parent on the chain recorded for a path holds the value found one step above
the end of the path. -/
theorem descend_snoc_value (t : Node α) (p : List Bool) (b : Bool) (acc : List (Frame α))
    (f : Node α) (ctx : List (Frame α)) (h : descend t (p ++ [b]) acc = some (f, ctx)) :
    ∃ fr rest, ctx = fr :: rest ∧ (subtreeAt t p).value? = some fr.data := by
  induction p generalizing t acc with
  | nil =>
    cases t with
    | nil => simp [descend] at h
    | node d l r =>
      cases b
      · simp only [List.nil_append, descend, descend_empty, Option.some.injEq,
          Prod.mk.injEq] at h
        exact ⟨_, _, h.2.symm, rfl⟩
      · simp only [List.nil_append, descend, descend_empty, Option.some.injEq,
          Prod.mk.injEq] at h
        exact ⟨_, _, h.2.symm, rfl⟩
  | cons c p ih =>
    cases t with
    | nil => simp [descend] at h
    | node d l r =>
      cases c
      · simp only [List.cons_append, descend] at h
        exact ih r _ h
      · simp only [List.cons_append, descend] at h
        exact ih l _ h

end Node

namespace BinaryHeap

variable {α : Type} [LinearOrder α]

theorem heapOrdered_subtreeAt (t : Node α) (p : List Bool) (h : HeapOrdered t) :
    HeapOrdered (t.subtreeAt p) := by
  induction p generalizing t with
  | nil => simpa using h
  | cons b p ih =>
    cases t with
    | nil => simpa [Node.subtreeAt] using trivial
    | node d l r =>
      cases b
      · simpa [Node.subtreeAt] using ih r h.2.2.2
      · simpa [Node.subtreeAt] using ih l h.2.2.1

/-- In an ordered tree the value one step below a path is at most the value at the path. -/
theorem le_parent_value (t : Node α) (p : List Bool) (b : Bool) (d v : α)
    (h : HeapOrdered t) (hd : (t.subtreeAt p).value? = some d)
    (hv : (t.subtreeAt (p ++ [b])).value? = some v) : v ≤ d := by
  have ho := heapOrdered_subtreeAt t p h
  rw [Node.subtreeAt_append] at hv
  cases hs : t.subtreeAt p with
  | nil => rw [hs] at hd; cases hd
  | node e l r =>
    rw [hs] at hd hv ho
    simp only [Node.value?_node, Option.some.injEq] at hd
    subst hd
    obtain ⟨hl, hr, _, _⟩ := ho
    cases b
    · simp only [Node.subtreeAt] at hv
      cases r with
      | nil => cases hv
      | node rd rl rr =>
        simp only [Node.subtreeAt_empty, Node.value?_node, Option.some.injEq] at hv
        subst hv
        exact hr
    · simp only [Node.subtreeAt] at hv
      cases l with
      | nil => cases hv
      | node ld ll lr =>
        simp only [Node.subtreeAt_empty, Node.value?_node, Option.some.injEq] at hv
        subst hv
        exact hl

end BinaryHeap

namespace BinaryHeap

variable {α : Type} [LinearOrder α]

theorem pathIndex_pathOf (i : Nat) (hi : 1 ≤ i) :
    Node.pathIndex 1 (pushDirections i i []) = i := by
  rw [pathIndex_pushDirections i i [] hi (le_refl _)]
  rfl

/-- A path with `ds` in front leads to an index that is at least the index of `ds`. -/
theorem pathIndex_le_of_prefix (ds p : List Bool) (h : ds <+: p) :
    Node.pathIndex 1 ds ≤ Node.pathIndex 1 p := by
  obtain ⟨q, rfl⟩ := h
  rw [Node.pathIndex_append]
  exact Node.le_pathIndex _ _

/-- Inserting the value that an ordered tree `t` holds at index `j + 1` into a heap that has
the shape and the values of `t` at the indices up to `j` gives the heap that has them up to
`j + 1`. -/
theorem insert_next (u t : Node α) (j : Nat) (v : α) (hc : Complete 1 j u)
    (ht : HeapOrdered t)
    (hag : ∀ p, Node.pathIndex 1 p ≤ j → (u.subtreeAt p).value? = (t.subtreeAt p).value?)
    (hv : (nodeAtIndex t (j + 1)).value? = some v) :
    ∃ u', insert ⟨u, j⟩ v = .ok () ⟨u', j + 1⟩ ∧ Complete 1 (j + 1) u' ∧
      ∀ p, Node.pathIndex 1 p ≤ j + 1 → (u'.subtreeAt p).value? = (t.subtreeAt p).value? := by
  unfold nodeAtIndex at hv
  have hidx := pathIndex_pathOf (j + 1) (by omega)
  generalize hds : pushDirections (j + 1) (j + 1) [] = ds at hv hidx
  cases u with
  | nil =>
    have hj : j = 0 := by
      simp only [Complete] at hc
      omega
    subst hj
    have hds' : ds = [] := by
      rw [← hds]
      rfl
    subst hds'
    refine ⟨.node v .nil .nil, by simp [insert, addLast, Node.isNull], ?_, ?_⟩
    · simp [Complete]
    · intro p hp
      cases p with
      | nil => simpa using hv.symm
      | cons b p =>
        have := Node.lt_pathIndex_cons 1 (le_refl _) b p
        omega
  | node d l r =>
    have hj : 1 ≤ j := hc.1
    have hne : (Node.node d l r).isNull = false := rfl
    obtain ⟨ctx, hd0, hd1⟩ := addLastWalk_descend v 1 j (.node d l r) ds [] (le_refl _) hc hidx hne
    have hc1 := addLastWalk_complete v 1 j (.node d l r) ds (le_refl _) hc hidx hne
    obtain ⟨hplug, hsub, _⟩ := Node.descend_plug _ ds _ ctx hd1
    have hatt : (Node.node d l r).attach ds (.node v .nil .nil) =
        addLastWalk v (.node d l r) ds := by
      have := Node.attach_eq_plug (.node d l r) ds [] .nil (.node v .nil .nil) ctx hd0
      simp only [Node.plug] at this
      rw [this, hplug]
    -- the path is not empty, and the parent holds a value that is at least `v`
    obtain ⟨p', b, hp'⟩ : ∃ p' b, ds = p' ++ [b] := by
      rcases List.eq_nil_or_concat ds with h | ⟨p', b, h⟩
      · rw [h] at hidx
        simp only [Node.pathIndex] at hidx
        omega
      · exact ⟨p', b, by rw [h, List.concat_eq_append]⟩
    have hpidx : Node.pathIndex 1 p' ≤ j := by
      rw [hp', Node.pathIndex_append] at hidx
      cases b <;> simp only [Node.pathIndex] at hidx <;> omega
    obtain ⟨fr, rest, hctx, hfr⟩ := Node.descend_snoc_value (.node d l r) p' b [] .nil ctx
      (by rw [← hp']; exact hd0)
    have hle : v ≤ fr.data := by
      apply le_parent_value t p' b fr.data v ht
      · rw [← hag p' hpidx, hfr]
      · rw [← hp']; exact hv
    have hfind : findLastNode ⟨addLastWalk v (.node d l r) ds, j + 1⟩ = some ds := by
      have hnn : (addLastWalk v (.node d l r) ds).isNull = false := by
        cases hx : addLastWalk v (.node d l r) ds with
        | nil => rw [hx] at hc1; simp only [Complete] at hc1; omega
        | node _ _ _ => rfl
      obtain ⟨q, hq, hqi⟩ := findLastNode_spec ⟨addLastWalk v (.node d l r) ds, j + 1⟩ hc1 hnn
      rw [hq]
      congr 1
      exact pathIndex_injective _ _ (by rw [hqi, hidx])
    refine ⟨addLastWalk v (.node d l r) ds, ?_, hc1, ?_⟩
    · have hadd : addLast ⟨.node d l r, j⟩ v = ⟨addLastWalk v (.node d l r) ds, j + 1⟩ := by
        simp only [addLast, Node.isNull, Bool.false_eq_true, if_false, hds]
      unfold insert
      simp only [hadd, hfind, heapifyUp, hd1]
      rw [if_pos (by omega), hctx]
      simp only [heapifyUpLoop, not_lt.mpr hle, if_false]
      rw [← hctx, hplug]
    · intro p hp
      by_cases hpd : p = ds
      · rw [hpd, hsub, hv]
        rfl
      · have hlt : Node.pathIndex 1 p ≤ j := by
          have : Node.pathIndex 1 p ≠ j + 1 := fun h =>
            hpd (pathIndex_injective _ _ (by rw [h, hidx]))
          omega
        have hnp : ¬ ds <+: p := by
          intro hpre
          have := pathIndex_le_of_prefix ds p hpre
          omega
        rw [← hatt, Node.value?_subtreeAt_attach _ _ _ _ hnp]
        exact hag p hlt

end BinaryHeap

namespace BinaryHeap

variable {α : Type}

theorem indexValues_succ (t : Node α) (j : Nat) (v : α)
    (hv : (nodeAtIndex t (j + 1)).value? = some v) :
    indexValues t (j + 1) = indexValues t j ++ [v] := by
  unfold indexValues
  rw [List.range'_concat, List.filterMap_append]
  simp only [Nat.one_mul, List.filterMap_cons, List.filterMap_nil]
  rw [Nat.add_comm 1 j, hv]

end BinaryHeap

namespace BinaryHeap

variable {α : Type} [LinearOrder α]

theorem insertAll_append (xs ys : List α) (h : BinaryHeap α) :
    insertAll (xs ++ ys) h = (insertAll xs h).bind (insertAll ys) := by
  induction xs generalizing h with
  | nil => rfl
  | cons x xs ih =>
    simp only [List.cons_append, insertAll]
    cases insert h x with
    | ok _ h1 => exact ih h1
    | emptyError _ => rfl
    | undefined => rfl

/-- Inserting the values of an ordered complete tree by index builds the tree up index by
index. -/
theorem insertAll_indexValues (t : Node α) (n : Nat) (ho : HeapOrdered t)
    (hc : Complete 1 n t) (j : Nat) (hj : j ≤ n) :
    ∃ u, insertAll (indexValues t j) empty = some ⟨u, j⟩ ∧ Complete 1 j u ∧
      ∀ p, Node.pathIndex 1 p ≤ j → (u.subtreeAt p).value? = (t.subtreeAt p).value? := by
  induction j with
  | zero =>
    refine ⟨.nil, rfl, by simp [Complete], fun p hp => ?_⟩
    have := Node.le_pathIndex 1 p
    omega
  | succ j ih =>
    obtain ⟨u, hu, hcu, hag⟩ := ih (by omega)
    have hocc : nodeAtIndex t (j + 1) ≠ .nil := by
      unfold nodeAtIndex
      rw [complete_occupied 1 n t hc, pathIndex_pathOf (j + 1) (by omega)]
      exact hj
    obtain ⟨v, hv⟩ : ∃ v, (nodeAtIndex t (j + 1)).value? = some v := by
      cases hx : nodeAtIndex t (j + 1) with
      | nil => exact absurd hx hocc
      | node d _ _ => exact ⟨d, rfl⟩
    obtain ⟨u', hins, hcu', hag'⟩ := insert_next u t j v hcu ho hag hv
    refine ⟨u', ?_, hcu', hag'⟩
    rw [indexValues_succ t j v hv, insertAll_append, hu]
    simp only [Option.some_bind, insertAll, hins]

/-- Inserting the values of a heap with the invariant by index into the empty heap rebuilds
the heap, node for node. -/
theorem insertAll_indexValues_self (h : BinaryHeap α) (hw : WellFormed h) :
    insertAll (indexValues h.root h.size) empty = some h := by
  obtain ⟨ho, hc⟩ := hw
  obtain ⟨u, hu, hcu, hag⟩ := insertAll_indexValues h.root h.size ho hc h.size (le_refl _)
  rw [hu]
  have : u = h.root := by
    apply Node.eq_of_value?_subtreeAt
    intro p
    by_cases hp : Node.pathIndex 1 p ≤ h.size
    · exact hag p hp
    · have h1 : u.subtreeAt p = .nil := by
        by_contra hne
        exact hp ((complete_occupied 1 h.size u hcu p).mp hne)
      have h2 : h.root.subtreeAt p = .nil := by
        by_contra hne
        exact hp ((complete_occupied 1 h.size h.root hc p).mp hne)
      rw [h1, h2]
  rw [this]

end BinaryHeap

namespace BinaryHeap

variable {α : Type}

theorem pathOf_double (i : Nat) (hi : 1 ≤ i) :
    pushDirections (2 * i) (2 * i) [] = pushDirections i i [] ++ [true] ∧
    pushDirections (2 * i + 1) (2 * i + 1) [] = pushDirections i i [] ++ [false] := by
  constructor
  · apply pathIndex_injective
    rw [pathIndex_pathOf _ (by omega), Node.pathIndex_append, pathIndex_pathOf _ hi]
    rfl
  · apply pathIndex_injective
    rw [pathIndex_pathOf _ (by omega), Node.pathIndex_append, pathIndex_pathOf _ hi]
    rfl

/-- The children of the node at index `i` are the nodes at the indices `2 * i` and
`2 * i + 1`. -/
theorem nodeAtIndex_children (t : Node α) (i : Nat) (hi : 1 ≤ i) (d : α) (l r : Node α)
    (h : nodeAtIndex t i = .node d l r) :
    nodeAtIndex t (2 * i) = l ∧ nodeAtIndex t (2 * i + 1) = r := by
  unfold nodeAtIndex at *
  rw [(pathOf_double i hi).1, (pathOf_double i hi).2, Node.subtreeAt_append,
    Node.subtreeAt_append, h]
  exact ⟨by simp [Node.subtreeAt], by simp [Node.subtreeAt]⟩

theorem nodeAtIndex_isNull (t : Node α) (n i : Nat) (hc : Complete 1 n t) (hi : 1 ≤ i) :
    (nodeAtIndex t i).isNull = decide (n < i) := by
  have h := complete_occupied 1 n t hc (pushDirections i i [])
  rw [pathIndex_pathOf i hi] at h
  unfold nodeAtIndex
  cases hx : t.subtreeAt (pushDirections i i []) with
  | nil =>
    rw [hx] at h
    simp only [ne_eq, not_true_eq_false, false_iff, not_le] at h
    simp [Node.isNull, h]
  | node d l r =>
    rw [hx] at h
    have := h.mp (fun e => by cases e)
    simp only [Node.isNull]
    symm
    simpa using this

/-- Breadth-first traversal of a complete tree: with the nodes at the indices `i` up to
`2 * i - 1` (at most `n`) in the queue, the loop lists the values at the indices from `i`
on. -/
theorem levelOrderLoop_complete (t : Node α) (n : Nat) (hc : Complete 1 n t) (d i fuel : Nat)
    (hi : 1 ≤ i) (hd : i + d = n + 1) (hfuel : d ≤ fuel) :
    levelOrderLoop fuel ((List.range' i (min (2 * i - 1) n + 1 - i)).map (nodeAtIndex t)) =
      (List.range' i d).filterMap fun k => (nodeAtIndex t k).value? := by
  induction d generalizing i fuel with
  | zero =>
    have : min (2 * i - 1) n + 1 - i = 0 := by omega
    rw [this]
    cases fuel <;> rfl
  | succ d ih =>
    cases fuel with
    | zero => omega
    | succ fuel =>
      have hin : i ≤ n := by omega
      have hlen : min (2 * i - 1) n + 1 - i = (min (2 * i - 1) n - i) + 1 := by omega
      rw [hlen, List.range'_succ, List.range'_succ, List.map_cons, List.filterMap_cons]
      have hnull := nodeAtIndex_isNull t n i hc hi
      cases hx : nodeAtIndex t i with
      | nil =>
        rw [hx] at hnull
        simp only [Node.isNull] at hnull
        have := of_decide_eq_true hnull.symm
        omega
      | node e l r =>
        obtain ⟨hl, hr⟩ := nodeAtIndex_children t i hi e l r hx
        have hln := nodeAtIndex_isNull t n (2 * i) hc (by omega)
        have hrn := nodeAtIndex_isNull t n (2 * i + 1) hc (by omega)
        rw [hl] at hln
        rw [hr] at hrn
        simp only [Node.value?_node, levelOrderLoop, hln, hrn]
        congr 1
        rw [← ih (i + 1) fuel (by omega) (by omega) (by omega)]
        congr 1
        by_cases h1 : 2 * i + 1 ≤ n
        · have e1 : min (2 * i - 1) n - i = i - 1 := by omega
          have e2 : min (2 * (i + 1) - 1) n + 1 - (i + 1) = 2 + (i - 1) := by omega
          have e3 : i + 1 + (i - 1) = 2 * i := by omega
          rw [e1, e2, ← List.range'_append_1, e3]
          simp [show ¬ n < 2 * i by omega, show ¬ n < 2 * i + 1 by omega, hl, hr,
            List.range'_succ]
        · by_cases h2 : 2 * i ≤ n
          · have e1 : min (2 * i - 1) n - i = i - 1 := by omega
            have e2 : min (2 * (i + 1) - 1) n + 1 - (i + 1) = 1 + (i - 1) := by omega
            have e3 : i + 1 + (i - 1) = 2 * i := by omega
            rw [e1, e2, ← List.range'_append_1, e3]
            simp [show ¬ n < 2 * i by omega, show n < 2 * i + 1 by omega, hl,
              List.range'_succ]
          · have e1 : min (2 * i - 1) n - i = n - i := by omega
            have e2 : min (2 * (i + 1) - 1) n + 1 - (i + 1) = n - i := by omega
            rw [e1, e2]
            simp [show n < 2 * i by omega, show n < 2 * i + 1 by omega]

/-- The level order of a complete tree lists the values by index. -/
theorem levelOrder_complete (t : Node α) (n : Nat) (hc : Complete 1 n t) :
    levelOrder t = indexValues t n := by
  have hcount := complete_count n t hc
  unfold levelOrder indexValues
  rw [hcount]
  cases n with
  | zero =>
    cases t with
    | nil => rfl
    | node d l r => simp [Node.count] at hcount
  | succ n =>
    have := levelOrderLoop_complete t (n + 1) hc (n + 1) 1 (n + 1) (le_refl _) (by omega)
      (le_refl _)
    have e : min (2 * 1 - 1) (n + 1) + 1 - 1 = 1 := by omega
    rw [e] at this
    rw [← this]
    simp [nodeAtIndex, pushDirections]

end BinaryHeap

namespace BinaryHeap

variable {α : Type}

theorem mem_preorder_of_mem_indexValues (t : Node α) (j : Nat) (v : α)
    (h : v ∈ indexValues t j) : v ∈ t.preorder := by
  unfold indexValues at h
  obtain ⟨i, _, hi⟩ := List.mem_filterMap.mp h
  exact Node.mem_preorder_of_subtreeAt t _ v hi

end BinaryHeap

namespace BinaryHeap

variable {α : Type} [LinearOrder α]

/-- Decoding the listing of a heap with the invariant returns the heap, node for node,
provided every stored value is decoded from its encoding and no encoding is empty or holds a
comma. -/
theorem heap_fromString_toString_self (enc : α → List Char) (dec : List Char → Option α)
    (h : BinaryHeap α) (hw : WellFormed h)
    (hdec : ∀ v ∈ h.values, dec (enc v) = some v)
    (hne : ∀ v ∈ h.values, enc v ≠ [])
    (hsep : ∀ v ∈ h.values, find (enc v) ",".toList = none) :
    fromString dec (toString enc h) = .ok h := by
  have hmem : ∀ v ∈ indexValues h.root h.size, v ∈ h.values :=
    fun v hv => mem_preorder_of_mem_indexValues h.root h.size v hv
  rw [heap_toString_eq, levelOrder_complete h.root h.size hw.2,
    heap_fromString_listing enc dec _ (fun v hv => hdec v (hmem v hv))
      (fun v hv => hne v (hmem v hv)) (fun v hv => hsep v (hmem v hv)),
    insertAll_indexValues_self h hw]

end BinaryHeap

/-! ### Fuel: the loops of the heap members end on their own -/

namespace BinaryHeap

variable {α : Type} [LinearOrder α]

/-- The breadth-first loop of `fromNodeParentPairs` has left before its fuel runs out: more
fuel changes nothing. -/
theorem buildLoop_succ (pairs : List (α × α)) (fuel : Nat)
    (state : Node α × Nat × List (List Bool × α)) (result : Option (Node α × Nat))
    (h : buildLoop pairs fuel state = some result) :
    buildLoop pairs (fuel + 1) state = some result := by
  induction fuel generalizing state with
  | zero =>
    obtain ⟨t, n, q⟩ := state
    cases q with
    | nil => simpa [buildLoop] using h
    | cons e q => simp [buildLoop] at h
  | succ fuel ih =>
    obtain ⟨t, n, q⟩ := state
    cases q with
    | nil => simpa [buildLoop] using h
    | cons e q =>
      obtain ⟨parentNode, parentValue⟩ := e
      rw [buildLoop] at h ⊢
      cases hc : attachChildren parentNode (childrenOf pairs parentValue) (t, n, q) with
      | none => rw [hc] at h; exact h
      | some s =>
        rw [hc] at h
        exact ih s h

/-- A result of `fromNodeParentPairs` does not depend on the fuel that produced it. -/
theorem fromNodeParentPairs_mono (pairs : List (α × α)) (fuel extra : Nat) (result : Decoded α)
    (h : fromNodeParentPairs fuel pairs = some result) :
    fromNodeParentPairs (fuel + extra) pairs = some result := by
  induction extra with
  | zero => exact h
  | succ extra ih =>
    unfold fromNodeParentPairs at ih ⊢
    split
    · rename_i he
      rw [if_pos he] at ih
      exact ih
    · rename_i he
      rw [if_neg he] at ih
      cases hf : pairs.find? (fun pr => pr.1 == pr.2) with
      | none => rw [hf] at ih; exact ih
      | some pr =>
        rw [hf] at ih
        simp only at ih ⊢
        cases hb : buildLoop pairs (fuel + extra) (.node pr.1 .nil .nil, 1, [([], pr.1)]) with
        | none => rw [hb] at ih; cases ih
        | some res =>
          rw [hb] at ih
          rw [← Nat.add_assoc, buildLoop_succ pairs _ _ res hb]
          exact ih

/-- The loop of `fromString` has left before its fuel runs out: more fuel changes nothing. -/
theorem heap_fromStringLoop_succ (dec : List Char → Option α) (fuel : Nat)
    (content : List Char) (values : List α) (h : content.length < fuel) :
    fromStringLoop dec (fuel + 1) content values = fromStringLoop dec fuel content values := by
  induction fuel generalizing content values with
  | zero => omega
  | succ fuel ih =>
    rw [fromStringLoop, fromStringLoop]
    cases hf : find content ",".toList with
    | none => rfl
    | some pos =>
      simp only
      have := find_le _ _ _ hf
      simp only [comma_eq, List.length_cons, List.length_nil] at this
      cases hd : dec (content.take pos) with
      | none => rfl
      | some value =>
        simp only
        cases fuel with
        | zero => omega
        | succ fuel =>
          rw [ih]
          simp only [List.length_drop]
          omega

end BinaryHeap

namespace BinaryHeap

variable {α : Type}

/-- The loop of `toString` has emptied the queue before its fuel runs out when there is fuel
for every node below the queue: more fuel changes nothing. -/
theorem levelOrderLoop_succ (fuel : Nat) (queue : List (Node α))
    (h : (queue.map Node.count).sum ≤ fuel) :
    levelOrderLoop (fuel + 1) queue = levelOrderLoop fuel queue := by
  induction fuel generalizing queue with
  | zero =>
    cases queue with
    | nil => rfl
    | cons t queue =>
      cases t with
      | nil => rfl
      | node d l r =>
        simp only [List.map_cons, List.sum_cons, Node.count] at h
        omega
  | succ fuel ih =>
    cases queue with
    | nil => rfl
    | cons t queue =>
      cases t with
      | nil => rfl
      | node d l r =>
        rw [levelOrderLoop, levelOrderLoop, ih]
        simp only [List.map_cons, List.sum_cons, Node.count] at h
        cases l <;> cases r <;>
          simp only [Node.isNull, if_true, if_false, Bool.false_eq_true, List.append_nil,
            List.map_append, List.sum_append, List.map_cons, List.map_nil, List.sum_cons,
            List.sum_nil, Node.count] at h ⊢ <;> omega

end BinaryHeap


/-- A list with a repeated element splits around two occurrences of it. -/
theorem exists_repeat_of_not_nodup {α : Type} (l : List α) (h : ¬ l.Nodup) :
    ∃ a l1 l2 l3, l = l1 ++ a :: l2 ++ a :: l3 := by
  induction l with
  | nil => exact absurd List.nodup_nil h
  | cons x xs ih =>
    rw [List.nodup_cons, not_and_or, not_not] at h
    rcases h with h | h
    · obtain ⟨l2, l3, rfl⟩ := List.append_of_mem h
      exact ⟨x, [], l2, l3, rfl⟩
    · obtain ⟨a, l1, l2, l3, rfl⟩ := ih h
      exact ⟨a, x :: l1, l2, l3, rfl⟩

namespace BinarySearchTree

variable {α : Type} [LinearOrder α]

/-! ### Fuel: links that lead too far down run in a cycle -/

/-- The links lead further than `fuel + 1` nodes down exactly when they do so from a child
with `fuel`. -/
theorem nodeBelow_succ_eq_none (left right : List (α × α)) (fuel : Nat) (v : α) :
    nodeBelow left right (fuel + 1) v = none ↔
      ∃ c, (left.lookup v = some c ∨ right.lookup v = some c) ∧
        nodeBelow left right fuel c = none := by
  rw [nodeBelow]
  cases hl : left.lookup v with
  | none =>
    cases hr : right.lookup v with
    | none => simp
    | some c =>
      cases hc : nodeBelow left right fuel c with
      | none => simp [hc]
      | some t => simp [hc]
  | some c =>
    cases hc : nodeBelow left right fuel c with
    | none =>
      simp only
      exact ⟨fun _ => ⟨c, Or.inl rfl, hc⟩, fun _ => by rw [hc]⟩
    | some t =>
      cases hr : right.lookup v with
      | none => simp [hc]
      | some c' =>
        cases hc' : nodeBelow left right fuel c' with
        | none =>
          simp only
          exact ⟨fun _ => ⟨c', Or.inr rfl, hc'⟩, fun _ => by rw [hc, hc']⟩
        | some t' =>
          simp only
          rw [hc, hc']
          constructor
          · intro h
            cases h
          · rintro ⟨x, hx | hx, hn⟩
            · rw [← Option.some.inj hx, hc] at hn
              cases hn
            · rw [← Option.some.inj hx, hc'] at hn
              cases hn

/-- With less fuel the links lead too far down all the more. -/
theorem nodeBelow_none_of_le (left right : List (α × α)) (fuel fuel' : Nat) (v : α)
    (hle : fuel' ≤ fuel) (h : nodeBelow left right fuel v = none) :
    nodeBelow left right fuel' v = none := by
  induction fuel' generalizing fuel v with
  | zero => rfl
  | succ fuel' ih =>
    cases fuel with
    | zero => omega
    | succ fuel =>
      rw [nodeBelow_succ_eq_none] at h ⊢
      obtain ⟨c, hc, hn⟩ := h
      exact ⟨c, hc, ih fuel c (by omega) hn⟩

/-- A chain of links: every value leads to the next by its left or its right link. -/
theorem nodeBelow_none_chain (left right : List (α × α)) (fuel : Nat) (v : α)
    (h : nodeBelow left right fuel v = none) :
    ∃ path : List α, path.length = fuel ∧
      List.Chain (fun p c => left.lookup p = some c ∨ right.lookup p = some c) v path := by
  induction fuel generalizing v with
  | zero => exact ⟨[], rfl, List.Chain.nil⟩
  | succ fuel ih =>
    obtain ⟨c, hc, hn⟩ := (nodeBelow_succ_eq_none left right fuel v).mp h
    obtain ⟨path, hlen, hchain⟩ := ih c hn
    exact ⟨c :: path, by simp [hlen], List.Chain.cons hc hchain⟩

/-- Along a chain of links the fuel that is too little at the end is too little, plus the
length of the chain, at the start. -/
theorem nodeBelow_none_along (left right : List (α × α)) (v : α) (path : List α) (fuel : Nat)
    (hchain : List.Chain (fun p c => left.lookup p = some c ∨ right.lookup p = some c) v path)
    (h : nodeBelow left right fuel ((v :: path).getLast (List.cons_ne_nil _ _)) = none) :
    nodeBelow left right (fuel + path.length) v = none := by
  induction path generalizing v with
  | nil => simpa using h
  | cons c path ih =>
    rw [List.chain_cons] at hchain
    rw [List.length_cons, ← Nat.add_assoc, nodeBelow_succ_eq_none]
    refine ⟨c, hchain.1, ih c hchain.2 ?_⟩
    rw [List.getLast_cons (List.cons_ne_nil _ _)] at h
    exact h

/-- A link found by `lookup` is one of the links listed. -/
theorem mem_of_lookup_eq_some (links : List (α × α)) (v c : α)
    (h : links.lookup v = some c) : (v, c) ∈ links := by
  induction links with
  | nil => cases h
  | cons e links ih =>
    obtain ⟨a, b⟩ := e
    by_cases hva : v = a
    · subst hva
      rw [List.lookup_cons, beq_self_eq_true] at h
      cases h
      exact List.mem_cons_self _ _
    · rw [List.lookup_cons, beq_false_of_ne hva] at h
      exact List.mem_cons_of_mem _ (ih h)

/-- Links that return to a value lead from it further down than any fuel. -/
theorem nodeBelow_none_of_cycle (left right : List (α × α)) (a : α) (between : List α)
    (hchain : List.Chain (fun p c => left.lookup p = some c ∨ right.lookup p = some c) a
      (between ++ [a])) (fuel : Nat) :
    nodeBelow left right fuel a = none := by
  have hstep : ∀ f, nodeBelow left right f a = none →
      nodeBelow left right (f + (between.length + 1)) a = none := by
    intro f hf
    have := nodeBelow_none_along left right a (between ++ [a]) f hchain (by simpa using hf)
    simpa using this
  have hmul : ∀ k, nodeBelow left right (k * (between.length + 1)) a = none := by
    intro k
    induction k with
    | zero => simp [nodeBelow]
    | succ k ih =>
      rw [Nat.succ_mul]
      exact hstep _ ih
  exact nodeBelow_none_of_le left right (fuel * (between.length + 1)) fuel a
    (Nat.le_mul_of_pos_right _ (Nat.succ_pos _)) (hmul fuel)

/-- A chain of links that passes a value twice leads further down than any fuel. -/
theorem nodeBelow_none_of_repeat (left right : List (α × α)) (v : α) (path : List α)
    (hchain : List.Chain (fun p c => left.lookup p = some c ∨ right.lookup p = some c) v path)
    (hrep : ¬ (v :: path).Nodup) (fuel : Nat) :
    nodeBelow left right fuel v = none := by
  obtain ⟨a, l1, l2, l3, hsplit⟩ := exists_repeat_of_not_nodup (v :: path) hrep
  have hc : List.Chain' (fun p c => left.lookup p = some c ∨ right.lookup p = some c)
      (v :: path) := hchain
  rw [hsplit] at hc
  have hcycle : List.Chain (fun p c => left.lookup p = some c ∨ right.lookup p = some c) a
      (l2 ++ [a]) := by
    have hshape : l1 ++ a :: l2 ++ a :: l3 = l1 ++ ((a :: (l2 ++ [a])) ++ l3) := by simp
    rw [hshape] at hc
    exact hc.right_of_append.left_of_append
  cases l1 with
  | nil =>
    have hva : v = a := by
      have := congrArg List.head? hsplit
      simpa using this
    rw [hva]
    exact nodeBelow_none_of_cycle left right a l2 hcycle fuel
  | cons x l1 =>
    have hvx : v = x := by
      have := congrArg List.head? hsplit
      simpa using this
    subst hvx
    have hpre : List.Chain (fun p c => left.lookup p = some c ∨ right.lookup p = some c) v
        (l1 ++ [a]) := by
      have hshape : v :: l1 ++ a :: l2 ++ a :: l3 = (v :: (l1 ++ [a])) ++ (l2 ++ a :: l3) := by
        simp
      rw [hshape] at hc
      exact hc.left_of_append
    have := nodeBelow_none_along left right v (l1 ++ [a]) fuel hpre
      (by simpa using nodeBelow_none_of_cycle left right a l2 hcycle fuel)
    exact nodeBelow_none_of_le left right _ fuel v (Nat.le_add_right _ _) this

/-- Every value a chain of links passes is a child of one of the pairs. -/
theorem chain_links_mem (pairs : List (α × α)) (v : α) (path : List α)
    (hchain : List.Chain
      (fun p c => (linkPairs pairs).1.lookup p = some c ∨ (linkPairs pairs).2.lookup p = some c)
      v path) :
    ∀ c ∈ path, ∃ pr ∈ pairs, c = pr.1 := by
  induction path generalizing v with
  | nil => intro c hc; cases hc
  | cons x path ih =>
    rw [List.chain_cons] at hchain
    intro c hc
    rcases List.mem_cons.mp hc with rfl | hc
    · rcases hchain.1 with h | h
      · exact ⟨(c, v), ((mem_linkPairs pairs v c).1.mp (mem_of_lookup_eq_some _ _ _ h)).1, rfl⟩
      · exact ⟨(c, v), ((mem_linkPairs pairs v c).2.mp (mem_of_lookup_eq_some _ _ _ h)).1, rfl⟩
    · exact ih x hchain.2 c hc

/-- The root value is the parent of one of the pairs. -/
theorem findRootValue_mem (pairs : List (α × α)) (first : α × α) (hfirst : first ∈ pairs) :
    ∃ pr ∈ pairs,
      findRootValue (pairs.map (·.2)) (pairs.map (·.1)) first.2 = pr.2 := by
  unfold findRootValue
  cases hf : (pairs.map (·.2)).find? (fun pv => !(pairs.map (·.1)).contains pv) with
  | none => exact ⟨first, hfirst, rfl⟩
  | some pv =>
    have := List.mem_of_find?_eq_some hf
    obtain ⟨pr, hpr, rfl⟩ := List.mem_map.mp this
    exact ⟨pr, hpr, rfl⟩

/-- The fuel of `fromNodeParentPairs` decides: links that lead further than `nodeList.size()`
nodes down from the root lead further down than any number of nodes, so the outcome `cyclic`
stands for a structure that no traversal leaves. -/
theorem nodeBelow_cyclic (first : α × α) (rest : List (α × α))
    (h : nodeBelow (linkPairs (first :: rest)).1 (linkPairs (first :: rest)).2
      ((first :: rest).foldl (fun nodeList pr => getNode (getNode nodeList pr.1) pr.2)
        []).length
      (findRootValue ((first :: rest).map (·.2)) ((first :: rest).map (·.1)) first.2) = none)
    (fuel : Nat) :
    nodeBelow (linkPairs (first :: rest)).1 (linkPairs (first :: rest)).2 fuel
      (findRootValue ((first :: rest).map (·.2)) ((first :: rest).map (·.1)) first.2) = none := by
  obtain ⟨path, hlen, hchain⟩ := nodeBelow_none_chain _ _ _ _ h
  refine nodeBelow_none_of_repeat _ _ _ path hchain ?_ fuel
  intro hnodup
  obtain ⟨hnd, hmem⟩ := getNode_foldl (first :: rest) [] List.nodup_nil
  have hsub : (findRootValue ((first :: rest).map (·.2)) ((first :: rest).map (·.1)) first.2
      :: path) ⊆
      (first :: rest).foldl (fun nodeList pr => getNode (getNode nodeList pr.1) pr.2) [] := by
    intro x hx
    rw [hmem]
    right
    rcases List.mem_cons.mp hx with rfl | hx
    · obtain ⟨pr, hpr, e⟩ := findRootValue_mem (first :: rest) first (List.mem_cons_self _ _)
      exact ⟨pr, hpr, Or.inr e⟩
    · obtain ⟨pr, hpr, e⟩ := chain_links_mem (first :: rest) _ path hchain x hx
      exact ⟨pr, hpr, Or.inl e⟩
  have := (List.subperm_of_subset hnodup hsub).length_le
  rw [List.length_cons, hlen] at this
  omega

end BinarySearchTree

namespace BinaryHeap

variable {α : Type} [LinearOrder α]

/-! ### The claims on the listing and the pair lists of the heap -/

/-- C27: for a pair list that describes a binary tree with pairwise distinct values (every
value is listed once, the root value `r` with itself, every value is reachable from the root
value, no value has more than two children), `fromNodeParentPairs` returns a heap whose root
holds `r`, whose `getSize()` is the number of pairs, that stores exactly the listed values,
and in which the left child of a node holds the first child listed for its value and the
right child the second.  One loop iteration for every pair suffices. -/
theorem heap_fromNodeParentPairs_spec (pairs : List (α × α)) (r : α)
    (hroot : (r, r) ∈ pairs) (hnd : (pairs.map (·.1)).Nodup)
    (hreach : ∀ pr ∈ pairs, Reachable pairs r pr.1)
    (hch : ∀ p, (childrenOf pairs p).length ≤ 2) (fuel : Nat) (hfuel : pairs.length ≤ fuel) :
    ∃ h, fromNodeParentPairs fuel pairs = some (.ok h) ∧ h.root.value? = some r ∧
      getSize h = pairs.length ∧ h.values.Perm (pairs.map (·.1)) ∧
      ∀ path p left right, h.root.subtreeAt path = .node p left right →
        left.value? = (childrenOf pairs p)[0]? ∧ right.value? = (childrenOf pairs p)[1]? := by
  obtain ⟨t, hdec, hfin, hperm⟩ :=
    fromNodeParentPairs_describes pairs r hroot hnd hreach hch fuel hfuel
  refine ⟨⟨t, pairs.length⟩, hdec, by simpa [valueAt_nil] using hfin [], rfl, hperm, ?_⟩
  intro path p left right hsub
  have hp : valueAt pairs r path = some p := by
    rw [← hfin path]
    show (Node.subtreeAt t path).value? = some p
    rw [hsub]
    rfl
  have hl := hfin (path ++ [true])
  have hr := hfin (path ++ [false])
  rw [valueAt_snoc, hp] at hl hr
  change (Node.subtreeAt t (path ++ [true])).value? = _ at hl
  change (Node.subtreeAt t (path ++ [false])).value? = _ at hr
  rw [Node.subtreeAt_append] at hl hr
  change Node.subtreeAt t path = _ at hsub
  rw [hsub] at hl hr
  exact ⟨by simpa [Node.subtreeAt] using hl, by simpa [Node.subtreeAt] using hr⟩

/-- Witness of C27 on the pair list of `testFromNodeParentPairs1`: three nodes, root 20, its
left child 10, whose left child is 15. -/
theorem heap_fromNodeParentPairs_spec_witness :
    (((20 : Int), (20 : Int)) ∈ [((20 : Int), (20 : Int)), (10, 20), (15, 10)] ∧
      ([((20 : Int), (20 : Int)), (10, 20), (15, 10)].map (·.1)).Nodup ∧
      (∀ pr ∈ [((20 : Int), (20 : Int)), (10, 20), (15, 10)],
        Reachable [((20 : Int), (20 : Int)), (10, 20), (15, 10)] 20 pr.1) ∧
      (∀ p, (childrenOf [((20 : Int), (20 : Int)), (10, 20), (15, 10)] p).length ≤ 2)) ∧
    ∃ h, fromNodeParentPairs 3 [((20 : Int), (20 : Int)), (10, 20), (15, 10)] = some (.ok h) ∧
      h.root.value? = some 20 ∧
      getSize h = [((20 : Int), (20 : Int)), (10, 20), (15, 10)].length ∧
      h.values.Perm ([((20 : Int), (20 : Int)), (10, 20), (15, 10)].map (·.1)) ∧
      ∀ path p left right, h.root.subtreeAt path = .node p left right →
        left.value? = (childrenOf [((20 : Int), (20 : Int)), (10, 20), (15, 10)] p)[0]? ∧
        right.value? = (childrenOf [((20 : Int), (20 : Int)), (10, 20), (15, 10)] p)[1]? :=
  have hreach : ∀ pr ∈ [((20 : Int), (20 : Int)), (10, 20), (15, 10)],
      Reachable [((20 : Int), (20 : Int)), (10, 20), (15, 10)] 20 pr.1 := by
    have h20 : Reachable [((20 : Int), (20 : Int)), (10, 20), (15, 10)] 20 20 := .root
    have h10 : Reachable [((20 : Int), (20 : Int)), (10, 20), (15, 10)] 20 10 :=
      .child 10 20 h20 (by decide)
    have h15 : Reachable [((20 : Int), (20 : Int)), (10, 20), (15, 10)] 20 15 :=
      .child 15 10 h10 (by decide)
    intro pr hpr
    simp only [List.mem_cons, List.mem_singleton, List.not_mem_nil, or_false] at hpr
    rcases hpr with rfl | rfl | rfl
    · exact h20
    · exact h10
    · exact h15
  have hch : ∀ p, (childrenOf [((20 : Int), (20 : Int)), (10, 20), (15, 10)] p).length ≤ 2 :=
    fun p => Nat.le_trans (length_childrenOf_le _ p) (by decide)
  ⟨⟨by decide, by decide, hreach, hch⟩,
    heap_fromNodeParentPairs_spec _ 20 (by decide) (by decide) hreach hch 3 (by decide)⟩

/-- C28, the code at the failing input: in the list below the value 9 is the parent in three
pairs, yet `fromNodeParentPairs` returns a heap (with nine loop iterations, and so with any
larger number).  The value 9 is never reached from the root, and the values 2, 3, 4 and 5,
each reached twice, bring the number of nodes built to the number of pairs, nine. -/
theorem heap_fromNodeParentPairs_three_children :
    (childrenOf [((1 : Int), (1 : Int)), (2, 1), (2, 1), (3, 2), (4, 2), (5, 3), (6, 9), (7, 9),
      (8, 9)] 9).length = 3 ∧
    ∀ extra, fromNodeParentPairs (9 + extra)
      [((1 : Int), (1 : Int)), (2, 1), (2, 1), (3, 2), (4, 2), (5, 3), (6, 9), (7, 9), (8, 9)] =
      some (.ok ⟨.node 1
        (.node 2 (.node 3 (.node 5 .nil .nil) .nil) (.node 4 .nil .nil))
        (.node 2 (.node 3 (.node 5 .nil .nil) .nil) (.node 4 .nil .nil)), 9⟩) :=
  ⟨by decide, fun extra => fromNodeParentPairs_mono _ 9 extra _ (by decide)⟩

/-- Counterexample to C26 as stated: after inserting 5 twice the heap holds 5 at the root and
at its left child; both collected pairs are `(5, 5)`, so no child is attached and the decoding
throws for the count. -/
theorem heap_pairs_roundtrip_counterexample :
    run [Op.insert (5 : Int), Op.insert 5] = some ⟨.node 5 (.node 5 .nil .nil) .nil, 2⟩ ∧
    collectPairs (Node.node (5 : Int) (.node 5 .nil .nil) .nil) none = [(5, 5), (5, 5)] ∧
    ∀ fuel, fromNodeParentPairs (fuel + 1) [((5 : Int), (5 : Int)), (5, 5)] =
      some (.error .countMismatch) := by
  refine ⟨by decide, by decide, fun fuel => ?_⟩
  simp [fromNodeParentPairs, buildLoop, attachChildren, childrenOf]

/-- C26 (amended): a heap reached from the empty heap by inserting pairwise distinct values has
the heap invariant and stores the inserted values, and decoding its collected pairs (one pair
for every node in pre-order, the root paired with itself) with `fromNodeParentPairs` succeeds
and returns that same heap, hence the same values, the same `getSize()` and the heap
invariant.  One loop iteration for every node suffices. -/
theorem heap_pairs_roundtrip (inserted : List α) (hnd : inserted.Nodup) :
    ∃ h, run (inserted.map Op.insert) = some h ∧ HeapInvariant h ∧ h.values.Perm inserted ∧
      getSize h = inserted.length ∧
      ∀ fuel, h.size ≤ fuel →
        fromNodeParentPairs fuel (collectPairs h.root none) = some (.ok h) := by
  obtain ⟨h, he, hw, hp, hs⟩ := runFrom_inserts inserted empty wellFormed_empty
  have hp' : h.values.Perm inserted := by
    simpa [values, empty, Node.preorder, Node.traverseByType] using hp
  refine ⟨h, he, (heapInvariant_iff h).mpr hw, hp', by simpa [empty] using hs,
    fun fuel hf => ?_⟩
  exact fromNodeParentPairs_collectPairs h hw (hp'.nodup_iff.mpr hnd) fuel hf

/-- Witness of C26 (amended) on the values 10, 20, 5, 15. -/
theorem heap_pairs_roundtrip_witness :
    [(10 : Int), 20, 5, 15].Nodup ∧
    ∃ h, run ([(10 : Int), 20, 5, 15].map Op.insert) = some h ∧ HeapInvariant h ∧
      h.values.Perm [(10 : Int), 20, 5, 15] ∧ getSize h = [(10 : Int), 20, 5, 15].length ∧
      ∀ fuel, h.size ≤ fuel →
        fromNodeParentPairs fuel (collectPairs h.root none) = some (.ok h) :=
  ⟨by decide, heap_pairs_roundtrip [(10 : Int), 20, 5, 15] (by decide)⟩

/-- Counterexample to C24 as stated: under the value contract `flagToString`, which decodes
what it encodes and never writes a comma, the heap that stores `false` alone has the heap
invariant, is listed as `[]` and is decoded to the empty heap, of size 0. -/
theorem heap_fromString_toString_counterexample :
    (∀ b, flagFromString (flagToString b) = some b) ∧
    (∀ b, find (flagToString b) ",".toList = none) ∧
    HeapInvariant (⟨.node false .nil .nil, 1⟩ : BinaryHeap Bool) ∧
    toString flagToString (⟨.node false .nil .nil, 1⟩ : BinaryHeap Bool) = "[]".toList ∧
    fromString flagFromString (toString flagToString ⟨.node false .nil .nil, 1⟩) =
      .ok ⟨.nil, 0⟩ ∧
    getSize (⟨.nil, 0⟩ : BinaryHeap Bool) ≠
      getSize (⟨.node false .nil .nil, 1⟩ : BinaryHeap Bool) := by
  decide

/-- C24 (amended): for a heap with the heap invariant whose stored values are decoded from
their encodings, with no encoding empty or holding a comma, `fromString(toString(h))` returns
a heap with the same `getSize()` and the same multiset of values as `h` that has the heap
invariant. -/
theorem heap_fromString_toString (valueToString : α → List Char)
    (valueFromString : List Char → Option α) (h : BinaryHeap α) (hinv : HeapInvariant h)
    (hdec : ∀ v ∈ h.values, valueFromString (valueToString v) = some v)
    (hne : ∀ v ∈ h.values, valueToString v ≠ [])
    (hsep : ∀ v ∈ h.values, find (valueToString v) ",".toList = none) :
    ∃ decoded, fromString valueFromString (toString valueToString h) = .ok decoded ∧
      getSize decoded = getSize h ∧ decoded.values.Perm h.values ∧ HeapInvariant decoded :=
  ⟨h, heap_fromString_toString_self valueToString valueFromString h
      ((heapInvariant_iff h).mp hinv) hdec hne hsep, rfl, List.Perm.refl _, hinv⟩

/-- Witness of C24 (amended) on the heap of `int` built by inserting 10, 20, 5, 15, with
`valueToString<int>` and `std::stoi`. -/
theorem heap_fromString_toString_witness :
    (HeapInvariant sampleHeap ∧
      (∀ v ∈ sampleHeap.values, stoi (intToString v) = some v) ∧
      (∀ v ∈ sampleHeap.values, intToString v ≠ []) ∧
      (∀ v ∈ sampleHeap.values, find (intToString v) ",".toList = none)) ∧
    ∃ decoded, fromString stoi (toString intToString sampleHeap) = .ok decoded ∧
      getSize decoded = getSize sampleHeap ∧ decoded.values.Perm sampleHeap.values ∧
      HeapInvariant decoded :=
  have hdec : ∀ v ∈ sampleHeap.values, stoi (intToString v) = some v :=
    fun v hv => stoi_intToString v
      ((by decide : ∀ x ∈ sampleHeap.values, -2147483648 ≤ x ∧ x ≤ 2147483647) v hv).1
      ((by decide : ∀ x ∈ sampleHeap.values, -2147483648 ≤ x ∧ x ≤ 2147483647) v hv).2
  have hne : ∀ v ∈ sampleHeap.values, intToString v ≠ [] := fun v _ => intToString_ne_nil v
  have hsep : ∀ v ∈ sampleHeap.values, find (intToString v) ",".toList = none :=
    fun v _ => find_comma_none _ _ (intToString_no_comma v)
  ⟨⟨by decide, hdec, hne, hsep⟩,
    heap_fromString_toString intToString stoi sampleHeap (by decide) hdec hne hsep⟩

end BinaryHeap


/-! ## Theorems: traversals -/

namespace Node

variable {α : Type}

/-- The mirrored in-order traversal lists the values of the in-order one backwards. -/
theorem traverse_reverseInOrder (t : Node α) :
    t.traverseByType .ReverseInOrder = (t.traverseByType .InOrder).reverse := by
  induction t with
  | nil => rfl
  | node d l r ihl ihr => simp [traverseByType, ihl, ihr]

/-- The mirrored post-order traversal lists the values of the pre-order one backwards. -/
theorem traverse_reversePostOrder (t : Node α) :
    t.traverseByType .ReversePostOrder = (t.traverseByType .PreOrder).reverse := by
  induction t with
  | nil => rfl
  | node d l r ihl ihr => simp [traverseByType, ihl, ihr]

/-- The mirrored pre-order traversal lists the values of the post-order one backwards. -/
theorem traverse_reversePreOrder (t : Node α) :
    t.traverseByType .ReversePreOrder = (t.traverseByType .PostOrder).reverse := by
  induction t with
  | nil => rfl
  | node d l r ihl ihr => simp [traverseByType, ihl, ihr]

/-- Every traversal calls the callback once per node. -/
theorem length_traverseByType (t : Node α) (type : TraversalType) :
    (t.traverseByType type).length = t.count := by
  induction t with
  | nil => rfl
  | node d l r ihl ihr =>
    cases type <;> simp only [traverseByType, count, List.length_append, List.length_cons,
      List.length_nil, ihl, ihr] <;> omega

end Node

namespace BinarySearchTree

variable {α : Type}

/-- C39: for every binary tree, ordered or not, the iterative `getValuesInOrder()` with its
explicit stack returns the sequence of the recursive
`getValuesByTraversal(TraversalType::InOrder)`. -/
theorem bst_getValuesInOrder_refines (t : BinarySearchTree α) :
    getValuesInOrder t = getValuesByTraversal t .InOrder := by
  rw [getValuesInOrder_eq]
  rfl

/-- C40: for every binary tree, `getValuesByTraversal` of a reverse order is the reversed list
of the forward order it mirrors (reverse in-order of in-order, reverse post-order of pre-order,
reverse pre-order of post-order), and each of the six traversals lists as many values as the
tree has nodes. -/
theorem bst_reverse_traversals (t : BinarySearchTree α) :
    getValuesByTraversal t .ReverseInOrder = (getValuesByTraversal t .InOrder).reverse ∧
    getValuesByTraversal t .ReversePostOrder = (getValuesByTraversal t .PreOrder).reverse ∧
    getValuesByTraversal t .ReversePreOrder = (getValuesByTraversal t .PostOrder).reverse ∧
    ∀ type, (getValuesByTraversal t type).length = t.root.count :=
  ⟨Node.traverse_reverseInOrder t.root, Node.traverse_reversePostOrder t.root,
    Node.traverse_reversePreOrder t.root, fun type => Node.length_traverseByType t.root type⟩

end BinarySearchTree


/-! ## Theorems: format tokens of the tree -/

/-- The first occurrence of a character that the text in front of it does not hold. -/
theorem find_char (content rest : List Char) (c : Char) (h : c ∉ content) :
    find (content ++ c :: rest) [c] = some content.length := by
  induction content with
  | nil => simp [find, List.isPrefixOf]
  | cons x content ih =>
    have hx : c ≠ x := fun e => h (e ▸ List.mem_cons_self _ _)
    have hc : c ∉ content := fun hm => h (List.mem_cons_of_mem _ hm)
    rw [List.cons_append, find_cons]
    have : [c].isPrefixOf (x :: (content ++ c :: rest)) = false := by
      simp [List.isPrefixOf, hx]
    rw [this, ih hc]
    rfl

namespace BinarySearchTree

variable {α : Type}

/-- The closing character chosen for the opening character of a bracket pair. -/
theorem closingOf_opening (b : Bracket) : closingOf b.opening = some b.closing := by
  cases b <;> decide

/-- The scan of `fromStringFormatted` has arrived at the end of the text before its fuel runs
out: more fuel changes nothing. -/
theorem extractSegments_succ (fuel : Nat) (str : List Char) (h : str.length ≤ fuel) :
    extractSegments (fuel + 1) str = extractSegments fuel str := by
  induction fuel generalizing str with
  | zero =>
    have : str = [] := List.length_eq_zero.mp (Nat.le_zero.mp h)
    subst this
    rfl
  | succ fuel ih =>
    cases str with
    | nil => rfl
    | cons c rest =>
      have hr : rest.length ≤ fuel := by simpa using h
      rw [extractSegments, extractSegments]
      cases closingOf c with
      | none => exact ih rest hr
      | some closing =>
        simp only
        cases hf : find rest [closing] with
        | none => rfl
        | some pos =>
          simp only
          rw [ih]
          rw [List.length_drop]
          omega

/-- The scan of `fromStringFormatted` with any fuel from `str.size()` on. -/
theorem extractSegments_add (str : List Char) (extra : Nat) :
    extractSegments (str.length + extra) str = extractSegments str.length str := by
  induction extra with
  | zero => rfl
  | succ extra ih =>
    rw [← Nat.add_assoc, extractSegments_succ _ _ (Nat.le_add_right _ _), ih]

/-- The scan of `fromStringFormatted` on a text made of bracketed segments returns their
contents, in order. -/
theorem extractSegments_segments (segments : List (Bracket × List Char)) (fuel : Nat)
    (hfuel : (segments.flatMap segmentText).length ≤ fuel)
    (hclose : ∀ s ∈ segments, s.1.closing ∉ s.2) :
    extractSegments fuel (segments.flatMap segmentText) = segments.map (·.2) := by
  induction segments generalizing fuel with
  | nil => cases fuel <;> rfl
  | cons s segments ih =>
    obtain ⟨b, content⟩ := s
    have htext : (((b, content) :: segments).flatMap segmentText) =
        b.opening :: (content ++ b.closing :: segments.flatMap segmentText) := by
      simp [List.flatMap_cons, segmentText]
    rw [htext] at hfuel ⊢
    cases fuel with
    | zero => simp at hfuel
    | succ fuel =>
      rw [extractSegments, closingOf_opening]
      simp only
      rw [find_char _ _ _ (hclose (b, content) (List.mem_cons_self _ _))]
      simp only [List.take_left', List.map_cons]
      have hdrop : List.drop (content.length + 1)
          (content ++ b.closing :: segments.flatMap segmentText) =
          segments.flatMap segmentText := by
        rw [List.drop_append]
        rfl
      rw [hdrop, ih fuel ?_ (fun s hs => hclose s (List.mem_cons_of_mem _ hs))]
      simp only [List.length_cons, List.length_append] at hfuel
      omega

/-- The tokens that all decode give the list of their values. -/
theorem filterMap_of_map_eq {β : Type} (dec : List Char → Option β) (tokens : List (List Char))
    (vals : List β) (h : tokens.map dec = vals.map some) : tokens.filterMap dec = vals := by
  induction tokens generalizing vals with
  | nil =>
    cases vals with
    | nil => rfl
    | cons v vals => simp at h
  | cons token tokens ih =>
    cases vals with
    | nil => simp at h
    | cons v vals =>
      simp only [List.map_cons, List.cons.injEq] at h
      rw [List.filterMap_cons_some h.1, ih vals h.2]

variable [LinearOrder α]

/-- Inserting the decoded tokens: the tokens that decode are inserted as their values, the
others are passed over. -/
theorem foldl_decode (dec : List Char → Option α) (tokens : List (List Char))
    (t : BinarySearchTree α) :
    tokens.foldl
      (fun result token =>
        match dec token with
        | some value => insert result value
        | none => result) t =
      (tokens.filterMap dec).foldl (fun result value => insert result value) t := by
  induction tokens generalizing t with
  | nil => rfl
  | cons token tokens ih =>
    rw [List.foldl_cons, ih]
    cases hd : dec token with
    | none => rw [List.filterMap_cons_none hd]
    | some v => rw [List.filterMap_cons_some hd, List.foldl_cons]

/-- The tree `fromStringFormatted` returns for a text made of bracketed segments: the values
of the segments that decode, inserted in the order of the segments. -/
theorem fromStringFormatted_segments (dec : List Char → Option α)
    (segments : List (Bracket × List Char)) (format : List Char) (hformat : format ≠ [])
    (hclose : ∀ s ∈ segments, s.1.closing ∉ s.2) :
    fromStringFormatted dec (segments.flatMap segmentText) format =
      ((segments.map (·.2)).filterMap dec).foldl (fun result value => insert result value)
        empty := by
  unfold fromStringFormatted
  cases segments with
  | nil => rfl
  | cons s segments =>
    have hne : ((s :: segments).flatMap segmentText).isEmpty = false := by
      simp [List.flatMap_cons, segmentText]
    have hf : format.isEmpty = false := by
      cases format with
      | nil => exact absurd rfl hformat
      | cons c cs => rfl
    rw [hne, hf]
    simp only [Bool.or_self, Bool.false_eq_true, if_false]
    rw [extractSegments_segments _ _ (Nat.le_refl _) hclose]
    exact foldl_decode dec _ empty

end BinarySearchTree


namespace BinarySearchTree

variable {α : Type} [LinearOrder α]

/-- The loop of `fromString` on any tokens separated by `", "`: the tokens but the last are
decoded, their values inserted where they decode, and the last token is left in `data`. -/
theorem fromStringLoop_tokens (dec : List Char → Option α) (tokens : List (List Char))
    (last : List Char) (fuel : Nat) (result : BinarySearchTree α)
    (hfuel : (", ".toList.intercalate (tokens ++ [last])).length < fuel)
    (hsep : ∀ t ∈ tokens ++ [last], find t ", ".toList = none) :
    fromStringLoop dec fuel (", ".toList.intercalate (tokens ++ [last])) result =
      (last, (tokens.filterMap dec).foldl (fun result value => insert result value) result) := by
  induction tokens generalizing fuel result with
  | nil =>
    cases fuel with
    | zero => omega
    | succ fuel =>
      simp only [List.nil_append, intercalate_singleton, fromStringLoop, List.filterMap_nil,
        List.foldl_nil]
      rw [hsep last (by simp)]
  | cons y ys ih =>
    cases fuel with
    | zero => omega
    | succ fuel =>
      obtain ⟨z, zs, hz⟩ : ∃ z zs, ys ++ [last] = z :: zs := by
        cases ys with
        | nil => exact ⟨last, [], rfl⟩
        | cons a as => exact ⟨a, as ++ [last], rfl⟩
      have hdata : ", ".toList.intercalate ((y :: ys) ++ [last]) =
          y ++ ',' :: ' ' :: ", ".toList.intercalate (ys ++ [last]) := by
        rw [List.cons_append, hz, intercalate_cons_cons, sep_eq]
        simp
      rw [hdata] at hfuel ⊢
      have hy := hsep y (by simp)
      rw [sep_eq] at hy
      rw [fromStringLoop]
      simp only [sep_eq]
      rw [find_token _ _ hy]
      simp only [List.take_left']
      have hdrop : List.drop (y.length + 2)
          (y ++ ',' :: ' ' :: [',', ' '].intercalate (ys ++ [last])) =
          [',', ' '].intercalate (ys ++ [last]) := by
        rw [List.drop_append]
        rfl
      rw [hdrop]
      have hlen : ([',', ' '].intercalate (ys ++ [last])).length < fuel := by
        simp only [List.length_append, List.length_cons, sep_eq] at hfuel ⊢
        omega
      have hrest : ∀ t ∈ ys ++ [last], find t ", ".toList = none :=
        fun v hv => hsep v (by simp at hv ⊢; tauto)
      cases hd : dec y with
      | none =>
        simp only
        rw [List.filterMap_cons_none hd]
        have := ih fuel result (by simpa only [sep_eq] using hlen) hrest
        simpa only [sep_eq] using this
      | some v =>
        simp only
        rw [List.filterMap_cons_some hd, List.foldl_cons]
        have := ih fuel (insert result v) (by simpa only [sep_eq] using hlen) hrest
        simpa only [sep_eq] using this

/-- The tree `fromString` returns for a listing of any tokens: the values of the tokens that
decode, inserted in the order of the listing. -/
theorem fromString_tokens (dec : List Char → Option α) (tokens : List (List Char))
    (hsep : ∀ t ∈ tokens, find t ", ".toList = none)
    (hempty : [] ∈ tokens → dec [] = none) :
    fromString dec ("[".toList ++ ", ".toList.intercalate tokens ++ "]".toList) =
      (tokens.filterMap dec).foldl (fun result value => insert result value) empty := by
  generalize hbody : ", ".toList.intercalate tokens = body
  have hdata : (if ("[".toList ++ body ++ "]".toList).length ≥ 2 then
      (("[".toList ++ body ++ "]".toList).drop 1).take
        (("[".toList ++ body ++ "]".toList).length - 2)
      else "[".toList ++ body ++ "]".toList) = body := by
    have hl : ("[".toList ++ body ++ "]".toList).length = body.length + 2 := by
      simp [String.toList]
    rw [if_pos (by omega), hl]
    simp [String.toList]
  unfold fromString
  simp only [hdata]
  rcases List.eq_nil_or_concat tokens with hx | ⟨ys, x, hx⟩
  · rw [hx] at hbody
    rw [hx, ← hbody]
    rfl
  · rw [List.concat_eq_append] at hx
    subst hx
    rw [← hbody, fromStringLoop_tokens dec ys x _ empty (by omega) hsep]
    simp only [List.filterMap_append, List.foldl_append]
    cases x with
    | nil =>
      have := hempty (by simp)
      simp [this]
    | cons c cs =>
      simp only [List.isEmpty_cons, Bool.not_false, if_true]
      cases hd : dec (c :: cs) with
      | none => simp [hd]
      | some v => simp [hd]

end BinarySearchTree

/-! ### The claims on the format tokens and on tokens that do not parse -/

namespace BinarySearchTree

variable {α : Type} [LinearOrder α]

/-- C32: for a text made of bracketed segments (curly, round or square, the content of a
segment ending at its closing character) whose contents all decode, and for every non-empty
format string, `fromStringFormatted` returns the tree obtained by inserting the values of the
segments in their order into the empty tree.  So the tree stores exactly these values, it
satisfies the BST invariant, its `getSize()` is its node count, and it is the same for every
other non-empty format string. -/
theorem bst_fromStringFormatted_spec (valueFromString : List Char → Option α)
    (segments : List (Bracket × List Char)) (values : List α) (format : List Char)
    (hformat : format ≠ [])
    (hclose : ∀ s ∈ segments, s.1.closing ∉ s.2)
    (hparse : segments.map (fun s => valueFromString s.2) = values.map some) :
    fromStringFormatted valueFromString (segments.flatMap segmentText) format =
      values.foldl (fun result value => insert result value) empty ∧
    (∀ v, v ∈ getValuesInOrder
      (fromStringFormatted valueFromString (segments.flatMap segmentText) format) ↔
        v ∈ values) ∧
    IsBST (fromStringFormatted valueFromString (segments.flatMap segmentText) format).root ∧
    getSize (fromStringFormatted valueFromString (segments.flatMap segmentText) format) =
      (fromStringFormatted valueFromString (segments.flatMap segmentText) format).root.count ∧
    ∀ other, other ≠ [] →
      fromStringFormatted valueFromString (segments.flatMap segmentText) other =
        fromStringFormatted valueFromString (segments.flatMap segmentText) format := by
  have hvals : (segments.map (·.2)).filterMap valueFromString = values :=
    filterMap_of_map_eq valueFromString _ values (by rw [List.map_map]; exact hparse)
  have hres : ∀ f, f ≠ [] →
      fromStringFormatted valueFromString (segments.flatMap segmentText) f =
        values.foldl (fun result value => insert result value) empty := by
    intro f hf
    rw [fromStringFormatted_segments valueFromString segments f hf hclose, hvals]
  have hroot : (values.foldl (fun result value => insert result value)
      (empty : BinarySearchTree α)).root = insertList .nil values := by
    rw [foldl_insert_root (fun x => x)]
    simp [empty]
  rw [hres format hformat]
  refine ⟨rfl, fun v => ?_, ?_, ?_, fun other ho => hres other ho⟩
  · rw [getValuesInOrder_eq, hroot, mem_insertList]
    simp [Node.inorder, Node.traverseByType]
  · rw [hroot]
    exact isBST_insertList _ _ trivial
  · exact foldl_insert_count (fun x => x) _ empty rfl

/-- Witness of C32 on the text of `testFormattedStringConversion`, with `std::stoi`: the
segments 10, 5 and 15 give a tree of size 3 with the in-order sequence 5, 10, 15. -/
theorem bst_fromStringFormatted_spec_witness :
    ([(Bracket.curly, "10".toList), (Bracket.round, "5".toList),
        (Bracket.square, "15".toList)].flatMap segmentText = "\x7b10\x7d(5)[15]".toList ∧
      "\x7bК\x7d(Л)[П]".toList ≠ [] ∧
      (∀ s ∈ [(Bracket.curly, "10".toList), (Bracket.round, "5".toList),
        (Bracket.square, "15".toList)], s.1.closing ∉ s.2) ∧
      [(Bracket.curly, "10".toList), (Bracket.round, "5".toList),
        (Bracket.square, "15".toList)].map (fun s => stoi s.2) =
        [(10 : Int), 5, 15].map some) ∧
    (fromStringFormatted stoi
        ([(Bracket.curly, "10".toList), (Bracket.round, "5".toList),
          (Bracket.square, "15".toList)].flatMap segmentText) "\x7bК\x7d(Л)[П]".toList =
      [(10 : Int), 5, 15].foldl (fun result value => insert result value) empty ∧
    (∀ v, v ∈ getValuesInOrder
      (fromStringFormatted stoi
        ([(Bracket.curly, "10".toList), (Bracket.round, "5".toList),
          (Bracket.square, "15".toList)].flatMap segmentText) "\x7bК\x7d(Л)[П]".toList) ↔
        v ∈ [(10 : Int), 5, 15]) ∧
    IsBST (fromStringFormatted stoi
        ([(Bracket.curly, "10".toList), (Bracket.round, "5".toList),
          (Bracket.square, "15".toList)].flatMap segmentText) "\x7bК\x7d(Л)[П]".toList).root ∧
    getSize (fromStringFormatted stoi
        ([(Bracket.curly, "10".toList), (Bracket.round, "5".toList),
          (Bracket.square, "15".toList)].flatMap segmentText) "\x7bК\x7d(Л)[П]".toList) =
      (fromStringFormatted stoi
        ([(Bracket.curly, "10".toList), (Bracket.round, "5".toList),
          (Bracket.square, "15".toList)].flatMap segmentText)
        "\x7bК\x7d(Л)[П]".toList).root.count ∧
    ∀ other, other ≠ [] →
      fromStringFormatted stoi
        ([(Bracket.curly, "10".toList), (Bracket.round, "5".toList),
          (Bracket.square, "15".toList)].flatMap segmentText) other =
        fromStringFormatted stoi
          ([(Bracket.curly, "10".toList), (Bracket.round, "5".toList),
            (Bracket.square, "15".toList)].flatMap segmentText) "\x7bК\x7d(Л)[П]".toList) ∧
    (getSize (fromStringFormatted stoi "\x7b10\x7d(5)[15]".toList "\x7bК\x7d(Л)[П]".toList) = 3 ∧
      getValuesInOrder
        (fromStringFormatted stoi "\x7b10\x7d(5)[15]".toList "\x7bК\x7d(Л)[П]".toList) =
        [5, 10, 15]) :=
  ⟨⟨by decide, by decide, by decide, by decide⟩,
    bst_fromStringFormatted_spec stoi
      [(Bracket.curly, "10".toList), (Bracket.round, "5".toList), (Bracket.square, "15".toList)]
      [10, 5, 15] "\x7bК\x7d(Л)[П]".toList (by decide) (by decide) (by decide),
    by decide⟩

/-- C33, the code at the failing input.  For the tree built by inserting 10, 5, 15, 3, 7, 12,
17 and the in-order token, `toStringFormatted` writes all seven values into one pair of square
brackets; `fromStringFormatted` takes the text between the brackets for one segment, of which
`std::stoi` reads the leading 3, and returns the tree of that one value.  With each of the six
tokens the tree read back holds a single value. -/
theorem bst_formatted_roundtrip_first_value :
    IsBST sampleTree.root ∧
    getValuesInOrder sampleTree = [3, 5, 7, 10, 12, 15, 17] ∧
    toStringFormatted intToString sampleTree "(Л)\x7bК\x7d[П]".toList =
      "[3, 5, 7, 10, 12, 15, 17]".toList ∧
    fromStringFormatted stoi "[3, 5, 7, 10, 12, 15, 17]".toList "(Л)\x7bК\x7d[П]".toList =
      ⟨.node 3 .nil .nil, 1⟩ ∧
    ∀ format ∈ formatTokens,
      (getValuesInOrder
        (fromStringFormatted stoi (toStringFormatted intToString sampleTree format)
          format)).length = 1 := by
  decide

/-- Counterexample to C34 as stated: in the listing `[5, x, 15]` the token `x` is no `int`,
and `fromString` returns the tree of the two values that parse. -/
theorem bst_fromString_skips_counterexample :
    stoi "x".toList = none ∧
    fromString stoi "[5, x, 15]".toList = ⟨.node 5 .nil (.node 15 .nil .nil), 2⟩ := by
  decide

/-- C34 (amended): for a listing of tokens separated by `", "` (no token holding `", "`, and
the empty token, if the listing has one, not parsing), `fromString` passes over the tokens that
do not parse and returns the tree obtained by inserting the values of the others, in the order
of the listing.  The tree stores exactly the values of the tokens that parse, satisfies the BST
invariant, and its `getSize()` is its node count; it is empty only if no token parses. -/
theorem bst_fromString_skips (valueFromString : List Char → Option α)
    (tokens : List (List Char))
    (hsep : ∀ t ∈ tokens, find t ", ".toList = none)
    (hempty : [] ∈ tokens → valueFromString [] = none) :
    fromString valueFromString ("[".toList ++ ", ".toList.intercalate tokens ++ "]".toList) =
      (tokens.filterMap valueFromString).foldl (fun result value => insert result value)
        empty ∧
    (∀ v, v ∈ getValuesInOrder (fromString valueFromString
        ("[".toList ++ ", ".toList.intercalate tokens ++ "]".toList)) ↔
      ∃ t ∈ tokens, valueFromString t = some v) ∧
    IsBST (fromString valueFromString
      ("[".toList ++ ", ".toList.intercalate tokens ++ "]".toList)).root ∧
    getSize (fromString valueFromString
        ("[".toList ++ ", ".toList.intercalate tokens ++ "]".toList)) =
      (fromString valueFromString
        ("[".toList ++ ", ".toList.intercalate tokens ++ "]".toList)).root.count ∧
    (isEmpty (fromString valueFromString
        ("[".toList ++ ", ".toList.intercalate tokens ++ "]".toList)) = true ↔
      ∀ t ∈ tokens, valueFromString t = none) := by
  have hroot : ((tokens.filterMap valueFromString).foldl
      (fun result value => insert result value) (empty : BinarySearchTree α)).root =
      insertList .nil (tokens.filterMap valueFromString) := by
    rw [foldl_insert_root (fun x => x)]
    simp [empty]
  have hmem : ∀ v, v ∈ (insertList .nil (tokens.filterMap valueFromString)).inorder ↔
      ∃ t ∈ tokens, valueFromString t = some v := by
    intro v
    rw [mem_insertList]
    simp [Node.inorder, Node.traverseByType, List.mem_filterMap]
  rw [fromString_tokens valueFromString tokens hsep hempty]
  refine ⟨rfl, fun v => ?_, ?_, ?_, ?_⟩
  · rw [getValuesInOrder_eq, hroot]
    exact hmem v
  · rw [hroot]
    exact isBST_insertList _ _ trivial
  · exact foldl_insert_count (fun x => x) _ empty rfl
  · rw [isEmpty, hroot, Node.isNull_iff]
    constructor
    · intro hnil t ht
      cases hd : valueFromString t with
      | none => rfl
      | some v =>
        have := (hmem v).mpr ⟨t, ht, hd⟩
        rw [hnil] at this
        simp [Node.inorder, Node.traverseByType] at this
    · intro hall
      have : tokens.filterMap valueFromString = [] := by
        rw [List.filterMap_eq_nil_iff]
        exact hall
      rw [this]
      rfl

/-- Witness of C34 (amended) on the listing `[5, x, 15]` with `std::stoi`. -/
theorem bst_fromString_skips_witness :
    ((∀ t ∈ ["5".toList, "x".toList, "15".toList], find t ", ".toList = none) ∧
      ([] ∈ ["5".toList, "x".toList, "15".toList] → stoi [] = none) ∧
      "[".toList ++ ", ".toList.intercalate ["5".toList, "x".toList, "15".toList] ++
        "]".toList = "[5, x, 15]".toList) ∧
    (fromString stoi
        ("[".toList ++ ", ".toList.intercalate ["5".toList, "x".toList, "15".toList] ++
          "]".toList) =
      (["5".toList, "x".toList, "15".toList].filterMap stoi).foldl
        (fun result value => insert result value) empty ∧
    (∀ v, v ∈ getValuesInOrder (fromString stoi
        ("[".toList ++ ", ".toList.intercalate ["5".toList, "x".toList, "15".toList] ++
          "]".toList)) ↔
      ∃ t ∈ ["5".toList, "x".toList, "15".toList], stoi t = some v) ∧
    IsBST (fromString stoi
      ("[".toList ++ ", ".toList.intercalate ["5".toList, "x".toList, "15".toList] ++
        "]".toList)).root ∧
    getSize (fromString stoi
        ("[".toList ++ ", ".toList.intercalate ["5".toList, "x".toList, "15".toList] ++
          "]".toList)) =
      (fromString stoi
        ("[".toList ++ ", ".toList.intercalate ["5".toList, "x".toList, "15".toList] ++
          "]".toList)).root.count ∧
    (isEmpty (fromString stoi
        ("[".toList ++ ", ".toList.intercalate ["5".toList, "x".toList, "15".toList] ++
          "]".toList)) = true ↔
      ∀ t ∈ ["5".toList, "x".toList, "15".toList], stoi t = none)) :=
  ⟨⟨by decide, by decide, by decide⟩,
    bst_fromString_skips stoi ["5".toList, "x".toList, "15".toList] (by decide) (by decide)⟩

end BinarySearchTree

/-! ### The breadth-first loop on a cycle of values -/

namespace BinaryHeap

/-- On `cyclePairs` the breadth-first loop of `fromNodeParentPairs` never empties its queue:
the one queued node holds 1 or 2 and has no child yet, so the loop gives it the other value as
left child and queues that child. -/
theorem buildLoop_cyclePairs (fuel : Nat) (root : Node Int) (size : Nat) (p : List Bool)
    (v : Int) (hv : v = 1 ∨ v = 2) (hsub : root.subtreeAt p = .node v .nil .nil) :
    buildLoop cyclePairs fuel (root, size, [(p, v)]) = none := by
  induction fuel generalizing root size p v with
  | zero => rfl
  | succ fuel ih =>
    have hne : root.subtreeAt p ≠ .nil := by rw [hsub]; exact fun h => Node.noConfusion h
    have hstep : ∀ c : Int, (c = 1 ∨ c = 2) → childrenOf cyclePairs v = [c] →
        buildLoop cyclePairs (fuel + 1) (root, size, [(p, v)]) = none := by
      intro c hc hch
      have hnew : (root.attach (p ++ [true]) (.node c .nil .nil)).subtreeAt (p ++ [true]) =
          .node c .nil .nil := by
        rw [(Node.attach_snoc root p v .nil .nil _ hsub).1,
          Node.subtreeAt_attach_append root p [true] _ hne]
        rfl
      rw [buildLoop, hch]
      simp only [attachChildren, hsub, Node.isNull, if_true, List.nil_append]
      exact ih _ _ _ c hc hnew
    rcases hv with rfl | rfl
    · exact hstep 2 (Or.inr rfl) (by decide)
    · exact hstep 1 (Or.inl rfl) (by decide)

end BinaryHeap

/-! ### The claims on heaps read from pair lists -/

namespace BinaryHeap

/-- C31, the code at the failing input.  The pair list of `testFromNodeParentPairs1` is
accepted: the heap returned has the root 20, its left child 10 and, below 10, the left child
15, with `getSize()` 3.  A call `insert(v)` on it raises `size` to 4 and walks to position 4,
which the node of 15 already takes, so no node is created; `heapifyUp` then swaps 15 and 10.
The heap has `getSize()` 4 and three nodes, and `v` is not stored (here for `v = 5`). -/
theorem heap_insert_after_pairs :
    (∀ extra, fromNodeParentPairs (3 + extra) testPairs =
      some (.ok ⟨.node 20 (.node 10 (.node 15 .nil .nil) .nil) .nil, 3⟩)) ∧
    (∀ v : Int, insert ⟨.node 20 (.node 10 (.node 15 .nil .nil) .nil) .nil, 3⟩ v =
      .ok () ⟨.node 20 (.node 15 (.node 10 .nil .nil) .nil) .nil, 4⟩) ∧
    getSize (⟨.node 20 (.node 15 (.node 10 .nil .nil) .nil) .nil, 4⟩ : BinaryHeap Int) ≠
      (Node.node (20 : Int) (.node 15 (.node 10 .nil .nil) .nil) .nil).count ∧
    search (⟨.node 20 (.node 15 (.node 10 .nil .nil) .nil) .nil, 4⟩ : BinaryHeap Int) 5 =
      false :=
  ⟨fun extra => fromNodeParentPairs_mono _ 3 extra _ (by decide),
    fun v => by
      simp +decide [insert, addLast, Node.isNull, pushDirections, addLastWalk, findLastNode,
        findLastWalk, getDepth, heapifyUp, Node.descend, heapifyUpLoop, Node.plug,
        Node.plugFrame],
    by decide, by decide⟩

/-- C35, the code at the failing input.  In `cyclePairs` the value 2 is a child of the root
value 1 and 1 a child of 2.  No number of iterations empties the queue of the breadth-first
loop of `fromNodeParentPairs`: every iteration takes one node from the queue and queues its
one new child, so the call neither returns a heap nor throws. -/
theorem heap_fromNodeParentPairs_cycle (fuel : Nat) :
    fromNodeParentPairs fuel cyclePairs = none := by
  have h := buildLoop_cyclePairs fuel (.node 1 .nil .nil) 1 [] 1 (Or.inl rfl) rfl
  unfold fromNodeParentPairs
  have hfind : cyclePairs.find? (fun pr => pr.1 == pr.2) = some (1, 1) := by decide
  have hempty : cyclePairs.isEmpty = false := rfl
  rw [hempty, hfind]
  simp only [Bool.false_eq_true, if_false]
  rw [h]

end BinaryHeap

/-! ### The subtrees of a complete tree are complete -/

namespace Node

/-- The heap index a path leads to is the start index shifted by the length of the path, plus
the path read as a binary number (`left` = 0, `right` = 1). -/
theorem pathIndex_split (i : Nat) (p : List Bool) :
    pathIndex i p = i * 2 ^ p.length + pathIndex 0 p ∧ pathIndex 0 p < 2 ^ p.length := by
  induction p generalizing i with
  | nil => simp [pathIndex]
  | cons b p ih =>
    have h0 := ih 0
    have h1 := ih 1
    cases b with
    | true =>
      have h2 := ih (2 * i)
      simp only [pathIndex, List.length_cons, Nat.mul_zero] at h2 ⊢
      rw [h2.1, Nat.pow_succ]
      constructor
      · ring
      · omega
    | false =>
      have h2 := ih (2 * i + 1)
      simp only [pathIndex, List.length_cons, Nat.mul_zero, Nat.zero_add] at h2 ⊢
      rw [h2.1, h1.1, Nat.pow_succ]
      constructor
      · ring
      · omega

end Node

namespace BinaryHeap

variable {α : Type}

open Node

/-- Completeness depends on the start index and the bound only through the set of paths that
stay within the bound. -/
theorem complete_transfer (i n j m : Nat) (t : Node α) (hc : Complete i n t)
    (h : ∀ p, pathIndex i p ≤ n ↔ pathIndex j p ≤ m) : Complete j m t := by
  induction t generalizing i j with
  | nil =>
    have := h []
    simp only [pathIndex] at this
    simp only [Complete] at hc ⊢
    omega
  | node d l r ihl ihr =>
    have h0 := h []
    simp only [pathIndex] at h0
    exact ⟨h0.mp hc.1, ihl (2 * i) (2 * j) hc.2.1 (fun p => h (true :: p)),
      ihr (2 * i + 1) (2 * j + 1) hc.2.2 (fun p => h (false :: p))⟩

/-- The subtree at a path of a complete tree is complete from the index of the path. -/
theorem complete_subtreeAt (i n : Nat) (t : Node α) (p : List Bool) (hc : Complete i n t) :
    Complete (pathIndex i p) n (subtreeAt t p) := by
  induction p generalizing i t with
  | nil => simpa [pathIndex] using hc
  | cons b p ih =>
    cases t with
    | nil =>
      simp only [subtreeAt, Complete] at hc ⊢
      exact lt_of_lt_of_le hc (le_pathIndex i _)
    | node d l r =>
      cases b
      · simpa [subtreeAt, pathIndex] using ih _ r hc.2.2
      · simpa [subtreeAt, pathIndex] using ih _ l hc.2.1

/-- The paths that stay within the bound `n` from the index `i` of a complete subtree are the
paths that stay within some bound from the index 1. -/
theorem exists_local_size (i n : Nat) (t : Node α) (hc : Complete i n t) (hi : 1 ≤ i) :
    ∃ m, ∀ p, pathIndex i p ≤ n ↔ pathIndex 1 p ≤ m := by
  cases t with
  | nil =>
    refine ⟨0, fun p => ?_⟩
    have h1 := le_pathIndex i p
    have h2 := le_pathIndex 1 p
    simp only [Complete] at hc
    omega
  | node d l r =>
    have hU := complete_depth_upper i n _ hc
    have hL := complete_depth_lower i n _ hc (by simp [getDepth])
    generalize hK : getDepth (node d l r) - 1 = K at hL
    have hd : getDepth (node d l r) = K + 1 := by
      have : 1 ≤ getDepth (node d l r) := by simp [getDepth]
      omega
    rw [hd, Nat.pow_succ] at hU
    refine ⟨2 ^ K + min (n - i * 2 ^ K) (2 ^ K - 1), fun p => ?_⟩
    obtain ⟨e1, hx⟩ := pathIndex_split i p
    obtain ⟨e2, _⟩ := pathIndex_split 1 p
    rw [e1, e2, Nat.one_mul]
    have hA : 0 < 2 ^ K := Nat.two_pow_pos K
    have ha : 0 < 2 ^ p.length := Nat.two_pow_pos p.length
    have hia : 2 ^ p.length ≤ i * 2 ^ p.length := Nat.le_mul_of_pos_left _ hi
    rcases Nat.lt_trichotomy p.length K with hk | hk | hk
    · have hp : 2 ^ (p.length + 1) ≤ 2 ^ K := Nat.pow_le_pow_right (by decide) hk
      rw [Nat.pow_succ] at hp
      have hm : i * (2 ^ p.length * 2) ≤ i * 2 ^ K := Nat.mul_le_mul_left i hp
      have he : i * (2 ^ p.length * 2) = 2 * (i * 2 ^ p.length) := by ring
      omega
    · rw [hk] at hx ⊢
      omega
    · have hp : 2 ^ (K + 1) ≤ 2 ^ p.length := Nat.pow_le_pow_right (by decide) hk
      rw [Nat.pow_succ] at hp
      have hm : i * (2 ^ K * 2) ≤ i * 2 ^ p.length := Nat.mul_le_mul_left i hp
      have he : i * (2 ^ K * 2) = i * 2 ^ K * 2 := by ring
      omega

/-- Every subtree of a complete tree is shape-complete. -/
theorem shapeComplete_subtreeAt (n : Nat) (t : Node α) (p : List Bool)
    (hc : Complete 1 n t) : ShapeComplete (subtreeAt t p) := by
  have hs := complete_subtreeAt 1 n t p hc
  obtain ⟨m, hm⟩ := exists_local_size _ n _ hs (le_pathIndex 1 p)
  have hl := complete_transfer _ n 1 m _ hs hm
  unfold ShapeComplete
  rw [complete_count m _ hl]
  exact hl

end BinaryHeap

/-! ### Sub-heaps and repeated extraction -/

namespace Node

variable {α : Type}

/-- The pre-order listing of a tree runs through the values visited before a node, then
through the subtree of that node. -/
theorem preorder_visitedBefore (t : Node α) (p : List Bool) (h : subtreeAt t p ≠ nil) :
    ∃ after, t.preorder = visitedBefore t p ++ (subtreeAt t p).preorder ++ after := by
  induction p generalizing t with
  | nil => exact ⟨[], by simp [visitedBefore]⟩
  | cons b p ih =>
    cases t with
    | nil => simp [subtreeAt] at h
    | node d l r =>
      cases b with
      | true =>
        obtain ⟨after, ha⟩ := ih l (by simpa [subtreeAt] using h)
        refine ⟨after ++ r.preorder, ?_⟩
        simp only [preorder_node, visitedBefore, subtreeAt, ha]
        simp
      | false =>
        obtain ⟨after, ha⟩ := ih r (by simpa [subtreeAt] using h)
        refine ⟨after, ?_⟩
        simp only [preorder_node, visitedBefore, subtreeAt, ha]
        simp

end Node

namespace BinaryHeap

variable {α : Type}

open Node

/-- The copy made by `cloneHeap` is the tree copied. -/
theorem cloneHeap_eq (t : Node α) : cloneHeap t = t := by
  induction t with
  | nil => rfl
  | node d l r ihl ihr => rw [cloneHeap, ihl, ihr]

/-- The closure `countNodes` adds the number of nodes to the counter. -/
theorem countNodes_eq (t : Node α) (size : Nat) : countNodes t size = size + t.count := by
  induction t generalizing size with
  | nil => rfl
  | node d l r ihl ihr =>
    rw [countNodes, ihl, ihr, Node.count]
    omega

variable [LinearOrder α]

/-- The node `findNode` returns is the first in pre-order that holds the value: the value is
not among those visited before. -/
theorem findNode_first (t : Node α) (v : α) (p : List Bool) (h : findNode t v = some p) :
    v ∉ visitedBefore t p := by
  induction t generalizing p with
  | nil => cases h
  | node d l r ihl ihr =>
    rw [findNode] at h
    by_cases hd : d = v
    · rw [if_pos hd] at h
      cases h
      simp [visitedBefore]
    · rw [if_neg hd] at h
      cases hl : findNode l v with
      | some q =>
        rw [hl] at h
        cases h
        simp only [visitedBefore, List.mem_cons, not_or]
        exact ⟨fun e => hd e.symm, ihl q hl⟩
      | none =>
        rw [hl] at h
        cases hr : findNode r v with
        | none => rw [hr] at h; cases h
        | some q =>
          rw [hr] at h
          cases h
          have hnl : v ∉ l.preorder := by
            intro hm
            have := (findNode_isSome_iff l v).mpr hm
            rw [hl] at this
            cases this
          simp only [visitedBefore, List.mem_cons, List.mem_append, not_or]
          exact ⟨fun e => hd e.symm, hnl, ihr q hr⟩

/-- The heap `extractSubHeap` returns for a stored value: the subtree at the node found, with
its nodes counted. -/
theorem extractSubHeap_of_findNode (h : BinaryHeap α) (v : α) (p : List Bool)
    (hf : findNode h.root v = some p) :
    extractSubHeap h v = (⟨subtreeAt h.root p, (subtreeAt h.root p).count⟩, h) := by
  unfold extractSubHeap
  rw [hf]
  simp only [cloneHeap_eq, countNodes_eq, Nat.zero_add]

/-- The heap `extractSubHeap` returns for a value that is not stored is the empty heap. -/
theorem extractSubHeap_of_not_mem (h : BinaryHeap α) (v : α) (hv : v ∉ h.values) :
    extractSubHeap h v = (empty, h) := by
  unfold extractSubHeap
  cases hf : findNode h.root v with
  | none => rfl
  | some p =>
    have := (findNode_isSome_iff h.root v).mp (by rw [hf]; rfl)
    exact absurd this hv

/-- The extracted heap is well-formed whenever the heap is. -/
theorem extractSubHeap_wellFormed (h : BinaryHeap α) (v : α) (hw : WellFormed h) :
    WellFormed (extractSubHeap h v).1 := by
  cases hf : findNode h.root v with
  | none =>
    have : extractSubHeap h v = (empty, h) := by
      unfold extractSubHeap
      rw [hf]
    rw [this]
    exact wellFormed_empty
  | some p =>
    rw [extractSubHeap_of_findNode h v p hf]
    exact ⟨heapOrdered_subtreeAt _ p hw.1, shapeComplete_subtreeAt h.size h.root p hw.2⟩

/-- The loop of `insert` calls on a well-formed heap: every call is defined, the heap stays
well-formed and gains the inserted values. -/
theorem insertAll_wellFormed (inserted : List α) (h : BinaryHeap α) (hw : WellFormed h) :
    ∃ h', insertAll inserted h = some h' ∧ WellFormed h' ∧
      h'.values.Perm (inserted ++ h.values) ∧ h'.size = h.size + inserted.length := by
  induction inserted generalizing h with
  | nil => exact ⟨h, rfl, hw, List.Perm.refl _, rfl⟩
  | cons v vs ih =>
    obtain ⟨h1, he, hw1, hs1, hp1⟩ := insert_wellFormed h v hw
    obtain ⟨h2, he2, hw2, hp2, hs2⟩ := ih h1 hw1
    refine ⟨h2, ?_, hw2, ?_, ?_⟩
    · rw [insertAll, he]
      exact he2
    · refine hp2.trans ?_
      refine (List.Perm.append_left vs hp1).trans ?_
      exact List.perm_middle
    · rw [hs2, hs1, List.length_cons]
      omega

/-- A well-formed heap of size 0 is the empty heap. -/
theorem eq_empty_of_size_zero (h : BinaryHeap α) (hw : WellFormed h) (hs : h.size = 0) :
    h = empty := by
  obtain ⟨root, size⟩ := h
  simp only at hs
  subst hs
  cases root with
  | nil => rfl
  | node d l r =>
    have := hw.2.1
    simp at this

/-- The root of an ordered tree holds a largest value. -/
theorem le_root (d : α) (l r : Node α) (ho : HeapOrdered (.node d l r)) :
    ∀ x ∈ (Node.node d l r).preorder, x ≤ d := by
  intro x hx
  simp only [preorder_node, List.mem_cons, List.mem_append] at hx
  rcases hx with rfl | hx | hx
  · exact le_refl _
  · exact le_of_rootLE l d ho.2.2.1 ho.1 x hx
  · exact le_of_rootLE r d ho.2.2.2 ho.2.1 x hx

/-- Emptying a well-formed heap by `extractMax`: it takes as many calls as the heap has nodes,
no fewer suffice, and the values come out in non-increasing order. -/
theorem extractAll_wellFormed (n : Nat) (h : BinaryHeap α) (hw : WellFormed h)
    (hs : h.size = n) :
    ∃ out, (∀ calls, n ≤ calls → extractAll calls h = some (out, empty)) ∧
      (∀ calls, calls < n → extractAll calls h = none) ∧
      out.length = n ∧ out.Pairwise (· ≥ ·) ∧ out.Perm h.values := by
  induction n generalizing h with
  | zero =>
    have he := eq_empty_of_size_zero h hw hs
    subst he
    refine ⟨[], fun calls _ => ?_, fun calls hc => by omega, rfl, List.Pairwise.nil, ?_⟩
    · cases calls <;> rfl
    · exact List.Perm.refl _
  | succ n ih =>
    obtain ⟨root, size⟩ := h
    simp only at hs
    subst hs
    cases root with
    | nil =>
      have := hw.2
      simp [Complete] at this
    | node d l r =>
      obtain ⟨h', he, hw', hs', hp⟩ := extractMax_wellFormed _ hw d l r rfl
      obtain ⟨out, hge, hlt, hlen, hsorted, hperm⟩ := ih h' hw' (by simpa using hs')
      have hmax := le_root d l r hw.1
      refine ⟨d :: out, fun calls hc => ?_, fun calls hc => ?_, by simp [hlen], ?_, ?_⟩
      · cases calls with
        | zero => omega
        | succ calls =>
          rw [extractAll]
          simp only [isEmpty, Node.isNull, Bool.false_eq_true, if_false]
          rw [he]
          simp only
          rw [hge calls (by omega)]
          rfl
      · cases calls with
        | zero => rfl
        | succ calls =>
          rw [extractAll]
          simp only [isEmpty, Node.isNull, Bool.false_eq_true, if_false]
          rw [he]
          simp only
          rw [hlt calls (by omega)]
          rfl
      · rw [List.pairwise_cons]
        refine ⟨fun x hx => ?_, hsorted⟩
        have hx' : x ∈ h'.values := hperm.subset hx
        have : x ∈ (Node.node d l r).preorder :=
          hp.symm.subset (List.mem_cons_of_mem _ hx')
        exact hmax x this
      · exact (List.Perm.cons d hperm).trans hp.symm

end BinaryHeap

/-! ### The claims on re-insertion, repeated extraction and sub-heaps -/

namespace BinaryHeap

variable {α : Type} [LinearOrder α]

open Node

/-- C36: on a heap with the invariant, inserting the values in level order (the order of the
listing `toString()` writes) into the empty heap gives the heap itself, node for node; so
`fromString(toString(h))` is `h` for every value contract that decodes the stored values from
their encodings, with no encoding empty or holding a comma. -/
theorem heap_reinsert_levelOrder (h : BinaryHeap α) (hinv : HeapInvariant h) :
    insertAll (levelOrder h.root) empty = some h ∧
    ∀ (valueToString : α → List Char) (valueFromString : List Char → Option α),
      (∀ v ∈ h.values, valueFromString (valueToString v) = some v) →
      (∀ v ∈ h.values, valueToString v ≠ []) →
      (∀ v ∈ h.values, find (valueToString v) ",".toList = none) →
      toString valueToString h =
        "[".toList ++ ",".toList.intercalate ((levelOrder h.root).map valueToString) ++
          "]".toList ∧
      fromString valueFromString (toString valueToString h) = .ok h := by
  have hw := (heapInvariant_iff h).mp hinv
  refine ⟨?_, fun enc dec hdec hne hsep =>
    ⟨heap_toString_eq enc h, heap_fromString_toString_self enc dec h hw hdec hne hsep⟩⟩
  rw [levelOrder_complete h.root h.size hw.2]
  exact insertAll_indexValues_self h hw

/-- Witness of C36 on the heap built by inserting 10, 20, 5, 15. -/
theorem heap_reinsert_levelOrder_witness :
    HeapInvariant sampleHeap ∧
    (insertAll (levelOrder sampleHeap.root) empty = some sampleHeap ∧
    ∀ (valueToString : Int → List Char) (valueFromString : List Char → Option Int),
      (∀ v ∈ sampleHeap.values, valueFromString (valueToString v) = some v) →
      (∀ v ∈ sampleHeap.values, valueToString v ≠ []) →
      (∀ v ∈ sampleHeap.values, find (valueToString v) ",".toList = none) →
      toString valueToString sampleHeap =
        "[".toList ++
          ",".toList.intercalate ((levelOrder sampleHeap.root).map valueToString) ++
          "]".toList ∧
      fromString valueFromString (toString valueToString sampleHeap) = .ok sampleHeap) :=
  ⟨by decide, heap_reinsert_levelOrder sampleHeap (by decide)⟩

/-- C37: after a sequence of values is inserted into the empty heap, the loop that calls
`extractMax()` until the heap is empty makes exactly as many calls as values were inserted
(that many calls empty the heap, fewer do not), and the values returned are in non-increasing
order and a permutation of the inserted ones. -/
theorem heap_extractAll_sorted (inserted : List α) :
    ∃ h out, insertAll inserted empty = some h ∧
      (∀ calls, inserted.length ≤ calls → extractAll calls h = some (out, empty)) ∧
      (∀ calls, calls < inserted.length → extractAll calls h = none) ∧
      out.length = inserted.length ∧
      out.Pairwise (· ≥ ·) ∧
      out.Perm inserted := by
  obtain ⟨h, he, hw, hp, hs⟩ := insertAll_wellFormed inserted empty wellFormed_empty
  have hsize : h.size = inserted.length := by
    rw [hs]
    simp [empty]
  obtain ⟨out, hge, hlt, hlen, hsorted, hperm⟩ := extractAll_wellFormed _ h hw hsize
  refine ⟨h, out, he, hge, hlt, hlen, hsorted, hperm.trans ?_⟩
  simpa [values, empty] using hp

/-- C38: on a heap with the invariant, `extractSubHeap(v)` of a stored value returns the
subtree of the first node in pre-order that holds `v` (the pre-order listing runs through
values other than `v`, then through that subtree), and the empty heap for a value that is not
stored.  The heap returned satisfies the invariant: max-heap order, shape-completeness and
`getSize()` equal to the node count; so `insert` and `remove` of a stored value are defined on
it and keep the invariant.  The heap itself is unchanged. -/
theorem heap_extractSubHeap_spec (h : BinaryHeap α) (v : α) (hinv : HeapInvariant h) :
    (v ∈ h.values →
      ∃ p l r after, subtreeAt h.root p = .node v l r ∧
        h.values = visitedBefore h.root p ++ (Node.node v l r).preorder ++ after ∧
        v ∉ visitedBefore h.root p ∧
        (extractSubHeap h v).1.root = .node v l r) ∧
    (v ∉ h.values → (extractSubHeap h v).1 = empty) ∧
    HeapInvariant (extractSubHeap h v).1 ∧
    (∀ w, ∃ h', insert (extractSubHeap h v).1 w = .ok () h' ∧ HeapInvariant h' ∧
      h'.values.Perm (w :: (extractSubHeap h v).1.values)) ∧
    (∀ w ∈ (extractSubHeap h v).1.values,
      ∃ h', remove (extractSubHeap h v).1 w = .ok true h' ∧ HeapInvariant h' ∧
        (extractSubHeap h v).1.values.Perm (w :: h'.values)) ∧
    (extractSubHeap h v).2 = h := by
  have hw := (heapInvariant_iff h).mp hinv
  have hsub := extractSubHeap_wellFormed h v hw
  refine ⟨fun hv => ?_, fun hv => ?_, (heapInvariant_iff _).mpr hsub, fun w => ?_,
    fun w hm => ?_, ?_⟩
  · have hsome := (findNode_isSome_iff h.root v).mpr hv
    cases hf : findNode h.root v with
    | none => rw [hf] at hsome; cases hsome
    | some p =>
      obtain ⟨l, r, hp⟩ := findNode_spec h.root v p hf
      obtain ⟨after, ha⟩ := preorder_visitedBefore h.root p
        (by rw [hp]; exact fun e => Node.noConfusion e)
      refine ⟨p, l, r, after, hp, ?_, findNode_first h.root v p hf, ?_⟩
      · rw [← hp]
        exact ha
      · rw [extractSubHeap_of_findNode h v p hf]
        exact hp
  · rw [extractSubHeap_of_not_mem h v hv]
  · obtain ⟨h', he, hw', _, hp⟩ := insert_wellFormed _ w hsub
    exact ⟨h', he, (heapInvariant_iff _).mpr hw', hp⟩
  · obtain ⟨h', he, hw', _, hp⟩ := remove_wellFormed _ w hsub hm
    exact ⟨h', he, (heapInvariant_iff _).mpr hw', hp⟩
  · unfold extractSubHeap
    cases findNode h.root v <;> rfl

/-- Witness of C38 on the heap built by inserting 10, 20, 5, 15, with the value 15, whose
node has the one child 10. -/
theorem heap_extractSubHeap_spec_witness :
    HeapInvariant sampleHeap ∧
    ((15 ∈ sampleHeap.values →
      ∃ p l r after, subtreeAt sampleHeap.root p = .node 15 l r ∧
        sampleHeap.values =
          visitedBefore sampleHeap.root p ++ (Node.node 15 l r).preorder ++ after ∧
        15 ∉ visitedBefore sampleHeap.root p ∧
        (extractSubHeap sampleHeap 15).1.root = .node 15 l r) ∧
    (15 ∉ sampleHeap.values → (extractSubHeap sampleHeap 15).1 = empty) ∧
    HeapInvariant (extractSubHeap sampleHeap 15).1 ∧
    (∀ w, ∃ h', insert (extractSubHeap sampleHeap 15).1 w = .ok () h' ∧ HeapInvariant h' ∧
      h'.values.Perm (w :: (extractSubHeap sampleHeap 15).1.values)) ∧
    (∀ w ∈ (extractSubHeap sampleHeap 15).1.values,
      ∃ h', remove (extractSubHeap sampleHeap 15).1 w = .ok true h' ∧ HeapInvariant h' ∧
        (extractSubHeap sampleHeap 15).1.values.Perm (w :: h'.values)) ∧
    (extractSubHeap sampleHeap 15).2 = sampleHeap) ∧
    extractSubHeap sampleHeap 15 = (⟨.node 15 (.node 10 .nil .nil) .nil, 2⟩, sampleHeap) :=
  ⟨by decide, heap_extractSubHeap_spec sampleHeap 15 (by decide), by decide⟩

end BinaryHeap

end LABA4
